import Mathlib

/-!
Orthtree: key codec, level container and tree.

A shallow embedding of `IntegralKeyDecoder<dim, rfactor, KeyT>`, `LevelContainer`
and `Orthtree` from `src/include/Orthtree.hpp`, with the point operations of
`src/include/Point.hpp` that they use.

Conventions of the embedding.

* `KeyT` is `std::size_t` (the default of `Orthtree`). The key codec is given in
  two layers. The definitions under `Machine` follow the arithmetic of the
  program: a `std::size_t` is a natural number reduced modulo `2^64`, an `int`
  (a coordinate of an `IntPoint<dim>`) is an integer reduced to
  `[-2^31, 2^31)`, and a `double` that holds an integer is that integer rounded
  to a 53-bit significand, ties to even; `pow`, the sum in
  `getLevelStartingIndex`, `GeneralPoint::dot` and `tot += ct*dot(...)` round in
  `double`. The properties of the codec that depend on this arithmetic are
  stated over these definitions.
* The definitions of the codec outside `Machine` compute the same expressions
  over the unbounded natural numbers and integers, with the 64-bit wrap only
  where the source leaves the range on small inputs: the unsigned decrement
  `x - 1` at `x = 0` (`decr`) and the conversion of a negative `int` to
  `std::size_t` (`toSizeT`). The two layers agree on the levels described by
  `OffsetRange` and `KeyRange` (the lemmas `machine_..._eq`). The container and
  the tree are written over this exact layer.
* An `IntPoint<dim>` is the list of its `dim` coordinates, `x[0]` first.
* A `while (key > 0)` loop whose key strictly decreases is a recursion on a
  counter started at `key`, which bounds the number of iterations.
* A `Point<dim>` (coordinates of type `double`) is a list of rationals: the
  box of a key is computed exactly.
* A `std::unordered_map` is the list of its entries in insertion order; the
  `std::map` of levels in `LevelContainer` is the list of its `(level, map)`
  pairs in ascending level. An iterator is the pair of the remaining levels and
  the remaining entries of the current level.
* `PrototypeMap::getValue` returns a whole node: in `buildTree` its result is
  assigned to a `NodeT`, flag included.
* `buildTree` recurses on an explicit bound; it returns for every bound above
  `lvlstop`.
* The argument pack `Args...` of `begin`, `end`, `find` and of the boundary and
  interior iterators is an optional level: no argument, or `lvl`.
* A call that dereferences or increments an `end()` iterator, or that looks up
  a level in an empty `mKeyMaps`, has no result (`none`).
* In `interpolateTo` the vector `v` is a list of keys. After `v.reserve(1000)`
  an insertion that would take the vector beyond 1000 elements invalidates the
  iterator held by the loop: the model has no result there. The loops take an
  explicit bound and return for every large enough bound on the trees
  described by `Orthtree.Regular`.
* `std::sort` is modelled by insertion sort with the comparator of the call,
  `std::unique` by the removal of consecutive pairs with equal keys. The
  comparison of norms is the comparison of the sums of squares.
* The compile-time templates `Power`, `NumCellsOnLevel` and `LevelStartingKey`
  and the arrays built from them are evaluated in `std::size_t`
  (`Machine.Power`, `Machine.NumCellsOnLevel`, `Machine.LevelStartingKey`,
  `Machine.mLvlStartInds`, `Machine.mLvlEndInds`); `Power` and `sSize` are also
  given over the natural numbers.
* `buildTreeCalls` is `buildTree` carrying the list of the `(key, lvl)`
  arguments of its calls; `buildTreeCalls_fst` relates the two.
  `Machine.buildTreeCalls` is the same record with the child keys computed in
  `std::size_t`; the branches of `buildTree` do not read the tree, so it is
  computed without the tree.
-/

namespace csg

/-! ## Compile-time constants -/

/-- Template `Power<Val,P>::value` over the natural numbers: `Val^P` by recursion on `P`
(`Machine.Power` reduces each product modulo `2^64`). -/
def Power (Val : Nat) : Nat → Nat
  | 0 => 1
  | P + 1 => Val * Power Val P

/-- Constant `IntegralKeyDecoder::sSize = Power<rfactor, dim>::value`, the number of
children of a cell, over the natural numbers. -/
def sSize (dim rfactor : Nat) : Nat := Power rfactor dim

/-- Unsigned decrement `x - 1` on `std::size_t`: wraps to `2^64 - 1` at zero. -/
def decr (x : Nat) : Nat := if x = 0 then 2 ^ 64 - 1 else x - 1

/-- Conversion of an `int` to `std::size_t`: a negative value wraps by `2^64`. -/
def toSizeT (x : Int) : Nat := if x < 0 then (x + 2 ^ 64).toNat else x.toNat

/-! ## Integer points (`GeneralPoint<dim, int>`) -/

/-- An `IntPoint<dim>`: the list of the coordinates `x[0], ..., x[dim-1]`. -/
abbrev IntPoint := List Int

/-- The point whose `dim` coordinates are all set to zero
(`for (i < dim) off.x[i] = 0`). -/
def IntPoint.zero (dim : Nat) : IntPoint := List.replicate dim 0

/-- Addition `GeneralPoint::operator+`, coordinate by coordinate, over the integers
(`Machine.add` keeps the sums in `int`). -/
def IntPoint.add (p q : IntPoint) : IntPoint := List.zipWith (fun a b => a + b) p q

/-- Scalar multiplication `GeneralPoint::operator*(T val)`: `out.x[i] = val*x[i]`, over
the integers (`Machine.smul` keeps the products in `int`). -/
def IntPoint.smul (p : IntPoint) (val : Int) : IntPoint := p.map (fun a => val * a)

/-- Elementwise modulus `operator%(const GeneralPoint<dim,int> &, std::size_t m)`:
`out.x[i] = p.x[i] % m`, where the `int` coordinate is converted to `std::size_t`
before the remainder is taken. -/
def IntPoint.mod (p : IntPoint) (m : Nat) : IntPoint :=
  p.map (fun a => ((toSizeT a % m : Nat) : Int))

/-- Modelled from the spec: the elementwise `operator/(IntPoint, int)` used by
`getKeyFromLevelOffset` is not defined in the sources; the spec describes the
key as interleaving the base-`r` digits of each coordinate, so the quotient is
the coordinatewise C++ integer division (truncating toward zero). -/
def IntPoint.div (p : IntPoint) (m : Int) : IntPoint := p.map (fun a => Int.tdiv a m)

/-- Dot product `GeneralPoint::dot`: the sum of `p1.x[i]*p2.x[i]`, over the integers
(`Machine.dot` takes the products in `int` and the sum in `double`). -/
def IntPoint.dot (p q : IntPoint) : Int := (List.zipWith (fun a b => a * b) p q).sum

/-- The update `p.x[d] += v` of one coordinate, over the integers. -/
def IntPoint.addAt : IntPoint → Nat → Int → IntPoint
  | [], _, _ => []
  | a :: p, 0, v => (a + v) :: p
  | a :: p, d + 1, v => a :: IntPoint.addAt p d v

/-! ## `IntegralKeyDecoder` -/

/-- The loop of `getLevel`: `while (key>0) { lvl++; key = (key-1)/sSize; }`. -/
def getLevelLoop (dim rfactor : Nat) : Nat → Nat → Nat → Nat
  | 0, _, lvl => lvl
  | fuel + 1, key, lvl =>
    if key > 0 then getLevelLoop dim rfactor fuel ((key - 1) / sSize dim rfactor) (lvl + 1)
    else lvl

/-- Method `getLevel(key)`. -/
def getLevel (dim rfactor key : Nat) : Nat := getLevelLoop dim rfactor key key 0

/-- Method `getParentKey(key) = (key-1)/sSize`. -/
def getParentKey (dim rfactor key : Nat) : Nat := decr key / sSize dim rfactor

/-- Method `getChildKey(key, siblingIdx) = key*sSize + 1 + siblingIdx`, over the natural
numbers: the child key as long as it is within the key type (`Machine.getChildKey` reduces
it modulo `2^64`). -/
def getChildKey (dim rfactor key siblingIdx : Nat) : Nat :=
  key * sSize dim rfactor + 1 + siblingIdx

/-- Method `getSiblingIndex(key) = (key-1)%sSize`. -/
def getSiblingIndex (dim rfactor key : Nat) : Nat := decr key % sSize dim rfactor

/-- The second loop of `getOffsetWithinParent`, producing `x[i], x[i+1], ...`:
`off.x[i] = k%rfactor; k -= off.x[i]; k /= rfactor`. -/
def getOffsetWithinParentLoop (rfactor : Nat) : Nat → Nat → IntPoint
  | 0, _ => []
  | n + 1, k =>
    ((k % rfactor : Nat) : Int) ::
      getOffsetWithinParentLoop rfactor n ((k - k % rfactor) / rfactor)

/-- Method `getOffsetWithinParent(key)`. -/
def getOffsetWithinParent (dim rfactor key : Nat) : IntPoint :=
  getOffsetWithinParentLoop rfactor dim (getSiblingIndex dim rfactor key)

/-- The loop of `getOffsetWithinLevel`:
`while (key>0) { off = off + getOffsetWithinParent(key)*mult; key = getParentKey(key);
mult *= rfactor; }`, with the coordinates over the integers and `mult` over the natural
numbers (`Machine.getOffsetWithinLevelLoop` keeps the coordinates and `mult` in `int`). -/
def getOffsetWithinLevelLoop (dim rfactor : Nat) : Nat → Nat → Nat → IntPoint → IntPoint
  | 0, _, _, off => off
  | fuel + 1, key, mult, off =>
    if key > 0 then
      getOffsetWithinLevelLoop dim rfactor fuel (getParentKey dim rfactor key) (mult * rfactor)
        (IntPoint.add off (IntPoint.smul (getOffsetWithinParent dim rfactor key) mult))
    else off

/-- Method `getOffsetWithinLevel(key)`. -/
def getOffsetWithinLevel (dim rfactor key : Nat) : IntPoint :=
  getOffsetWithinLevelLoop dim rfactor key key 1 (IntPoint.zero dim)

/-- Method `getLevelOffset(key)`; its body is the same as that of
`getOffsetWithinLevel`. -/
def getLevelOffset (dim rfactor key : Nat) : IntPoint :=
  getOffsetWithinLevelLoop dim rfactor key key 1 (IntPoint.zero dim)

/-- Method `levelSize(lvl) = pow(rfactor, lvl)`, the power over the natural numbers
(`Machine.levelSize` rounds it in `double`). -/
def levelSize (rfactor lvl : Nat) : Nat := rfactor ^ lvl

/-- Method `getLevelStartingIndex(lvl)`:
`if (lvl==0) return 0; return pow(sSize,lvl-1)+getLevelStartingIndex(lvl-1);`, the power
and the sum over the natural numbers: the number `1 + sSize + ... + sSize^(lvl-1)` of keys
below the level (`Machine.getLevelStartingIndex` takes them in `double`). -/
def getLevelStartingIndex (dim rfactor : Nat) : Nat → Nat
  | 0 => 0
  | lvl + 1 => sSize dim rfactor ^ lvl + getLevelStartingIndex dim rfactor lvl

/-- The loop of `getKeyFromLevelOffset` that fills `mult`:
`mult.x[i] = rval; rval *= rfactor`. -/
def multLoop (rfactor : Nat) : Nat → Nat → IntPoint
  | 0, _ => []
  | n + 1, rval => (rval : Int) :: multLoop rfactor n (rval * rfactor)

/-- The accumulation loop of `getKeyFromLevelOffset`, run `n` more times:
`ct *= sSize; off = off/rfactor; dotter = off%rfactor; tot += ct*dot(mult, dotter)`, over
the natural numbers (`Machine.getKeyFromLevelOffsetLoop` accumulates in `double`). -/
def getKeyFromLevelOffsetLoop (dim rfactor : Nat) (mult : IntPoint) :
    Nat → Nat → IntPoint → Nat → Nat
  | 0, _, _, tot => tot
  | n + 1, ct, off, tot =>
    getKeyFromLevelOffsetLoop dim rfactor mult n (ct * sSize dim rfactor)
      (IntPoint.div off rfactor)
      (tot + ct * sSize dim rfactor *
        (IntPoint.dot mult (IntPoint.mod (IntPoint.div off rfactor) rfactor)).toNat)

/-- Method `getKeyFromLevelOffset(lvl, off)` over the natural numbers. The loop
`for (auto l=lvl-1; l>0; l--)` has an unsigned counter and runs `decr lvl` times. -/
def getKeyFromLevelOffset (dim rfactor lvl : Nat) (off : IntPoint) : Nat :=
  getLevelStartingIndex dim rfactor lvl +
    getKeyFromLevelOffsetLoop dim rfactor (multLoop rfactor dim 1) (decr lvl) 1 off
      (0 + 1 * (IntPoint.dot (multLoop rfactor dim 1) (IntPoint.mod off rfactor)).toNat)

/-- Method `getNeighborKeyMax(key, d)`. -/
def getNeighborKeyMax (dim rfactor key d : Nat) : Nat :=
  getKeyFromLevelOffset dim rfactor (getLevel dim rfactor key)
    (IntPoint.addAt (getOffsetWithinLevel dim rfactor key) d 1)

/-- Method `getNeighborKeyMin(key, d)`. -/
def getNeighborKeyMin (dim rfactor key d : Nat) : Nat :=
  getKeyFromLevelOffset dim rfactor (getLevel dim rfactor key)
    (IntPoint.addAt (getLevelOffset dim rfactor key) d (-1))

/-- Method `IntegralKeyDecoder::isBoundary(key)`: the first loop returns true at a
coordinate equal to `0`, the second at a coordinate equal to
`imax = pow(rfactor,lvl)-1` (compared as `std::size_t`). -/
def isBoundary (dim rfactor key : Nat) : Bool :=
  (getLevelOffset dim rfactor key).any (fun a => a == 0) ||
    (getLevelOffset dim rfactor key).any
      (fun a => toSizeT a == rfactor ^ getLevel dim rfactor key - 1)

/-- Method `spawnNeighbors(v, k, d)`; the vector `v` is passed along and returned:
at `d = 0` the three keys are pushed, otherwise the three calls at `d - 1` follow one
another. -/
def spawnNeighbors (dim rfactor : Nat) : Nat → List Nat → Nat → List Nat
  | 0, v, k =>
    v ++ [getNeighborKeyMin dim rfactor k 0, getNeighborKeyMax dim rfactor k 0, k]
  | d + 1, v, k =>
    spawnNeighbors dim rfactor d
      (spawnNeighbors dim rfactor d
        (spawnNeighbors dim rfactor d v (getNeighborKeyMin dim rfactor k (d + 1)))
        (getNeighborKeyMax dim rfactor k (d + 1)))
      k

/-- Method `getEqualSizedNeighborKeys(key)`: `spawnNeighbors(keylist, key, dim-1)` on an
empty `keylist`. -/
def getEqualSizedNeighborKeys (dim rfactor key : Nat) : List Nat :=
  spawnNeighbors dim rfactor (decr dim) [] key

/-- A `Point<dim>`: the list of its `dim` coordinates. The `double` coordinates are
modelled by exact rationals. -/
abbrev Point := List ℚ

/-- The elementwise product `operator*(const GeneralPoint<dim,double> &,
const GeneralPoint<dim,int> &)`: `out.x[i] = pd.x[i]*pi.x[i]`. -/
def Point.mulInt (pd : Point) (pi : IntPoint) : Point :=
  List.zipWith (fun (a : ℚ) (b : Int) => a * (b : ℚ)) pd pi

/-- Addition of points, `out.x[i] = x[i] + p.x[i]`. -/
def Point.add (p q : Point) : Point := List.zipWith (fun a b => a + b) p q

/-- A `Box<dim>`: the two corners `lo` and `hi`. -/
structure Box where
  /-- The corner `lo`. -/
  lo : Point
  /-- The corner `hi`. -/
  hi : Point

/-- Method `getBox(key)`: with `rf = pow(rfactor,lvl)` and all coordinates of `boxsize`
equal to `1.0/rf`, `newlo = boxsize*off` and the box is `(newlo, newlo+boxsize)`. -/
def getBox (dim rfactor key : Nat) : Box :=
  { lo := Point.mulInt (List.replicate dim (1 / (rfactor : ℚ) ^ getLevel dim rfactor key))
      (getOffsetWithinLevel dim rfactor key)
    hi := Point.add
      (Point.mulInt (List.replicate dim (1 / (rfactor : ℚ) ^ getLevel dim rfactor key))
        (getOffsetWithinLevel dim rfactor key))
      (List.replicate dim (1 / (rfactor : ℚ) ^ getLevel dim rfactor key)) }

/-! ## Machine arithmetic

The declarations under `Machine` follow the arithmetic of the compiled program: a
`std::size_t` is a natural number below `2^64` and its operations reduce modulo `2^64`; an
`int` is an integer of `[-2^31, 2^31)` and conversions to it reduce modulo `2^32`; a
`double` that holds an integer value is that integer, and each operation on doubles rounds
its exact result to the nearest value with a 53-bit significand, ties to even. -/

/-- The result of an operation on `std::size_t`: reduction modulo `2^64`. -/
def Machine.wrap (x : Nat) : Nat := x % 2 ^ 64

/-- Conversion of an integer value to `int`: reduction modulo `2^32` to the range
`[-2^31, 2^31)`. The same reduction stands for the result of an `int` operation (whose
overflow the language leaves undefined). -/
def Machine.toInt (x : Int) : Int := (x + 2 ^ 31) % 2 ^ 32 - 2 ^ 31

/-- The exponent `e` of the spacing `2^e` between the doubles around `n`: the least `e`
from the given one with `n / 2^e < 2^53`. -/
def Machine.ulpExp : Nat → Nat → Nat → Nat
  | 0, _, e => e
  | fuel + 1, n, e => if n / 2 ^ e < 2 ^ 53 then e else Machine.ulpExp fuel n (e + 1)

/-- Rounding of a natural number to the nearest `double`, ties to the even significand
(values from `2^1024` on, which overflow a `double`, are not distinguished). -/
def Machine.roundNat (n : Nat) : Nat :=
  if 2 * (n % 2 ^ Machine.ulpExp 1024 n 0) < 2 ^ Machine.ulpExp 1024 n 0 then
    n / 2 ^ Machine.ulpExp 1024 n 0 * 2 ^ Machine.ulpExp 1024 n 0
  else if 2 ^ Machine.ulpExp 1024 n 0 < 2 * (n % 2 ^ Machine.ulpExp 1024 n 0) then
    (n / 2 ^ Machine.ulpExp 1024 n 0 + 1) * 2 ^ Machine.ulpExp 1024 n 0
  else if n / 2 ^ Machine.ulpExp 1024 n 0 % 2 = 0 then
    n / 2 ^ Machine.ulpExp 1024 n 0 * 2 ^ Machine.ulpExp 1024 n 0
  else (n / 2 ^ Machine.ulpExp 1024 n 0 + 1) * 2 ^ Machine.ulpExp 1024 n 0

/-- Rounding of an integer to the nearest `double`: the value of a conversion to `double`
and of an operation on doubles whose exact result is the integer. -/
def Machine.toDouble (x : Int) : Int :=
  if x < 0 then -((Machine.roundNat (-x).toNat : Nat) : Int)
  else ((Machine.roundNat x.toNat : Nat) : Int)

/-- Conversion of an integer-valued `double` to `std::size_t`. The conversion of a value
outside `[0, 2^64)` is undefined in the language; it is reduced modulo `2^64` here. -/
def Machine.ofDouble (x : Int) : Nat := (x % 2 ^ 64).toNat

/-- The call `pow(x, y)` on two `std::size_t` values: both are converted to `double` and
the result is the power rounded to `double`. -/
def Machine.pow (x y : Nat) : Int := Machine.toDouble (Machine.toDouble x ^ y)

/-! ## Compile-time constants in `std::size_t` -/

/-- Template `Power<Val,P>::value` as the compiler evaluates it in `std::size_t`:
`Val*Power<Val,P-1>::value` modulo `2^64`. -/
def Machine.Power (Val : Nat) : Nat → Nat
  | 0 => 1
  | P + 1 => Machine.wrap (Val * Machine.Power Val P)

/-- Constant `IntegralKeyDecoder::sSize = Power<rfactor, dim>::value` in `std::size_t`. -/
def Machine.sSize (dim rfactor : Nat) : Nat := Machine.Power rfactor dim

/-- Template `NumCellsOnLevel<dim,rfactor,lvl>::value`:
`Power<Power<rfactor,lvl>::value,dim>::value`, with the specialisation to `1` at
`lvl = 0`. -/
def Machine.NumCellsOnLevel (dim rfactor : Nat) : Nat → Nat
  | 0 => 1
  | lvl + 1 => Machine.Power (Machine.Power rfactor (lvl + 1)) dim

/-- Template `LevelStartingKey<dim,rfactor,lvl>::value`:
`NumCellsOnLevel<dim,rfactor,lvl-1>::value + LevelStartingKey<dim,rfactor,lvl-1>::value`,
with the specialisation to `0` at `lvl = 0`. -/
def Machine.LevelStartingKey (dim rfactor : Nat) : Nat → Nat
  | 0 => 0
  | lvl + 1 =>
    Machine.wrap (Machine.NumCellsOnLevel dim rfactor lvl + Machine.LevelStartingKey dim rfactor lvl)

/-- Function `createStartingKeys<dim,rfactor,lvl>()`: the array of the `lvl` values
`LevelStartingKey<dim,rfactor,I>::value` for `I = 0 .. lvl-1`. -/
def Machine.createStartingKeys (dim rfactor lvl : Nat) : List Nat :=
  (List.range lvl).map (fun I => Machine.LevelStartingKey dim rfactor I)

/-- Function `createEndingKeys<dim,rfactor,lvl>()`: the array of the `lvl` values
`LevelStartingKey<dim,rfactor,I>::value + NumCellsOnLevel<dim,rfactor,I>::value - 1`. -/
def Machine.createEndingKeys (dim rfactor lvl : Nat) : List Nat :=
  (List.range lvl).map
    (fun I => Machine.wrap (Machine.LevelStartingKey dim rfactor I +
      Machine.NumCellsOnLevel dim rfactor I + (2 ^ 64 - 1)))

/-- Member `mLvlStartInds` of an `Orthtree` with the level cap `lvlmax`, as the
constructor initialises it: `createStartingKeys<dim,rfactor,lvlmax+1>()`. -/
def Machine.mLvlStartInds (dim rfactor lvlmax : Nat) : List Nat :=
  Machine.createStartingKeys dim rfactor (lvlmax + 1)

/-- Member `mLvlEndInds`, as the constructor initialises it:
`createEndingKeys<dim,rfactor,lvlmax+1>()`. -/
def Machine.mLvlEndInds (dim rfactor lvlmax : Nat) : List Nat :=
  Machine.createEndingKeys dim rfactor (lvlmax + 1)

/-! ## Integer points with `int` coordinates -/

/-- Addition `GeneralPoint::operator+` on `int` coordinates. -/
def Machine.add (p q : IntPoint) : IntPoint :=
  List.zipWith (fun a b => Machine.toInt (a + b)) p q

/-- Scalar multiplication `GeneralPoint::operator*(T val)` with `T = int`:
`out.x[i] = val*x[i]`. -/
def Machine.smul (p : IntPoint) (val : Int) : IntPoint :=
  p.map (fun a => Machine.toInt (val * a))

/-- Elementwise modulus `operator%(const GeneralPoint<dim,int> &, std::size_t m)`:
`out.x[i] = p.x[i] % m`, the `int` coordinate converted to `std::size_t` before the
remainder is taken and the remainder converted to `int`. -/
def Machine.mod (p : IntPoint) (m : Nat) : IntPoint :=
  p.map (fun a => Machine.toInt ((toSizeT a % m : Nat) : Int))

/-- Modelled from the spec: the elementwise `operator/(IntPoint, int)` used by
`getKeyFromLevelOffset` is not defined in the sources; the spec describes the key as
interleaving the base-`r` digits of each coordinate, so the quotient is the coordinatewise
`int` division (truncating toward zero). -/
def Machine.div (p : IntPoint) (m : Int) : IntPoint :=
  p.map (fun a => Machine.toInt (Int.tdiv a m))

/-- Dot product `GeneralPoint::dot`: `double dt = 0.0; dt += p1.x[i]*p2.x[i]`, the
product taken in `int` and the sum in `double`. -/
def Machine.dot (p q : IntPoint) : Int :=
  (List.zipWith (fun a b => Machine.toInt (a * b)) p q).foldl
    (fun dt x => Machine.toDouble (dt + x)) 0

/-- The update `p.x[d] += v` of one `int` coordinate. -/
def Machine.addAt : IntPoint → Nat → Int → IntPoint
  | [], _, _ => []
  | a :: p, 0, v => Machine.toInt (a + v) :: p
  | a :: p, d + 1, v => a :: Machine.addAt p d v

/-! ## `IntegralKeyDecoder` in machine arithmetic -/

/-- The loop of `getLevel`: `while (key>0) { lvl++; key = (key-1)/sSize; }`. -/
def Machine.getLevelLoop (dim rfactor : Nat) : Nat → Nat → Nat → Nat
  | 0, _, lvl => lvl
  | fuel + 1, key, lvl =>
    if key > 0 then
      Machine.getLevelLoop dim rfactor fuel ((key - 1) / Machine.sSize dim rfactor) (lvl + 1)
    else lvl

/-- Method `getLevel(key)`. -/
def Machine.getLevel (dim rfactor key : Nat) : Nat := Machine.getLevelLoop dim rfactor key key 0

/-- Method `getParentKey(key) = (key-1)/sSize`. -/
def Machine.getParentKey (dim rfactor key : Nat) : Nat := decr key / Machine.sSize dim rfactor

/-- Method `getChildKey(key, siblingIdx) = key*sSize + 1 + siblingIdx`, in
`std::size_t`. -/
def Machine.getChildKey (dim rfactor key siblingIdx : Nat) : Nat :=
  Machine.wrap (key * Machine.sSize dim rfactor + 1 + siblingIdx)

/-- Method `getSiblingIndex(key) = (key-1)%sSize`. -/
def Machine.getSiblingIndex (dim rfactor key : Nat) : Nat :=
  decr key % Machine.sSize dim rfactor

/-- The second loop of `getOffsetWithinParent`, producing `x[i], x[i+1], ...`:
`off.x[i] = k%rfactor; k -= off.x[i]; k /= rfactor`, the coordinate an `int` and `k` a
`std::size_t`. -/
def Machine.getOffsetWithinParentLoop (rfactor : Nat) : Nat → Nat → IntPoint
  | 0, _ => []
  | n + 1, k =>
    Machine.toInt ((k % rfactor : Nat) : Int) ::
      Machine.getOffsetWithinParentLoop rfactor n
        (Machine.wrap (k + (2 ^ 64 - toSizeT (Machine.toInt ((k % rfactor : Nat) : Int)))) /
          rfactor)

/-- Method `getOffsetWithinParent(key)`. -/
def Machine.getOffsetWithinParent (dim rfactor key : Nat) : IntPoint :=
  Machine.getOffsetWithinParentLoop rfactor dim (Machine.getSiblingIndex dim rfactor key)

/-- The loop of `getOffsetWithinLevel`:
`while (key>0) { off = off + getOffsetWithinParent(key)*mult; key = getParentKey(key);
mult *= rfactor; }`, with `mult` a `std::size_t` that `operator*(T val)` receives as an
`int`. -/
def Machine.getOffsetWithinLevelLoop (dim rfactor : Nat) : Nat → Nat → Nat → IntPoint → IntPoint
  | 0, _, _, off => off
  | fuel + 1, key, mult, off =>
    if key > 0 then
      Machine.getOffsetWithinLevelLoop dim rfactor fuel (Machine.getParentKey dim rfactor key)
        (Machine.wrap (mult * rfactor))
        (Machine.add off
          (Machine.smul (Machine.getOffsetWithinParent dim rfactor key)
            (Machine.toInt (mult : Int))))
    else off

/-- Method `getOffsetWithinLevel(key)`. -/
def Machine.getOffsetWithinLevel (dim rfactor key : Nat) : IntPoint :=
  Machine.getOffsetWithinLevelLoop dim rfactor key key 1 (IntPoint.zero dim)

/-- Method `getLevelOffset(key)`; its body is the same as that of
`getOffsetWithinLevel`. -/
def Machine.getLevelOffset (dim rfactor key : Nat) : IntPoint :=
  Machine.getOffsetWithinLevelLoop dim rfactor key key 1 (IntPoint.zero dim)

/-- Method `levelSize(lvl)`: `return pow(rfactor, lvl);`, converted to `std::size_t`. -/
def Machine.levelSize (rfactor lvl : Nat) : Nat := Machine.ofDouble (Machine.pow rfactor lvl)

/-- Method `getLevelStartingIndex(lvl)`:
`if (lvl==0) return 0; return pow(sSize,lvl-1)+getLevelStartingIndex(lvl-1);`, the sum
taken in `double` and converted to the key type. -/
def Machine.getLevelStartingIndex (dim rfactor : Nat) : Nat → Nat
  | 0 => 0
  | lvl + 1 =>
    Machine.ofDouble
      (Machine.toDouble (Machine.pow (Machine.sSize dim rfactor) lvl +
        Machine.toDouble (Machine.getLevelStartingIndex dim rfactor lvl : Nat)))

/-- The loop of `getKeyFromLevelOffset` that fills `mult`:
`mult.x[i] = rval; rval *= rfactor`, with `rval` a `std::size_t` and `mult.x[i]` an
`int`. -/
def Machine.multLoop (rfactor : Nat) : Nat → Nat → IntPoint
  | 0, _ => []
  | n + 1, rval =>
    Machine.toInt (rval : Int) :: Machine.multLoop rfactor n (Machine.wrap (rval * rfactor))

/-- The statement `tot += ct*IntPoint<dim>::dot(mult, dotter)` of
`getKeyFromLevelOffset`: `ct` and `tot` are converted to `double`, the product and the sum
are taken in `double`, and the sum is converted back to `std::size_t`. -/
def Machine.accumulate (tot ct : Nat) (dt : Int) : Nat :=
  Machine.ofDouble
    (Machine.toDouble (Machine.toDouble (tot : Int) +
      Machine.toDouble (Machine.toDouble (ct : Int) * dt)))

/-- The accumulation loop of `getKeyFromLevelOffset`, run `n` more times:
`ct *= sSize; off = off/rfactor; dotter = off%rfactor; tot += ct*dot(mult, dotter)`. -/
def Machine.getKeyFromLevelOffsetLoop (dim rfactor : Nat) (mult : IntPoint) :
    Nat → Nat → IntPoint → Nat → Nat
  | 0, _, _, tot => tot
  | n + 1, ct, off, tot =>
    Machine.getKeyFromLevelOffsetLoop dim rfactor mult n
      (Machine.wrap (ct * Machine.sSize dim rfactor))
      (Machine.div off (Machine.toInt (rfactor : Int)))
      (Machine.accumulate tot (Machine.wrap (ct * Machine.sSize dim rfactor))
        (Machine.dot mult
          (Machine.mod (Machine.div off (Machine.toInt (rfactor : Int))) rfactor)))

/-- Method `getKeyFromLevelOffset(lvl, off)`. The loop `for (auto l=lvl-1; l>0; l--)`
has an unsigned counter and runs `decr lvl` times. -/
def Machine.getKeyFromLevelOffset (dim rfactor lvl : Nat) (off : IntPoint) : Nat :=
  Machine.wrap (Machine.getLevelStartingIndex dim rfactor lvl +
    Machine.getKeyFromLevelOffsetLoop dim rfactor (Machine.multLoop rfactor dim 1) (decr lvl) 1
      off
      (Machine.accumulate 0 1
        (Machine.dot (Machine.multLoop rfactor dim 1) (Machine.mod off rfactor))))

/-- Method `getNeighborKeyMax(key, d)`. -/
def Machine.getNeighborKeyMax (dim rfactor key d : Nat) : Nat :=
  Machine.getKeyFromLevelOffset dim rfactor (Machine.getLevel dim rfactor key)
    (Machine.addAt (Machine.getOffsetWithinLevel dim rfactor key) d 1)

/-- Method `getNeighborKeyMin(key, d)`. -/
def Machine.getNeighborKeyMin (dim rfactor key d : Nat) : Nat :=
  Machine.getKeyFromLevelOffset dim rfactor (Machine.getLevel dim rfactor key)
    (Machine.addAt (Machine.getLevelOffset dim rfactor key) d (-1))

/-- Method `IntegralKeyDecoder::isBoundary(key)`: the first loop returns true at a
coordinate equal to `0`, the second at a coordinate equal to
`imax = pow(rfactor,lvl)-1`, a `std::size_t` to which the `int` coordinate is converted
for the comparison. -/
def Machine.isBoundary (dim rfactor key : Nat) : Bool :=
  (Machine.getLevelOffset dim rfactor key).any (fun a => a == 0) ||
    (Machine.getLevelOffset dim rfactor key).any
      (fun a => toSizeT a ==
        Machine.ofDouble
          (Machine.toDouble (Machine.pow rfactor (Machine.getLevel dim rfactor key) - 1)))

/-- Method `spawnNeighbors(v, k, d)`; the vector `v` is passed along and returned. -/
def Machine.spawnNeighbors (dim rfactor : Nat) : Nat → List Nat → Nat → List Nat
  | 0, v, k =>
    v ++ [Machine.getNeighborKeyMin dim rfactor k 0, Machine.getNeighborKeyMax dim rfactor k 0, k]
  | d + 1, v, k =>
    Machine.spawnNeighbors dim rfactor d
      (Machine.spawnNeighbors dim rfactor d
        (Machine.spawnNeighbors dim rfactor d v (Machine.getNeighborKeyMin dim rfactor k (d + 1)))
        (Machine.getNeighborKeyMax dim rfactor k (d + 1)))
      k

/-- Method `getEqualSizedNeighborKeys(key)`: `spawnNeighbors(keylist, key, dim-1)` on an
empty `keylist`. -/
def Machine.getEqualSizedNeighborKeys (dim rfactor key : Nat) : List Nat :=
  Machine.spawnNeighbors dim rfactor (decr dim) [] key

/-- Method `getBox(key)` on the level and the `int` offset that the program computes,
the `double` coordinates being exact rationals: with `rf = pow(rfactor,lvl)` and all
coordinates of `boxsize` equal to `1.0/rf`, `newlo = boxsize*off` and the box is
`(newlo, newlo+boxsize)`. -/
def Machine.getBox (dim rfactor key : Nat) : Box :=
  { lo := Point.mulInt
      (List.replicate dim (1 / (rfactor : ℚ) ^ Machine.getLevel dim rfactor key))
      (Machine.getOffsetWithinLevel dim rfactor key)
    hi := Point.add
      (Point.mulInt
        (List.replicate dim (1 / (rfactor : ℚ) ^ Machine.getLevel dim rfactor key))
        (Machine.getOffsetWithinLevel dim rfactor key))
      (List.replicate dim (1 / (rfactor : ℚ) ^ Machine.getLevel dim rfactor key)) }

/-- The record of the calls of `buildTree` in machine arithmetic: the list of the
arguments `(key, lvl)` of the calls, in order. The branches of `buildTree`
(`if (lvl == lvlstop) return; if (ro.isUniform(key) && lvl >= lvlmin) return;`, then the
loop `for (so < sSize) buildTree(..., getChildKey(key, so), lvl+1)`) do not read the tree, so
the record is computed without it. The recursion takes an explicit bound. -/
def Machine.buildTreeCalls (dim rfactor lvlmin lvlstop : Nat) (ro : Nat → Bool) :
    Nat → List (Nat × Nat) → Nat → Nat → Option (List (Nat × Nat))
  | 0, _, _, _ => none
  | fuel + 1, calls, key, lvl =>
    if lvl = lvlstop then some (calls ++ [(key, lvl)])
    else if ro key && decide (lvl ≥ lvlmin) then some (calls ++ [(key, lvl)])
    else
      (List.range (Machine.sSize dim rfactor)).foldlM
        (fun acc so =>
          Machine.buildTreeCalls dim rfactor lvlmin lvlstop ro fuel acc
            (Machine.getChildKey dim rfactor key so) (lvl + 1))
        (calls ++ [(key, lvl)])

/-! ## Ranges of exact machine arithmetic -/

/-- The level `l` is one on which the level offsets are within `int`: the refinement
factor is positive, the number `r^d` of children is within `std::size_t`, and `r^l` is
within `int`. -/
def OffsetRange (dim rfactor l : Nat) : Prop :=
  0 < rfactor ∧ rfactor ^ dim < 2 ^ 64 ∧ rfactor ^ l < 2 ^ 31

/-- The level `l` is one on which the keys are computed without rounding: the refinement
factor, the number `r^d` of children and `r^l` are within `int`, and the keys of the levels
up to `l`, which are below `1 + r^d + ... + (r^d)^l`, are below `2^53` and so are values of
`double`. The sum is given by the recurrence of `getLevelStartingIndex` over the natural
numbers. -/
def KeyRange (dim rfactor l : Nat) : Prop :=
  0 < rfactor ∧ rfactor < 2 ^ 31 ∧ rfactor ^ dim < 2 ^ 31 ∧ rfactor ^ l < 2 ^ 31 ∧
    getLevelStartingIndex dim rfactor (l + 1) < 2 ^ 53

/-! ## Nodes and the level container -/

/-- A `DefaultNode<ValueT>`: the stored value and the leaf flag. -/
structure DefaultNode (V : Type) where
  /-- The member `mVal`. -/
  mVal : V
  /-- The member `mIsLeaf`. -/
  mIsLeaf : Bool
deriving DecidableEq

/-- A `std::unordered_map<KeyT, MappedT>`: its entries in iteration order. The order
inside a level is unspecified in the source; the model lists the entries in the order
of their insertion. -/
abbrev KeyMap (M : Type) := List (Nat × M)

/-- Lookup `unordered_map::find(key)`: the node stored for `key`, if any. -/
def KeyMap.find? {M : Type} : KeyMap M → Nat → Option M
  | [], _ => none
  | (k, n) :: m, key => if k = key then some n else KeyMap.find? m key

/-- Insertion `unordered_map::insert(p)`: a key already present keeps its node. -/
def KeyMap.insert {M : Type} (m : KeyMap M) (key : Nat) (val : M) : KeyMap M :=
  match KeyMap.find? m key with
  | some _ => m
  | none => m ++ [(key, val)]

/-- Assignment `m[key] = val`: the node of a present key is replaced, an absent key is
added. -/
def KeyMap.assign {M : Type} : KeyMap M → Nat → M → KeyMap M
  | [], key, val => [(key, val)]
  | (k, n) :: m, key, val =>
    if k = key then (k, val) :: m else (k, n) :: KeyMap.assign m key val

/-- Update of the node stored for `key` through an iterator or a reference to it. -/
def KeyMap.modify {M : Type} : KeyMap M → Nat → (M → M) → KeyMap M
  | [], _, _ => []
  | (k, n) :: m, key, f =>
    if k = key then (k, f n) :: m else (k, n) :: KeyMap.modify m key f

/-- A `LevelContainer<KeyT, MappedT>`: its member `mKeyMaps`, a
`std::map<std::size_t, std::unordered_map<KeyT, MappedT>>`, as the list of its
(level, map) entries in iteration order, which for a `std::map` is ascending level. -/
abbrev LevelContainer (M : Type) := List (Nat × KeyMap M)

/-- The map stored at `lvl`, if `mKeyMaps` has an entry for that level. -/
def LevelContainer.level? {M : Type} : LevelContainer M → Nat → Option (KeyMap M)
  | [], _ => none
  | (l, m) :: c, lvl => if l = lvl then some m else LevelContainer.level? c lvl

/-- Insertion of a new level into `mKeyMaps`, at its place in ascending order. -/
def LevelContainer.insertLevel {M : Type} : LevelContainer M → Nat → KeyMap M → LevelContainer M
  | [], lvl, m => [(lvl, m)]
  | (l, x) :: c, lvl, m =>
    if lvl < l then (lvl, m) :: (l, x) :: c else (l, x) :: LevelContainer.insertLevel c lvl m

/-- Update by `f` of the map stored at the existing level `lvl`. -/
def LevelContainer.replaceLevel {M : Type} :
    LevelContainer M → Nat → (KeyMap M → KeyMap M) → LevelContainer M
  | [], _, _ => []
  | (l, x) :: c, lvl, f =>
    if l = lvl then (l, f x) :: c else (l, x) :: LevelContainer.replaceLevel c lvl f

/-- The expression `mKeyMaps[lvl]` used as an lvalue and updated by `f`:
`std::map::operator[]` first adds an empty map when the level is absent. -/
def LevelContainer.atLevel {M : Type} (c : LevelContainer M) (lvl : Nat)
    (f : KeyMap M → KeyMap M) : LevelContainer M :=
  match LevelContainer.level? c lvl with
  | some _ => LevelContainer.replaceLevel c lvl f
  | none => LevelContainer.insertLevel c lvl (f [])

/-- Method `insert(const KeyT & key, std::size_t lvl, MappedT & val)`:
`mKeyMaps[lvl][key] = val`. -/
def LevelContainer.insert {M : Type} (c : LevelContainer M) (key lvl : Nat) (val : M) :
    LevelContainer M :=
  LevelContainer.atLevel c lvl (fun m => KeyMap.assign m key val)

/-- Method `insert(const std::pair<const KeyT, MappedT> & p, std::size_t lvl)`:
`mKeyMaps[lvl].insert(p)`; the container after the call (the returned iterator designates
the entry stored for the key at `lvl`). -/
def LevelContainer.insertPair {M : Type} (c : LevelContainer M) (key : Nat) (val : M)
    (lvl : Nat) : LevelContainer M :=
  LevelContainer.atLevel c lvl (fun m => KeyMap.insert m key val)

/-- Update by `f` of the node that an iterator or reference designates: the entry stored
for `key` at level `lvl`. -/
def LevelContainer.modify {M : Type} (c : LevelContainer M) (lvl key : Nat) (f : M → M) :
    LevelContainer M :=
  LevelContainer.replaceLevel c lvl (fun m => KeyMap.modify m key f)

/-- Lookup of the node stored for `key` at level `lvl`. -/
def LevelContainer.lookup {M : Type} (c : LevelContainer M) (lvl key : Nat) : Option M :=
  match LevelContainer.level? c lvl with
  | some m => KeyMap.find? m key
  | none => none

/-- All stored entries as (level, key, node), levels in the order of `mKeyMaps`. -/
def LevelContainer.entries {M : Type} (c : LevelContainer M) : List (Nat × Nat × M) :=
  c.flatMap (fun lm => lm.2.map (fun kn => (lm.1, kn.1, kn.2)))

/-! ## `Orthtree`: construction and refinement -/

/-- The state of an `Orthtree<dim, rfactor, ValueT>` with the default node type: the
`LevelContainer` base class holding `DefaultNode<ValueT>` nodes. -/
abbrev Orthtree (V : Type) := LevelContainer (DefaultNode V)

/-- Modelled from the spec: the `ContainerInserter` collaborator of `buildTree` is not in
the sources. The spec gives its contract `insert(tree, (key, node)) → (cursor, inserted?)`
publishing the node in the tree; it is modelled by the pair insertion
`LevelContainer::insert(p, lvl)` at the level `getLevel(key)` of the key, whose result has
that shape and whose cursor designates the entry stored for the key. -/
def containerInsert {V : Type} (dim rfactor : Nat) (t : Orthtree V) (key : Nat)
    (n : DefaultNode V) : Orthtree V :=
  LevelContainer.insertPair t key n (getLevel dim rfactor key)

/-- Method `Orthtree::buildTree(lvlmin, lvlstop, pm, ro, ci, key, lvl)`, with a bound
`fuel` on the depth of the recursion (`none` when the bound is reached). The prototype
map `pm` gives the node assigned to `n` by `n = pm.getValue(key)` (the assignment of a
`DefaultNode` replaces the value and the leaf flag set just before), `ro` is
`isUniform`; the loop over `so` calls `buildTree` on the children in turn. -/
def buildTree {V : Type} (dim rfactor lvlmin lvlstop : Nat) (pm : Nat → DefaultNode V)
    (ro : Nat → Bool) : Nat → Orthtree V → Nat → Nat → Option (Orthtree V)
  | 0, _, _, _ => none
  | fuel + 1, t, key, lvl =>
    if lvl = lvlstop then some (containerInsert dim rfactor t key (pm key))
    else if ro key && decide (lvl ≥ lvlmin) then
      some (containerInsert dim rfactor t key (pm key))
    else
      (List.range (sSize dim rfactor)).foldlM
        (fun acc so =>
          buildTree dim rfactor lvlmin lvlstop pm ro fuel acc
            (getChildKey dim rfactor key so) (lvl + 1))
        (LevelContainer.modify (containerInsert dim rfactor t key (pm key))
          (getLevel dim rfactor key) key (fun n => { n with mIsLeaf := false }))

/-- The method `buildTree` together with the record of its calls: the state is the tree
and the list of the arguments `(key, lvl)` of the calls made so far, in order. Every call
makes one `ci.insert(*this, pr)` (its first statement after the node is built), so the
list is also the record of the insertions. The tree component is the one of
`buildTree`. -/
def buildTreeCalls {V : Type} (dim rfactor lvlmin lvlstop : Nat) (pm : Nat → DefaultNode V)
    (ro : Nat → Bool) :
    Nat → Orthtree V × List (Nat × Nat) → Nat → Nat → Option (Orthtree V × List (Nat × Nat))
  | 0, _, _, _ => none
  | fuel + 1, st, key, lvl =>
    if lvl = lvlstop then
      some (containerInsert dim rfactor st.1 key (pm key), st.2 ++ [(key, lvl)])
    else if ro key && decide (lvl ≥ lvlmin) then
      some (containerInsert dim rfactor st.1 key (pm key), st.2 ++ [(key, lvl)])
    else
      (List.range (sSize dim rfactor)).foldlM
        (fun acc so =>
          buildTreeCalls dim rfactor lvlmin lvlstop pm ro fuel acc
            (getChildKey dim rfactor key so) (lvl + 1))
        (LevelContainer.modify (containerInsert dim rfactor st.1 key (pm key))
          (getLevel dim rfactor key) key (fun n => { n with mIsLeaf := false }),
          st.2 ++ [(key, lvl)])

/-- Modelled from the spec: `NodeT & operator[](KeyT key)`, which `refineCell` applies to
the tree, is required of the container by the interface comment of `Orthtree` but is not
defined by `LevelContainer`. The spec keeps each key at its own level, so the read
`(*this)[key]` is modelled as the node stored for `key` at level `getLevel(key)`
(`none` when absent: a node created by the access has an indeterminate leaf flag). -/
def Orthtree.get? {V : Type} (dim rfactor : Nat) (t : Orthtree V) (key : Nat) :
    Option (DefaultNode V) :=
  LevelContainer.lookup t (getLevel dim rfactor key) key

/-- Modelled from the spec: the assignment `(*this)[key] = n` through the same
`operator[]`, as `mKeyMaps[getLevel(key)][key] = n`. -/
def Orthtree.set {V : Type} (dim rfactor : Nat) (t : Orthtree V) (key : Nat)
    (n : DefaultNode V) : Orthtree V :=
  LevelContainer.insert t key (getLevel dim rfactor key) n

/-- Modelled from the spec: the assignment `(*this)[key].isLeaf() = b` through the same
`operator[]`, on a key that is present. -/
def Orthtree.setLeaf {V : Type} (dim rfactor : Nat) (t : Orthtree V) (key : Nat) (b : Bool) :
    Orthtree V :=
  LevelContainer.modify t (getLevel dim rfactor key) key (fun n => { n with mIsLeaf := b })

/-- Method `Orthtree::refineCell(key)`; `none` when `key` is absent, where the flag read
by `(*this)[key].isLeaf()` is indeterminate. -/
def refineCell {V : Type} (dim rfactor : Nat) (t : Orthtree V) (key : Nat) :
    Option (Orthtree V) :=
  match Orthtree.get? dim rfactor t key with
  | none => none
  | some n =>
    if !n.mIsLeaf then some t
    else
      some (Orthtree.setLeaf dim rfactor
        ((List.range (sSize dim rfactor)).foldl
          (fun acc so =>
            Orthtree.setLeaf dim rfactor
              (Orthtree.set dim rfactor acc (getChildKey dim rfactor key so) n)
              (getChildKey dim rfactor key so) true)
          t)
        key false)

/-! ## Iterators -/

/-- A `LevelContainer::iterator`. The member `lit`, an iterator into `mKeyMaps`, is
represented by the (level, map) entries from its position on (none at
`mKeyMaps.end()`); the member `it`, an iterator into the map of the level `itLvl`, by the
entries of that map from its position on (none at the `end()` of the map). -/
structure LevelContainer.iterator (M : Type) where
  /-- The member `lit`. -/
  lit : List (Nat × KeyMap M)
  /-- The level of the map that `it` points into. -/
  itLvl : Nat
  /-- The member `it`. -/
  it : KeyMap M

/-- Comparison `operator==` of two iterators, `it == leaf.it`: the same position of
the map of the same level. -/
def LevelContainer.iterator.eq {M : Type} (a b : LevelContainer.iterator M) : Bool :=
  a.itLvl == b.itLvl && a.it.length == b.it.length

/-- The position `mKeyMaps.find(lvl)`. -/
def LevelContainer.findLevel {M : Type} : LevelContainer M → Nat → List (Nat × KeyMap M)
  | [], _ => []
  | (l, m) :: c, lvl => if l = lvl then (l, m) :: c else LevelContainer.findLevel c lvl

/-- Method `begin()`: `iterator(*this,0,mKeyMaps[0].begin())`. The access `mKeyMaps[0]`
adds an empty level 0 when absent, so the container is returned with the iterator. -/
def LevelContainer.begin {M : Type} (c : LevelContainer M) :
    LevelContainer M × LevelContainer.iterator M :=
  (LevelContainer.atLevel c 0 id,
    { lit := LevelContainer.findLevel (LevelContainer.atLevel c 0 id) 0
      itLvl := 0
      it := (LevelContainer.level? (LevelContainer.atLevel c 0 id) 0).getD [] })

/-- Method `end()`: `auto p=mKeyMaps.end(); p--; return iterator(*this, p->first,
p->second.end())`; `none` when `mKeyMaps` is empty, where `p--` is undefined. -/
def LevelContainer.end_ {M : Type} (c : LevelContainer M) :
    Option (LevelContainer.iterator M) :=
  match c.getLast? with
  | none => none
  | some lm => some { lit := LevelContainer.findLevel c lm.1, itLvl := lm.1, it := [] }

/-- The loop of `iterator::operator++`:
`while (lit != end) { if (it != lit->second.end()) return; lit++;
if (lit == end) break; it = lit->second.begin(); }`, as the iterator it leaves in place. -/
def LevelContainer.iterator.advance {M : Type} :
    List (Nat × KeyMap M) → Nat → KeyMap M → LevelContainer.iterator M
  | [], lvl, it => { lit := [], itLvl := lvl, it := it }
  | lm :: rest, lvl, it =>
    if it.length ≠ 0 then { lit := lm :: rest, itLvl := lvl, it := it }
    else
      match rest with
      | [] => { lit := [], itLvl := lvl, it := it }
      | lm2 :: _ => LevelContainer.iterator.advance rest lm2.1 lm2.2

/-- The increment `iterator::operator++` (the pre- and the post-increment have the same
body): `it++`, then the loop; the iterator after the call. -/
def LevelContainer.iterator.incr {M : Type} (i : LevelContainer.iterator M) :
    LevelContainer.iterator M :=
  LevelContainer.iterator.advance i.lit i.itLvl (i.it.drop 1)

/-- The loop of `leaf_iterator::operator++`:
`while (cit != tree->end()) { if (cit->second.isLeaf()) return; cit++; }`, as the member
`cit` it leaves; `e` is `tree->end()`. `none` when `cit->second` is read at the end of a
map, or when the bound `fuel` on the number of turns is reached. -/
def leafIncrLoop {V : Type} (e : LevelContainer.iterator (DefaultNode V)) :
    Nat → LevelContainer.iterator (DefaultNode V) →
      Option (LevelContainer.iterator (DefaultNode V))
  | 0, _ => none
  | fuel + 1, cit =>
    if cit.eq e then some cit
    else
      match cit.it with
      | [] => none
      | kn :: _ => if kn.2.mIsLeaf then some cit else leafIncrLoop e fuel cit.incr

/-- The increment `leaf_iterator::operator++`: `cit++`, then the loop, which takes at
most as many turns as the tree has entries. -/
def leafIncr {V : Type} (t : Orthtree V) (cit : LevelContainer.iterator (DefaultNode V)) :
    Option (LevelContainer.iterator (DefaultNode V)) :=
  match LevelContainer.end_ t with
  | none => none
  | some e => leafIncrLoop e ((LevelContainer.entries t).length + 1) cit.incr

/-- The constructor `leaf_iterator(t, iter)`:
`if (cit == tree->end()) return; if (! cit->second.isLeaf()) this->operator++();`. -/
def leafIterator {V : Type} (t : Orthtree V) (iter : LevelContainer.iterator (DefaultNode V)) :
    Option (LevelContainer.iterator (DefaultNode V)) :=
  match LevelContainer.end_ t with
  | none => none
  | some e =>
    if iter.eq e then some iter
    else
      match iter.it with
      | [] => none
      | kn :: _ => if !kn.2.mIsLeaf then leafIncr t iter else some iter

/-- Method `leaf_begin()`: `leaf_iterator(*this, Container::begin())`, with the tree as
`begin()` leaves it. -/
def leafBegin {V : Type} (t : Orthtree V) :
    Orthtree V × Option (LevelContainer.iterator (DefaultNode V)) :=
  ((LevelContainer.begin t).1, leafIterator (LevelContainer.begin t).1 (LevelContainer.begin t).2)

/-- Method `leaf_end()`: `leaf_iterator(*this, Container::end())`. -/
def leafEnd {V : Type} (t : Orthtree V) : Option (LevelContainer.iterator (DefaultNode V)) :=
  match LevelContainer.end_ t with
  | none => none
  | some e => leafIterator t e

/-- The entries visited by `for (it = b; it != e; ++it)` over leaf iterators, `*it` being
`*cit`. -/
def leafCursorLoop {V : Type} (t : Orthtree V) (e : LevelContainer.iterator (DefaultNode V)) :
    Nat → LevelContainer.iterator (DefaultNode V) → Option (List (Nat × DefaultNode V))
  | 0, _ => none
  | fuel + 1, it =>
    if it.eq e then some []
    else
      match it.it with
      | [] => none
      | kn :: _ =>
        match leafIncr t it with
        | none => none
        | some it2 => (leafCursorLoop t e fuel it2).map (fun l => kn :: l)

/-- The entries yielded by the leaf cursor `leaf_begin() .. leaf_end()` of a tree. -/
def leafCursor {V : Type} (t : Orthtree V) : Option (List (Nat × DefaultNode V)) :=
  match (leafBegin t).2, leafEnd (leafBegin t).1 with
  | some b, some e =>
    leafCursorLoop (leafBegin t).1 e ((LevelContainer.entries (leafBegin t).1).length + 1) b
  | _, _ => none

/-! ## Lookup by iterator, erasure -/

/-- Lookup `unordered_map::find(key)` as a position: the entries of the map from the one
stored for `key` on, none of them (the `end()` of the map) when the key is absent. -/
def KeyMap.findIt {M : Type} : KeyMap M → Nat → KeyMap M
  | [], _ => []
  | (k, n) :: m, key => if k = key then (k, n) :: m else KeyMap.findIt m key

/-- Removal `unordered_map::erase(key)` of the entry stored for `key`. -/
def KeyMap.erase {M : Type} : KeyMap M → Nat → KeyMap M
  | [], _ => []
  | (k, n) :: m, key => if k = key then m else (k, n) :: KeyMap.erase m key

/-- Method `erase(const KeyT & key, std::size_t lvl)`: `mKeyMaps[lvl].erase(key)`. -/
def LevelContainer.erase {M : Type} (c : LevelContainer M) (key lvl : Nat) :
    LevelContainer M :=
  LevelContainer.atLevel c lvl (fun m => KeyMap.erase m key)

/-- Method `begin(std::size_t lvl)`: `iterator(*this, lvl, mKeyMaps[lvl].begin())`. The
access `mKeyMaps[lvl]` adds an empty level when absent, so the container is returned with
the iterator. -/
def LevelContainer.beginLvl {M : Type} (c : LevelContainer M) (lvl : Nat) :
    LevelContainer M × LevelContainer.iterator M :=
  (LevelContainer.atLevel c lvl id,
    { lit := LevelContainer.findLevel (LevelContainer.atLevel c lvl id) lvl
      itLvl := lvl
      it := (LevelContainer.level? (LevelContainer.atLevel c lvl id) lvl).getD [] })

/-- Method `end(std::size_t lvl)`: `auto it = mKeyMaps.find(lvl); it++;` then `end()` when
`it` is `mKeyMaps.end()`, else `iterator(*this, lvl+1, mKeyMaps[lvl+1].begin())`. `none`
when `lvl` is absent, where `it++` increments `mKeyMaps.end()`. The access
`mKeyMaps[lvl+1]` adds an empty level `lvl+1` when the level that follows `lvl` is another
one; the iterator is the one of the container so extended. -/
def LevelContainer.endLvl {M : Type} (c : LevelContainer M) (lvl : Nat) :
    Option (LevelContainer.iterator M) :=
  match LevelContainer.findLevel c lvl with
  | [] => none
  | [_] => LevelContainer.end_ c
  | _ :: _ :: _ =>
    some { lit := LevelContainer.findLevel (LevelContainer.atLevel c (lvl + 1) id) (lvl + 1)
           itLvl := lvl + 1
           it := (LevelContainer.level? (LevelContainer.atLevel c (lvl + 1) id) (lvl + 1)).getD [] }

/-- Method `find(KeyT key, std::size_t lvl)`: `auto it = mKeyMaps[lvl].find(key);
if (it == mKeyMaps[lvl].end()) return end(lvl); return iterator(*this,lvl,it);`. -/
def LevelContainer.findLvl {M : Type} (c : LevelContainer M) (key lvl : Nat) :
    Option (LevelContainer.iterator M) :=
  match KeyMap.findIt ((LevelContainer.level? c lvl).getD []) key with
  | [] => LevelContainer.endLvl (LevelContainer.atLevel c lvl id) lvl
  | e :: es => some { lit := LevelContainer.findLevel c lvl, itLvl := lvl, it := e :: es }

/-- The loop of `find(KeyT key)` from the position `it` of `mKeyMaps`:
`while (it != mKeyMaps.end()) { auto sit = it->second.find(key);
if (sit != it->second.end()) return iterator(*this, it->first, sit); it++; } return end();`. -/
def LevelContainer.findFrom {M : Type} (c : LevelContainer M) :
    List (Nat × KeyMap M) → Nat → Option (LevelContainer.iterator M)
  | [], _ => LevelContainer.end_ c
  | (l, m) :: rest, key =>
    match KeyMap.findIt m key with
    | [] => LevelContainer.findFrom c rest key
    | e :: es => some { lit := LevelContainer.findLevel c l, itLvl := l, it := e :: es }

/-- Method `find(KeyT key)`: the scan of the levels from `mKeyMaps.begin()`. `none` when
`mKeyMaps` is empty, where `end()` is undefined. -/
def LevelContainer.find {M : Type} (c : LevelContainer M) (key : Nat) :
    Option (LevelContainer.iterator M) :=
  LevelContainer.findFrom c c key

/-- The call `Container::begin(args...)` for a parameter pack that is empty (`none`) or
holds one level (`some lvl`), the two forms that `LevelContainer` defines. -/
def LevelContainer.beginArgs {M : Type} (c : LevelContainer M) :
    Option Nat → LevelContainer M × LevelContainer.iterator M
  | none => LevelContainer.begin c
  | some lvl => LevelContainer.beginLvl c lvl

/-- The call `Container::end(args...)`, the pack as for `beginArgs`. -/
def LevelContainer.endArgs {M : Type} (c : LevelContainer M) :
    Option Nat → Option (LevelContainer.iterator M)
  | none => LevelContainer.end_ c
  | some lvl => LevelContainer.endLvl c lvl

/-- The call `Container::find(key, args...)`, the pack as for `beginArgs`. -/
def LevelContainer.findArgs {M : Type} (c : LevelContainer M) (key : Nat) :
    Option Nat → Option (LevelContainer.iterator M)
  | none => LevelContainer.find c key
  | some lvl => LevelContainer.findLvl c key lvl

/-- One of the two loops of `Orthtree::isBoundary(key, args...)`:
`for (d < dim) { neighb = ...; if (find(neighb, args...) == end(args...)) return true; }`
over the axes `ds`, `neighb d` being the neighbor key on axis `d`; `some false` when the
loop ends without returning. `none` when `find` or `end` is undefined. -/
def Orthtree.isBoundaryLoop {V : Type} (t : Orthtree V) (args : Option Nat)
    (neighb : Nat → Nat) : List Nat → Option Bool
  | [] => some false
  | d :: ds =>
    match LevelContainer.findArgs t (neighb d) args, LevelContainer.endArgs t args with
    | some i, some e =>
      if i.eq e then some true else Orthtree.isBoundaryLoop t args neighb ds
    | _, _ => none

/-- Method `Orthtree::isBoundary(key, args...)`: the test `KeyDecoder::isBoundary(key)`,
then the loop over `getNeighborKeyMin(key,d)`, then the loop over
`getNeighborKeyMax(key,d)`. The reads are evaluated on the tree as it is (a level that an
access adds to `mKeyMaps` is empty). -/
def Orthtree.isBoundary {V : Type} (dim rfactor : Nat) (t : Orthtree V) (key : Nat)
    (args : Option Nat) : Option Bool :=
  if csg.isBoundary dim rfactor key then some true
  else
    match Orthtree.isBoundaryLoop t args (getNeighborKeyMin dim rfactor key) (List.range dim) with
    | none => none
    | some true => some true
    | some false =>
      Orthtree.isBoundaryLoop t args (getNeighborKeyMax dim rfactor key) (List.range dim)

/-! ## Boundary and interior iterators -/

/-- The loop of `boundary_iterator::operator++` and of `interior_iterator::operator++`,
which differ in the test only: `while (it != endit) { if (test(it->first)) return *this;
it++; }`, as the member `it` it leaves. The test is `isBoundaryImpl` for the boundary
iterator and its negation for the interior iterator. `none` when the test is undefined,
when `it->first` is read at the end of a map, or when the bound `fuel` on the number of
turns is reached. -/
def cursorIncrLoop {V : Type} (test : Nat → Option Bool)
    (endit : LevelContainer.iterator (DefaultNode V)) :
    Nat → LevelContainer.iterator (DefaultNode V) →
      Option (LevelContainer.iterator (DefaultNode V))
  | 0, _ => none
  | fuel + 1, it =>
    if it.eq endit then some it
    else
      match it.it with
      | [] => none
      | kn :: _ =>
        match test kn.1 with
        | none => none
        | some true => some it
        | some false => cursorIncrLoop test endit fuel it.incr

/-- The increment `operator++` of the two iterators: `it++`, then the loop. -/
def cursorIncr {V : Type} (test : Nat → Option Bool)
    (endit : LevelContainer.iterator (DefaultNode V)) (fuel : Nat)
    (it : LevelContainer.iterator (DefaultNode V)) :
    Option (LevelContainer.iterator (DefaultNode V)) :=
  cursorIncrLoop test endit fuel it.incr

/-- The constructor `boundary_iterator(t, iter, a...)` (and the one of
`interior_iterator`): `if (it == endit) return;` then `this->operator++()` when the node that
`it` designates fails the test. -/
def cursorIterator {V : Type} (test : Nat → Option Bool)
    (endit : LevelContainer.iterator (DefaultNode V)) (fuel : Nat)
    (iter : LevelContainer.iterator (DefaultNode V)) :
    Option (LevelContainer.iterator (DefaultNode V)) :=
  if iter.eq endit then some iter
  else
    match iter.it with
    | [] => none
    | kn :: _ =>
      match test kn.1 with
      | none => none
      | some true => some iter
      | some false => cursorIncr test endit fuel iter

/-- The entries visited by `for (it = b; it != e; it++)` over boundary (or interior)
iterators, `*it` being the entry that the member `it` designates; `e` is the member `it` of
the end iterator, `fuel2` bounds the turns of each increment. -/
def cursorLoop {V : Type} (test : Nat → Option Bool)
    (endit e : LevelContainer.iterator (DefaultNode V)) (fuel2 : Nat) :
    Nat → LevelContainer.iterator (DefaultNode V) → Option (List (Nat × DefaultNode V))
  | 0, _ => none
  | fuel + 1, it =>
    if it.eq e then some []
    else
      match it.it with
      | [] => none
      | kn :: _ =>
        match cursorIncr test endit fuel2 it with
        | none => none
        | some it2 => (cursorLoop test endit e fuel2 fuel it2).map (fun l => kn :: l)

/-- The test of the boundary iterator on a tree, `isBoundaryImpl(key, args, Inds{})`. -/
def boundaryTest {V : Type} (dim rfactor : Nat) (t : Orthtree V) (args : Option Nat)
    (key : Nat) : Option Bool :=
  Orthtree.isBoundary dim rfactor t key args

/-- The test of the interior iterator on a tree, `!isBoundaryImpl(key, args, Inds{})`. -/
def interiorTest {V : Type} (dim rfactor : Nat) (t : Orthtree V) (args : Option Nat)
    (key : Nat) : Option Bool :=
  (Orthtree.isBoundary dim rfactor t key args).map (fun b => !b)

/-- The cursor `begin .. end` of a filtering iterator with the given test on a tree:
the iterator built on `Container::begin(args...)` (the tree as `begin` leaves it), run up
to the iterator built on `Container::end(args...)`. Each loop takes at most as many turns
as the tree has entries. -/
def filterCursor {V : Type} (test : Orthtree V → Nat → Option Bool) (t : Orthtree V)
    (args : Option Nat) : Option (List (Nat × DefaultNode V)) :=
  match LevelContainer.endArgs (LevelContainer.beginArgs t args).1 args with
  | none => none
  | some endit =>
    match cursorIterator (test (LevelContainer.beginArgs t args).1) endit
        ((LevelContainer.entries (LevelContainer.beginArgs t args).1).length + 1)
        (LevelContainer.beginArgs t args).2,
      cursorIterator (test (LevelContainer.beginArgs t args).1) endit
        ((LevelContainer.entries (LevelContainer.beginArgs t args).1).length + 1) endit with
    | some b, some e =>
      cursorLoop (test (LevelContainer.beginArgs t args).1) endit e
        ((LevelContainer.entries (LevelContainer.beginArgs t args).1).length + 1)
        ((LevelContainer.entries (LevelContainer.beginArgs t args).1).length + 1) b
    | _, _ => none

/-- The entries yielded by the boundary cursor `boundary_begin(args...) ..
boundary_end(args...)` of a tree. -/
def boundaryCursor {V : Type} (dim rfactor : Nat) (t : Orthtree V) (args : Option Nat) :
    Option (List (Nat × DefaultNode V)) :=
  filterCursor (fun t2 => boundaryTest dim rfactor t2 args) t args

/-- The entries yielded by the interior cursor `interior_begin(args...) ..
interior_end(args...)` of a tree. -/
def interiorCursor {V : Type} (dim rfactor : Nat) (t : Orthtree V) (args : Option Nat) :
    Option (List (Nat × DefaultNode V)) :=
  filterCursor (fun t2 => interiorTest dim rfactor t2 args) t args

/-- The entries visited by `for (it = b; it != e; it++)` over container iterators. -/
def allCursorLoop {M : Type} (e : LevelContainer.iterator M) :
    Nat → LevelContainer.iterator M → Option (List (Nat × M))
  | 0, _ => none
  | fuel + 1, it =>
    if it.eq e then some []
    else
      match it.it with
      | [] => none
      | kn :: _ => (allCursorLoop e fuel it.incr).map (fun l => kn :: l)

/-- The entries visited by the all-nodes iteration `begin(args...) .. end(args...)`. -/
def allCursor {M : Type} (c : LevelContainer M) (args : Option Nat) :
    Option (List (Nat × M)) :=
  match LevelContainer.endArgs (LevelContainer.beginArgs c args).1 args with
  | none => none
  | some e =>
    allCursorLoop e ((LevelContainer.entries (LevelContainer.beginArgs c args).1).length + 1)
      (LevelContainer.beginArgs c args).2

/-! ## `Orthtree::interpolateTo` -/

/-- Subtraction `GeneralPoint::operator-`, coordinate by coordinate. -/
def Point.sub (p q : Point) : Point := List.zipWith (fun a b => a - b) p q

/-- Scalar multiplication `operator*(T val, const GeneralPoint<dim, T> & p)`:
`out.x[i] = val*p.x[i]`. -/
def Point.smul (val : ℚ) (p : Point) : Point := p.map (fun a => val * a)

/-- The offset that the descent of `interpolateTo` computes at level `lvl`:
`off_d = p*levelSize(lvl); off.x[i] = floor(off_d.x[i])`. -/
def interpolateOffset (rfactor : Nat) (p : Point) (lvl : Nat) : IntPoint :=
  p.map (fun x => Int.floor (x * (levelSize rfactor lvl : ℚ)))

/-- The loop of `std::unique` with the equality of the keys, `a` being the last pair
kept: a pair with the key of `a` is dropped, another one is kept after `a`. -/
def uniqueKeysFrom (a : Nat × Point) : List (Nat × Point) → List (Nat × Point)
  | [] => [a]
  | b :: l => if a.1 = b.1 then uniqueKeysFrom a l else a :: uniqueKeysFrom b l

/-- The remaining entries of an iterator position: those of `it`, then those of the
levels after the one `lit` points to. -/
def LevelContainer.iterator.rem {M : Type} (i : LevelContainer.iterator M) : KeyMap M :=
  i.it ++ (i.lit.tail).flatMap (fun lm => lm.2)

/-- An iterator position reached by `operator++`, in a container whose last level is `L`:
either `it` designates an entry of the map of the level `lit` points to, or `lit` is
`mKeyMaps.end()` and `it` is the `end()` of the map of the last level. -/
def LevelContainer.iterator.Normal {M : Type} (L : Nat) (i : LevelContainer.iterator M) : Prop :=
  (i.it ≠ [] ∧ i.lit ≠ [] ∧ i.lit.head?.map (fun lm => lm.1) = some i.itLvl ∧
      i.lit.getLast?.map (fun lm => lm.1) = some L) ∨
    (i.lit = [] ∧ i.itLvl = L ∧ i.it = [])

/-- The structural invariant of the spec on a tree: every stored node that is not a leaf
has all `sSize` child keys stored, and every stored leaf has none of them. -/
def StructuralInvariant {V : Type} (dim rfactor : Nat) (t : Orthtree V) : Prop :=
  ∀ k n, Orthtree.get? dim rfactor t k = some n →
    (n.mIsLeaf = false → ∀ s, s < sSize dim rfactor →
      (Orthtree.get? dim rfactor t (getChildKey dim rfactor k s)).isSome = true) ∧
    (n.mIsLeaf = true → ∀ s, s < sSize dim rfactor →
      Orthtree.get? dim rfactor t (getChildKey dim rfactor k s) = none)

/-- The value accumulated by `getKeyFromLevelOffset` over `n` digit positions: the
dot product of `mult` with the lowest base-`r` digits of `off`, plus `sSize` times the
same sum for `off / rfactor`. -/
def digitKey (dim rfactor : Nat) : Nat → IntPoint → Nat
  | 0, _ => 0
  | n + 1, off =>
    (IntPoint.dot (multLoop rfactor dim 1) (IntPoint.mod off rfactor)).toNat +
      sSize dim rfactor * digitKey dim rfactor n (IntPoint.div off rfactor)

/-- The level offsets enumerated by `spawnNeighbors(v, k, d)` around the offset `o`, in the
order of the recursion: the axes `d, d-1, ..., 0` are perturbed by `-1`, `+1`, `0`. -/
def spawnOffsets : Nat → IntPoint → List IntPoint
  | 0, o => [IntPoint.addAt o 0 (-1), IntPoint.addAt o 0 1, o]
  | d + 1, o =>
    spawnOffsets d (IntPoint.addAt o (d + 1) (-1)) ++
      (spawnOffsets d (IntPoint.addAt o (d + 1) 1) ++ spawnOffsets d o)

/-- The levels of `mKeyMaps` are in strictly ascending order, as the entries of a
`std::map` are. -/
def LevelContainer.Ascending {M : Type} (c : LevelContainer M) : Prop :=
  c.Pairwise (fun a b => a.1 < b.1)

/-- A call that changes a `LevelContainer`: an `insert` of either form or an `erase`. -/
inductive ContainerOp (M : Type) where
  | insert (key lvl : Nat) (val : M)
  | insertPair (key : Nat) (val : M) (lvl : Nat)
  | erase (key lvl : Nat)

/-- The level at which a call stores a key, if it stores one. -/
def ContainerOp.stores {M : Type} : ContainerOp M → Option (Nat × Nat)
  | ContainerOp.insert key lvl _ => some (key, lvl)
  | ContainerOp.insertPair key _ lvl => some (key, lvl)
  | ContainerOp.erase _ _ => none

/-- The container after a call. -/
def LevelContainer.apply {M : Type} (c : LevelContainer M) : ContainerOp M → LevelContainer M
  | ContainerOp.insert key lvl val => LevelContainer.insert c key lvl val
  | ContainerOp.insertPair key val lvl => LevelContainer.insertPair c key val lvl
  | ContainerOp.erase key lvl => LevelContainer.erase c key lvl

/-- The container reached from the empty one by a sequence of calls. -/
def LevelContainer.run {M : Type} (ops : List (ContainerOp M)) : LevelContainer M :=
  ops.foldl LevelContainer.apply []

/-- The entries that lie between the position `i` and the position `e`: `i` differs from
`e` and designates the first of them, and `i++` has the rest of them before `e`. -/
def LevelContainer.iterator.Reaches {M : Type} (e : LevelContainer.iterator M) :
    LevelContainer.iterator M → List (Nat × M) → Prop
  | i, [] => i.eq e = true
  | i, x :: xs => i.eq e = false ∧ i.it.head? = some x ∧
      LevelContainer.iterator.Reaches e i.incr xs

/-- The key that the descent of `interpolateTo` looks up at level `l`, for every `l`: the
first key of the level plus the digits of the offset `floor(p * r^l)`; at level 0 it is
the root. -/
def cellKey (dim rfactor : Nat) (p : Point) (l : Nat) : Nat :=
  getLevelStartingIndex dim rfactor l + digitKey dim rfactor l (interpolateOffset rfactor p l)

theorem Power_eq_pow (v p : Nat) : Power v p = v ^ p := by
  induction p with
  | zero => rfl
  | succ p ih => rw [Power, ih, Nat.pow_succ, Nat.mul_comm]

theorem sSize_eq_pow (dim rfactor : Nat) : sSize dim rfactor = rfactor ^ dim :=
  Power_eq_pow rfactor dim

theorem sSize_pos (dim : Nat) {rfactor : Nat} (hr : 0 < rfactor) : 0 < sSize dim rfactor := by
  rw [sSize_eq_pow]; exact pow_pos hr _

theorem pos_of_lt_sSize {dim rfactor s : Nat} (hs : s < sSize dim rfactor) :
    0 < sSize dim rfactor := Nat.lt_of_le_of_lt (Nat.zero_le s) hs

theorem decr_getChildKey (dim rfactor k s : Nat) :
    decr (getChildKey dim rfactor k s) = k * sSize dim rfactor + s := by
  unfold decr getChildKey
  rw [if_neg (by omega)]
  omega

theorem decr_pos {x : Nat} (h : 0 < x) : decr x = x - 1 := by
  unfold decr
  rw [if_neg (by omega)]

theorem getLevelStartingIndex_succ (dim rfactor lvl : Nat) :
    getLevelStartingIndex dim rfactor (lvl + 1) =
      getLevelStartingIndex dim rfactor lvl * sSize dim rfactor + 1 := by
  induction lvl with
  | zero => simp [getLevelStartingIndex]
  | succ l ih =>
    have e1 : getLevelStartingIndex dim rfactor (l + 1 + 1) =
        sSize dim rfactor ^ (l + 1) + getLevelStartingIndex dim rfactor (l + 1) := rfl
    have e2 : getLevelStartingIndex dim rfactor (l + 1) =
        sSize dim rfactor ^ l + getLevelStartingIndex dim rfactor l := rfl
    rw [e1]
    conv_rhs => rw [e2]
    rw [ih]
    ring

/-! ## The level of a key -/

theorem getLevelLoop_fuel (dim rfactor : Nat) :
    ∀ (f g key lvl : Nat), key ≤ f → key ≤ g →
      getLevelLoop dim rfactor f key lvl = getLevelLoop dim rfactor g key lvl := by
  intro f
  induction f with
  | zero =>
    intro g key lvl hf _
    have hk : key = 0 := by omega
    subst hk
    cases g <;> simp [getLevelLoop]
  | succ f ih =>
    intro g key lvl hf hg
    cases g with
    | zero =>
      have hk : key = 0 := by omega
      subst hk
      simp [getLevelLoop]
    | succ g =>
      simp only [getLevelLoop]
      split
      · next hpos =>
        have hle : (key - 1) / sSize dim rfactor ≤ key - 1 := Nat.div_le_self _ _
        exact ih g _ _ (by omega) (by omega)
      · rfl

theorem getLevelLoop_acc (dim rfactor : Nat) :
    ∀ (f key lvl : Nat),
      getLevelLoop dim rfactor f key lvl = lvl + getLevelLoop dim rfactor f key 0 := by
  intro f
  induction f with
  | zero => intro key lvl; simp [getLevelLoop]
  | succ f ih =>
    intro key lvl
    simp only [getLevelLoop]
    split
    · rw [ih _ (lvl + 1), ih _ (0 + 1)]; omega
    · rfl

theorem getLevel_zero (dim rfactor : Nat) : getLevel dim rfactor 0 = 0 := rfl

theorem getLevel_pos (dim rfactor : Nat) {key : Nat} (h : 0 < key) :
    getLevel dim rfactor key = getLevel dim rfactor ((key - 1) / sSize dim rfactor) + 1 := by
  obtain ⟨n, rfl⟩ : ∃ n, key = n + 1 := ⟨key - 1, by omega⟩
  unfold getLevel
  simp only [getLevelLoop, if_pos h]
  have hle : (n + 1 - 1) / sSize dim rfactor ≤ n := by
    have := Nat.div_le_self (n + 1 - 1) (sSize dim rfactor)
    omega
  rw [getLevelLoop_acc, getLevelLoop_fuel dim rfactor n _ _ 0 hle (Nat.le_refl _)]
  omega

theorem getLevel_eq_zero_iff (dim rfactor key : Nat) :
    getLevel dim rfactor key = 0 ↔ key = 0 := by
  constructor
  · intro h
    by_contra hk
    rw [getLevel_pos dim rfactor (Nat.pos_of_ne_zero hk)] at h
    omega
  · rintro rfl; rfl

theorem getChildKey_pos (dim rfactor k s : Nat) : 0 < getChildKey dim rfactor k s := by
  unfold getChildKey; omega

theorem getChildKey_sub_one_div (dim rfactor k s : Nat) (hs : s < sSize dim rfactor) :
    (getChildKey dim rfactor k s - 1) / sSize dim rfactor = k := by
  have hpos := pos_of_lt_sSize hs
  have h1 : getChildKey dim rfactor k s - 1 = s + sSize dim rfactor * k := by
    unfold getChildKey; rw [Nat.mul_comm]; omega
  rw [h1, Nat.add_mul_div_left _ _ hpos, Nat.div_eq_of_lt hs]
  omega

theorem getLevel_getChildKey (dim rfactor k s : Nat) (hs : s < sSize dim rfactor) :
    getLevel dim rfactor (getChildKey dim rfactor k s) = getLevel dim rfactor k + 1 := by
  rw [getLevel_pos dim rfactor (getChildKey_pos dim rfactor k s),
    getChildKey_sub_one_div dim rfactor k s hs]

theorem getParentKey_pos_eq (dim rfactor : Nat) {key : Nat} (h : 0 < key) :
    getParentKey dim rfactor key = (key - 1) / sSize dim rfactor := by
  unfold getParentKey; rw [decr_pos h]

theorem getSiblingIndex_pos_eq (dim rfactor : Nat) {key : Nat} (h : 0 < key) :
    getSiblingIndex dim rfactor key = (key - 1) % sSize dim rfactor := by
  unfold getSiblingIndex; rw [decr_pos h]

theorem getChildKey_parent_sibling (dim rfactor : Nat) {key : Nat} (h : 0 < key) :
    getChildKey dim rfactor (getParentKey dim rfactor key) (getSiblingIndex dim rfactor key)
      = key := by
  rw [getParentKey_pos_eq dim rfactor h, getSiblingIndex_pos_eq dim rfactor h]
  unfold getChildKey
  have := Nat.div_add_mod (key - 1) (sSize dim rfactor)
  rw [Nat.mul_comm] at this
  omega

/-! ## Integer points: lengths and coordinates -/

theorem IntPoint.length_zero (dim : Nat) : (IntPoint.zero dim).length = dim := by
  simp [IntPoint.zero]

theorem IntPoint.length_add (p q : IntPoint) :
    (IntPoint.add p q).length = min p.length q.length := by
  simp [IntPoint.add]

theorem IntPoint.length_smul (p : IntPoint) (v : Int) : (IntPoint.smul p v).length = p.length := by
  simp [IntPoint.smul]

theorem IntPoint.length_mod (p : IntPoint) (m : Nat) : (IntPoint.mod p m).length = p.length := by
  simp [IntPoint.mod]

theorem IntPoint.length_div (p : IntPoint) (m : Int) : (IntPoint.div p m).length = p.length := by
  simp [IntPoint.div]

theorem toSizeT_of_nonneg {x : Int} (h : 0 ≤ x) : toSizeT x = x.toNat := by
  unfold toSizeT
  rw [if_neg (by omega)]

theorem toSizeT_mod_cast {x : Int} (h : 0 ≤ x) (m : Nat) :
    ((toSizeT x % m : Nat) : Int) = x % (m : Int) := by
  rw [toSizeT_of_nonneg h, Int.ofNat_emod, Int.toNat_of_nonneg h]

theorem getOffsetWithinParentLoop_length (rfactor : Nat) :
    ∀ (n k : Nat), (getOffsetWithinParentLoop rfactor n k).length = n := by
  intro n
  induction n with
  | zero => intro k; rfl
  | succ n ih => intro k; simp [getOffsetWithinParentLoop, ih]

theorem getOffsetWithinParent_length (dim rfactor key : Nat) :
    (getOffsetWithinParent dim rfactor key).length = dim :=
  getOffsetWithinParentLoop_length rfactor dim _

theorem getOffsetWithinParentLoop_range {rfactor : Nat} (hr : 0 < rfactor) :
    ∀ (n k : Nat), ∀ x ∈ getOffsetWithinParentLoop rfactor n k, 0 ≤ x ∧ x < (rfactor : Int) := by
  intro n
  induction n with
  | zero => intro k x hx; simp [getOffsetWithinParentLoop] at hx
  | succ n ih =>
    intro k x hx
    simp only [getOffsetWithinParentLoop, List.mem_cons] at hx
    rcases hx with rfl | hx
    · have := Nat.mod_lt k hr
      omega
    · exact ih _ x hx

theorem sub_mod_div (k r : Nat) : (k - k % r) / r = k / r := by
  rcases Nat.eq_zero_or_pos r with h | h
  · subst h; simp
  · have h1 : k - k % r = r * (k / r) := by
      have := Nat.div_add_mod k r
      omega
    rw [h1, Nat.mul_div_cancel_left _ h]

/-! ## The weights `mult` and the dot product -/

theorem multLoop_length (rfactor : Nat) : ∀ (n c : Nat), (multLoop rfactor n c).length = n := by
  intro n
  induction n with
  | zero => intro c; rfl
  | succ n ih => intro c; simp [multLoop, ih]

theorem dot_nil_right (p : IntPoint) : IntPoint.dot p [] = 0 := by
  simp [IntPoint.dot]

theorem dot_nil_left (p : IntPoint) : IntPoint.dot [] p = 0 := by
  simp [IntPoint.dot]

theorem dot_cons (a b : Int) (p q : IntPoint) :
    IntPoint.dot (a :: p) (b :: q) = a * b + IntPoint.dot p q := by
  simp [IntPoint.dot]

theorem dot_multLoop_scale (rfactor : Nat) :
    ∀ (n c : Nat) (v : IntPoint),
      IntPoint.dot (multLoop rfactor n c) v = (c : Int) * IntPoint.dot (multLoop rfactor n 1) v := by
  intro n
  induction n with
  | zero => intro c v; simp [multLoop, dot_nil_left]
  | succ n ih =>
    intro c v
    cases v with
    | nil => simp [dot_nil_right]
    | cons x v =>
      simp only [multLoop, dot_cons]
      rw [ih (c * rfactor) v, ih (1 * rfactor) v]
      push_cast
      ring

theorem dot_multLoop_succ (rfactor n : Nat) (x : Int) (v : IntPoint) :
    IntPoint.dot (multLoop rfactor (n + 1) 1) (x :: v) =
      x + (rfactor : Int) * IntPoint.dot (multLoop rfactor n 1) v := by
  simp only [multLoop, dot_cons]
  rw [dot_multLoop_scale rfactor n (1 * rfactor) v]
  push_cast
  ring

theorem dot_replicate_zero : ∀ (p : IntPoint) (n : Nat), IntPoint.dot p (List.replicate n 0) = 0 := by
  intro p
  induction p with
  | nil => intro n; exact dot_nil_left _
  | cons a p ih =>
    intro n
    cases n with
    | zero => exact dot_nil_right _
    | succ n => rw [List.replicate_succ, dot_cons, ih]; simp

/-- The dot product of `mult` with the digit tuple of `k` is `k` modulo `r^n`. -/
theorem dot_multLoop_digits (rfactor : Nat) :
    ∀ (n k : Nat),
      IntPoint.dot (multLoop rfactor n 1) (getOffsetWithinParentLoop rfactor n k) =
        ((k % rfactor ^ n : Nat) : Int) := by
  intro n
  induction n with
  | zero => intro k; simp [multLoop, getOffsetWithinParentLoop, dot_nil_left, Nat.mod_one]
  | succ n ih =>
    intro k
    simp only [getOffsetWithinParentLoop]
    rw [dot_multLoop_succ, ih, sub_mod_div, Nat.pow_succ, Nat.mul_comm (rfactor ^ n) rfactor,
      Nat.mod_mul]
    push_cast
    rfl

theorem dot_multLoop_nonneg (rfactor : Nat) :
    ∀ (n : Nat) (v : IntPoint), (∀ x ∈ v, 0 ≤ x) → 0 ≤ IntPoint.dot (multLoop rfactor n 1) v := by
  intro n
  induction n with
  | zero => intro v _; simp [multLoop, dot_nil_left]
  | succ n ih =>
    intro v hv
    cases v with
    | nil => simp [dot_nil_right]
    | cons x v =>
      rw [dot_multLoop_succ]
      have h1 : 0 ≤ x := hv x (List.mem_cons_self _ _)
      have h2 := ih v (fun y hy => hv y (List.mem_cons_of_mem _ hy))
      have h3 : (0 : Int) ≤ rfactor := Int.ofNat_nonneg _
      positivity

/-- The dot product of `mult` with a tuple of base-`r` digits is below `r^n`. -/
theorem dot_multLoop_lt {rfactor : Nat} (hr : 0 < rfactor) :
    ∀ (n : Nat) (v : IntPoint), (∀ x ∈ v, 0 ≤ x ∧ x < (rfactor : Int)) →
      IntPoint.dot (multLoop rfactor n 1) v < ((rfactor ^ n : Nat) : Int) := by
  intro n
  induction n with
  | zero => intro v _; simp [multLoop, dot_nil_left]
  | succ n ih =>
    intro v hv
    cases v with
    | nil =>
      rw [dot_nil_right]
      exact_mod_cast pow_pos hr (n + 1)
    | cons x v =>
      rw [dot_multLoop_succ]
      have h1 := hv x (List.mem_cons_self _ _)
      have h2 := ih v (fun y hy => hv y (List.mem_cons_of_mem _ hy))
      have h3 : ((rfactor ^ (n + 1) : Nat) : Int) = (rfactor : Int) * ((rfactor ^ n : Nat) : Int) := by
        push_cast; ring
      rw [h3]
      nlinarith [h1.1, h1.2, h2]

/-- Digit round trip: the digit tuple of the dot product is the tuple. -/
theorem digits_dot_multLoop (rfactor : Nat) :
    ∀ (v : IntPoint), (∀ x ∈ v, 0 ≤ x ∧ x < (rfactor : Int)) →
      getOffsetWithinParentLoop rfactor v.length
        (IntPoint.dot (multLoop rfactor v.length 1) v).toNat = v := by
  intro v
  induction v with
  | nil => intro _; rfl
  | cons x v ih =>
    intro hv
    have h1 := hv x (List.mem_cons_self _ _)
    have hv2 : ∀ y ∈ v, 0 ≤ y ∧ y < (rfactor : Int) := fun y hy => hv y (List.mem_cons_of_mem _ hy)
    have h2 := dot_multLoop_nonneg rfactor v.length v (fun y hy => (hv2 y hy).1)
    obtain ⟨x1, rfl⟩ := Int.eq_ofNat_of_zero_le h1.1
    obtain ⟨d1, hd1⟩ := Int.eq_ofNat_of_zero_le h2
    have hx1 : x1 < rfactor := by exact_mod_cast h1.2
    simp only [List.length_cons, getOffsetWithinParentLoop]
    rw [dot_multLoop_succ, hd1]
    have e : ((x1 : Int) + (rfactor : Int) * (d1 : Int)).toNat = x1 + rfactor * d1 := by
      have : ((x1 : Int) + (rfactor : Int) * (d1 : Int)) = ((x1 + rfactor * d1 : Nat) : Int) := by
        push_cast; rfl
      rw [this, Int.toNat_ofNat]
    rw [e, Nat.add_mul_mod_self_left, Nat.mod_eq_of_lt hx1, Nat.add_sub_cancel_left,
      Nat.mul_div_cancel_left _ (by omega : 0 < rfactor)]
    have ih2 := ih hv2
    rw [hd1, Int.toNat_ofNat] at ih2
    rw [ih2]

/-! ## The offset of a key within its level -/

theorem getParentKey_le (dim rfactor : Nat) {key : Nat} (h : 0 < key) :
    getParentKey dim rfactor key ≤ key - 1 := by
  rw [getParentKey_pos_eq dim rfactor h]
  exact Nat.div_le_self _ _

theorem getOffsetWithinLevelLoop_length (dim rfactor : Nat) :
    ∀ (f key mult : Nat) (off : IntPoint), off.length = dim →
      (getOffsetWithinLevelLoop dim rfactor f key mult off).length = dim := by
  intro f
  induction f with
  | zero => intro key mult off h; exact h
  | succ f ih =>
    intro key mult off h
    simp only [getOffsetWithinLevelLoop]
    split
    · apply ih
      rw [IntPoint.length_add, IntPoint.length_smul, getOffsetWithinParent_length, h]
      exact Nat.min_self _
    · exact h

theorem getOffsetWithinLevelLoop_fuel (dim rfactor : Nat) :
    ∀ (f g key mult : Nat) (off : IntPoint), key ≤ f → key ≤ g →
      getOffsetWithinLevelLoop dim rfactor f key mult off =
        getOffsetWithinLevelLoop dim rfactor g key mult off := by
  intro f
  induction f with
  | zero =>
    intro g key mult off hf _
    have hk : key = 0 := by omega
    subst hk
    cases g <;> simp [getOffsetWithinLevelLoop]
  | succ f ih =>
    intro g key mult off hf hg
    cases g with
    | zero =>
      have hk : key = 0 := by omega
      subst hk
      simp [getOffsetWithinLevelLoop]
    | succ g =>
      simp only [getOffsetWithinLevelLoop]
      split
      · next hpos =>
        have hle := getParentKey_le dim rfactor hpos
        exact ih g _ _ _ (by omega) (by omega)
      · rfl

theorem IntPoint.add_smul_assoc (dim : Nat) (off w X : IntPoint) (m r : Int)
    (h1 : off.length = dim) (h2 : w.length = dim) (h3 : X.length = dim) :
    IntPoint.add (IntPoint.add off (IntPoint.smul w m)) (IntPoint.smul X (m * r)) =
      IntPoint.add off (IntPoint.smul (IntPoint.add w (IntPoint.smul X r)) m) := by
  apply List.ext_getElem
  · simp [IntPoint.add, IntPoint.smul, h1, h2, h3]
  · intro i hi1 hi2
    simp [IntPoint.add, IntPoint.smul]
    ring

theorem IntPoint.zero_add_smul_one (dim : Nat) (w : IntPoint) (h : w.length = dim) :
    IntPoint.add (IntPoint.zero dim) (IntPoint.smul w 1) = w := by
  apply List.ext_getElem
  · simp [IntPoint.add, IntPoint.smul, IntPoint.zero, h]
  · intro i hi1 hi2
    simp [IntPoint.add, IntPoint.smul, IntPoint.zero]

theorem IntPoint.add_zero_smul (dim : Nat) (off : IntPoint) (m : Int) (h : off.length = dim) :
    IntPoint.add off (IntPoint.smul (IntPoint.zero dim) m) = off := by
  apply List.ext_getElem
  · simp [IntPoint.add, IntPoint.smul, IntPoint.zero, h]
  · intro i hi1 hi2
    simp [IntPoint.add, IntPoint.smul, IntPoint.zero]

/-- The loop started at `(mult, off)` adds `mult` times the result of the loop started
at `(1, 0)`. -/
theorem getOffsetWithinLevelLoop_acc (dim rfactor : Nat) :
    ∀ (f key mult : Nat) (off : IntPoint), off.length = dim →
      getOffsetWithinLevelLoop dim rfactor f key mult off =
        IntPoint.add off
          (IntPoint.smul (getOffsetWithinLevelLoop dim rfactor f key 1 (IntPoint.zero dim))
            mult) := by
  intro f
  induction f with
  | zero =>
    intro key mult off h
    simp only [getOffsetWithinLevelLoop]
    rw [IntPoint.add_zero_smul dim off _ h]
  | succ f ih =>
    intro key mult off h
    simp only [getOffsetWithinLevelLoop]
    split
    · have hw := getOffsetWithinParent_length dim rfactor key
      have hl1 : (IntPoint.add off
          (IntPoint.smul (getOffsetWithinParent dim rfactor key) mult)).length = dim := by
        rw [IntPoint.length_add, IntPoint.length_smul, hw, h]; exact Nat.min_self _
      have hl2 : (IntPoint.add (IntPoint.zero dim)
          (IntPoint.smul (getOffsetWithinParent dim rfactor key) (1 : Nat))).length = dim := by
        rw [IntPoint.length_add, IntPoint.length_smul, hw, IntPoint.length_zero]
        exact Nat.min_self _
      rw [ih _ (mult * rfactor) _ hl1, ih _ (1 * rfactor) _ hl2]
      have hX := getOffsetWithinLevelLoop_length dim rfactor f
        (getParentKey dim rfactor key) 1 (IntPoint.zero dim) (IntPoint.length_zero dim)
      rw [Nat.cast_one, IntPoint.zero_add_smul_one dim _ hw]
      push_cast
      rw [one_mul]
      exact IntPoint.add_smul_assoc dim off _ _ _ _ h hw hX
    · rw [IntPoint.add_zero_smul dim off _ h]

theorem getOffsetWithinLevel_length (dim rfactor key : Nat) :
    (getOffsetWithinLevel dim rfactor key).length = dim :=
  getOffsetWithinLevelLoop_length dim rfactor key key 1 _ (IntPoint.length_zero dim)

theorem getOffsetWithinLevel_zero (dim rfactor : Nat) :
    getOffsetWithinLevel dim rfactor 0 = IntPoint.zero dim := rfl

/-- One turn of the loop of `getOffsetWithinLevel`: the offset of a key is its offset
within the parent plus `rfactor` times the offset of the parent. -/
theorem getOffsetWithinLevel_pos (dim rfactor : Nat) {key : Nat} (h : 0 < key) :
    getOffsetWithinLevel dim rfactor key =
      IntPoint.add (getOffsetWithinParent dim rfactor key)
        (IntPoint.smul (getOffsetWithinLevel dim rfactor (getParentKey dim rfactor key))
          rfactor) := by
  obtain ⟨n, rfl⟩ : ∃ n, key = n + 1 := ⟨key - 1, by omega⟩
  have hw := getOffsetWithinParent_length dim rfactor (n + 1)
  have hle := getParentKey_le dim rfactor h
  unfold getOffsetWithinLevel
  simp only [getOffsetWithinLevelLoop, if_pos h]
  have hl2 : (IntPoint.add (IntPoint.zero dim)
      (IntPoint.smul (getOffsetWithinParent dim rfactor (n + 1)) (1 : Nat))).length = dim := by
    rw [IntPoint.length_add, IntPoint.length_smul, hw, IntPoint.length_zero]
    exact Nat.min_self _
  rw [getOffsetWithinLevelLoop_acc dim rfactor _ _ _ _ hl2,
    getOffsetWithinLevelLoop_fuel dim rfactor n (getParentKey dim rfactor (n + 1)) _ 1 _
      (by omega) (Nat.le_refl _),
    Nat.cast_one, IntPoint.zero_add_smul_one dim _ hw]
  push_cast
  rw [one_mul]

theorem mem_add_smul_range {w X : IntPoint} {r N : Int} (hlen : w.length = X.length)
    (hw : ∀ x ∈ w, 0 ≤ x ∧ x < r) (hX : ∀ x ∈ X, 0 ≤ x ∧ x < N) :
    ∀ x ∈ IntPoint.add w (IntPoint.smul X r), 0 ≤ x ∧ x < r * N := by
  intro x hx
  obtain ⟨i, hi, rfl⟩ := List.mem_iff_getElem.mp hx
  have hi1 : i < w.length := by
    simp [IntPoint.add, IntPoint.smul] at hi; exact hi.1
  have hi2 : i < X.length := by omega
  have e : (IntPoint.add w (IntPoint.smul X r))[i] = w[i] + r * X[i] := by
    simp [IntPoint.add, IntPoint.smul]
  rw [e]
  have h1 := hw w[i] (List.getElem_mem hi1)
  have h2 := hX X[i] (List.getElem_mem hi2)
  constructor
  · nlinarith [h1.1, h1.2, h2.1]
  · nlinarith [h1.1, h1.2, h2.1, h2.2]

theorem getOffsetWithinParent_range (dim : Nat) {rfactor : Nat} (hr : 0 < rfactor) (key : Nat) :
    ∀ x ∈ getOffsetWithinParent dim rfactor key, 0 ≤ x ∧ x < (rfactor : Int) :=
  getOffsetWithinParentLoop_range hr dim _

theorem getOffsetWithinLevel_range (dim : Nat) {rfactor : Nat} (hr : 0 < rfactor) :
    ∀ (key : Nat), ∀ x ∈ getOffsetWithinLevel dim rfactor key,
      0 ≤ x ∧ x < (rfactor : Int) ^ getLevel dim rfactor key := by
  intro key
  induction key using Nat.strong_induction_on with
  | _ key ih =>
    rcases Nat.eq_zero_or_pos key with hk | hk
    · subst hk
      intro x hx
      rw [getOffsetWithinLevel_zero] at hx
      have := List.eq_of_mem_replicate hx
      subst this
      simp [getLevel_zero]
    · have hp := getParentKey_le dim rfactor hk
      rw [getOffsetWithinLevel_pos dim rfactor hk, getLevel_pos dim rfactor hk,
        ← getParentKey_pos_eq dim rfactor hk, pow_succ, mul_comm]
      apply mem_add_smul_range
      · rw [getOffsetWithinParent_length, getOffsetWithinLevel_length]
      · exact getOffsetWithinParent_range dim hr key
      · exact ih _ (by omega)

theorem IntPoint.mod_zero (dim r : Nat) : IntPoint.mod (IntPoint.zero dim) r = IntPoint.zero dim := by
  simp [IntPoint.mod, IntPoint.zero, toSizeT]

theorem IntPoint.div_zero (dim : Nat) (r : Int) :
    IntPoint.div (IntPoint.zero dim) r = IntPoint.zero dim := by
  simp [IntPoint.div, IntPoint.zero]

theorem digitKey_zero (dim rfactor : Nat) :
    ∀ n, digitKey dim rfactor n (IntPoint.zero dim) = 0 := by
  intro n
  induction n with
  | zero => rfl
  | succ n ih =>
    simp only [digitKey]
    rw [IntPoint.mod_zero, IntPoint.div_zero, ih]
    simp [IntPoint.zero, dot_replicate_zero]

theorem getKeyFromLevelOffsetLoop_eq (dim rfactor : Nat) :
    ∀ (n ct : Nat) (off : IntPoint) (tot : Nat),
      getKeyFromLevelOffsetLoop dim rfactor (multLoop rfactor dim 1) n ct off tot =
        tot + ct * sSize dim rfactor * digitKey dim rfactor n (IntPoint.div off rfactor) := by
  intro n
  induction n with
  | zero => intro ct off tot; simp [getKeyFromLevelOffsetLoop, digitKey]
  | succ n ih =>
    intro ct off tot
    simp only [getKeyFromLevelOffsetLoop, digitKey]
    rw [ih]
    ring

theorem getKeyFromLevelOffset_eq (dim rfactor lvl : Nat) (off : IntPoint) :
    getKeyFromLevelOffset dim rfactor lvl off =
      getLevelStartingIndex dim rfactor lvl + digitKey dim rfactor (decr lvl + 1) off := by
  unfold getKeyFromLevelOffset
  rw [getKeyFromLevelOffsetLoop_eq]
  simp only [digitKey]
  ring

theorem getKeyFromLevelOffset_succ (dim rfactor lvl : Nat) (off : IntPoint) :
    getKeyFromLevelOffset dim rfactor (lvl + 1) off =
      getLevelStartingIndex dim rfactor (lvl + 1) + digitKey dim rfactor (lvl + 1) off := by
  rw [getKeyFromLevelOffset_eq, decr_pos (Nat.succ_pos lvl)]
  rfl

/-- At level 0 the loop runs `2^64 - 1` times on the zero offset and adds nothing. -/
theorem getKeyFromLevelOffset_zero_zero (dim rfactor : Nat) :
    getKeyFromLevelOffset dim rfactor 0 (IntPoint.zero dim) = 0 := by
  rw [getKeyFromLevelOffset_eq, digitKey_zero]
  rfl

/-- The key of an offset at level `l + 1` is the child, with sibling index the dot
product of the lowest digits, of the cell `getLevelStartingIndex l + digitKey l (off / r)`. -/
theorem key_succ_eq_getChildKey (dim rfactor l : Nat) (off : IntPoint) :
    getLevelStartingIndex dim rfactor (l + 1) + digitKey dim rfactor (l + 1) off =
      getChildKey dim rfactor
        (getLevelStartingIndex dim rfactor l + digitKey dim rfactor l (IntPoint.div off rfactor))
        (IntPoint.dot (multLoop rfactor dim 1) (IntPoint.mod off rfactor)).toNat := by
  rw [getLevelStartingIndex_succ]
  simp only [digitKey, getChildKey]
  ring

/-! ## Digits of an offset -/

theorem IntPoint.mod_add_div (r : Nat) :
    ∀ (o : IntPoint), (∀ x ∈ o, 0 ≤ x) →
      IntPoint.add (IntPoint.mod o r) (IntPoint.smul (IntPoint.div o r) r) = o := by
  intro o
  induction o with
  | nil => intro _; rfl
  | cons x o ih =>
    intro h
    have hx := h x (List.mem_cons_self _ _)
    have e : ((toSizeT x % r : Nat) : Int) + (r : Int) * Int.tdiv x r = x := by
      rw [toSizeT_mod_cast hx, Int.tdiv_eq_ediv hx (Int.ofNat_nonneg r)]
      exact Int.emod_add_ediv x r
    have ih2 := ih (fun y hy => h y (List.mem_cons_of_mem _ hy))
    simp only [IntPoint.add, IntPoint.smul, IntPoint.mod, IntPoint.div, List.map_cons,
      List.zipWith_cons_cons] at ih2 ⊢
    rw [e, ih2]

theorem IntPoint.div_add_smul {r : Nat} (hr : 0 < r) :
    ∀ (w X : IntPoint), w.length = X.length → (∀ x ∈ w, 0 ≤ x ∧ x < (r : Int)) →
      (∀ x ∈ X, 0 ≤ x) → IntPoint.div (IntPoint.add w (IntPoint.smul X r)) r = X := by
  intro w
  induction w with
  | nil =>
    intro X hl _ _
    cases X with
    | nil => rfl
    | cons b X => simp at hl
  | cons a w ih =>
    intro X hl hw hX
    cases X with
    | nil => simp at hl
    | cons b X =>
      have ha := hw a (List.mem_cons_self _ _)
      have hb := hX b (List.mem_cons_self _ _)
      have hr0 : (0 : Int) < r := by exact_mod_cast hr
      have e : Int.tdiv (a + (r : Int) * b) r = b := by
        have hnn : 0 ≤ a + (r : Int) * b := by nlinarith [ha.1]
        rw [Int.tdiv_eq_ediv hnn (Int.ofNat_nonneg r),
          Int.add_mul_ediv_left a b (by omega), Int.ediv_eq_zero_of_lt ha.1 ha.2]
        omega
      have ih2 := ih X (by simpa using hl) (fun y hy => hw y (List.mem_cons_of_mem _ hy))
        (fun y hy => hX y (List.mem_cons_of_mem _ hy))
      simp only [IntPoint.add, IntPoint.smul, IntPoint.div, List.map_cons,
        List.zipWith_cons_cons] at ih2 ⊢
      rw [e, ih2]

theorem IntPoint.mod_add_smul {r : Nat} (hr : 0 < r) :
    ∀ (w X : IntPoint), w.length = X.length → (∀ x ∈ w, 0 ≤ x ∧ x < (r : Int)) →
      (∀ x ∈ X, 0 ≤ x) → IntPoint.mod (IntPoint.add w (IntPoint.smul X r)) r = w := by
  intro w
  induction w with
  | nil => intro X _ _ _; rfl
  | cons a w ih =>
    intro X hl hw hX
    cases X with
    | nil => simp at hl
    | cons b X =>
      have ha := hw a (List.mem_cons_self _ _)
      have hb := hX b (List.mem_cons_self _ _)
      have hr0 : (0 : Int) < r := by exact_mod_cast hr
      have e : ((toSizeT (a + (r : Int) * b) % r : Nat) : Int) = a := by
        have hnn : 0 ≤ a + (r : Int) * b := by nlinarith [ha.1]
        rw [toSizeT_mod_cast hnn, Int.add_mul_emod_self_left, Int.emod_eq_of_lt ha.1 ha.2]
      have ih2 := ih X (by simpa using hl) (fun y hy => hw y (List.mem_cons_of_mem _ hy))
        (fun y hy => hX y (List.mem_cons_of_mem _ hy))
      simp only [IntPoint.add, IntPoint.smul, IntPoint.mod, List.map_cons,
        List.zipWith_cons_cons] at ih2 ⊢
      rw [e, ih2]

theorem IntPoint.mod_range {r : Nat} (hr : 0 < r) (o : IntPoint) :
    ∀ x ∈ IntPoint.mod o r, 0 ≤ x ∧ x < (r : Int) := by
  intro x hx
  simp only [IntPoint.mod, List.mem_map] at hx
  obtain ⟨a, _, rfl⟩ := hx
  have := Nat.mod_lt (toSizeT a) hr
  omega

theorem IntPoint.div_range {r : Nat} (hr : 0 < r) (N : Int) (o : IntPoint)
    (h : ∀ x ∈ o, 0 ≤ x ∧ x < N * r) :
    ∀ x ∈ IntPoint.div o r, 0 ≤ x ∧ x < N := by
  intro x hx
  simp only [IntPoint.div, List.mem_map] at hx
  obtain ⟨a, ha, rfl⟩ := hx
  have h1 := h a ha
  have hr0 : (0 : Int) < r := by exact_mod_cast hr
  rw [Int.tdiv_eq_ediv h1.1 (Int.ofNat_nonneg r)]
  exact ⟨Int.ediv_nonneg h1.1 (Int.ofNat_nonneg r), Int.ediv_lt_of_lt_mul hr0 h1.2⟩

theorem IntPoint.eq_zero_of_range_one {dim : Nat} {o : IntPoint} (hlen : o.length = dim)
    (h : ∀ x ∈ o, 0 ≤ x ∧ x < (1 : Int)) : o = IntPoint.zero dim := by
  unfold IntPoint.zero
  rw [List.eq_replicate_iff]
  exact ⟨hlen, fun b hb => by have := h b hb; omega⟩

/-- The sibling index written by `getKeyFromLevelOffset` for the lowest digits is below
`sSize`. -/
theorem dot_mod_lt_sSize (dim : Nat) {rfactor : Nat} (hr : 0 < rfactor) (o : IntPoint) :
    (IntPoint.dot (multLoop rfactor dim 1) (IntPoint.mod o rfactor)).toNat < sSize dim rfactor := by
  have h1 := dot_multLoop_lt hr dim (IntPoint.mod o rfactor) (IntPoint.mod_range hr o)
  have h2 := dot_multLoop_nonneg rfactor dim (IntPoint.mod o rfactor)
    (fun x hx => (IntPoint.mod_range hr o x hx).1)
  rw [sSize_eq_pow]
  omega

/-! ## Round trips between keys and level offsets -/

theorem getLevel_key (dim : Nat) {rfactor : Nat} (hr : 0 < rfactor) :
    ∀ (l : Nat) (o : IntPoint),
      getLevel dim rfactor (getLevelStartingIndex dim rfactor l + digitKey dim rfactor l o) = l := by
  intro l
  induction l with
  | zero => intro o; rfl
  | succ l ih =>
    intro o
    rw [key_succ_eq_getChildKey, getLevel_getChildKey _ _ _ _ (dot_mod_lt_sSize dim hr o), ih]

theorem getOffsetWithinLevel_key (dim : Nat) {rfactor : Nat} (hr : 0 < rfactor) :
    ∀ (l : Nat) (o : IntPoint), o.length = dim →
      (∀ x ∈ o, 0 ≤ x ∧ x < (rfactor : Int) ^ l) →
      getOffsetWithinLevel dim rfactor
        (getLevelStartingIndex dim rfactor l + digitKey dim rfactor l o) = o := by
  intro l
  induction l with
  | zero =>
    intro o hlen ho
    rw [IntPoint.eq_zero_of_range_one hlen (by simpa using ho)]
    rfl
  | succ l ih =>
    intro o hlen ho
    have hs := dot_mod_lt_sSize dim hr o
    have hnn : ∀ x ∈ o, 0 ≤ x := fun x hx => (ho x hx).1
    have hmodlen : (IntPoint.mod o rfactor).length = dim := by
      rw [IntPoint.length_mod, hlen]
    rw [key_succ_eq_getChildKey, getOffsetWithinLevel_pos dim rfactor (getChildKey_pos _ _ _ _),
      getParentKey_pos_eq dim rfactor (getChildKey_pos _ _ _ _),
      getChildKey_sub_one_div _ _ _ _ hs]
    unfold getOffsetWithinParent
    rw [getSiblingIndex_pos_eq dim rfactor (getChildKey_pos _ _ _ _)]
    have hsib : (getChildKey dim rfactor
        (getLevelStartingIndex dim rfactor l + digitKey dim rfactor l (IntPoint.div o rfactor))
        (IntPoint.dot (multLoop rfactor dim 1) (IntPoint.mod o rfactor)).toNat - 1) %
          sSize dim rfactor =
        (IntPoint.dot (multLoop rfactor dim 1) (IntPoint.mod o rfactor)).toNat := by
      have h1 : ∀ K s : Nat, getChildKey dim rfactor K s - 1 = s + sSize dim rfactor * K := by
        intro K s; unfold getChildKey; rw [Nat.mul_comm]; omega
      rw [h1, Nat.add_mul_mod_self_left, Nat.mod_eq_of_lt hs]
    rw [hsib]
    have hdig := digits_dot_multLoop rfactor (IntPoint.mod o rfactor) (IntPoint.mod_range hr o)
    rw [hmodlen] at hdig
    rw [hdig, ih (IntPoint.div o rfactor) (by rw [IntPoint.length_div, hlen])
      (IntPoint.div_range hr _ o (by simpa [pow_succ] using ho))]
    exact IntPoint.mod_add_div rfactor o hnn

theorem key_getLevel_getOffsetWithinLevel (dim : Nat) {rfactor : Nat} (hr : 0 < rfactor) :
    ∀ (k : Nat),
      getLevelStartingIndex dim rfactor (getLevel dim rfactor k) +
        digitKey dim rfactor (getLevel dim rfactor k) (getOffsetWithinLevel dim rfactor k) = k := by
  intro k
  induction k using Nat.strong_induction_on with
  | _ k ih =>
    rcases Nat.eq_zero_or_pos k with hk | hk
    · subst hk; rfl
    · have hp := getParentKey_le dim rfactor hk
      have hS := sSize_pos dim hr
      have hw := getOffsetWithinParent_range dim hr k
      have hX : ∀ x ∈ getOffsetWithinLevel dim rfactor (getParentKey dim rfactor k), 0 ≤ x :=
        fun x hx => (getOffsetWithinLevel_range dim hr _ x hx).1
      have hlen : (getOffsetWithinParent dim rfactor k).length =
          (getOffsetWithinLevel dim rfactor (getParentKey dim rfactor k)).length := by
        rw [getOffsetWithinParent_length, getOffsetWithinLevel_length]
      rw [getLevel_pos dim rfactor hk, ← getParentKey_pos_eq dim rfactor hk,
        key_succ_eq_getChildKey, getOffsetWithinLevel_pos dim rfactor hk,
        IntPoint.div_add_smul hr _ _ hlen hw hX, IntPoint.mod_add_smul hr _ _ hlen hw hX,
        ih _ (by omega)]
      have hdot : (IntPoint.dot (multLoop rfactor dim 1)
          (getOffsetWithinParent dim rfactor k)).toNat = getSiblingIndex dim rfactor k := by
        unfold getOffsetWithinParent
        rw [dot_multLoop_digits, Int.toNat_ofNat, ← sSize_eq_pow]
        apply Nat.mod_eq_of_lt
        unfold getSiblingIndex
        exact Nat.mod_lt _ hS
      rw [hdot]
      exact getChildKey_parent_sibling dim rfactor hk

theorem getLevel_getKeyFromLevelOffset (dim : Nat) {rfactor : Nat} (hr : 0 < rfactor)
    (l : Nat) (o : IntPoint) (hlen : o.length = dim)
    (ho : ∀ x ∈ o, 0 ≤ x ∧ x < (rfactor : Int) ^ l) :
    getLevel dim rfactor (getKeyFromLevelOffset dim rfactor l o) = l := by
  cases l with
  | zero =>
    rw [IntPoint.eq_zero_of_range_one hlen (by simpa using ho), getKeyFromLevelOffset_zero_zero]
    rfl
  | succ l => rw [getKeyFromLevelOffset_succ]; exact getLevel_key dim hr _ o

theorem getOffsetWithinLevel_getKeyFromLevelOffset (dim : Nat) {rfactor : Nat}
    (hr : 0 < rfactor) (l : Nat) (o : IntPoint) (hlen : o.length = dim)
    (ho : ∀ x ∈ o, 0 ≤ x ∧ x < (rfactor : Int) ^ l) :
    getOffsetWithinLevel dim rfactor (getKeyFromLevelOffset dim rfactor l o) = o := by
  cases l with
  | zero =>
    rw [IntPoint.eq_zero_of_range_one hlen (by simpa using ho), getKeyFromLevelOffset_zero_zero]
    rfl
  | succ l =>
    rw [getKeyFromLevelOffset_succ]
    exact getOffsetWithinLevel_key dim hr _ o hlen ho

theorem getKeyFromLevelOffset_getLevel (dim : Nat) {rfactor : Nat} (hr : 0 < rfactor)
    (k : Nat) :
    getKeyFromLevelOffset dim rfactor (getLevel dim rfactor k)
      (getOffsetWithinLevel dim rfactor k) = k := by
  rcases Nat.eq_zero_or_pos k with hk | hk
  · subst hk
    exact getKeyFromLevelOffset_zero_zero dim rfactor
  · have h := key_getLevel_getOffsetWithinLevel dim hr k
    rw [getLevel_pos dim rfactor hk] at h ⊢
    rw [getKeyFromLevelOffset_succ]
    exact h

/-! ## Coordinates and the update of one coordinate -/

theorem exists_mem_iff_getD (P : Int → Prop) :
    ∀ (o : IntPoint), (∃ x, x ∈ o ∧ P x) ↔ ∃ a, a < o.length ∧ P (o.getD a 0) := by
  intro o
  induction o with
  | nil => simp
  | cons b o ih =>
    constructor
    · rintro ⟨x, hx, hP⟩
      rcases List.mem_cons.mp hx with rfl | hx
      · exact ⟨0, Nat.succ_pos _, hP⟩
      · obtain ⟨a, ha, hPa⟩ := ih.mp ⟨x, hx, hP⟩
        exact ⟨a + 1, Nat.succ_lt_succ ha, hPa⟩
    · rintro ⟨a, ha, hP⟩
      cases a with
      | zero => exact ⟨b, List.mem_cons_self _ _, hP⟩
      | succ a =>
        obtain ⟨x, hx, hPx⟩ := ih.mpr ⟨a, Nat.lt_of_succ_lt_succ ha, hP⟩
        exact ⟨x, List.mem_cons_of_mem _ hx, hPx⟩

theorem getD_mem_of_lt {o : IntPoint} {a : Nat} (ha : a < o.length) : o.getD a 0 ∈ o := by
  obtain ⟨x, hx, rfl⟩ := (exists_mem_iff_getD (fun x => x = o.getD a 0) o).mpr ⟨a, ha, rfl⟩
  exact hx

theorem IntPoint.length_addAt :
    ∀ (o : IntPoint) (a : Nat) (v : Int), (IntPoint.addAt o a v).length = o.length := by
  intro o
  induction o with
  | nil => intro a v; rfl
  | cons b o ih =>
    intro a v
    cases a with
    | zero => rfl
    | succ a => simp [IntPoint.addAt, ih]

theorem IntPoint.addAt_addAt_neg :
    ∀ (o : IntPoint) (a : Nat) (v : Int),
      IntPoint.addAt (IntPoint.addAt o a v) a (-v) = o := by
  intro o
  induction o with
  | nil => intro a v; rfl
  | cons b o ih =>
    intro a v
    cases a with
    | zero => simp [IntPoint.addAt]
    | succ a => simp [IntPoint.addAt, ih]

theorem IntPoint.forall_mem_addAt_iff (R : Int → Prop) :
    ∀ (o : IntPoint) (a : Nat) (v : Int), a < o.length → (∀ x ∈ o, R x) →
      ((∀ x ∈ IntPoint.addAt o a v, R x) ↔ R (o.getD a 0 + v)) := by
  intro o
  induction o with
  | nil => intro a v ha _; simp at ha
  | cons b o ih =>
    intro a v ha ho
    have ho2 : ∀ x ∈ o, R x := fun x hx => ho x (List.mem_cons_of_mem _ hx)
    cases a with
    | zero =>
      simp only [IntPoint.addAt, List.getD_cons_zero, List.forall_mem_cons]
      exact ⟨fun h => h.1, fun h => ⟨h, ho2⟩⟩
    | succ a =>
      simp only [IntPoint.addAt, List.getD_cons_succ, List.forall_mem_cons]
      rw [ih a v (Nat.lt_of_succ_lt_succ ha) ho2]
      exact ⟨fun h => h.2, fun h => ⟨ho b (List.mem_cons_self _ _), h⟩⟩

/-! ## Boundary keys -/

theorem isBoundary_iff (dim : Nat) {rfactor : Nat} (hr : 0 < rfactor) (k : Nat) :
    isBoundary dim rfactor k = true ↔
      ∃ a, a < dim ∧
        ((getOffsetWithinLevel dim rfactor k).getD a 0 = 0 ∨
          (getOffsetWithinLevel dim rfactor k).getD a 0 =
            (rfactor : Int) ^ getLevel dim rfactor k - 1) := by
  have hlen := getOffsetWithinLevel_length dim rfactor k
  have hrange := getOffsetWithinLevel_range dim hr k
  have hconv : ∀ x : Int, 0 ≤ x →
      (toSizeT x = rfactor ^ getLevel dim rfactor k - 1 ↔
        x = (rfactor : Int) ^ getLevel dim rfactor k - 1) := by
    intro x hx
    rw [toSizeT_of_nonneg hx]
    have h1 : ((rfactor ^ getLevel dim rfactor k : Nat) : Int) =
        (rfactor : Int) ^ getLevel dim rfactor k := by push_cast; rfl
    have hp : 0 < rfactor ^ getLevel dim rfactor k := pow_pos hr _
    omega
  have hnn : ∀ a, a < dim → 0 ≤ (getOffsetWithinLevel dim rfactor k).getD a 0 :=
    fun a ha => (hrange _ (getD_mem_of_lt (by omega))).1
  unfold isBoundary getLevelOffset
  rw [← getOffsetWithinLevel]
  simp only [Bool.or_eq_true, List.any_eq_true, beq_iff_eq]
  rw [exists_mem_iff_getD (fun x => x = 0),
    exists_mem_iff_getD (fun x => toSizeT x = rfactor ^ getLevel dim rfactor k - 1), hlen]
  constructor
  · rintro (⟨a, ha, h⟩ | ⟨a, ha, h⟩)
    · exact ⟨a, ha, Or.inl h⟩
    · exact ⟨a, ha, Or.inr ((hconv _ (hnn a ha)).mp h)⟩
  · rintro ⟨a, ha, h | h⟩
    · exact Or.inl ⟨a, ha, h⟩
    · exact Or.inr ⟨a, ha, (hconv _ (hnn a ha)).mpr h⟩

/-! ## Neighbor keys -/

theorem getLevel_getKeyFromLevelOffset_of_pos (dim : Nat) {rfactor : Nat} (hr : 0 < rfactor)
    {l : Nat} (hl : 0 < l) (o : IntPoint) :
    getLevel dim rfactor (getKeyFromLevelOffset dim rfactor l o) = l := by
  obtain ⟨n, rfl⟩ : ∃ n, l = n + 1 := ⟨l - 1, by omega⟩
  rw [getKeyFromLevelOffset_succ]
  exact getLevel_key dim hr _ o

theorem getLevel_pos_of_pos (dim rfactor : Nat) {k : Nat} (hk : 0 < k) :
    0 < getLevel dim rfactor k := by
  rw [getLevel_pos dim rfactor hk]
  exact Nat.succ_pos _

theorem pos_of_getLevel_pos (dim rfactor : Nat) {k : Nat} (hk : 0 < getLevel dim rfactor k) :
    0 < k := by
  rcases Nat.eq_zero_or_pos k with h | h
  · subst h; rw [getLevel_zero] at hk; omega
  · exact h

theorem getLevel_getNeighborKeyMax (dim : Nat) {rfactor : Nat} (hr : 0 < rfactor)
    {k : Nat} (hk : 0 < k) (a : Nat) :
    getLevel dim rfactor (getNeighborKeyMax dim rfactor k a) = getLevel dim rfactor k :=
  getLevel_getKeyFromLevelOffset_of_pos dim hr (getLevel_pos_of_pos dim rfactor hk) _

theorem getLevel_getNeighborKeyMin (dim : Nat) {rfactor : Nat} (hr : 0 < rfactor)
    {k : Nat} (hk : 0 < k) (a : Nat) :
    getLevel dim rfactor (getNeighborKeyMin dim rfactor k a) = getLevel dim rfactor k :=
  getLevel_getKeyFromLevelOffset_of_pos dim hr (getLevel_pos_of_pos dim rfactor hk) _

theorem digitKey_succ (dim rfactor n : Nat) (off : IntPoint) :
    digitKey dim rfactor (n + 1) off =
      (IntPoint.dot (multLoop rfactor dim 1) (IntPoint.mod off rfactor)).toNat +
        sSize dim rfactor * digitKey dim rfactor n (IntPoint.div off rfactor) := rfl

/-- At level 0 the loop runs `2^64 - 1` times; when the offset divided by `rfactor` is
zero every turn adds nothing and only the lowest digits count. -/
theorem getKeyFromLevelOffset_zero_of_div_zero (dim rfactor : Nat) (o : IntPoint)
    (h : IntPoint.div o rfactor = IntPoint.zero dim) :
    getKeyFromLevelOffset dim rfactor 0 o =
      (IntPoint.dot (multLoop rfactor dim 1) (IntPoint.mod o rfactor)).toNat := by
  rw [getKeyFromLevelOffset_eq]
  generalize decr 0 = N
  rw [digitKey_succ, h, digitKey_zero]
  simp [getLevelStartingIndex]

theorem getNeighborKeyMax_mem_spawnNeighbors (dim rfactor : Nat) :
    ∀ (d : Nat) (v : List Nat) (k : Nat),
      getNeighborKeyMax dim rfactor k 0 ∈ spawnNeighbors dim rfactor d v k := by
  intro d
  induction d with
  | zero => intro v k; simp [spawnNeighbors]
  | succ d ih => intro v k; simp only [spawnNeighbors]; exact ih _ k

theorem getLevel_of_mem_spawnNeighbors (dim : Nat) {rfactor : Nat} (hr : 0 < rfactor) :
    ∀ (d : Nat) (v : List Nat) (k : Nat), 0 < k →
      ∀ n ∈ spawnNeighbors dim rfactor d v k,
        n ∈ v ∨ getLevel dim rfactor n = getLevel dim rfactor k := by
  intro d
  induction d with
  | zero =>
    intro v k hk n hn
    simp only [spawnNeighbors, List.mem_append, List.mem_cons, List.mem_singleton,
      List.not_mem_nil, or_false] at hn
    rcases hn with hn | rfl | rfl | rfl
    · exact Or.inl hn
    · exact Or.inr (getLevel_getNeighborKeyMin dim hr hk 0)
    · exact Or.inr (getLevel_getNeighborKeyMax dim hr hk 0)
    · exact Or.inr rfl
  | succ d ih =>
    intro v k hk n hn
    simp only [spawnNeighbors] at hn
    have hmin := getLevel_getNeighborKeyMin dim hr hk (d + 1)
    have hmax := getLevel_getNeighborKeyMax dim hr hk (d + 1)
    have hlk := getLevel_pos_of_pos dim rfactor hk
    rcases ih _ k hk n hn with h3 | h3
    · rcases ih _ _ (pos_of_getLevel_pos dim rfactor (by rw [hmax]; exact hlk)) n h3
        with h2 | h2
      · rcases ih _ _ (pos_of_getLevel_pos dim rfactor (by rw [hmin]; exact hlk)) n h2
          with h1 | h1
        · exact Or.inl h1
        · exact Or.inr (h1.trans hmin)
      · exact Or.inr (h2.trans hmax)
    · exact Or.inr h3

/-! ## The cube of equal-sized neighbors -/

theorem spawnNeighbors_append (dim rfactor : Nat) :
    ∀ (d : Nat) (v : List Nat) (k : Nat),
      spawnNeighbors dim rfactor d v k = v ++ spawnNeighbors dim rfactor d [] k := by
  intro d
  induction d with
  | zero => intro v k; simp [spawnNeighbors]
  | succ d ih =>
    intro v k
    simp only [spawnNeighbors]
    have e1 := ih v (getNeighborKeyMin dim rfactor k (d + 1))
    have e2 := ih (spawnNeighbors dim rfactor d v (getNeighborKeyMin dim rfactor k (d + 1)))
      (getNeighborKeyMax dim rfactor k (d + 1))
    have e3 := ih (spawnNeighbors dim rfactor d
      (spawnNeighbors dim rfactor d v (getNeighborKeyMin dim rfactor k (d + 1)))
      (getNeighborKeyMax dim rfactor k (d + 1))) k
    have f2 := ih (spawnNeighbors dim rfactor d [] (getNeighborKeyMin dim rfactor k (d + 1)))
      (getNeighborKeyMax dim rfactor k (d + 1))
    have f3 := ih (spawnNeighbors dim rfactor d
      (spawnNeighbors dim rfactor d [] (getNeighborKeyMin dim rfactor k (d + 1)))
      (getNeighborKeyMax dim rfactor k (d + 1))) k
    rw [e3, e2, e1, f3, f2]
    simp [List.append_assoc]

theorem spawnNeighbors_succ_nil (dim rfactor d k : Nat) :
    spawnNeighbors dim rfactor (d + 1) [] k =
      spawnNeighbors dim rfactor d [] (getNeighborKeyMin dim rfactor k (d + 1)) ++
        (spawnNeighbors dim rfactor d [] (getNeighborKeyMax dim rfactor k (d + 1)) ++
          spawnNeighbors dim rfactor d [] k) := by
  have e : spawnNeighbors dim rfactor (d + 1) [] k =
      spawnNeighbors dim rfactor d
        (spawnNeighbors dim rfactor d
          (spawnNeighbors dim rfactor d [] (getNeighborKeyMin dim rfactor k (d + 1)))
          (getNeighborKeyMax dim rfactor k (d + 1)))
        k := rfl
  rw [e, spawnNeighbors_append dim rfactor d _ k, spawnNeighbors_append dim rfactor d _
    (getNeighborKeyMax dim rfactor k (d + 1)), List.append_assoc]

theorem IntPoint.getD_addAt_ne :
    ∀ (o : IntPoint) (a i : Nat) (v : Int), i ≠ a →
      (IntPoint.addAt o a v).getD i 0 = o.getD i 0 := by
  intro o
  induction o with
  | nil => intro a i v _; rfl
  | cons b o ih =>
    intro a i v h
    cases a with
    | zero =>
      cases i with
      | zero => exact absurd rfl h
      | succ i => rfl
    | succ a =>
      cases i with
      | zero => rfl
      | succ i =>
        simp only [IntPoint.addAt, List.getD_cons_succ]
        exact ih a i v (fun e => h (by rw [e]))

theorem IntPoint.getD_addAt_self :
    ∀ (o : IntPoint) (a : Nat) (v : Int), a < o.length →
      (IntPoint.addAt o a v).getD a 0 = o.getD a 0 + v := by
  intro o
  induction o with
  | nil => intro a v h; simp at h
  | cons b o ih =>
    intro a v h
    cases a with
    | zero => rfl
    | succ a =>
      simp only [IntPoint.addAt, List.getD_cons_succ]
      exact ih a v (Nat.lt_of_succ_lt_succ h)

theorem IntPoint.ext_getD :
    ∀ (p q : IntPoint), p.length = q.length → (∀ i, p.getD i 0 = q.getD i 0) → p = q := by
  intro p
  induction p with
  | nil =>
    intro q hl _
    cases q with
    | nil => rfl
    | cons b q => simp at hl
  | cons a p ih =>
    intro q hl h
    cases q with
    | nil => simp at hl
    | cons b q =>
      have h0 : a = b := h 0
      have ht := ih q (by simpa using hl) (fun i => h (i + 1))
      rw [h0, ht]

theorem length_spawnOffsets :
    ∀ (d : Nat) (o : IntPoint), (spawnOffsets d o).length = 3 ^ (d + 1) := by
  intro d
  induction d with
  | zero => intro o; rfl
  | succ d ih =>
    intro o
    simp only [spawnOffsets, List.length_append, ih]
    rw [pow_succ 3 (d + 1)]
    omega

theorem mem_spawnOffsets :
    ∀ (d : Nat) (o : IntPoint), d < o.length → ∀ (p : IntPoint),
      p ∈ spawnOffsets d o ↔
        p.length = o.length ∧
        (∀ i, i ≤ d →
          p.getD i 0 = o.getD i 0 - 1 ∨ p.getD i 0 = o.getD i 0 ∨
            p.getD i 0 = o.getD i 0 + 1) ∧
        ∀ i, d < i → p.getD i 0 = o.getD i 0 := by
  intro d
  induction d with
  | zero =>
    intro o hd p
    simp only [spawnOffsets, List.mem_cons, List.mem_singleton, List.not_mem_nil, or_false]
    constructor
    · rintro (rfl | rfl | rfl)
      · refine ⟨IntPoint.length_addAt o 0 _, fun i hi => ?_, fun i hi => ?_⟩
        · have : i = 0 := by omega
          subst this
          rw [IntPoint.getD_addAt_self o 0 _ hd]
          exact Or.inl rfl
        · exact IntPoint.getD_addAt_ne o 0 i _ (by omega)
      · refine ⟨IntPoint.length_addAt o 0 _, fun i hi => ?_, fun i hi => ?_⟩
        · have : i = 0 := by omega
          subst this
          rw [IntPoint.getD_addAt_self o 0 _ hd]
          exact Or.inr (Or.inr rfl)
        · exact IntPoint.getD_addAt_ne o 0 i _ (by omega)
      · exact ⟨rfl, fun i _ => Or.inr (Or.inl rfl), fun i _ => rfl⟩
    · rintro ⟨hl, h0, hgt⟩
      rcases h0 0 (Nat.le_refl 0) with h | h | h
      · left
        apply IntPoint.ext_getD _ _ (by rw [IntPoint.length_addAt, hl])
        intro i
        rcases Nat.eq_zero_or_pos i with hi | hi
        · subst hi; rw [IntPoint.getD_addAt_self o 0 _ hd, h]; rfl
        · rw [IntPoint.getD_addAt_ne o 0 i _ (by omega)]; exact hgt i hi
      · right; right
        apply IntPoint.ext_getD _ _ hl
        intro i
        rcases Nat.eq_zero_or_pos i with hi | hi
        · subst hi; exact h
        · exact hgt i hi
      · right; left
        apply IntPoint.ext_getD _ _ (by rw [IntPoint.length_addAt, hl])
        intro i
        rcases Nat.eq_zero_or_pos i with hi | hi
        · subst hi; rw [IntPoint.getD_addAt_self o 0 _ hd, h]
        · rw [IntPoint.getD_addAt_ne o 0 i _ (by omega)]; exact hgt i hi
  | succ d ih =>
    intro o hd p
    have hd1 : d < o.length := by omega
    have key : ∀ (v : Int),
        (p ∈ spawnOffsets d (IntPoint.addAt o (d + 1) v) ↔
          p.length = o.length ∧
          (∀ i, i ≤ d →
            p.getD i 0 = o.getD i 0 - 1 ∨ p.getD i 0 = o.getD i 0 ∨
              p.getD i 0 = o.getD i 0 + 1) ∧
          p.getD (d + 1) 0 = o.getD (d + 1) 0 + v ∧
          ∀ i, d + 1 < i → p.getD i 0 = o.getD i 0) := by
      intro v
      rw [ih (IntPoint.addAt o (d + 1) v) (by rw [IntPoint.length_addAt]; exact hd1) p,
        IntPoint.length_addAt]
      constructor
      · rintro ⟨hl, h1, h2⟩
        refine ⟨hl, fun i hi => ?_, ?_, fun i hi => ?_⟩
        · have := h1 i hi
          rwa [IntPoint.getD_addAt_ne o (d + 1) i v (by omega)] at this
        · rw [h2 (d + 1) (by omega), IntPoint.getD_addAt_self o (d + 1) v hd]
        · rw [h2 i (by omega), IntPoint.getD_addAt_ne o (d + 1) i v (by omega)]
      · rintro ⟨hl, h1, h2, h3⟩
        refine ⟨hl, fun i hi => ?_, fun i hi => ?_⟩
        · rw [IntPoint.getD_addAt_ne o (d + 1) i v (by omega)]
          exact h1 i hi
        · rcases Nat.eq_or_lt_of_le (Nat.succ_le_of_lt hi) with e | e
          · rw [← e, IntPoint.getD_addAt_self o (d + 1) v hd]; exact h2
          · rw [IntPoint.getD_addAt_ne o (d + 1) i v (by omega)]; exact h3 i e
    have key0 := ih o hd1 p
    simp only [spawnOffsets, List.mem_append]
    rw [key (-1), key 1, key0]
    constructor
    · rintro (⟨hl, h1, h2, h3⟩ | ⟨hl, h1, h2, h3⟩ | ⟨hl, h1, h3⟩)
      · refine ⟨hl, fun i hi => ?_, fun i hi => h3 i hi⟩
        rcases Nat.eq_or_lt_of_le hi with e | e
        · subst e; exact Or.inl h2
        · exact h1 i (by omega)
      · refine ⟨hl, fun i hi => ?_, fun i hi => h3 i hi⟩
        rcases Nat.eq_or_lt_of_le hi with e | e
        · subst e; exact Or.inr (Or.inr h2)
        · exact h1 i (by omega)
      · refine ⟨hl, fun i hi => ?_, fun i hi => h3 i (by omega)⟩
        rcases Nat.eq_or_lt_of_le hi with e | e
        · subst e; exact Or.inr (Or.inl (h3 (d + 1) (by omega)))
        · exact h1 i (by omega)
    · rintro ⟨hl, h1, h3⟩
      have h1d : ∀ i, i ≤ d →
          p.getD i 0 = o.getD i 0 - 1 ∨ p.getD i 0 = o.getD i 0 ∨
            p.getD i 0 = o.getD i 0 + 1 := fun i hi => h1 i (by omega)
      rcases h1 (d + 1) (Nat.le_refl _) with h | h | h
      · exact Or.inl ⟨hl, h1d, h, h3⟩
      · refine Or.inr (Or.inr ⟨hl, h1d, fun i hi => ?_⟩)
        rcases Nat.eq_or_lt_of_le (Nat.succ_le_of_lt hi) with e | e
        · rw [← e]; exact h
        · exact h3 i e
      · exact Or.inr (Or.inl ⟨hl, h1d, h, h3⟩)

theorem nodup_spawnOffsets :
    ∀ (d : Nat) (o : IntPoint), d < o.length → (spawnOffsets d o).Nodup := by
  intro d
  induction d with
  | zero =>
    intro o hd
    have h1 := IntPoint.getD_addAt_self o 0 (-1) hd
    have h2 := IntPoint.getD_addAt_self o 0 1 hd
    have n1 : IntPoint.addAt o 0 (-1) ≠ IntPoint.addAt o 0 1 := by
      intro e; rw [e, h2] at h1; omega
    have n2 : IntPoint.addAt o 0 (-1) ≠ o := by
      intro e; rw [e] at h1; omega
    have n3 : IntPoint.addAt o 0 1 ≠ o := by
      intro e; rw [e] at h2; omega
    simp [spawnOffsets, n1, n2, n3]
  | succ d ih =>
    intro o hd
    have hd1 : d < o.length := by omega
    have hA : ∀ (v : Int) (p : IntPoint),
        p ∈ spawnOffsets d (IntPoint.addAt o (d + 1) v) →
          p.getD (d + 1) 0 = o.getD (d + 1) 0 + v := by
      intro v p hp
      rw [((mem_spawnOffsets d _ (by rw [IntPoint.length_addAt]; exact hd1) p).mp hp).2.2
        (d + 1) (by omega), IntPoint.getD_addAt_self o (d + 1) v hd]
    have hC : ∀ (p : IntPoint), p ∈ spawnOffsets d o →
        p.getD (d + 1) 0 = o.getD (d + 1) 0 :=
      fun p hp => ((mem_spawnOffsets d o hd1 p).mp hp).2.2 (d + 1) (by omega)
    simp only [spawnOffsets]
    rw [List.nodup_append, List.nodup_append]
    refine ⟨ih _ (by rw [IntPoint.length_addAt]; exact hd1),
      ⟨ih _ (by rw [IntPoint.length_addAt]; exact hd1), ih o hd1, ?_⟩, ?_⟩
    · intro p hp1 hp2
      have := hA 1 p hp1
      have := hC p hp2
      omega
    · intro p hp1 hp2
      have a1 := hA (-1) p hp1
      rcases List.mem_append.mp hp2 with h | h
      · have := hA 1 p h
        omega
      · have := hC p h
        omega

theorem neighbor_of_offset (dim : Nat) {rfactor : Nat} (hr : 0 < rfactor) (k a : Nat) (v : Int)
    (ha : a < dim) (h0 : 0 ≤ (getOffsetWithinLevel dim rfactor k).getD a 0 + v)
    (h1 : (getOffsetWithinLevel dim rfactor k).getD a 0 + v <
      (rfactor : Int) ^ getLevel dim rfactor k) :
    getLevel dim rfactor (getKeyFromLevelOffset dim rfactor (getLevel dim rfactor k)
        (IntPoint.addAt (getOffsetWithinLevel dim rfactor k) a v)) = getLevel dim rfactor k ∧
    getOffsetWithinLevel dim rfactor (getKeyFromLevelOffset dim rfactor (getLevel dim rfactor k)
        (IntPoint.addAt (getOffsetWithinLevel dim rfactor k) a v)) =
      IntPoint.addAt (getOffsetWithinLevel dim rfactor k) a v := by
  have hlen := getOffsetWithinLevel_length dim rfactor k
  have hrange := getOffsetWithinLevel_range dim hr k
  have ha2 : a < (getOffsetWithinLevel dim rfactor k).length := by omega
  have hrange2 : ∀ x ∈ IntPoint.addAt (getOffsetWithinLevel dim rfactor k) a v,
      0 ≤ x ∧ x < (rfactor : Int) ^ getLevel dim rfactor k :=
    (IntPoint.forall_mem_addAt_iff _ _ a v ha2 hrange).mpr ⟨h0, h1⟩
  have hlen2 : (IntPoint.addAt (getOffsetWithinLevel dim rfactor k) a v).length = dim := by
    rw [IntPoint.length_addAt, hlen]
  exact ⟨getLevel_getKeyFromLevelOffset dim hr _ _ hlen2 hrange2,
    getOffsetWithinLevel_getKeyFromLevelOffset dim hr _ _ hlen2 hrange2⟩

theorem spawnNeighbors_eq_map (dim : Nat) {rfactor : Nat} (hr : 0 < rfactor) :
    ∀ (d k : Nat), d < dim →
      (∀ i, i ≤ d → 1 ≤ (getOffsetWithinLevel dim rfactor k).getD i 0 ∧
        (getOffsetWithinLevel dim rfactor k).getD i 0 + 1 <
          (rfactor : Int) ^ getLevel dim rfactor k) →
      spawnNeighbors dim rfactor d [] k =
        (spawnOffsets d (getOffsetWithinLevel dim rfactor k)).map
          (getKeyFromLevelOffset dim rfactor (getLevel dim rfactor k)) := by
  intro d
  induction d with
  | zero =>
    intro k _ _
    have e := getKeyFromLevelOffset_getLevel dim hr k
    simp only [spawnNeighbors, spawnOffsets, List.map, List.nil_append]
    rw [e]
    rfl
  | succ d ih =>
    intro k hd hint
    have hi := hint (d + 1) (Nat.le_refl _)
    have hmin := neighbor_of_offset dim hr k (d + 1) (-1) hd (by omega) (by omega)
    have hmax := neighbor_of_offset dim hr k (d + 1) 1 hd (by omega) (by omega)
    have emin : getNeighborKeyMin dim rfactor k (d + 1) =
        getKeyFromLevelOffset dim rfactor (getLevel dim rfactor k)
          (IntPoint.addAt (getOffsetWithinLevel dim rfactor k) (d + 1) (-1)) := rfl
    have emax : getNeighborKeyMax dim rfactor k (d + 1) =
        getKeyFromLevelOffset dim rfactor (getLevel dim rfactor k)
          (IntPoint.addAt (getOffsetWithinLevel dim rfactor k) (d + 1) 1) := rfl
    have iA := ih (getNeighborKeyMin dim rfactor k (d + 1)) (by omega) (by
      intro i hile
      rw [emin, hmin.1, hmin.2, IntPoint.getD_addAt_ne _ _ _ _ (by omega)]
      exact hint i (by omega))
    have iB := ih (getNeighborKeyMax dim rfactor k (d + 1)) (by omega) (by
      intro i hile
      rw [emax, hmax.1, hmax.2, IntPoint.getD_addAt_ne _ _ _ _ (by omega)]
      exact hint i (by omega))
    have iC := ih k (by omega) (fun i hile => hint i (by omega))
    rw [emin, hmin.1, hmin.2] at iA
    rw [emax, hmax.1, hmax.2] at iB
    rw [spawnNeighbors_succ_nil, emin, emax, iA, iB, iC]
    simp only [spawnOffsets, List.map_append]

/-! ## The box of a key -/

theorem zipWith_replicate_left {α β γ : Type} (f : α → β → γ) (c : α) :
    ∀ (l : List β) (n : Nat), l.length = n →
      List.zipWith f (List.replicate n c) l = l.map (f c) := by
  intro l
  induction l with
  | nil => intro n h; simp
  | cons b l ih =>
    intro n h
    obtain ⟨m, rfl⟩ : ∃ m, n = m + 1 := ⟨l.length, by simpa using h.symm⟩
    rw [List.replicate_succ, List.zipWith_cons_cons, List.map_cons,
      ih m (by simpa using h)]

theorem zipWith_replicate_right {α β γ : Type} (f : α → β → γ) (c : β) :
    ∀ (l : List α) (n : Nat), l.length = n →
      List.zipWith f l (List.replicate n c) = l.map (fun a => f a c) := by
  intro l
  induction l with
  | nil => intro n h; simp
  | cons b l ih =>
    intro n h
    obtain ⟨m, rfl⟩ : ∃ m, n = m + 1 := ⟨l.length, by simpa using h.symm⟩
    rw [List.replicate_succ, List.zipWith_cons_cons, List.map_cons,
      ih m (by simpa using h)]

theorem getBox_lo (dim rfactor k : Nat) :
    (getBox dim rfactor k).lo =
      (getOffsetWithinLevel dim rfactor k).map
        (fun (x : Int) => (x : ℚ) / (rfactor : ℚ) ^ getLevel dim rfactor k) := by
  unfold getBox Point.mulInt
  simp only
  rw [zipWith_replicate_left _ _ _ _ (getOffsetWithinLevel_length dim rfactor k)]
  apply List.map_congr_left
  intro x _
  ring

theorem getBox_hi (dim rfactor k : Nat) :
    (getBox dim rfactor k).hi =
      (getBox dim rfactor k).lo.map
        (fun y => y + ((rfactor : ℚ) ^ getLevel dim rfactor k)⁻¹) := by
  have hlen : (getBox dim rfactor k).lo.length = dim := by
    rw [getBox_lo, List.length_map, getOffsetWithinLevel_length]
  have e : (getBox dim rfactor k).hi = Point.add (getBox dim rfactor k).lo
      (List.replicate dim (1 / (rfactor : ℚ) ^ getLevel dim rfactor k)) := rfl
  rw [e]
  unfold Point.add
  rw [zipWith_replicate_right _ _ _ _ hlen]
  apply List.map_congr_left
  intro x _
  ring

/-! ## Lookup in the level container -/

theorem KeyMap.find?_assign {M : Type} (key : Nat) (val : M) :
    ∀ (m : KeyMap M) (k : Nat),
      KeyMap.find? (KeyMap.assign m key val) k =
        if k = key then some val else KeyMap.find? m k := by
  intro m
  induction m with
  | nil =>
    intro k
    simp only [KeyMap.assign, KeyMap.find?]
    by_cases h : k = key
    · rw [if_pos h.symm, if_pos h]
    · rw [if_neg (fun e => h e.symm), if_neg h]
  | cons a m ih =>
    intro k
    obtain ⟨k0, n0⟩ := a
    by_cases h0 : k0 = key <;> by_cases h : k = key <;> by_cases h1 : k0 = k <;>
      simp_all [KeyMap.assign, KeyMap.find?]

theorem KeyMap.find?_append_of_none {M : Type} (key : Nat) (val : M) :
    ∀ (m : KeyMap M) (k : Nat), KeyMap.find? m key = none →
      KeyMap.find? (m ++ [(key, val)]) k =
        if k = key then some val else KeyMap.find? m k := by
  intro m
  induction m with
  | nil =>
    intro k _
    simp only [List.nil_append, KeyMap.find?]
    by_cases h : k = key
    · rw [if_pos h.symm, if_pos h]
    · rw [if_neg (fun e => h e.symm), if_neg h]
  | cons a m ih =>
    intro k hnone
    obtain ⟨k0, n0⟩ := a
    by_cases h0 : k0 = key <;> by_cases h : k = key <;> by_cases h1 : k0 = k <;>
      simp_all [KeyMap.find?]

theorem KeyMap.find?_insert {M : Type} (key : Nat) (val : M) (m : KeyMap M) (k : Nat) :
    KeyMap.find? (KeyMap.insert m key val) k =
      if k = key then some ((KeyMap.find? m key).getD val) else KeyMap.find? m k := by
  unfold KeyMap.insert
  cases hf : KeyMap.find? m key with
  | none =>
    simp only [Option.getD_none]
    exact KeyMap.find?_append_of_none key val m k hf
  | some n =>
    simp only [Option.getD_some]
    by_cases h : k = key
    · rw [if_pos h, h, hf]
    · rw [if_neg h]

theorem LevelContainer.level?_replaceLevel {M : Type} (lvl : Nat) (f : KeyMap M → KeyMap M) :
    ∀ (c : LevelContainer M) (l : Nat),
      LevelContainer.level? (LevelContainer.replaceLevel c lvl f) l =
        if l = lvl then (LevelContainer.level? c lvl).map f else LevelContainer.level? c l := by
  intro c
  induction c with
  | nil => intro l; simp [LevelContainer.replaceLevel, LevelContainer.level?]
  | cons a c ih =>
    intro l
    obtain ⟨l0, m0⟩ := a
    by_cases h0 : l0 = lvl <;> by_cases h : l = lvl <;> by_cases h1 : l0 = l <;>
      simp_all [LevelContainer.replaceLevel, LevelContainer.level?]

theorem LevelContainer.level?_insertLevel {M : Type} (lvl : Nat) (m : KeyMap M) :
    ∀ (c : LevelContainer M) (l : Nat), LevelContainer.level? c lvl = none →
      LevelContainer.level? (LevelContainer.insertLevel c lvl m) l =
        if l = lvl then some m else LevelContainer.level? c l := by
  intro c
  induction c with
  | nil =>
    intro l _
    simp only [LevelContainer.insertLevel, LevelContainer.level?]
    by_cases h : l = lvl
    · rw [if_pos h.symm, if_pos h]
    · rw [if_neg (fun e => h e.symm), if_neg h]
  | cons a c ih =>
    intro l hnone
    obtain ⟨l0, m0⟩ := a
    have hnone2 : l0 ≠ lvl ∧ LevelContainer.level? c lvl = none := by
      simp only [LevelContainer.level?] at hnone
      by_cases h0 : l0 = lvl
      · rw [if_pos h0] at hnone; exact absurd hnone (by simp)
      · rw [if_neg h0] at hnone; exact ⟨h0, hnone⟩
    by_cases hlt : lvl < l0
    · have e : LevelContainer.insertLevel ((l0, m0) :: c) lvl m =
          (lvl, m) :: (l0, m0) :: c := by
        simp only [LevelContainer.insertLevel, if_pos hlt]
      rw [e]
      by_cases h : l = lvl
      · simp [LevelContainer.level?, h]
      · have hne : lvl ≠ l := fun e => h e.symm
        simp [LevelContainer.level?, h, hne]
    · have e : LevelContainer.insertLevel ((l0, m0) :: c) lvl m =
          (l0, m0) :: LevelContainer.insertLevel c lvl m := by
        simp only [LevelContainer.insertLevel, if_neg hlt]
      rw [e]
      by_cases h1 : l0 = l
      · have hne : l ≠ lvl := fun e => hnone2.1 (h1.trans e)
        simp [LevelContainer.level?, h1, hne]
      · simp [LevelContainer.level?, h1, ih l hnone2.2]

theorem LevelContainer.level?_atLevel {M : Type} (c : LevelContainer M) (lvl : Nat)
    (f : KeyMap M → KeyMap M) (l : Nat) :
    LevelContainer.level? (LevelContainer.atLevel c lvl f) l =
      if l = lvl then some (f ((LevelContainer.level? c lvl).getD []))
      else LevelContainer.level? c l := by
  unfold LevelContainer.atLevel
  cases hf : LevelContainer.level? c lvl with
  | none =>
    simp only [Option.getD_none]
    exact LevelContainer.level?_insertLevel lvl (f []) c l hf
  | some m =>
    simp only [Option.getD_some]
    rw [LevelContainer.level?_replaceLevel, hf]
    rfl

theorem LevelContainer.lookup_insert {M : Type} (c : LevelContainer M) (key lvl : Nat)
    (val : M) (l k : Nat) :
    LevelContainer.lookup (LevelContainer.insert c key lvl val) l k =
      if l = lvl ∧ k = key then some val else LevelContainer.lookup c l k := by
  unfold LevelContainer.lookup LevelContainer.insert
  rw [LevelContainer.level?_atLevel]
  by_cases hl : l = lvl
  · subst hl
    rw [if_pos rfl]
    simp only [KeyMap.find?_assign, true_and]
    by_cases hk : k = key
    · rw [if_pos hk, if_pos hk]
    · rw [if_neg hk, if_neg hk]
      cases LevelContainer.level? c l <;> rfl
  · rw [if_neg hl, if_neg (fun h => hl h.1)]

theorem LevelContainer.lookup_insertPair {M : Type} (c : LevelContainer M) (key : Nat)
    (val : M) (lvl l k : Nat) :
    LevelContainer.lookup (LevelContainer.insertPair c key val lvl) l k =
      if l = lvl ∧ k = key then some ((LevelContainer.lookup c lvl key).getD val)
      else LevelContainer.lookup c l k := by
  unfold LevelContainer.lookup LevelContainer.insertPair
  rw [LevelContainer.level?_atLevel]
  by_cases hl : l = lvl
  · subst hl
    rw [if_pos rfl]
    simp only [KeyMap.find?_insert, true_and]
    by_cases hk : k = key
    · rw [if_pos hk, if_pos hk]
      cases LevelContainer.level? c l <;> rfl
    · rw [if_neg hk, if_neg hk]
      cases LevelContainer.level? c l <;> rfl
  · rw [if_neg hl, if_neg (fun h => hl h.1)]

theorem foldlM_option_inv {α β : Type} (f : β → α → Option β) (P : β → Prop) :
    ∀ (l : List α) (b r : β),
      (∀ acc x acc2, x ∈ l → P acc → f acc x = some acc2 → P acc2) → P b →
      l.foldlM f b = some r → P r := by
  intro l
  induction l with
  | nil =>
    intro b r _ hb h
    simp only [List.foldlM_nil, pure, Option.some.injEq] at h
    exact h ▸ hb
  | cons a l ih =>
    intro b r hstep hb h
    rw [List.foldlM_cons] at h
    obtain ⟨b2, h1, h2⟩ := Option.bind_eq_some.mp h
    exact ih b2 r (fun acc x acc2 hx => hstep acc x acc2 (List.mem_cons_of_mem _ hx))
      (hstep b a b2 (List.mem_cons_self _ _) hb h1) h2

theorem foldlM_option_isSome {α β : Type} (f : β → α → Option β) :
    ∀ (l : List α) (b : β), (∀ acc x, x ∈ l → ∃ acc2, f acc x = some acc2) →
      ∃ r, l.foldlM f b = some r := by
  intro l
  induction l with
  | nil => intro b _; exact ⟨b, rfl⟩
  | cons a l ih =>
    intro b hstep
    obtain ⟨b2, h1⟩ := hstep b a (List.mem_cons_self _ _)
    obtain ⟨r, h2⟩ := ih b2 (fun acc x hx => hstep acc x (List.mem_cons_of_mem _ hx))
    refine ⟨r, ?_⟩
    rw [List.foldlM_cons]
    exact Option.bind_eq_some.mpr ⟨b2, h1, h2⟩

theorem buildTree_succ {V : Type} (dim rfactor lvlmin lvlstop : Nat) (pm : Nat → DefaultNode V)
    (ro : Nat → Bool) (fuel : Nat) (t : Orthtree V) (key lvl : Nat) :
    buildTree dim rfactor lvlmin lvlstop pm ro (fuel + 1) t key lvl =
      if lvl = lvlstop then some (containerInsert dim rfactor t key (pm key))
      else if ro key && decide (lvl ≥ lvlmin) then
        some (containerInsert dim rfactor t key (pm key))
      else
        (List.range (sSize dim rfactor)).foldlM
          (fun acc so =>
            buildTree dim rfactor lvlmin lvlstop pm ro fuel acc
              (getChildKey dim rfactor key so) (lvl + 1))
          (LevelContainer.modify (containerInsert dim rfactor t key (pm key))
            (getLevel dim rfactor key) key (fun n => { n with mIsLeaf := false })) := rfl

/-- With a bound above the number of levels left, `buildTree` returns. -/
theorem buildTree_isSome {V : Type} (dim rfactor lvlmin lvlstop : Nat)
    (pm : Nat → DefaultNode V) (ro : Nat → Bool) :
    ∀ (fuel : Nat) (t : Orthtree V) (key lvl : Nat), lvl ≤ lvlstop → lvlstop - lvl < fuel →
      ∃ t2, buildTree dim rfactor lvlmin lvlstop pm ro fuel t key lvl = some t2 := by
  intro fuel
  induction fuel with
  | zero => intro t key lvl _ h; omega
  | succ fuel ih =>
    intro t key lvl hle hfuel
    rw [buildTree_succ]
    split
    · exact ⟨_, rfl⟩
    · next hne =>
      split
      · exact ⟨_, rfl⟩
      · exact foldlM_option_isSome _ _ _
          (fun acc x _ => ih acc _ (lvl + 1) (by omega) (by omega))

theorem advance_spec {M : Type} (L : Nat) :
    ∀ (lit : List (Nat × KeyMap M)) (lvl : Nat) (it : KeyMap M),
      lit ≠ [] → lit.head?.map (fun lm => lm.1) = some lvl →
      lit.getLast?.map (fun lm => lm.1) = some L →
      LevelContainer.iterator.Normal L (LevelContainer.iterator.advance lit lvl it) ∧
        (LevelContainer.iterator.advance lit lvl it).rem =
          it ++ (lit.tail).flatMap (fun lm => lm.2) := by
  intro lit
  induction lit with
  | nil => intro lvl it h; exact absurd rfl h
  | cons lm rest ih =>
    intro lvl it _ hhead hlast
    by_cases hit : it.length ≠ 0
    · have e : LevelContainer.iterator.advance (lm :: rest) lvl it =
          { lit := lm :: rest, itLvl := lvl, it := it } := by
        simp only [LevelContainer.iterator.advance, if_pos hit]
      rw [e]
      refine ⟨Or.inl ⟨?_, by simp, hhead, hlast⟩, rfl⟩
      intro h0
      have h1 : it = [] := h0
      exact hit (by rw [h1]; rfl)
    · have hnil : it = [] := List.eq_nil_of_length_eq_zero (by omega)
      subst hnil
      cases rest with
      | nil =>
        have e : LevelContainer.iterator.advance [lm] lvl ([] : KeyMap M) =
            { lit := [], itLvl := lvl, it := [] } := by
          simp [LevelContainer.iterator.advance]
        rw [e]
        refine ⟨Or.inr ⟨rfl, ?_, rfl⟩, by simp [LevelContainer.iterator.rem]⟩
        simp only [List.head?_cons, Option.map_some', Option.some.injEq] at hhead
        simp only [List.getLast?_singleton, Option.map_some', Option.some.injEq] at hlast
        show lvl = L
        omega
      | cons lm2 rest2 =>
        have e : LevelContainer.iterator.advance (lm :: lm2 :: rest2) lvl ([] : KeyMap M) =
            LevelContainer.iterator.advance (lm2 :: rest2) lm2.1 lm2.2 := by
          simp [LevelContainer.iterator.advance]
        rw [e]
        have h := ih lm2.1 lm2.2 (by simp) (by simp)
          (by rw [List.getLast?_cons_cons] at hlast; exact hlast)
        refine ⟨h.1, ?_⟩
        rw [h.2]
        simp

theorem eq_end_of_normal {M : Type} {L : Nat} {i e : LevelContainer.iterator M}
    (hi : LevelContainer.iterator.Normal L i) (he1 : e.itLvl = L) (he2 : e.it = []) :
    (i.eq e = true ↔ i.it = []) ∧ (i.it = [] → i.rem = []) := by
  unfold LevelContainer.iterator.eq
  rw [he1, he2]
  rcases hi with ⟨h1, _, _, _⟩ | ⟨h1, h2, h3⟩
  · refine ⟨⟨fun h => ?_, fun h => absurd h h1⟩, fun h => absurd h h1⟩
    simp only [Bool.and_eq_true, beq_iff_eq, List.length_nil] at h
    exact List.eq_nil_of_length_eq_zero h.2
  · refine ⟨⟨fun _ => h3, fun _ => ?_⟩, fun _ => ?_⟩
    · simp [h2, h3]
    · simp [LevelContainer.iterator.rem, h1, h3]

theorem incr_spec {M : Type} {L : Nat} {i : LevelContainer.iterator M}
    (hi : LevelContainer.iterator.Normal L i) (hne : i.it ≠ []) :
    LevelContainer.iterator.Normal L i.incr ∧ i.incr.rem = i.rem.tail := by
  rcases hi with ⟨_, h2, h3, h4⟩ | ⟨_, _, h3⟩
  · have h := advance_spec L i.lit i.itLvl (i.it.drop 1) h2 h3 h4
    refine ⟨h.1, ?_⟩
    unfold LevelContainer.iterator.incr
    rw [h.2]
    unfold LevelContainer.iterator.rem
    cases hit : i.it with
    | nil => exact absurd hit hne
    | cons a l => simp
  · exact absurd h3 hne

theorem filter_dropWhile_not {α : Type} (p : α → Bool) :
    ∀ (l : List α), (l.dropWhile (fun x => !p x)).filter p = l.filter p := by
  intro l
  induction l with
  | nil => rfl
  | cons a l ih =>
    by_cases h : p a = true
    · simp [List.dropWhile, h]
    · simp only [Bool.not_eq_true] at h
      simp [List.dropWhile, h, ih]

theorem head?_dropWhile_not {α : Type} (p : α → Bool) :
    ∀ (l : List α) (a : α), (l.dropWhile (fun x => !p x)).head? = some a → p a = true := by
  intro l
  induction l with
  | nil => intro a h; simp at h
  | cons b l ih =>
    intro a h
    by_cases hb : p b = true
    · simp [List.dropWhile, hb] at h
      rw [← h]; exact hb
    · simp only [Bool.not_eq_true] at hb
      simp only [List.dropWhile, hb, Bool.not_false] at h
      exact ih a h

theorem length_dropWhile_le2 {α : Type} (p : α → Bool) :
    ∀ (l : List α), (l.dropWhile p).length ≤ l.length := by
  intro l
  induction l with
  | nil => simp
  | cons b l ih =>
    by_cases hb : p b = true
    · simp only [List.dropWhile, hb, List.length_cons]; omega
    · simp only [Bool.not_eq_true] at hb
      simp [List.dropWhile, hb]

theorem leafIncrLoop_spec {V : Type} (L : Nat) (e : LevelContainer.iterator (DefaultNode V))
    (he1 : e.itLvl = L) (he2 : e.it = []) :
    ∀ (fuel : Nat) (cit : LevelContainer.iterator (DefaultNode V)),
      LevelContainer.iterator.Normal L cit → cit.rem.length < fuel →
      ∃ cit2, leafIncrLoop e fuel cit = some cit2 ∧
        LevelContainer.iterator.Normal L cit2 ∧
        cit2.rem = cit.rem.dropWhile (fun kn => !kn.2.mIsLeaf) := by
  intro fuel
  induction fuel with
  | zero => intro cit _ h; omega
  | succ fuel ih =>
    intro cit hn hfuel
    have heq := eq_end_of_normal hn he1 he2
    by_cases hend : cit.eq e = true
    · refine ⟨cit, by simp only [leafIncrLoop, if_pos hend], hn, ?_⟩
      rw [heq.2 (heq.1.mp hend)]
      rfl
    · have hne : cit.it ≠ [] := fun h => hend (heq.1.mpr h)
      cases hit : cit.it with
      | nil => exact absurd hit hne
      | cons kn l =>
        have hrem : cit.rem = kn :: (l ++ (cit.lit.tail).flatMap (fun lm => lm.2)) := by
          unfold LevelContainer.iterator.rem
          rw [hit]
          rfl
        by_cases hleaf : kn.2.mIsLeaf = true
        · refine ⟨cit, by simp only [leafIncrLoop, if_neg hend, hit, if_pos hleaf], hn, ?_⟩
          rw [hrem]
          simp [List.dropWhile, hleaf]
        · have hi := incr_spec hn hne
          have hlen : cit.incr.rem.length < fuel := by
            rw [hi.2, hrem]
            rw [hrem] at hfuel
            simp only [List.tail_cons]
            simp only [List.length_cons] at hfuel
            omega
          obtain ⟨cit2, h1, h2, h3⟩ := ih cit.incr hi.1 hlen
          refine ⟨cit2, by simp only [leafIncrLoop, if_neg hend, hit, if_neg hleaf]; exact h1,
            h2, ?_⟩
          rw [h3, hi.2, hrem]
          simp only [Bool.not_eq_true] at hleaf
          simp [List.dropWhile, hleaf]

theorem leafCursorLoop_spec {V : Type} (t : Orthtree V) (L : Nat)
    (e : LevelContainer.iterator (DefaultNode V)) (hend : LevelContainer.end_ t = some e)
    (he1 : e.itLvl = L) (he2 : e.it = []) :
    ∀ (fuel : Nat) (it : LevelContainer.iterator (DefaultNode V)),
      LevelContainer.iterator.Normal L it → it.rem.length < fuel →
      it.rem.length ≤ (LevelContainer.entries t).length →
      (∀ kn, it.rem.head? = some kn → kn.2.mIsLeaf = true) →
      leafCursorLoop t e fuel it = some (it.rem.filter (fun kn => kn.2.mIsLeaf)) := by
  intro fuel
  induction fuel with
  | zero => intro it _ h; omega
  | succ fuel ih =>
    intro it hn hfuel hN hhead
    have heq := eq_end_of_normal hn he1 he2
    by_cases hend2 : it.eq e = true
    · simp only [leafCursorLoop, if_pos hend2]
      rw [heq.2 (heq.1.mp hend2)]
      rfl
    · have hne : it.it ≠ [] := fun h => hend2 (heq.1.mpr h)
      cases hit : it.it with
      | nil => exact absurd hit hne
      | cons kn l =>
        have hrem : it.rem = kn :: (l ++ (it.lit.tail).flatMap (fun lm => lm.2)) := by
          unfold LevelContainer.iterator.rem
          rw [hit]
          rfl
        have hleaf : kn.2.mIsLeaf = true := hhead kn (by rw [hrem]; rfl)
        have hi := incr_spec hn hne
        have hlen1 : it.incr.rem.length < (LevelContainer.entries t).length + 1 := by
          rw [hi.2, hrem]
          rw [hrem] at hN
          simp only [List.tail_cons]
          simp only [List.length_cons] at hN
          omega
        obtain ⟨it2, h1, h2, h3⟩ :=
          leafIncrLoop_spec L e he1 he2 _ it.incr hi.1 hlen1
        have hle := length_dropWhile_le2 (fun kn : Nat × DefaultNode V => !kn.2.mIsLeaf)
          it.incr.rem
        rw [← h3] at hle
        have hlen2 : it.incr.rem.length + 1 = it.rem.length := by
          rw [hi.2, hrem]; simp
        have hrec := ih it2 h2 (by omega) (by omega)
          (fun kn hk => head?_dropWhile_not (fun kn : Nat × DefaultNode V => kn.2.mIsLeaf)
            it.incr.rem kn (by rw [← h3]; exact hk))
        have hinc : leafIncr t it = some it2 := by
          unfold leafIncr
          rw [hend]
          exact h1
        simp only [leafCursorLoop, if_neg hend2, hit, hinc, hrec, Option.map_some']
        rw [h3, filter_dropWhile_not (fun kn : Nat × DefaultNode V => kn.2.mIsLeaf), hi.2, hrem]
        simp [hleaf]

theorem length_entries {M : Type} :
    ∀ (c : LevelContainer M),
      (LevelContainer.entries c).length = (c.flatMap (fun lm => lm.2)).length := by
  intro c
  induction c with
  | nil => rfl
  | cons lm c ih =>
    unfold LevelContainer.entries at ih ⊢
    simp only [List.flatMap_cons, List.length_append, List.length_map, ih]

theorem leafCursor_of_root {V : Type} (m0 : KeyMap (DefaultNode V)) (rest : Orthtree V)
    (hm0 : m0 ≠ []) :
    leafCursor ((0, m0) :: rest) =
      some ((((0, m0) :: rest : Orthtree V).flatMap (fun lm => lm.2)).filter
        (fun kn => kn.2.mIsLeaf)) := by
  cases m0 with
  | nil => exact absurd rfl hm0
  | cons kn l =>
    have hflat : ((0, kn :: l) :: rest : Orthtree V).flatMap (fun lm => lm.2) =
        kn :: (l ++ rest.flatMap (fun lm => lm.2)) := by
      rw [List.flatMap_cons]
      rfl
    have hbegin : LevelContainer.begin ((0, kn :: l) :: rest : Orthtree V) =
        ((0, kn :: l) :: rest, { lit := (0, kn :: l) :: rest, itLvl := 0, it := kn :: l }) := by
      simp [LevelContainer.begin, LevelContainer.atLevel, LevelContainer.level?,
        LevelContainer.replaceLevel, LevelContainer.findLevel]
    obtain ⟨lm, hlast⟩ : ∃ lm, ((0, kn :: l) :: rest : Orthtree V).getLast? = some lm :=
      ⟨_, List.getLast?_eq_getLast _ (by simp)⟩
    have hend : LevelContainer.end_ ((0, kn :: l) :: rest : Orthtree V) =
        some { lit := LevelContainer.findLevel ((0, kn :: l) :: rest) lm.1,
               itLvl := lm.1, it := [] } := by
      unfold LevelContainer.end_
      rw [hlast]
    have hb : LevelContainer.iterator.Normal lm.1
        ({ lit := (0, kn :: l) :: rest, itLvl := 0, it := kn :: l } :
          LevelContainer.iterator (DefaultNode V)) :=
      Or.inl ⟨by simp, by simp, rfl, by rw [hlast]; rfl⟩
    have hbrem : ({ lit := (0, kn :: l) :: rest, itLvl := 0, it := kn :: l } :
        LevelContainer.iterator (DefaultNode V)).rem =
        kn :: (l ++ rest.flatMap (fun lm => lm.2)) := rfl
    have heq := eq_end_of_normal hb
      (e := { lit := LevelContainer.findLevel ((0, kn :: l) :: rest) lm.1,
              itLvl := lm.1, it := [] })
      rfl rfl
    have hN : (LevelContainer.entries ((0, kn :: l) :: rest : Orthtree V)).length =
        (l ++ rest.flatMap (fun lm => lm.2)).length + 1 := by
      rw [length_entries, hflat]
      rfl
    have hne : ¬ (({ lit := (0, kn :: l) :: rest, itLvl := 0, it := kn :: l } :
        LevelContainer.iterator (DefaultNode V)).eq
        { lit := LevelContainer.findLevel ((0, kn :: l) :: rest) lm.1, itLvl := lm.1, it := [] }
          = true) := fun h => absurd (heq.1.mp h) (by simp)
    have hstart : ∃ s, leafIterator ((0, kn :: l) :: rest : Orthtree V)
          { lit := (0, kn :: l) :: rest, itLvl := 0, it := kn :: l } = some s ∧
        LevelContainer.iterator.Normal lm.1 s ∧
        s.rem = (kn :: (l ++ rest.flatMap (fun lm => lm.2))).dropWhile
          (fun kn => !kn.2.mIsLeaf) := by
      by_cases hleaf : kn.2.mIsLeaf = true
      · refine ⟨_, ?_, hb, ?_⟩
        · simp only [leafIterator, hend, if_neg hne, hleaf]
          rfl
        · rw [hbrem]
          simp only [List.dropWhile, hleaf]
          rfl
      · have hi := incr_spec hb (by simp)
        have hlen : ({ lit := (0, kn :: l) :: rest, itLvl := 0, it := kn :: l } :
            LevelContainer.iterator (DefaultNode V)).incr.rem.length <
            (LevelContainer.entries ((0, kn :: l) :: rest : Orthtree V)).length + 1 := by
          rw [hi.2, hbrem, hN]
          simp only [List.tail_cons]
          omega
        obtain ⟨s, h1, h2, h3⟩ := leafIncrLoop_spec lm.1
          { lit := LevelContainer.findLevel ((0, kn :: l) :: rest) lm.1, itLvl := lm.1, it := [] }
          rfl rfl _ _ hi.1 hlen
        simp only [Bool.not_eq_true] at hleaf
        refine ⟨s, ?_, h2, ?_⟩
        · simp only [leafIterator, hend, if_neg hne, hleaf, leafIncr]
          exact h1
        · rw [h3, hi.2, hbrem]
          simp only [List.tail_cons, List.dropWhile, hleaf]
          rfl
    obtain ⟨s, hs1, hs2, hs3⟩ := hstart
    have hleafEnd : leafEnd ((0, kn :: l) :: rest : Orthtree V) =
        some { lit := LevelContainer.findLevel ((0, kn :: l) :: rest) lm.1,
               itLvl := lm.1, it := [] } := by
      simp [leafEnd, hend, leafIterator, LevelContainer.iterator.eq]
    have hdle := length_dropWhile_le2 (fun kn : Nat × DefaultNode V => !kn.2.mIsLeaf)
      (kn :: (l ++ rest.flatMap (fun lm => lm.2)))
    rw [← hs3] at hdle
    have hloop := leafCursorLoop_spec ((0, kn :: l) :: rest : Orthtree V) lm.1 _ hend rfl rfl
      ((LevelContainer.entries ((0, kn :: l) :: rest : Orthtree V)).length + 1) s hs2
      (by rw [hN]; simp only [List.length_cons] at hdle; omega)
      (by rw [hN]; simp only [List.length_cons] at hdle; omega)
      (fun kn2 hk => head?_dropWhile_not (fun kn : Nat × DefaultNode V => kn.2.mIsLeaf) _ kn2
        (by rw [← hs3]; exact hk))
    unfold leafCursor leafBegin
    rw [hbegin]
    simp only [hs1, hleafEnd, hloop]
    rw [hs3, filter_dropWhile_not (fun kn : Nat × DefaultNode V => kn.2.mIsLeaf), hflat]

/-! ## Lookup by iterator -/

theorem KeyMap.findIt_of_find?_none {M : Type} (key : Nat) :
    ∀ (m : KeyMap M), KeyMap.find? m key = none → KeyMap.findIt m key = [] := by
  intro m
  induction m with
  | nil => intro _; rfl
  | cons a m ih =>
    intro h
    obtain ⟨k0, n0⟩ := a
    by_cases h0 : k0 = key
    · simp [KeyMap.find?, h0] at h
    · simp only [KeyMap.find?, if_neg h0] at h
      simp only [KeyMap.findIt, if_neg h0]
      exact ih h

theorem KeyMap.findIt_of_find?_some {M : Type} (key : Nat) (n : M) :
    ∀ (m : KeyMap M), KeyMap.find? m key = some n →
      ∃ es, KeyMap.findIt m key = (key, n) :: es := by
  intro m
  induction m with
  | nil => intro h; simp [KeyMap.find?] at h
  | cons a m ih =>
    intro h
    obtain ⟨k0, n0⟩ := a
    by_cases h0 : k0 = key
    · simp only [KeyMap.find?, if_pos h0, Option.some.injEq] at h
      subst h0 h
      exact ⟨m, by simp [KeyMap.findIt]⟩
    · simp only [KeyMap.find?, if_neg h0] at h
      simp only [KeyMap.findIt, if_neg h0]
      exact ih h

theorem LevelContainer.mem_of_level? {M : Type} (l : Nat) (m : KeyMap M) :
    ∀ (c : LevelContainer M), LevelContainer.level? c l = some m → (l, m) ∈ c := by
  intro c
  induction c with
  | nil => intro h; simp [LevelContainer.level?] at h
  | cons a c ih =>
    intro h
    obtain ⟨l0, m0⟩ := a
    by_cases h0 : l0 = l
    · simp only [LevelContainer.level?, if_pos h0, Option.some.injEq] at h
      subst h0 h
      exact List.mem_cons_self _ _
    · simp only [LevelContainer.level?, if_neg h0] at h
      exact List.mem_cons_of_mem _ (ih h)

theorem LevelContainer.level?_of_mem {M : Type} (l : Nat) (m : KeyMap M) :
    ∀ (c : LevelContainer M), LevelContainer.Ascending c → (l, m) ∈ c →
      LevelContainer.level? c l = some m := by
  intro c
  induction c with
  | nil => intro _ h; exact absurd h (List.not_mem_nil _)
  | cons a c ih =>
    intro hc h
    obtain ⟨l0, m0⟩ := a
    unfold LevelContainer.Ascending at hc
    rw [List.pairwise_cons] at hc
    rcases List.mem_cons.mp h with h1 | h1
    · simp only [Prod.mk.injEq] at h1
      obtain ⟨rfl, rfl⟩ := h1
      simp [LevelContainer.level?]
    · have hlt : l0 < l := hc.1 (l, m) h1
      have hne : l0 ≠ l := by omega
      simp only [LevelContainer.level?, if_neg hne]
      exact ih hc.2 h1

theorem LevelContainer.findFrom_none {M : Type} (c : LevelContainer M) (key : Nat) :
    ∀ (rest : List (Nat × KeyMap M)), (∀ lm ∈ rest, KeyMap.find? lm.2 key = none) →
      LevelContainer.findFrom c rest key = LevelContainer.end_ c := by
  intro rest
  induction rest with
  | nil => intro _; rfl
  | cons a rest ih =>
    intro h
    obtain ⟨l0, m0⟩ := a
    have h0 := KeyMap.findIt_of_find?_none key m0 (h (l0, m0) (List.mem_cons_self _ _))
    simp only [LevelContainer.findFrom, h0]
    exact ih (fun lm hlm => h lm (List.mem_cons_of_mem _ hlm))

theorem LevelContainer.findFrom_some {M : Type} (c : LevelContainer M) (key : Nat) :
    ∀ (rest : List (Nat × KeyMap M)), rest.Pairwise (fun a b => a.1 < b.1) →
      (∃ lm ∈ rest, KeyMap.find? lm.2 key ≠ none) →
      ∃ l m n es, (l, m) ∈ rest ∧ KeyMap.find? m key = some n ∧
        (∀ lm ∈ rest, lm.1 < l → KeyMap.find? lm.2 key = none) ∧
        LevelContainer.findFrom c rest key =
          some { lit := LevelContainer.findLevel c l, itLvl := l, it := (key, n) :: es } := by
  intro rest
  induction rest with
  | nil => intro _ ⟨lm, h, _⟩; exact absurd h (List.not_mem_nil _)
  | cons a rest ih =>
    intro hp hex
    obtain ⟨l0, m0⟩ := a
    rw [List.pairwise_cons] at hp
    cases hf : KeyMap.find? m0 key with
    | some n =>
      obtain ⟨es, hes⟩ := KeyMap.findIt_of_find?_some key n m0 hf
      refine ⟨l0, m0, n, es, List.mem_cons_self _ _, hf, ?_, ?_⟩
      · intro lm hlm hlt
        rcases List.mem_cons.mp hlm with h1 | h1
        · subst h1
          exact absurd hlt (Nat.lt_irrefl _)
        · have := hp.1 lm h1
          exact absurd hlt (by simp only at this; omega)
      · simp only [LevelContainer.findFrom, hes]
    | none =>
      have hex2 : ∃ lm ∈ rest, KeyMap.find? lm.2 key ≠ none := by
        obtain ⟨lm, hlm, hne⟩ := hex
        rcases List.mem_cons.mp hlm with h1 | h1
        · subst h1
          exact absurd hf hne
        · exact ⟨lm, h1, hne⟩
      obtain ⟨l, m, n, es, hmem, hfind, hlow, hres⟩ := ih hp.2 hex2
      refine ⟨l, m, n, es, List.mem_cons_of_mem _ hmem, hfind, ?_, ?_⟩
      · intro lm hlm hlt
        rcases List.mem_cons.mp hlm with h1 | h1
        · subst h1
          exact hf
        · exact hlow lm h1 hlt
      · simp only [LevelContainer.findFrom, KeyMap.findIt_of_find?_none key m0 hf]
        exact hres

theorem LevelContainer.findFrom_exists {M : Type} (c : LevelContainer M) (key : Nat) :
    ∀ (rest : List (Nat × KeyMap M)), (∃ lm ∈ rest, KeyMap.find? lm.2 key ≠ none) →
      ∃ j, LevelContainer.findFrom c rest key = some j ∧
        j.it.head?.map (fun kn => kn.1) = some key := by
  intro rest
  induction rest with
  | nil => intro ⟨lm, h, _⟩; exact absurd h (List.not_mem_nil _)
  | cons a rest ih =>
    intro hex
    obtain ⟨l0, m0⟩ := a
    cases hf : KeyMap.find? m0 key with
    | some n =>
      obtain ⟨es, hes⟩ := KeyMap.findIt_of_find?_some key n m0 hf
      exact ⟨{ lit := LevelContainer.findLevel c l0, itLvl := l0, it := (key, n) :: es },
        by simp only [LevelContainer.findFrom, hes], rfl⟩
    | none =>
      have hex2 : ∃ lm ∈ rest, KeyMap.find? lm.2 key ≠ none := by
        obtain ⟨lm, hlm, hne⟩ := hex
        rcases List.mem_cons.mp hlm with h1 | h1
        · subst h1
          exact absurd hf hne
        · exact ⟨lm, h1, hne⟩
      obtain ⟨j, hj1, hj2⟩ := ih hex2
      exact ⟨j, by simp only [LevelContainer.findFrom,
        KeyMap.findIt_of_find?_none key m0 hf]; exact hj1, hj2⟩

theorem LevelContainer.iterator.eq_false_of_it {M : Type} (i e : LevelContainer.iterator M)
    (hi : i.it ≠ []) (he : e.it = []) : i.eq e = false := by
  unfold LevelContainer.iterator.eq
  rw [he]
  cases hit : i.it with
  | nil => exact absurd hit hi
  | cons a l => simp

theorem LevelContainer.end_it {M : Type} (c : LevelContainer M) (e : LevelContainer.iterator M)
    (h : LevelContainer.end_ c = some e) : e.it = [] := by
  unfold LevelContainer.end_ at h
  cases hl : c.getLast? with
  | none => rw [hl] at h; simp at h
  | some lm =>
    rw [hl] at h
    simp only [Option.some.injEq] at h
    rw [← h]

theorem KeyMap.find?_erase_isSome {M : Type} (key k : Nat) :
    ∀ (m : KeyMap M), (KeyMap.find? (KeyMap.erase m key) k).isSome = true →
      (KeyMap.find? m k).isSome = true := by
  intro m
  induction m with
  | nil => intro h; simp [KeyMap.erase, KeyMap.find?] at h
  | cons a m ih =>
    intro h
    obtain ⟨k0, n0⟩ := a
    by_cases h0 : k0 = key
    · simp only [KeyMap.erase, if_pos h0] at h
      by_cases h1 : k0 = k
      · simp [KeyMap.find?, h1]
      · simp only [KeyMap.find?, if_neg h1]
        exact h
    · simp only [KeyMap.erase, if_neg h0] at h
      by_cases h1 : k0 = k
      · simp [KeyMap.find?, h1]
      · simp only [KeyMap.find?, if_neg h1] at h ⊢
        exact ih h

theorem LevelContainer.lookup_erase_isSome {M : Type} (c : LevelContainer M) (key lvl l k : Nat)
    (h : (LevelContainer.lookup (LevelContainer.erase c key lvl) l k).isSome = true) :
    (LevelContainer.lookup c l k).isSome = true := by
  unfold LevelContainer.lookup LevelContainer.erase at h
  rw [LevelContainer.level?_atLevel] at h
  unfold LevelContainer.lookup
  by_cases hl : l = lvl
  · subst hl
    rw [if_pos rfl] at h
    simp only at h
    have h2 := KeyMap.find?_erase_isSome key k _ h
    cases hlev : LevelContainer.level? c l with
    | none => rw [hlev] at h2; simp [KeyMap.find?] at h2
    | some m => rw [hlev] at h2; exact h2
  · rw [if_neg hl] at h
    exact h

/-! ## `Orthtree::isBoundary` -/

theorem LevelContainer.end_isSome {M : Type} (c : LevelContainer M) (hc : c ≠ []) :
    ∃ e, LevelContainer.end_ c = some e ∧ e.it = [] := by
  unfold LevelContainer.end_
  obtain ⟨lm, hlast⟩ : ∃ lm, c.getLast? = some lm := ⟨_, List.getLast?_eq_getLast _ hc⟩
  rw [hlast]
  exact ⟨_, rfl, rfl⟩

theorem LevelContainer.iterator.eq_self {M : Type} (e : LevelContainer.iterator M) :
    e.eq e = true := by
  simp [LevelContainer.iterator.eq]

/-- Without a level argument, the test `find(n) == end()` of `isBoundary` holds exactly
when no level of the container holds the key. -/
theorem find_eq_end_iff {M : Type} (c : LevelContainer M) (hc : c ≠ []) (n : Nat) :
    ∃ i e, LevelContainer.findArgs c n none = some i ∧ LevelContainer.endArgs c none = some e ∧
      (i.eq e = true ↔ ∀ lm ∈ c, KeyMap.find? lm.2 n = none) := by
  obtain ⟨e, he, heit⟩ := LevelContainer.end_isSome c hc
  by_cases habs : ∀ lm ∈ c, KeyMap.find? lm.2 n = none
  · refine ⟨e, e, ?_, he, ?_⟩
    · show LevelContainer.find c n = some e
      unfold LevelContainer.find
      rw [LevelContainer.findFrom_none c n c habs, he]
    · exact ⟨fun _ => habs, fun _ => LevelContainer.iterator.eq_self e⟩
  · have hex : ∃ lm ∈ c, KeyMap.find? lm.2 n ≠ none := by
      by_contra hno
      exact habs (fun lm hlm => by
        by_contra hne
        exact hno ⟨lm, hlm, hne⟩)
    obtain ⟨j, hj1, hj2⟩ := LevelContainer.findFrom_exists c n c hex
    refine ⟨j, e, hj1, he, ?_⟩
    have hne : j.it ≠ [] := by
      intro h0
      rw [h0] at hj2
      simp at hj2
    rw [LevelContainer.iterator.eq_false_of_it j e hne heit]
    exact ⟨fun h => absurd h (by simp), fun h => absurd h habs⟩

theorem isBoundaryLoop_spec {V : Type} (t : Orthtree V) (ht : t ≠ []) (neighb : Nat → Nat) :
    ∀ (ds : List Nat), ∃ b, Orthtree.isBoundaryLoop t none neighb ds = some b ∧
      (b = true ↔ ∃ d ∈ ds, ∀ lm ∈ t, KeyMap.find? lm.2 (neighb d) = none) := by
  intro ds
  induction ds with
  | nil => exact ⟨false, rfl, by simp⟩
  | cons d ds ih =>
    obtain ⟨i, e, hi, he, hiff⟩ := find_eq_end_iff t ht (neighb d)
    by_cases heq : i.eq e = true
    · refine ⟨true, ?_, ?_⟩
      · simp only [Orthtree.isBoundaryLoop, hi, he, if_pos heq]
      · exact ⟨fun _ => ⟨d, List.mem_cons_self _ _, hiff.mp heq⟩, fun _ => rfl⟩
    · obtain ⟨b, hb1, hb2⟩ := ih
      refine ⟨b, ?_, ?_⟩
      · simp only [Orthtree.isBoundaryLoop, hi, he, if_neg heq]
        exact hb1
      · rw [hb2]
        constructor
        · rintro ⟨d2, hd2, h⟩
          exact ⟨d2, List.mem_cons_of_mem _ hd2, h⟩
        · rintro ⟨d2, hd2, h⟩
          rcases List.mem_cons.mp hd2 with h1 | h1
          · subst h1
            exact absurd (hiff.mpr h) heq
          · exact ⟨d2, h1, h⟩

/-- Without a level argument and on a tree with at least one level, `isBoundary` returns,
and returns `true` exactly for a key that the codec classifies as boundary or one of whose
axis neighbors no level holds. -/
theorem Orthtree.isBoundary_spec {V : Type} (dim rfactor : Nat) (t : Orthtree V) (ht : t ≠ [])
    (k : Nat) :
    ∃ b, Orthtree.isBoundary dim rfactor t k none = some b ∧
      (b = true ↔ (csg.isBoundary dim rfactor k = true ∨
        ∃ a, a < dim ∧
          ((∀ lm ∈ t, KeyMap.find? lm.2 (getNeighborKeyMin dim rfactor k a) = none) ∨
            (∀ lm ∈ t, KeyMap.find? lm.2 (getNeighborKeyMax dim rfactor k a) = none)))) := by
  by_cases hcodec : csg.isBoundary dim rfactor k = true
  · exact ⟨true, by simp only [Orthtree.isBoundary, if_pos hcodec], by simp [hcodec]⟩
  · obtain ⟨b1, h1, h1iff⟩ :=
      isBoundaryLoop_spec t ht (getNeighborKeyMin dim rfactor k) (List.range dim)
    obtain ⟨b2, h2, h2iff⟩ :=
      isBoundaryLoop_spec t ht (getNeighborKeyMax dim rfactor k) (List.range dim)
    cases b1 with
    | true =>
      refine ⟨true, by simp only [Orthtree.isBoundary, if_neg hcodec, h1], ?_⟩
      obtain ⟨d, hd, h⟩ := h1iff.mp rfl
      exact ⟨fun _ => Or.inr ⟨d, List.mem_range.mp hd, Or.inl h⟩, fun _ => rfl⟩
    | false =>
      refine ⟨b2, by simp only [Orthtree.isBoundary, if_neg hcodec, h1, h2], ?_⟩
      rw [h2iff]
      constructor
      · rintro ⟨d, hd, h⟩
        exact Or.inr ⟨d, List.mem_range.mp hd, Or.inr h⟩
      · rintro (h | ⟨a, ha, h | h⟩)
        · exact absurd h hcodec
        · have := h1iff.mpr ⟨a, List.mem_range.mpr ha, h⟩
          exact absurd this (by simp)
        · exact ⟨a, List.mem_range.mpr ha, h⟩

/-! ## Filtering iterators -/

theorem reaches_cons_it {M : Type} {e i : LevelContainer.iterator M} {x : Nat × M}
    {xs : List (Nat × M)} (h : LevelContainer.iterator.Reaches e i (x :: xs)) :
    i.eq e = false ∧ (∃ l, i.it = x :: l) ∧ LevelContainer.iterator.Reaches e i.incr xs := by
  obtain ⟨h1, h2, h3⟩ := h
  refine ⟨h1, ?_, h3⟩
  cases hit : i.it with
  | nil => rw [hit] at h2; simp at h2
  | cons a l =>
    rw [hit] at h2
    simp only [List.head?_cons, Option.some.injEq] at h2
    exact ⟨l, by rw [h2]⟩

theorem cursorIncrLoop_spec {V : Type} (test : Nat → Option Bool) (p : Nat → Bool)
    (e : LevelContainer.iterator (DefaultNode V)) :
    ∀ (fuel : Nat) (i : LevelContainer.iterator (DefaultNode V))
      (xs : List (Nat × DefaultNode V)),
      LevelContainer.iterator.Reaches e i xs → xs.length < fuel →
      (∀ x ∈ xs, test x.1 = some (p x.1)) →
      ∃ j, cursorIncrLoop test e fuel i = some j ∧
        LevelContainer.iterator.Reaches e j (xs.dropWhile (fun x => !p x.1)) := by
  intro fuel
  induction fuel with
  | zero => intro i xs _ h; omega
  | succ fuel ih =>
    intro i xs hr hfuel htest
    cases xs with
    | nil =>
      have hend : i.eq e = true := hr
      exact ⟨i, by simp only [cursorIncrLoop, if_pos hend], hr⟩
    | cons x xs =>
      obtain ⟨h1, ⟨l, h2⟩, h3⟩ := reaches_cons_it hr
      have hne : ¬ (i.eq e = true) := by rw [h1]; simp
      have ht := htest x (List.mem_cons_self _ _)
      by_cases hp : p x.1 = true
      · refine ⟨i, ?_, ?_⟩
        · rw [hp] at ht
          simp only [cursorIncrLoop, if_neg hne, h2, ht]
        · simp only [List.dropWhile, hp, Bool.not_true]
          exact hr
      · simp only [Bool.not_eq_true] at hp
        obtain ⟨j, hj1, hj2⟩ := ih i.incr xs h3
          (by simp only [List.length_cons] at hfuel; omega)
          (fun y hy => htest y (List.mem_cons_of_mem _ hy))
        refine ⟨j, ?_, ?_⟩
        · rw [hp] at ht
          simp only [cursorIncrLoop, if_neg hne, h2, ht]
          exact hj1
        · simp only [List.dropWhile, hp, Bool.not_false]
          exact hj2

theorem cursorIterator_spec {V : Type} (test : Nat → Option Bool) (p : Nat → Bool)
    (e : LevelContainer.iterator (DefaultNode V)) (fuel : Nat)
    (i : LevelContainer.iterator (DefaultNode V)) (xs : List (Nat × DefaultNode V))
    (hr : LevelContainer.iterator.Reaches e i xs) (hfuel : xs.length < fuel + 1)
    (htest : ∀ x ∈ xs, test x.1 = some (p x.1)) :
    ∃ j, cursorIterator test e fuel i = some j ∧
      LevelContainer.iterator.Reaches e j (xs.dropWhile (fun x => !p x.1)) := by
  cases xs with
  | nil =>
    have hend : i.eq e = true := hr
    exact ⟨i, by simp only [cursorIterator, if_pos hend], hr⟩
  | cons x xs =>
    obtain ⟨h1, ⟨l, h2⟩, h3⟩ := reaches_cons_it hr
    have hne : ¬ (i.eq e = true) := by rw [h1]; simp
    have ht := htest x (List.mem_cons_self _ _)
    by_cases hp : p x.1 = true
    · refine ⟨i, ?_, ?_⟩
      · rw [hp] at ht
        simp only [cursorIterator, if_neg hne, h2, ht]
      · simp only [List.dropWhile, hp, Bool.not_true]
        exact hr
    · simp only [Bool.not_eq_true] at hp
      obtain ⟨j, hj1, hj2⟩ := cursorIncrLoop_spec test p e fuel i.incr xs h3
        (by simp only [List.length_cons] at hfuel; omega)
        (fun y hy => htest y (List.mem_cons_of_mem _ hy))
      refine ⟨j, ?_, ?_⟩
      · rw [hp] at ht
        simp only [cursorIterator, if_neg hne, h2, ht, cursorIncr]
        exact hj1
      · simp only [List.dropWhile, hp, Bool.not_false]
        exact hj2

theorem cursorLoop_spec {V : Type} (test : Nat → Option Bool) (p : Nat → Bool)
    (e : LevelContainer.iterator (DefaultNode V)) (fuel2 : Nat) :
    ∀ (fuel : Nat) (i : LevelContainer.iterator (DefaultNode V))
      (xs : List (Nat × DefaultNode V)),
      LevelContainer.iterator.Reaches e i xs → xs.length < fuel → xs.length < fuel2 + 1 →
      (∀ x ∈ xs, test x.1 = some (p x.1)) →
      (∀ x, xs.head? = some x → p x.1 = true) →
      cursorLoop test e e fuel2 fuel i = some (xs.filter (fun x => p x.1)) := by
  intro fuel
  induction fuel with
  | zero => intro i xs _ h; omega
  | succ fuel ih =>
    intro i xs hr hfuel hfuel2 htest hhead
    cases xs with
    | nil =>
      have hend : i.eq e = true := hr
      simp only [cursorLoop, if_pos hend, List.filter_nil]
    | cons x xs =>
      obtain ⟨h1, ⟨l, h2⟩, h3⟩ := reaches_cons_it hr
      have hne : ¬ (i.eq e = true) := by rw [h1]; simp
      have hp : p x.1 = true := hhead x rfl
      simp only [List.length_cons] at hfuel hfuel2
      obtain ⟨j, hj1, hj2⟩ := cursorIncrLoop_spec test p e fuel2 i.incr xs h3 (by omega)
        (fun y hy => htest y (List.mem_cons_of_mem _ hy))
      have hle := length_dropWhile_le2 (fun x : Nat × DefaultNode V => !p x.1) xs
      have hsub : ∀ y ∈ xs.dropWhile (fun x : Nat × DefaultNode V => !p x.1), y ∈ xs :=
        fun y hy => (List.dropWhile_suffix _).subset hy
      have hrec := ih j _ hj2 (by omega) (by omega)
        (fun y hy => htest y (List.mem_cons_of_mem _ (hsub y hy)))
        (fun y hy => head?_dropWhile_not (fun x : Nat × DefaultNode V => p x.1) xs y hy)
      have hinc : cursorIncr test e fuel2 i = some j := hj1
      simp only [cursorLoop, if_neg hne, h2, hinc, hrec, Option.map_some']
      rw [filter_dropWhile_not (fun x : Nat × DefaultNode V => p x.1)]
      simp [hp]

theorem allCursorLoop_spec {M : Type} (e : LevelContainer.iterator M) :
    ∀ (fuel : Nat) (i : LevelContainer.iterator M) (xs : List (Nat × M)),
      LevelContainer.iterator.Reaches e i xs → xs.length < fuel →
      allCursorLoop e fuel i = some xs := by
  intro fuel
  induction fuel with
  | zero => intro i xs _ h; omega
  | succ fuel ih =>
    intro i xs hr hfuel
    cases xs with
    | nil =>
      have hend : i.eq e = true := hr
      simp only [allCursorLoop, if_pos hend]
    | cons x xs =>
      obtain ⟨h1, ⟨l, h2⟩, h3⟩ := reaches_cons_it hr
      have hne : ¬ (i.eq e = true) := by rw [h1]; simp
      simp only [List.length_cons] at hfuel
      simp only [allCursorLoop, if_neg hne, h2, ih i.incr xs h3 (by omega), Option.map_some']

/-- From a position reached by `operator++`, the entries up to `end()` are the remaining
ones. -/
theorem reaches_of_normal {M : Type} (L : Nat) (e : LevelContainer.iterator M)
    (he1 : e.itLvl = L) (he2 : e.it = []) :
    ∀ (n : Nat) (i : LevelContainer.iterator M), LevelContainer.iterator.Normal L i →
      i.rem.length = n → LevelContainer.iterator.Reaches e i i.rem := by
  intro n
  induction n with
  | zero =>
    intro i hn hlen
    have heq := eq_end_of_normal hn he1 he2
    have hrem : i.rem = [] := List.eq_nil_of_length_eq_zero hlen
    have hit : i.it = [] := by
      unfold LevelContainer.iterator.rem at hrem
      exact (List.append_eq_nil.mp hrem).1
    rw [hrem]
    exact heq.1.mpr hit
  | succ n ih =>
    intro i hn hlen
    have heq := eq_end_of_normal hn he1 he2
    have hne : i.it ≠ [] := by
      intro h0
      rw [heq.2 h0] at hlen
      simp at hlen
    have hi := incr_spec hn hne
    cases hit : i.it with
    | nil => exact absurd hit hne
    | cons kn l =>
      have hrem : i.rem = kn :: (l ++ (i.lit.tail).flatMap (fun lm => lm.2)) := by
        unfold LevelContainer.iterator.rem
        rw [hit]
        rfl
      have hrec := ih i.incr hi.1 (by rw [hi.2, hrem]; rw [hrem] at hlen; simpa using hlen)
      rw [hi.2, hrem] at hrec
      rw [hrem]
      refine ⟨?_, by rw [hit]; rfl, hrec⟩
      cases hb : i.eq e with
      | false => rfl
      | true => exact absurd (heq.1.mp hb) hne

/-- Inside one level: from a position of the map of level `lvl`, the entries up to the
position `e` that follows the level (the first entry of the next level, or the end of the
last level) are the remaining ones of the level. -/
theorem reaches_segment {M : Type} (lvl : Nat) (m : KeyMap M) (rest : List (Nat × KeyMap M))
    (e : LevelContainer.iterator M)
    (hlast : rest = [] → e.itLvl = lvl ∧ e.it = [])
    (hnext : ∀ l1 m1 r1, rest = (l1, m1) :: r1 →
      l1 ≠ lvl ∧ m1 ≠ [] ∧ e.itLvl = l1 ∧ e.it.length = m1.length) :
    ∀ (xs : KeyMap M), xs ≠ [] →
      LevelContainer.iterator.Reaches e { lit := (lvl, m) :: rest, itLvl := lvl, it := xs } xs := by
  have hneq : ∀ (x : Nat × M) (l : KeyMap M),
      ({ lit := (lvl, m) :: rest, itLvl := lvl, it := x :: l } :
        LevelContainer.iterator M).eq e = false := by
    intro x l
    unfold LevelContainer.iterator.eq
    cases rest with
    | nil =>
      obtain ⟨_, h2⟩ := hlast rfl
      rw [h2]
      simp
    | cons lm1 r1 =>
      obtain ⟨h1, _, h3, _⟩ := hnext lm1.1 lm1.2 r1 rfl
      rw [h3]
      have : (lvl == lm1.1) = false := by
        simp only [beq_eq_false_iff_ne, ne_eq]
        exact fun h => h1 h.symm
      simp [this]
  intro xs
  induction xs with
  | nil => intro h; exact absurd rfl h
  | cons x l ih =>
    intro _
    refine ⟨hneq x l, rfl, ?_⟩
    cases l with
    | cons y ys =>
      have e1 : ({ lit := (lvl, m) :: rest, itLvl := lvl, it := x :: y :: ys } :
          LevelContainer.iterator M).incr =
          { lit := (lvl, m) :: rest, itLvl := lvl, it := y :: ys } := by
        simp [LevelContainer.iterator.incr, LevelContainer.iterator.advance]
      rw [e1]
      exact ih (by simp)
    | nil =>
      cases rest with
      | nil =>
        obtain ⟨h1, h2⟩ := hlast rfl
        have e1 : ({ lit := [(lvl, m)], itLvl := lvl, it := [x] } :
            LevelContainer.iterator M).incr = { lit := [], itLvl := lvl, it := [] } := by
          simp [LevelContainer.iterator.incr, LevelContainer.iterator.advance]
        rw [e1]
        show LevelContainer.iterator.eq _ e = true
        unfold LevelContainer.iterator.eq
        simp [h1, h2]
      | cons lm1 r1 =>
        obtain ⟨_, h2, h3, h4⟩ := hnext lm1.1 lm1.2 r1 rfl
        have e1 : ({ lit := (lvl, m) :: lm1 :: r1, itLvl := lvl, it := [x] } :
            LevelContainer.iterator M).incr =
            { lit := lm1 :: r1, itLvl := lm1.1, it := lm1.2 } := by
          have hlen : lm1.2.length ≠ 0 := fun h => h2 (List.eq_nil_of_length_eq_zero h)
          cases r1 with
          | nil =>
            simp [LevelContainer.iterator.incr, LevelContainer.iterator.advance, hlen]
          | cons a b =>
            simp [LevelContainer.iterator.incr, LevelContainer.iterator.advance, hlen]
        rw [e1]
        show LevelContainer.iterator.eq _ e = true
        unfold LevelContainer.iterator.eq
        simp [h3, h4]

/-! ## The cursors of a tree -/

theorem LevelContainer.replaceLevel_id {M : Type} (lvl : Nat) :
    ∀ (c : LevelContainer M), LevelContainer.replaceLevel c lvl id = c := by
  intro c
  induction c with
  | nil => rfl
  | cons a c ih =>
    obtain ⟨l0, m0⟩ := a
    by_cases h : l0 = lvl
    · simp [LevelContainer.replaceLevel, h]
    · simp [LevelContainer.replaceLevel, h, ih]

theorem LevelContainer.atLevel_id {M : Type} (c : LevelContainer M) (lvl : Nat) (m : KeyMap M)
    (h : LevelContainer.level? c lvl = some m) : LevelContainer.atLevel c lvl id = c := by
  unfold LevelContainer.atLevel
  rw [h]
  exact LevelContainer.replaceLevel_id lvl c

theorem LevelContainer.findLevel_spec {M : Type} (lvl : Nat) :
    ∀ (c : LevelContainer M) (l : Nat) (m : KeyMap M) (rest : List (Nat × KeyMap M)),
      LevelContainer.findLevel c lvl = (l, m) :: rest →
      l = lvl ∧ LevelContainer.level? c lvl = some m ∧ (l, m) ∈ c ∧
        (∀ lm ∈ rest, lm ∈ c) ∧ c.getLast? = ((l, m) :: rest).getLast? := by
  intro c
  induction c with
  | nil => intro l m rest h; simp [LevelContainer.findLevel] at h
  | cons a c ih =>
    intro l m rest h
    obtain ⟨l0, m0⟩ := a
    by_cases h0 : l0 = lvl
    · simp only [LevelContainer.findLevel, if_pos h0, List.cons.injEq, Prod.mk.injEq] at h
      obtain ⟨⟨rfl, rfl⟩, rfl⟩ := h
      refine ⟨h0, by simp [LevelContainer.level?, h0], List.mem_cons_self _ _,
        fun lm hlm => List.mem_cons_of_mem _ hlm, rfl⟩
    · simp only [LevelContainer.findLevel, if_neg h0] at h
      obtain ⟨h1, h2, h3, h4, h5⟩ := ih l m rest h
      refine ⟨h1, by simp only [LevelContainer.level?, if_neg h0]; exact h2,
        List.mem_cons_of_mem _ h3, fun lm hlm => List.mem_cons_of_mem _ (h4 lm hlm), ?_⟩
      cases c with
      | nil => simp [LevelContainer.findLevel] at h
      | cons b c2 =>
        rw [List.getLast?_cons_cons]
        exact h5

theorem length_le_entries_of_mem {M : Type} (l : Nat) (m : KeyMap M) :
    ∀ (c : LevelContainer M), (l, m) ∈ c → m.length ≤ (LevelContainer.entries c).length := by
  intro c
  induction c with
  | nil => intro h; exact absurd h (List.not_mem_nil _)
  | cons a c ih =>
    intro h
    have hlen : (LevelContainer.entries (a :: c)).length =
        a.2.length + (LevelContainer.entries c).length := by
      unfold LevelContainer.entries
      simp
    rw [hlen]
    rcases List.mem_cons.mp h with h1 | h1
    · rw [← h1]
      exact Nat.le_add_right _ _
    · exact Nat.le_trans (ih h1) (Nat.le_add_left _ _)

/-- Whole-tree iteration on a tree whose level 0 is populated: `begin()` leaves the tree as
it is, and the entries between `begin()` and `end()` are all the entries of the tree, level
by level. -/
theorem cursor_facts_root {M : Type} (m0 : KeyMap M) (rest : LevelContainer M)
    (hm0 : m0 ≠ []) :
    (LevelContainer.beginArgs ((0, m0) :: rest) none).1 = (0, m0) :: rest ∧
    ∃ e, LevelContainer.endArgs ((0, m0) :: rest) none = some e ∧
      LevelContainer.iterator.Reaches e (LevelContainer.beginArgs ((0, m0) :: rest) none).2
        (((0, m0) :: rest).flatMap (fun lm => lm.2)) := by
  have hbegin : LevelContainer.begin ((0, m0) :: rest) =
      ((0, m0) :: rest, { lit := (0, m0) :: rest, itLvl := 0, it := m0 }) := by
    simp [LevelContainer.begin, LevelContainer.atLevel, LevelContainer.level?,
      LevelContainer.replaceLevel, LevelContainer.findLevel]
  obtain ⟨lm, hlast⟩ : ∃ lm, ((0, m0) :: rest).getLast? = some lm :=
    ⟨_, List.getLast?_eq_getLast _ (by simp)⟩
  have hend : LevelContainer.end_ ((0, m0) :: rest) =
      some { lit := LevelContainer.findLevel ((0, m0) :: rest) lm.1, itLvl := lm.1, it := [] } := by
    unfold LevelContainer.end_
    rw [hlast]
  have hb : LevelContainer.iterator.Normal lm.1
      ({ lit := (0, m0) :: rest, itLvl := 0, it := m0 } : LevelContainer.iterator M) :=
    Or.inl ⟨hm0, by simp, rfl, by rw [hlast]; rfl⟩
  have hr := reaches_of_normal lm.1
    { lit := LevelContainer.findLevel ((0, m0) :: rest) lm.1, itLvl := lm.1, it := [] }
    rfl rfl _ _ hb rfl
  refine ⟨by show (LevelContainer.begin ((0, m0) :: rest)).1 = _; rw [hbegin], _, hend, ?_⟩
  show LevelContainer.iterator.Reaches _ (LevelContainer.begin ((0, m0) :: rest)).2 _
  rw [hbegin]
  exact hr

/-- Iteration over the level `lvl`, populated and followed by no level or by the populated
level `lvl + 1`: `begin(lvl)` and `end(lvl)` leave the tree as it is, and the entries
between them are those of the level. -/
theorem cursor_facts_level {M : Type} (c : LevelContainer M) (hc : LevelContainer.Ascending c)
    (lvl : Nat) (m : KeyMap M) (rest : List (Nat × KeyMap M))
    (hfind : LevelContainer.findLevel c lvl = (lvl, m) :: rest) (hm : m ≠ [])
    (hrest : rest = [] ∨ ∃ m1 rest1, rest = (lvl + 1, m1) :: rest1 ∧ m1 ≠ []) :
    (LevelContainer.beginArgs c (some lvl)).1 = c ∧
    LevelContainer.level? c lvl = some m ∧
    ∃ e, LevelContainer.endArgs c (some lvl) = some e ∧
      LevelContainer.iterator.Reaches e (LevelContainer.beginArgs c (some lvl)).2 m := by
  obtain ⟨_, hlev, hmem, hsub, hlast⟩ := LevelContainer.findLevel_spec lvl c lvl m rest hfind
  have hat := LevelContainer.atLevel_id c lvl m hlev
  have hbegin : LevelContainer.beginLvl c lvl =
      (c, { lit := (lvl, m) :: rest, itLvl := lvl, it := m }) := by
    unfold LevelContainer.beginLvl
    rw [hat, hfind, hlev]
    rfl
  refine ⟨by show (LevelContainer.beginLvl c lvl).1 = c; rw [hbegin], hlev, ?_⟩
  rcases hrest with h0 | ⟨m1, rest1, h1, hm1⟩
  · subst h0
    have hend : LevelContainer.end_ c =
        some { lit := LevelContainer.findLevel c lvl, itLvl := lvl, it := [] } := by
      unfold LevelContainer.end_
      rw [hlast]
      rfl
    have hE : LevelContainer.endLvl c lvl =
        some { lit := LevelContainer.findLevel c lvl, itLvl := lvl, it := [] } := by
      unfold LevelContainer.endLvl
      rw [hfind]
      show LevelContainer.end_ c = _
      rw [hend, hfind]
    refine ⟨_, hE, ?_⟩
    show LevelContainer.iterator.Reaches _ (LevelContainer.beginLvl c lvl).2 m
    rw [hbegin]
    exact reaches_segment lvl m [] _ (fun _ => ⟨rfl, rfl⟩)
      (fun l1 m1 r1 h => by simp at h) m hm
  · subst h1
    have hlev1 : LevelContainer.level? c (lvl + 1) = some m1 :=
      LevelContainer.level?_of_mem (lvl + 1) m1 c hc (hsub _ (List.mem_cons_self _ _))
    have hat1 := LevelContainer.atLevel_id c (lvl + 1) m1 hlev1
    refine ⟨{ lit := LevelContainer.findLevel c (lvl + 1), itLvl := lvl + 1, it := m1 }, ?_, ?_⟩
    · show LevelContainer.endLvl c lvl = _
      unfold LevelContainer.endLvl
      rw [hfind]
      simp only [hat1, hlev1, Option.getD_some]
    · show LevelContainer.iterator.Reaches _ (LevelContainer.beginLvl c lvl).2 m
      rw [hbegin]
      refine reaches_segment lvl m _ _ (fun h => by simp at h) ?_ m hm
      intro l1 m2 r1 h
      simp only [List.cons.injEq, Prod.mk.injEq] at h
      obtain ⟨⟨rfl, rfl⟩, _⟩ := h
      exact ⟨by omega, hm1, rfl, rfl⟩

theorem isBoundaryLoop_isSome {V : Type} (t : Orthtree V) (args : Option Nat)
    (neighb : Nat → Nat) (hend : ∃ e, LevelContainer.endArgs t args = some e)
    (hfind : ∀ n, ∃ i, LevelContainer.findArgs t n args = some i) :
    ∀ (ds : List Nat), ∃ b, Orthtree.isBoundaryLoop t args neighb ds = some b := by
  intro ds
  induction ds with
  | nil => exact ⟨false, rfl⟩
  | cons d ds ih =>
    obtain ⟨e, he⟩ := hend
    obtain ⟨i, hi⟩ := hfind (neighb d)
    by_cases heq : i.eq e = true
    · exact ⟨true, by simp only [Orthtree.isBoundaryLoop, hi, he, if_pos heq]⟩
    · obtain ⟨b, hb⟩ := ih
      exact ⟨b, by simp only [Orthtree.isBoundaryLoop, hi, he, if_neg heq]; exact hb⟩

theorem Orthtree.isBoundary_isSome {V : Type} (dim rfactor : Nat) (t : Orthtree V)
    (args : Option Nat) (hend : ∃ e, LevelContainer.endArgs t args = some e)
    (hfind : ∀ n, ∃ i, LevelContainer.findArgs t n args = some i) (k : Nat) :
    ∃ b, Orthtree.isBoundary dim rfactor t k args = some b := by
  by_cases hcodec : csg.isBoundary dim rfactor k = true
  · exact ⟨true, by simp only [Orthtree.isBoundary, if_pos hcodec]⟩
  · obtain ⟨b1, h1⟩ := isBoundaryLoop_isSome t args (getNeighborKeyMin dim rfactor k) hend hfind
      (List.range dim)
    obtain ⟨b2, h2⟩ := isBoundaryLoop_isSome t args (getNeighborKeyMax dim rfactor k) hend hfind
      (List.range dim)
    cases b1 with
    | true => exact ⟨true, by simp only [Orthtree.isBoundary, if_neg hcodec, h1]⟩
    | false => exact ⟨b2, by simp only [Orthtree.isBoundary, if_neg hcodec, h1, h2]⟩

theorem findLvl_isSome {M : Type} (c : LevelContainer M) (lvl : Nat) (m : KeyMap M)
    (hlev : LevelContainer.level? c lvl = some m)
    (hend : ∃ e, LevelContainer.endLvl c lvl = some e) (n : Nat) :
    ∃ i, LevelContainer.findLvl c n lvl = some i := by
  unfold LevelContainer.findLvl
  rw [hlev]
  cases hf : KeyMap.findIt ((some m).getD []) n with
  | nil =>
    simp only
    rw [LevelContainer.atLevel_id c lvl m hlev]
    exact hend
  | cons a l => exact ⟨_, rfl⟩

/-- The boundary and the interior cursor over a range of entries on which the tree is left
as it is: each yields the entries of the range that pass its test. -/
theorem filterCursor_spec {V : Type} (test : Orthtree V → Nat → Option Bool) (p : Nat → Bool)
    (t : Orthtree V) (args : Option Nat) (e : LevelContainer.iterator (DefaultNode V))
    (xs : List (Nat × DefaultNode V))
    (hb : (LevelContainer.beginArgs t args).1 = t)
    (he : LevelContainer.endArgs t args = some e)
    (hr : LevelContainer.iterator.Reaches e (LevelContainer.beginArgs t args).2 xs)
    (hlen : xs.length ≤ (LevelContainer.entries t).length)
    (htest : ∀ x ∈ xs, test t x.1 = some (p x.1)) :
    filterCursor test t args = some (xs.filter (fun x => p x.1)) := by
  obtain ⟨j, hj1, hj2⟩ := cursorIterator_spec (test t) p e
    ((LevelContainer.entries t).length + 1) _ xs hr (by omega) htest
  have hee : cursorIterator (test t) e ((LevelContainer.entries t).length + 1) e = some e := by
    simp only [cursorIterator, if_pos (LevelContainer.iterator.eq_self e)]
  have hle := length_dropWhile_le2 (fun x : Nat × DefaultNode V => !p x.1) xs
  have hsub : ∀ y ∈ xs.dropWhile (fun x : Nat × DefaultNode V => !p x.1), y ∈ xs :=
    fun y hy => (List.dropWhile_suffix _).subset hy
  have hloop := cursorLoop_spec (test t) p e ((LevelContainer.entries t).length + 1)
    ((LevelContainer.entries t).length + 1) j _ hj2 (by omega) (by omega)
    (fun y hy => htest y (hsub y hy))
    (fun y hy => head?_dropWhile_not (fun x : Nat × DefaultNode V => p x.1) xs y hy)
  unfold filterCursor
  rw [hb, he]
  simp only [hj1, hee, hloop]
  rw [filter_dropWhile_not (fun x : Nat × DefaultNode V => p x.1)]

theorem allCursor_spec {M : Type} (c : LevelContainer M) (args : Option Nat)
    (e : LevelContainer.iterator M) (xs : List (Nat × M))
    (hb : (LevelContainer.beginArgs c args).1 = c)
    (he : LevelContainer.endArgs c args = some e)
    (hr : LevelContainer.iterator.Reaches e (LevelContainer.beginArgs c args).2 xs)
    (hlen : xs.length ≤ (LevelContainer.entries c).length) :
    allCursor c args = some xs := by
  unfold allCursor
  rw [hb, he]
  exact allCursorLoop_spec e _ _ xs hr (by omega)

/-! ## Boundary keys of a level -/

theorem getLevel_le_iff (dim : Nat) {rfactor : Nat} (hr : 0 < rfactor) :
    ∀ (l k : Nat), getLevel dim rfactor k ≤ l ↔ k < getLevelStartingIndex dim rfactor (l + 1) := by
  have hS := sSize_pos dim hr
  intro l
  induction l with
  | zero =>
    intro k
    rw [Nat.le_zero, getLevel_eq_zero_iff]
    simp [getLevelStartingIndex]
  | succ l ih =>
    intro k
    rcases Nat.eq_zero_or_pos k with hk | hk
    · subst hk
      rw [getLevel_zero, getLevelStartingIndex_succ]
      omega
    · rw [getLevel_pos dim rfactor hk, Nat.add_le_add_iff_right, ih,
        getLevelStartingIndex_succ dim rfactor (l + 1), Nat.div_lt_iff_lt_mul hS]
      omega

/-- The box of a key whose level and level offset are known. -/
theorem getBox_eval (dim rfactor k l : Nat) (o : IntPoint) (hl : getLevel dim rfactor k = l)
    (ho : getOffsetWithinLevel dim rfactor k = o) :
    (getBox dim rfactor k).lo = o.map (fun (x : Int) => (x : ℚ) / (rfactor : ℚ) ^ l) ∧
    (getBox dim rfactor k).hi =
      o.map (fun (x : Int) => (x : ℚ) / (rfactor : ℚ) ^ l + ((rfactor : ℚ) ^ l)⁻¹) := by
  have h1 := getBox_lo dim rfactor k
  have h2 := getBox_hi dim rfactor k
  rw [hl, ho] at h1
  rw [hl, h1, List.map_map] at h2
  exact ⟨h1, h2⟩

/-! ## `interpolateTo`: the returned keys -/

theorem uniqueKeysFrom_head :
    ∀ (l : List (Nat × Point)) (a : Nat × Point), ∃ r, uniqueKeysFrom a l = a :: r := by
  intro l
  induction l with
  | nil => intro a; exact ⟨[], rfl⟩
  | cons b l ih =>
    intro a
    by_cases h : a.1 = b.1
    · simp only [uniqueKeysFrom, if_pos h]
      exact ih a
    · simp only [uniqueKeysFrom, if_neg h]
      exact ⟨_, rfl⟩

theorem cellKey_zero (dim rfactor : Nat) (p : Point) : cellKey dim rfactor p 0 = 0 := rfl

theorem getLevelStartingIndex_mono (dim rfactor : Nat) :
    ∀ (a b : Nat), a ≤ b → getLevelStartingIndex dim rfactor a ≤ getLevelStartingIndex dim rfactor b := by
  intro a b hab
  induction b with
  | zero =>
    have : a = 0 := by omega
    rw [this]
  | succ b ih =>
    rcases Nat.eq_or_lt_of_le hab with h | h
    · rw [h]
    · have h1 := ih (by omega)
      have h2 : getLevelStartingIndex dim rfactor (b + 1) =
          sSize dim rfactor ^ b + getLevelStartingIndex dim rfactor b := rfl
      omega

theorem Point.length_sub (a b : Point) (h : a.length = b.length) :
    (Point.sub a b).length = a.length := by
  unfold Point.sub
  rw [List.length_zipWith, h, Nat.min_self]

theorem IntPoint.getD_add :
    ∀ (p q : IntPoint) (i : Nat), p.length = q.length →
      (IntPoint.add p q).getD i 0 = p.getD i 0 + q.getD i 0 := by
  intro p
  induction p with
  | nil =>
    intro q i h
    cases q with
    | nil => simp [IntPoint.add]
    | cons b q => simp at h
  | cons a p ih =>
    intro q i h
    cases q with
    | nil => simp at h
    | cons b q =>
      cases i with
      | zero => simp [IntPoint.add]
      | succ i =>
        have := ih q i (by simpa using h)
        simpa [IntPoint.add] using this

theorem IntPoint.getD_smul :
    ∀ (p : IntPoint) (v : Int) (i : Nat),
      (IntPoint.smul p v).getD i 0 = v * p.getD i 0 := by
  intro p
  induction p with
  | nil => intro v i; simp [IntPoint.smul]
  | cons a p ih =>
    intro v i
    cases i with
    | zero => simp [IntPoint.smul]
    | succ i =>
      have := ih v i
      simpa [IntPoint.smul] using this

theorem getD_map_of_lt {α β : Type} (f : α → β) :
    ∀ (l : List α) (i : Nat) (d : α) (e : β), i < l.length →
      (l.map f).getD i e = f (l.getD i d) := by
  intro l
  induction l with
  | nil => intro i d e h; simp at h
  | cons a l ih =>
    intro i d e h
    cases i with
    | zero => simp
    | succ i =>
      have := ih i d e (by simpa using h)
      simpa using this

/-- The level offset of a child: `rfactor` times the offset of the parent plus the offset
of the child within the parent. -/
theorem getOffsetWithinLevel_getChildKey (dim rfactor k s : Nat) (hs : s < sSize dim rfactor) :
    getOffsetWithinLevel dim rfactor (getChildKey dim rfactor k s) =
      IntPoint.add (getOffsetWithinParent dim rfactor (getChildKey dim rfactor k s))
        (IntPoint.smul (getOffsetWithinLevel dim rfactor k) rfactor) := by
  have hp : getParentKey dim rfactor (getChildKey dim rfactor k s) = k := by
    rw [getParentKey_pos_eq dim rfactor (getChildKey_pos dim rfactor k s)]
    exact getChildKey_sub_one_div dim rfactor k s hs
  have h := getOffsetWithinLevel_pos dim rfactor (getChildKey_pos dim rfactor k s)
  rw [hp] at h
  exact h

/-- Coordinate `i < dim` of the corners of the box of a key. -/
theorem getBox_getD (dim rfactor k i : Nat) (hi : i < dim) :
    (getBox dim rfactor k).lo.getD i 0 =
      ((getOffsetWithinLevel dim rfactor k).getD i 0 : ℚ) /
        (rfactor : ℚ) ^ getLevel dim rfactor k ∧
    (getBox dim rfactor k).hi.getD i 0 =
      ((getOffsetWithinLevel dim rfactor k).getD i 0 : ℚ) /
        (rfactor : ℚ) ^ getLevel dim rfactor k +
        ((rfactor : ℚ) ^ getLevel dim rfactor k)⁻¹ := by
  have hlen : i < (getOffsetWithinLevel dim rfactor k).length := by
    rw [getOffsetWithinLevel_length]; exact hi
  obtain ⟨h1, h2⟩ := getBox_eval dim rfactor k _ _ rfl rfl
  rw [h1, h2]
  exact ⟨getD_map_of_lt _ _ i 0 0 hlen, getD_map_of_lt _ _ i 0 0 hlen⟩

/-! ## The calls of `buildTree` -/

theorem foldlM_option_map_fst {α β γ : Type} (f : β × γ → α → Option (β × γ))
    (g : β → α → Option β) :
    ∀ (l : List α) (b : β × γ),
      (∀ acc x, x ∈ l → (f acc x).map Prod.fst = g acc.1 x) →
      (l.foldlM f b).map Prod.fst = l.foldlM g b.1 := by
  intro l
  induction l with
  | nil => intro b _; rfl
  | cons x l ih =>
    intro b h
    have hx := h b x (List.mem_cons_self _ _)
    rw [List.foldlM_cons, List.foldlM_cons]
    cases hf : f b x with
    | none =>
      rw [hf] at hx
      rw [← hx]
      rfl
    | some r =>
      rw [hf] at hx
      rw [← hx]
      exact ih r (fun acc y hy => h acc y (List.mem_cons_of_mem _ hy))

theorem foldlM_option_length_le {α β : Type} (f : β → α → Option β) (len : β → Nat)
    (B : Nat) :
    ∀ (l : List α) (b r : β),
      (∀ acc x acc2, x ∈ l → f acc x = some acc2 → len acc2 ≤ len acc + B) →
      l.foldlM f b = some r → len r ≤ len b + l.length * B := by
  intro l
  induction l with
  | nil =>
    intro b r _ h
    simp only [List.foldlM_nil] at h
    cases h
    simp
  | cons x l ih =>
    intro b r hstep h
    rw [List.foldlM_cons] at h
    cases hf : f b x with
    | none => rw [hf] at h; simp at h
    | some b2 =>
      rw [hf] at h
      have h1 := hstep b x b2 (List.mem_cons_self _ _) hf
      have h2 := ih b2 r (fun acc y acc2 hy => hstep acc y acc2 (List.mem_cons_of_mem _ hy)) h
      rw [List.length_cons, Nat.succ_mul]
      omega

theorem buildTreeCalls_succ {V : Type} (dim rfactor lvlmin lvlstop : Nat)
    (pm : Nat → DefaultNode V) (ro : Nat → Bool) (fuel : Nat)
    (st : Orthtree V × List (Nat × Nat)) (key lvl : Nat) :
    buildTreeCalls dim rfactor lvlmin lvlstop pm ro (fuel + 1) st key lvl =
      if lvl = lvlstop then
        some (containerInsert dim rfactor st.1 key (pm key), st.2 ++ [(key, lvl)])
      else if ro key && decide (lvl ≥ lvlmin) then
        some (containerInsert dim rfactor st.1 key (pm key), st.2 ++ [(key, lvl)])
      else
        (List.range (sSize dim rfactor)).foldlM
          (fun acc so =>
            buildTreeCalls dim rfactor lvlmin lvlstop pm ro fuel acc
              (getChildKey dim rfactor key so) (lvl + 1))
          (LevelContainer.modify (containerInsert dim rfactor st.1 key (pm key))
            (getLevel dim rfactor key) key (fun n => { n with mIsLeaf := false }),
            st.2 ++ [(key, lvl)]) := rfl

/-- The tree that `buildTreeCalls` leaves is the one of `buildTree`. -/
theorem buildTreeCalls_fst {V : Type} (dim rfactor lvlmin lvlstop : Nat)
    (pm : Nat → DefaultNode V) (ro : Nat → Bool) :
    ∀ (fuel : Nat) (st : Orthtree V × List (Nat × Nat)) (key lvl : Nat),
      (buildTreeCalls dim rfactor lvlmin lvlstop pm ro fuel st key lvl).map Prod.fst =
        buildTree dim rfactor lvlmin lvlstop pm ro fuel st.1 key lvl := by
  intro fuel
  induction fuel with
  | zero => intro st key lvl; rfl
  | succ fuel ih =>
    intro st key lvl
    rw [buildTreeCalls_succ, buildTree_succ]
    by_cases h1 : lvl = lvlstop
    · rw [if_pos h1, if_pos h1]; rfl
    · rw [if_neg h1, if_neg h1]
      by_cases h2 : (ro key && decide (lvl ≥ lvlmin)) = true
      · rw [if_pos h2, if_pos h2]; rfl
      · rw [if_neg h2, if_neg h2]
        exact foldlM_option_map_fst _ _ _ _ (fun acc x _ => ih acc _ _)

/-- Every call of `buildTree` recorded from a call at the level of its key is made at the
level of its key. -/
theorem buildTreeCalls_levels {V : Type} (dim rfactor lvlmin lvlstop : Nat)
    (pm : Nat → DefaultNode V) (ro : Nat → Bool) :
    ∀ (fuel : Nat) (st : Orthtree V × List (Nat × Nat)) (key lvl : Nat)
      (r : Orthtree V × List (Nat × Nat)),
      lvl = getLevel dim rfactor key →
      (∀ kl ∈ st.2, kl.2 = getLevel dim rfactor kl.1) →
      buildTreeCalls dim rfactor lvlmin lvlstop pm ro fuel st key lvl = some r →
      ∀ kl ∈ r.2, kl.2 = getLevel dim rfactor kl.1 := by
  intro fuel
  induction fuel with
  | zero => intro st key lvl r _ _ h; simp [buildTreeCalls] at h
  | succ fuel ih =>
    intro st key lvl r hlvl hst h
    rw [buildTreeCalls_succ] at h
    have hnew : ∀ kl ∈ st.2 ++ [(key, lvl)], kl.2 = getLevel dim rfactor kl.1 := by
      intro kl hkl
      rcases List.mem_append.mp hkl with h1 | h1
      · exact hst kl h1
      · simp only [List.mem_singleton] at h1
        rw [h1]
        exact hlvl
    by_cases h1 : lvl = lvlstop
    · rw [if_pos h1] at h
      simp only [Option.some.injEq] at h
      rw [← h]
      exact hnew
    · rw [if_neg h1] at h
      by_cases h2 : (ro key && decide (lvl ≥ lvlmin)) = true
      · rw [if_pos h2] at h
        simp only [Option.some.injEq] at h
        rw [← h]
        exact hnew
      · rw [if_neg h2] at h
        refine foldlM_option_inv _
          (fun acc : Orthtree V × List (Nat × Nat) =>
            ∀ kl ∈ acc.2, kl.2 = getLevel dim rfactor kl.1) _ _ r ?_ hnew h
        intro acc x acc2 hx hacc hcall
        refine ih acc _ _ acc2 ?_ hacc hcall
        rw [getLevel_getChildKey dim rfactor key x (List.mem_range.mp hx), hlvl]

/-- The calls that a call of `buildTree` at a level `lvl ≤ lvlstop` adds to the record are
at most `S(lvlstop - lvl + 1) = 1 + sSize + ... + sSize^(lvlstop - lvl)`, at levels from
`lvl` to `lvlstop`. -/
theorem buildTreeCalls_length {V : Type} (dim rfactor lvlmin lvlstop : Nat)
    (pm : Nat → DefaultNode V) (ro : Nat → Bool) :
    ∀ (fuel : Nat) (st : Orthtree V × List (Nat × Nat)) (key lvl : Nat)
      (r : Orthtree V × List (Nat × Nat)),
      lvl ≤ lvlstop →
      buildTreeCalls dim rfactor lvlmin lvlstop pm ro fuel st key lvl = some r →
      r.2.length ≤ st.2.length + getLevelStartingIndex dim rfactor (lvlstop - lvl + 1) := by
  intro fuel
  induction fuel with
  | zero => intro st key lvl r _ h; simp [buildTreeCalls] at h
  | succ fuel ih =>
    intro st key lvl r hle h
    rw [buildTreeCalls_succ] at h
    have hS := getLevelStartingIndex_succ dim rfactor (lvlstop - lvl)
    by_cases h1 : lvl = lvlstop
    · rw [if_pos h1] at h
      simp only [Option.some.injEq] at h
      rw [← h, List.length_append, List.length_singleton]
      omega
    · rw [if_neg h1] at h
      by_cases h2 : (ro key && decide (lvl ≥ lvlmin)) = true
      · rw [if_pos h2] at h
        simp only [Option.some.injEq] at h
        rw [← h, List.length_append, List.length_singleton]
        omega
      · rw [if_neg h2] at h
        have hb := foldlM_option_length_le _
          (fun acc : Orthtree V × List (Nat × Nat) => acc.2.length)
          (getLevelStartingIndex dim rfactor (lvlstop - (lvl + 1) + 1)) _ _ r
          (fun acc x acc2 _ hcall => ih acc _ _ acc2 (by omega) hcall) h
        simp only [List.length_append, List.length_singleton, List.length_range] at hb
        have e : lvlstop - (lvl + 1) + 1 = lvlstop - lvl := by omega
        rw [e] at hb
        rw [hS, Nat.mul_comm]
        omega

theorem buildTreeCalls_range {V : Type} (dim rfactor lvlmin lvlstop : Nat)
    (pm : Nat → DefaultNode V) (ro : Nat → Bool) (lvl0 : Nat) :
    ∀ (fuel : Nat) (st : Orthtree V × List (Nat × Nat)) (key lvl : Nat)
      (r : Orthtree V × List (Nat × Nat)),
      lvl0 ≤ lvl → lvl ≤ lvlstop →
      (∀ kl ∈ st.2, lvl0 ≤ kl.2 ∧ kl.2 ≤ lvlstop) →
      buildTreeCalls dim rfactor lvlmin lvlstop pm ro fuel st key lvl = some r →
      ∀ kl ∈ r.2, lvl0 ≤ kl.2 ∧ kl.2 ≤ lvlstop := by
  intro fuel
  induction fuel with
  | zero => intro st key lvl r _ _ _ h; simp [buildTreeCalls] at h
  | succ fuel ih =>
    intro st key lvl r h0 hle hst h
    rw [buildTreeCalls_succ] at h
    have hnew : ∀ kl ∈ st.2 ++ [(key, lvl)], lvl0 ≤ kl.2 ∧ kl.2 ≤ lvlstop := by
      intro kl hkl
      rcases List.mem_append.mp hkl with h1 | h1
      · exact hst kl h1
      · simp only [List.mem_singleton] at h1
        rw [h1]
        exact ⟨h0, hle⟩
    by_cases h1 : lvl = lvlstop
    · rw [if_pos h1] at h
      simp only [Option.some.injEq] at h
      rw [← h]
      exact hnew
    · rw [if_neg h1] at h
      by_cases h2 : (ro key && decide (lvl ≥ lvlmin)) = true
      · rw [if_pos h2] at h
        simp only [Option.some.injEq] at h
        rw [← h]
        exact hnew
      · rw [if_neg h2] at h
        refine foldlM_option_inv _
          (fun acc : Orthtree V × List (Nat × Nat) =>
            ∀ kl ∈ acc.2, lvl0 ≤ kl.2 ∧ kl.2 ≤ lvlstop) _ _ r ?_ hnew h
        intro acc x acc2 _ hacc hcall
        exact ih acc _ _ acc2 (by omega) (by omega) hacc hcall

theorem getLevelStartingIndex_eq_sum (dim rfactor : Nat) :
    ∀ (n : Nat), getLevelStartingIndex dim rfactor n =
      (Finset.range n).sum (fun i => (rfactor ^ dim) ^ i) := by
  intro n
  induction n with
  | zero => rfl
  | succ n ih =>
    have h : getLevelStartingIndex dim rfactor (n + 1) =
        sSize dim rfactor ^ n + getLevelStartingIndex dim rfactor n := rfl
    rw [h, Finset.sum_range_succ, ← ih, sSize_eq_pow, Nat.add_comm]

/-! ## Periodicity of the key of a level offset -/

theorem tdiv_emod_pow (x : Int) (hx : 0 ≤ x) (r n : Nat) :
    Int.tdiv (x % (r : Int) ^ (n + 1)) r = Int.tdiv x r % (r : Int) ^ n := by
  obtain ⟨m, rfl⟩ := Int.eq_ofNat_of_zero_le hx
  have e1 : ((m : Int) % (r : Int) ^ (n + 1)) = ((m % r ^ (n + 1) : Nat) : Int) := by
    push_cast; rfl
  rw [e1, Int.tdiv_eq_ediv (Int.ofNat_nonneg _) (Int.ofNat_nonneg _),
    Int.tdiv_eq_ediv (Int.ofNat_nonneg _) (Int.ofNat_nonneg _)]
  have e2 : m % r ^ (n + 1) / r = m / r % r ^ n := by
    rw [pow_succ, Nat.mul_comm]
    exact Nat.mod_mul_right_div_self m r (r ^ n)
  exact_mod_cast e2

/-- The digits that `getKeyFromLevelOffset` reads over `n` levels are those of the
coordinates modulo `r^n`. -/
theorem digitKey_emod (dim : Nat) {rfactor : Nat} (hr : 0 < rfactor) :
    ∀ (n : Nat) (o : IntPoint), (∀ x ∈ o, 0 ≤ x) →
      digitKey dim rfactor n (o.map (fun x => x % (rfactor : Int) ^ n)) =
        digitKey dim rfactor n o := by
  have hr0 : (rfactor : Int) ≠ 0 := by exact_mod_cast hr.ne'
  intro n
  induction n with
  | zero => intro o _; rfl
  | succ n ih =>
    intro o ho
    have hmod : IntPoint.mod (o.map (fun x => x % (rfactor : Int) ^ (n + 1))) rfactor =
        IntPoint.mod o rfactor := by
      unfold IntPoint.mod
      rw [List.map_map]
      apply List.map_congr_left
      intro x hx
      simp only [Function.comp]
      rw [toSizeT_mod_cast (Int.emod_nonneg _ (pow_ne_zero _ hr0)), toSizeT_mod_cast (ho x hx)]
      exact Int.emod_emod_of_dvd x (dvd_pow_self _ (Nat.succ_ne_zero n))
    have hdiv : IntPoint.div (o.map (fun x => x % (rfactor : Int) ^ (n + 1))) rfactor =
        (IntPoint.div o rfactor).map (fun x => x % (rfactor : Int) ^ n) := by
      unfold IntPoint.div
      rw [List.map_map, List.map_map]
      apply List.map_congr_left
      intro x hx
      simp only [Function.comp]
      exact tdiv_emod_pow x (ho x hx) rfactor n
    have hnn : ∀ x ∈ IntPoint.div o rfactor, 0 ≤ x := by
      intro x hx
      simp only [IntPoint.div, List.mem_map] at hx
      obtain ⟨a, ha, rfl⟩ := hx
      rw [Int.tdiv_eq_ediv (ho a ha) (Int.ofNat_nonneg rfactor)]
      exact Int.ediv_nonneg (ho a ha) (Int.ofNat_nonneg rfactor)
    rw [digitKey_succ, digitKey_succ, hmod, hdiv, ih _ hnn]

theorem map_emod_of_range (N : Int) :
    ∀ (o : IntPoint), (∀ x ∈ o, 0 ≤ x ∧ x < N) → o.map (fun x => x % N) = o := by
  intro o
  induction o with
  | nil => intro _; rfl
  | cons x o ih =>
    intro h
    have hx := h x (List.mem_cons_self _ _)
    rw [List.map_cons, Int.emod_eq_of_lt hx.1 hx.2,
      ih (fun y hy => h y (List.mem_cons_of_mem _ hy))]

/-- An in-range offset whose coordinate `a` is the last of the level, moved by one on the
axis `a` and reduced modulo the size of the level, is the offset with the coordinate `a`
set to zero. -/
theorem addAt_one_emod (N : Int) :
    ∀ (o : IntPoint) (a : Nat), (∀ x ∈ o, 0 ≤ x ∧ x < N) → a < o.length →
      o.getD a 0 = N - 1 →
      (IntPoint.addAt o a 1).map (fun x => x % N) = o.set a 0 := by
  intro o
  induction o with
  | nil => intro a _ ha; simp at ha
  | cons x o ih =>
    intro a h ha hlast
    have htail : ∀ y ∈ o, 0 ≤ y ∧ y < N := fun y hy => h y (List.mem_cons_of_mem _ hy)
    cases a with
    | zero =>
      have hx : x = N - 1 := by simpa using hlast
      have e : x + 1 = N := by omega
      simp only [IntPoint.addAt, List.map_cons, List.set_cons_zero]
      rw [e, Int.emod_self, map_emod_of_range N o htail]
    | succ a =>
      have hx := h x (List.mem_cons_self _ _)
      simp only [IntPoint.addAt, List.map_cons, List.set_cons_succ]
      rw [Int.emod_eq_of_lt hx.1 hx.2,
        ih a htail (by simpa using ha) (by simpa using hlast)]

/-! ## `interpolateTo`: the box of the leaf of the descent -/

theorem wrap_of_lt {x : Nat} (h : x < 2 ^ 64) : Machine.wrap x = x := Nat.mod_eq_of_lt h

theorem toInt_of_range {x : Int} (h0 : -2 ^ 31 ≤ x) (h1 : x < 2 ^ 31) :
    Machine.toInt x = x := by
  unfold Machine.toInt
  rw [Int.emod_eq_of_lt (by omega) (by omega)]
  omega

theorem toInt_natCast {n : Nat} (h : n < 2 ^ 31) : Machine.toInt (n : Int) = (n : Int) :=
  toInt_of_range (by omega) (by omega)

theorem ulpExp_of_lt {n : Nat} (h : n < 2 ^ 53) (f : Nat) :
    Machine.ulpExp (f + 1) n 0 = 0 := by
  unfold Machine.ulpExp
  rw [if_pos (by rw [Nat.pow_zero, Nat.div_one]; exact h)]

theorem roundNat_of_lt {n : Nat} (h : n < 2 ^ 53) : Machine.roundNat n = n := by
  have e : Machine.ulpExp 1024 n 0 = 0 := ulpExp_of_lt h 1023
  unfold Machine.roundNat
  rw [e, Nat.pow_zero, Nat.mod_one, Nat.div_one, Nat.mul_one, if_pos (by decide)]

theorem toDouble_of_nonneg {x : Int} (h0 : 0 ≤ x) (h1 : x < 2 ^ 53) :
    Machine.toDouble x = x := by
  unfold Machine.toDouble
  rw [if_neg (by omega), roundNat_of_lt (by omega)]
  omega

theorem toDouble_natCast {n : Nat} (h : n < 2 ^ 53) : Machine.toDouble (n : Int) = (n : Int) :=
  toDouble_of_nonneg (by omega) (by omega)

theorem ofDouble_natCast {n : Nat} (h : n < 2 ^ 64) : Machine.ofDouble (n : Int) = n := by
  unfold Machine.ofDouble
  rw [Int.emod_eq_of_lt (by omega) (by omega)]
  simp

theorem machine_pow_eq {x y : Nat} (hx : x < 2 ^ 53) (h : x ^ y < 2 ^ 53) :
    Machine.pow x y = ((x ^ y : Nat) : Int) := by
  unfold Machine.pow
  rw [toDouble_natCast hx, ← Nat.cast_pow]
  exact toDouble_natCast h

theorem pow_le_pow_succ_of (v p : Nat) : v ^ p ≤ max 1 (v ^ (p + 1)) := by
  rcases Nat.eq_zero_or_pos v with hv | hv
  · subst hv
    rcases Nat.eq_zero_or_pos p with hp | hp
    · subst hp; simp
    · simp [Nat.zero_pow hp]
  · exact le_max_of_le_right (Nat.pow_le_pow_right hv (Nat.le_succ p))

theorem machine_Power_eq (v : Nat) : ∀ p, v ^ p < 2 ^ 64 → Machine.Power v p = v ^ p
  | 0, _ => rfl
  | p + 1, h => by
    have hp : v ^ p < 2 ^ 64 := by
      have := pow_le_pow_succ_of v p
      rcases le_max_iff.mp this with h1 | h1
      · omega
      · omega
    show Machine.wrap (v * Machine.Power v p) = v ^ (p + 1)
    rw [machine_Power_eq v p hp, Nat.mul_comm, ← Nat.pow_succ]
    exact wrap_of_lt h

theorem machine_sSize_eq {dim rfactor : Nat} (h : rfactor ^ dim < 2 ^ 64) :
    Machine.sSize dim rfactor = sSize dim rfactor := by
  rw [sSize_eq_pow]
  exact machine_Power_eq rfactor dim h

theorem machine_getLevelLoop_eq {dim rfactor : Nat}
    (h : Machine.sSize dim rfactor = sSize dim rfactor) :
    ∀ (f key lvl : Nat),
      Machine.getLevelLoop dim rfactor f key lvl = getLevelLoop dim rfactor f key lvl := by
  intro f
  induction f with
  | zero => intro key lvl; rfl
  | succ f ih =>
    intro key lvl
    unfold Machine.getLevelLoop getLevelLoop
    rw [h, ih]

theorem machine_getLevel_eq {dim rfactor : Nat} (h : rfactor ^ dim < 2 ^ 64) (key : Nat) :
    Machine.getLevel dim rfactor key = getLevel dim rfactor key :=
  machine_getLevelLoop_eq (machine_sSize_eq h) key key 0

theorem machine_getParentKey_eq {dim rfactor : Nat} (h : rfactor ^ dim < 2 ^ 64) (key : Nat) :
    Machine.getParentKey dim rfactor key = getParentKey dim rfactor key := by
  unfold Machine.getParentKey getParentKey
  rw [machine_sSize_eq h]

theorem machine_getSiblingIndex_eq {dim rfactor : Nat} (h : rfactor ^ dim < 2 ^ 64)
    (key : Nat) :
    Machine.getSiblingIndex dim rfactor key = getSiblingIndex dim rfactor key := by
  unfold Machine.getSiblingIndex getSiblingIndex
  rw [machine_sSize_eq h]

theorem machine_getChildKey_eq {dim rfactor : Nat} (h : rfactor ^ dim < 2 ^ 64) (k s : Nat)
    (hfit : k * rfactor ^ dim + 1 + s < 2 ^ 64) :
    Machine.getChildKey dim rfactor k s = getChildKey dim rfactor k s := by
  unfold Machine.getChildKey getChildKey
  rw [machine_sSize_eq h, sSize_eq_pow]
  exact wrap_of_lt hfit

/-! ## Machine arithmetic: the offsets within `int` -/

theorem machine_getOffsetWithinParentLoop_eq {rfactor : Nat} (hr : 0 < rfactor)
    (hr2 : rfactor ≤ 2 ^ 31) :
    ∀ (n k : Nat), k < 2 ^ 64 →
      Machine.getOffsetWithinParentLoop rfactor n k = getOffsetWithinParentLoop rfactor n k := by
  intro n
  induction n with
  | zero => intro k _; rfl
  | succ n ih =>
    intro k hk
    have hm : k % rfactor < rfactor := Nat.mod_lt _ hr
    have hle : k % rfactor ≤ k := Nat.mod_le _ _
    have e1 : Machine.toInt ((k % rfactor : Nat) : Int) = ((k % rfactor : Nat) : Int) :=
      toInt_of_range (by omega) (by omega)
    have e2 : toSizeT ((k % rfactor : Nat) : Int) = k % rfactor := by
      rw [toSizeT_of_nonneg (Int.ofNat_nonneg _)]
      exact Int.toNat_natCast _
    have e3 : Machine.wrap (k + (2 ^ 64 - k % rfactor)) = k - k % rfactor := by
      unfold Machine.wrap
      have : k + (2 ^ 64 - k % rfactor) = (k - k % rfactor) + 2 ^ 64 := by omega
      rw [this, Nat.add_mod_right]
      exact Nat.mod_eq_of_lt (by omega)
    have hnext : (k - k % rfactor) / rfactor < 2 ^ 64 :=
      Nat.lt_of_le_of_lt (Nat.div_le_self _ _) (by omega)
    unfold Machine.getOffsetWithinParentLoop getOffsetWithinParentLoop
    rw [e1, e2, e3, ih _ hnext]

theorem machine_getOffsetWithinParent_eq {dim rfactor : Nat} (hr : 0 < rfactor)
    (h64 : rfactor ^ dim < 2 ^ 64) (hr2 : rfactor ≤ 2 ^ 31) (key : Nat) :
    Machine.getOffsetWithinParent dim rfactor key = getOffsetWithinParent dim rfactor key := by
  unfold Machine.getOffsetWithinParent getOffsetWithinParent
  rw [machine_getSiblingIndex_eq h64]
  apply machine_getOffsetWithinParentLoop_eq hr hr2
  unfold getSiblingIndex
  have := Nat.mod_lt (decr key) (sSize_pos dim hr)
  rw [sSize_eq_pow] at this ⊢
  omega

theorem machine_smul_eq (p : IntPoint) (v : Int)
    (h : ∀ x ∈ p, -2 ^ 31 ≤ v * x ∧ v * x < 2 ^ 31) :
    Machine.smul p v = IntPoint.smul p v :=
  List.map_congr_left (fun x hx => toInt_of_range (h x hx).1 (h x hx).2)

theorem machine_add_eq (A B : Int) (hAB : A + B ≤ 2 ^ 31) :
    ∀ (p q : IntPoint), (∀ x ∈ p, 0 ≤ x ∧ x < A) → (∀ y ∈ q, 0 ≤ y ∧ y ≤ B) →
      Machine.add p q = IntPoint.add p q := by
  intro p
  induction p with
  | nil => intro q _ _; rfl
  | cons a p ih =>
    intro q hp hq
    cases q with
    | nil => rfl
    | cons b q =>
      have ha := hp a (List.mem_cons_self _ _)
      have hb := hq b (List.mem_cons_self _ _)
      have e : Machine.toInt (a + b) = a + b := toInt_of_range (by omega) (by omega)
      show Machine.toInt (a + b) :: Machine.add p q = (a + b) :: IntPoint.add p q
      rw [e, ih q (fun x hx => hp x (List.mem_cons_of_mem _ hx))
        (fun y hy => hq y (List.mem_cons_of_mem _ hy))]

theorem machine_getOffsetWithinLevelLoop_eq {dim rfactor : Nat} (hr : 0 < rfactor)
    (h64 : rfactor ^ dim < 2 ^ 64) :
    ∀ (f key mult : Nat) (off : IntPoint), off.length = dim →
      (∀ x ∈ off, 0 ≤ x ∧ x < (mult : Int)) →
      mult * rfactor ^ getLevel dim rfactor key < 2 ^ 31 →
      Machine.getOffsetWithinLevelLoop dim rfactor f key mult off =
        getOffsetWithinLevelLoop dim rfactor f key mult off := by
  intro f
  induction f with
  | zero => intro key mult off _ _ _; rfl
  | succ f ih =>
    intro key mult off hlen hoff hb
    unfold Machine.getOffsetWithinLevelLoop getOffsetWithinLevelLoop
    by_cases hk : key > 0
    · rw [if_pos hk, if_pos hk]
      have hlev : getLevel dim rfactor key =
          getLevel dim rfactor (getParentKey dim rfactor key) + 1 := by
        rw [getParentKey_pos_eq dim rfactor hk]
        exact getLevel_pos dim rfactor hk
      rw [hlev, Nat.pow_succ, ← Nat.mul_assoc] at hb
      have hpl : 0 < rfactor ^ getLevel dim rfactor (getParentKey dim rfactor key) :=
        pow_pos hr _
      have hmr : mult * rfactor < 2 ^ 31 := by
        have h1 : mult * rfactor ≤ mult * rfactor ^
            getLevel dim rfactor (getParentKey dim rfactor key) * rfactor := by
          apply Nat.mul_le_mul_right
          exact Nat.le_mul_of_pos_right _ hpl
        have h2 : mult * rfactor ^ getLevel dim rfactor (getParentKey dim rfactor key) *
            rfactor = mult * rfactor * rfactor ^
              getLevel dim rfactor (getParentKey dim rfactor key) := by ring
        omega
      have hb2 : mult * rfactor *
          rfactor ^ getLevel dim rfactor (getParentKey dim rfactor key) < 2 ^ 31 := by
        have h2 : mult * rfactor ^ getLevel dim rfactor (getParentKey dim rfactor key) *
            rfactor = mult * rfactor * rfactor ^
              getLevel dim rfactor (getParentKey dim rfactor key) := by ring
        omega
      rcases Nat.eq_zero_or_pos mult with hm0 | hm0
      · -- no offset lies in `[0, 0)`: the point has no coordinate
        subst hm0
        have hnil : off = [] := by
          cases off with
          | nil => rfl
          | cons a off =>
            have := hoff a (List.mem_cons_self _ _)
            simp at this
            omega
        subst hnil
        have hd : dim = 0 := hlen.symm
        subst hd
        rw [machine_getParentKey_eq h64]
        simp only [Nat.zero_mul, Machine.wrap, Nat.zero_mod]
        have e0 : Machine.add [] (Machine.smul (Machine.getOffsetWithinParent 0 rfactor key)
            (Machine.toInt ((0 : Nat) : Int))) = [] := rfl
        have e1 : IntPoint.add [] (IntPoint.smul (getOffsetWithinParent 0 rfactor key)
            ((0 : Nat) : Int)) = [] := rfl
        rw [e0, e1]
        exact ih _ 0 [] rfl (fun x hx => absurd hx (List.not_mem_nil _)) (by simp)
      · have hrle : rfactor ≤ 2 ^ 31 := by
          have : rfactor ≤ mult * rfactor := Nat.le_mul_of_pos_left _ hm0
          omega
        have hm31 : mult < 2 ^ 31 := by
          have : mult ≤ mult * rfactor := Nat.le_mul_of_pos_right _ hr
          omega
        have hw := getOffsetWithinParent_range dim hr key
        have hwl := getOffsetWithinParent_length dim rfactor key
        have hsm : ∀ y ∈ IntPoint.smul (getOffsetWithinParent dim rfactor key) (mult : Int),
            0 ≤ y ∧ y ≤ (mult : Int) * ((rfactor : Int) - 1) := by
          intro y hy
          obtain ⟨x, hx, rfl⟩ := List.mem_map.mp hy
          have hx2 := hw x hx
          constructor
          · exact Int.mul_nonneg (Int.ofNat_nonneg _) hx2.1
          · exact Int.mul_le_mul_of_nonneg_left (by omega) (Int.ofNat_nonneg _)
        have hmrI : (mult : Int) * (rfactor : Int) < 2 ^ 31 := by exact_mod_cast hmr
        have e1 : Machine.toInt (mult : Int) = (mult : Int) := toInt_natCast hm31
        have e2 : Machine.smul (getOffsetWithinParent dim rfactor key) (mult : Int) =
            IntPoint.smul (getOffsetWithinParent dim rfactor key) (mult : Int) := by
          apply machine_smul_eq
          intro x hx
          have hx2 := hw x hx
          have h1 : 0 ≤ (mult : Int) * x := Int.mul_nonneg (Int.ofNat_nonneg _) hx2.1
          have h2 : (mult : Int) * x ≤ (mult : Int) * ((rfactor : Int) - 1) :=
            Int.mul_le_mul_of_nonneg_left (by omega) (Int.ofNat_nonneg _)
          have h3 : (mult : Int) * ((rfactor : Int) - 1) =
              (mult : Int) * (rfactor : Int) - (mult : Int) := by ring
          constructor
          · linarith
          · linarith
        have e3 : Machine.add off
            (IntPoint.smul (getOffsetWithinParent dim rfactor key) (mult : Int)) =
            IntPoint.add off
              (IntPoint.smul (getOffsetWithinParent dim rfactor key) (mult : Int)) := by
          apply machine_add_eq (mult : Int) ((mult : Int) * ((rfactor : Int) - 1)) _ _ _ hoff hsm
          have h3 : (mult : Int) * ((rfactor : Int) - 1) =
              (mult : Int) * (rfactor : Int) - (mult : Int) := by ring
          linarith
        rw [machine_getParentKey_eq h64, machine_getOffsetWithinParent_eq hr h64 hrle, e1, e2, e3,
          wrap_of_lt (by omega)]
        apply ih
        · rw [IntPoint.length_add, IntPoint.length_smul, hwl, hlen, Nat.min_self]
        · have := mem_add_smul_range (w := off) (X := getOffsetWithinParent dim rfactor key)
            (r := (mult : Int)) (N := (rfactor : Int)) (by rw [hlen, hwl]) hoff hw
          intro x hx
          have h := this x hx
          push_cast
          exact h
        · exact hb2
    · rw [if_neg hk, if_neg hk]

theorem machine_getOffsetWithinLevel_eq {dim rfactor key : Nat}
    (h : OffsetRange dim rfactor (getLevel dim rfactor key)) :
    Machine.getOffsetWithinLevel dim rfactor key = getOffsetWithinLevel dim rfactor key := by
  obtain ⟨hr, h64, h31⟩ := h
  apply machine_getOffsetWithinLevelLoop_eq hr h64 key key 1 (IntPoint.zero dim)
    (IntPoint.length_zero dim)
  · intro x hx
    have : x = 0 := List.eq_of_mem_replicate hx
    subst this
    simp
  · omega

theorem machine_getLevelOffset_eq {dim rfactor key : Nat}
    (h : OffsetRange dim rfactor (getLevel dim rfactor key)) :
    Machine.getLevelOffset dim rfactor key = getLevelOffset dim rfactor key :=
  machine_getOffsetWithinLevel_eq h

theorem machine_pow_eq_pow {x y : Nat} (h : x ^ y < 2 ^ 53) :
    Machine.pow x y = ((x ^ y : Nat) : Int) := by
  rcases Nat.eq_zero_or_pos y with hy | hy
  · subst hy
    unfold Machine.pow
    rw [pow_zero]
    exact toDouble_natCast (n := 1) (by decide)
  · apply machine_pow_eq _ h
    rcases Nat.eq_zero_or_pos x with hx | hx
    · subst hx; decide
    · have : x ≤ x ^ y := Nat.le_self_pow (by omega) x
      omega

theorem machine_isBoundary_eq {dim rfactor key : Nat}
    (h : OffsetRange dim rfactor (getLevel dim rfactor key)) :
    Machine.isBoundary dim rfactor key = isBoundary dim rfactor key := by
  have hoff := machine_getLevelOffset_eq h
  obtain ⟨hr, h64, h31⟩ := h
  have hp : 0 < rfactor ^ getLevel dim rfactor key := pow_pos hr _
  unfold Machine.isBoundary isBoundary
  rw [hoff, machine_getLevel_eq h64, machine_pow_eq_pow (by omega)]
  have e : ((rfactor ^ getLevel dim rfactor key : Nat) : Int) - 1 =
      ((rfactor ^ getLevel dim rfactor key - 1 : Nat) : Int) := by omega
  rw [e, toDouble_natCast (by omega), ofDouble_natCast (by omega)]

theorem machine_getBox_eq {dim rfactor key : Nat}
    (h : OffsetRange dim rfactor (getLevel dim rfactor key)) :
    Machine.getBox dim rfactor key = getBox dim rfactor key := by
  unfold Machine.getBox getBox
  rw [machine_getOffsetWithinLevel_eq h, machine_getLevel_eq h.2.1]

/-! ## Machine arithmetic: the keys within `double` -/

theorem machine_getLevelStartingIndex_eq {dim rfactor : Nat} (h64 : rfactor ^ dim < 2 ^ 64) :
    ∀ (l : Nat), getLevelStartingIndex dim rfactor l < 2 ^ 53 →
      Machine.getLevelStartingIndex dim rfactor l = getLevelStartingIndex dim rfactor l := by
  intro l
  induction l with
  | zero => intro _; rfl
  | succ l ih =>
    intro h
    have hS : getLevelStartingIndex dim rfactor (l + 1) =
        sSize dim rfactor ^ l + getLevelStartingIndex dim rfactor l := rfl
    rw [hS] at h
    show Machine.ofDouble (Machine.toDouble
      (Machine.pow (Machine.sSize dim rfactor) l +
        Machine.toDouble (Machine.getLevelStartingIndex dim rfactor l : Nat))) = _
    rw [ih (by omega), machine_sSize_eq h64, machine_pow_eq_pow (by omega),
      toDouble_natCast (by omega), ← Nat.cast_add, toDouble_natCast (by omega),
      ofDouble_natCast (by omega), hS]

theorem machine_multLoop_eq {rfactor : Nat} (hr : 0 < rfactor) :
    ∀ (n c : Nat), c * rfactor ^ n < 2 ^ 31 →
      Machine.multLoop rfactor n c = multLoop rfactor n c := by
  intro n
  induction n with
  | zero => intro c _; rfl
  | succ n ih =>
    intro c h
    have hp : 0 < rfactor ^ n := pow_pos hr _
    have e : c * rfactor ^ (n + 1) = c * rfactor * rfactor ^ n := by ring
    have h1 : c * rfactor ≤ c * rfactor * rfactor ^ n := Nat.le_mul_of_pos_right _ hp
    have h2 : c ≤ c * rfactor := Nat.le_mul_of_pos_right _ hr
    show Machine.toInt (c : Int) :: Machine.multLoop rfactor n (Machine.wrap (c * rfactor)) =
      (c : Int) :: multLoop rfactor n (c * rfactor)
    rw [toInt_natCast (by omega), wrap_of_lt (by omega), ih (c * rfactor) (by omega)]

theorem machine_mod_eq {rfactor : Nat} (hr : 0 < rfactor) (hr2 : rfactor ≤ 2 ^ 31)
    (p : IntPoint) : Machine.mod p rfactor = IntPoint.mod p rfactor := by
  apply List.map_congr_left
  intro a _
  have := Nat.mod_lt (toSizeT a) hr
  exact toInt_natCast (by omega)

theorem tdiv_int_range (a : Int) (r : Nat) (h0 : -2 ^ 31 ≤ a) (h1 : a < 2 ^ 31) :
    -2 ^ 31 ≤ Int.tdiv a r ∧ Int.tdiv a r < 2 ^ 31 := by
  have hrI : (0 : Int) ≤ (r : Int) := Int.ofNat_nonneg r
  rcases Int.le_total 0 a with ha | ha
  · rw [Int.tdiv_eq_ediv ha hrI]
    have h2 : a / (r : Int) ≤ a := Int.ediv_le_self _ ha
    have h3 : 0 ≤ a / (r : Int) := Int.ediv_nonneg ha hrI
    constructor <;> omega
  · have hb : 0 ≤ -a := by omega
    have e : Int.tdiv a r = -Int.tdiv (-a) r := by
      rw [Int.neg_tdiv, Int.neg_neg]
    rw [e, Int.tdiv_eq_ediv hb hrI]
    have h2 : -a / (r : Int) ≤ -a := Int.ediv_le_self _ hb
    have h3 : 0 ≤ -a / (r : Int) := Int.ediv_nonneg hb hrI
    constructor <;> omega

theorem machine_div_eq {rfactor : Nat} (hr2 : rfactor < 2 ^ 31)
    (p : IntPoint) (hp : ∀ a ∈ p, -2 ^ 31 ≤ a ∧ a < 2 ^ 31) :
    Machine.div p (Machine.toInt (rfactor : Int)) = IntPoint.div p rfactor := by
  rw [toInt_natCast hr2]
  apply List.map_congr_left
  intro a ha
  have := tdiv_int_range a rfactor (hp a ha).1 (hp a ha).2
  exact toInt_of_range this.1 this.2

theorem div_int_range (rfactor : Nat) (p : IntPoint)
    (hp : ∀ a ∈ p, -2 ^ 31 ≤ a ∧ a < 2 ^ 31) :
    ∀ a ∈ IntPoint.div p rfactor, -2 ^ 31 ≤ a ∧ a < 2 ^ 31 := by
  intro y hy
  obtain ⟨a, ha, rfl⟩ := List.mem_map.mp hy
  exact tdiv_int_range a rfactor (hp a ha).1 (hp a ha).2

theorem zipWith_multLoop_toInt {rfactor : Nat} (hr : 0 < rfactor) :
    ∀ (n c : Nat) (v : IntPoint), c * rfactor ^ n < 2 ^ 31 →
      (∀ x ∈ v, 0 ≤ x ∧ x < (rfactor : Int)) →
      List.zipWith (fun a b => Machine.toInt (a * b)) (multLoop rfactor n c) v =
        List.zipWith (fun a b => a * b) (multLoop rfactor n c) v ∧
      ∀ y ∈ List.zipWith (fun (a b : Int) => a * b) (multLoop rfactor n c) v, 0 ≤ y := by
  intro n
  induction n with
  | zero =>
    intro c v _ _
    exact ⟨rfl, fun y hy => absurd hy (List.not_mem_nil _)⟩
  | succ n ih =>
    intro c v h hv
    cases v with
    | nil => exact ⟨rfl, fun y hy => absurd hy (List.not_mem_nil _)⟩
    | cons b v =>
      have hp : 0 < rfactor ^ n := pow_pos hr _
      have e : c * rfactor ^ (n + 1) = c * rfactor * rfactor ^ n := by ring
      have h1 : c * rfactor ≤ c * rfactor * rfactor ^ n := Nat.le_mul_of_pos_right _ hp
      have hb := hv b (List.mem_cons_self _ _)
      have hcb0 : 0 ≤ (c : Int) * b := Int.mul_nonneg (Int.ofNat_nonneg _) hb.1
      have hcb1 : (c : Int) * b ≤ (c : Int) * ((rfactor : Int) - 1) :=
        Int.mul_le_mul_of_nonneg_left (by omega) (Int.ofNat_nonneg _)
      have hcr : (c : Int) * (rfactor : Int) < 2 ^ 31 := by
        have : c * rfactor < 2 ^ 31 := by omega
        exact_mod_cast this
      have h3 : (c : Int) * ((rfactor : Int) - 1) = (c : Int) * (rfactor : Int) - (c : Int) := by
        ring
      have hc0 : (0 : Int) ≤ (c : Int) := Int.ofNat_nonneg _
      have e1 : Machine.toInt ((c : Int) * b) = (c : Int) * b :=
        toInt_of_range (by linarith) (by linarith)
      obtain ⟨ih1, ih2⟩ := ih (c * rfactor) v (by omega)
        (fun x hx => hv x (List.mem_cons_of_mem _ hx))
      constructor
      · show Machine.toInt ((c : Int) * b) ::
            List.zipWith (fun a b => Machine.toInt (a * b)) (multLoop rfactor n (c * rfactor)) v =
          ((c : Int) * b) ::
            List.zipWith (fun a b => a * b) (multLoop rfactor n (c * rfactor)) v
        rw [e1, ih1]
      · intro y hy
        have hy2 : y ∈ ((c : Int) * b) ::
            List.zipWith (fun (a b : Int) => a * b) (multLoop rfactor n (c * rfactor)) v := hy
        rcases List.mem_cons.mp hy2 with rfl | h
        · exact hcb0
        · exact ih2 y h

theorem foldl_toDouble_eq_sum :
    ∀ (xs : List Int) (acc : Int), 0 ≤ acc → (∀ x ∈ xs, 0 ≤ x) → acc + xs.sum < 2 ^ 53 →
      xs.foldl (fun dt x => Machine.toDouble (dt + x)) acc = acc + xs.sum := by
  intro xs
  induction xs with
  | nil => intro acc _ _ _; simp
  | cons x xs ih =>
    intro acc h0 hx h
    have hx0 := hx x (List.mem_cons_self _ _)
    have hs : 0 ≤ xs.sum := List.sum_nonneg (fun y hy => hx y (List.mem_cons_of_mem _ hy))
    rw [List.sum_cons] at h
    rw [List.foldl_cons, toDouble_of_nonneg (by omega) (by omega),
      ih (acc + x) (by omega) (fun y hy => hx y (List.mem_cons_of_mem _ hy)) (by omega),
      List.sum_cons]
    omega

theorem machine_dot_eq {dim rfactor : Nat} (hr : 0 < rfactor) (h31 : rfactor ^ dim < 2 ^ 31)
    (v : IntPoint) (hv : ∀ x ∈ v, 0 ≤ x ∧ x < (rfactor : Int)) :
    Machine.dot (multLoop rfactor dim 1) v = IntPoint.dot (multLoop rfactor dim 1) v := by
  obtain ⟨h1, h2⟩ := zipWith_multLoop_toInt hr dim 1 v (by omega) hv
  have h3 := dot_multLoop_lt hr dim v hv
  have h4 : ((rfactor ^ dim : Nat) : Int) < 2 ^ 31 := by exact_mod_cast h31
  unfold Machine.dot
  rw [h1, foldl_toDouble_eq_sum _ 0 (le_refl 0) h2]
  · rw [Int.zero_add]
    rfl
  · rw [Int.zero_add]
    have h5 : (List.zipWith (fun (a b : Int) => a * b) (multLoop rfactor dim 1) v).sum =
        IntPoint.dot (multLoop rfactor dim 1) v := rfl
    rw [h5]
    omega

theorem machine_accumulate_eq {tot ct : Nat} {dt : Int} (h0 : 0 ≤ dt)
    (h : tot + ct * dt.toNat < 2 ^ 53) :
    Machine.accumulate tot ct dt = tot + ct * dt.toNat := by
  obtain ⟨m, rfl⟩ := Int.eq_ofNat_of_zero_le h0
  rw [Int.toNat_natCast] at h ⊢
  unfold Machine.accumulate
  rcases Nat.eq_zero_or_pos m with hm | hm
  · subst hm
    have e0 : Machine.toDouble ((ct : Nat) : Int) * ((0 : Nat) : Int) = ((0 : Nat) : Int) := by
      simp
    rw [e0, toDouble_natCast (by omega), toDouble_natCast (by omega), ← Nat.cast_add,
      toDouble_natCast (by omega), ofDouble_natCast (by omega)]
    simp
  · have hct : ct ≤ ct * m := Nat.le_mul_of_pos_right _ hm
    rw [toDouble_natCast (by omega), toDouble_natCast (by omega), ← Nat.cast_mul,
      toDouble_natCast (by omega), ← Nat.cast_add, toDouble_natCast (by omega),
      ofDouble_natCast (by omega)]

theorem machine_getKeyFromLevelOffsetLoop_eq {dim rfactor : Nat} (hr : 0 < rfactor)
    (hr2 : rfactor < 2 ^ 31) (h31 : rfactor ^ dim < 2 ^ 31) :
    ∀ (n ct : Nat) (off : IntPoint) (tot : Nat),
      (∀ a ∈ off, -2 ^ 31 ≤ a ∧ a < 2 ^ 31) → tot < ct * sSize dim rfactor →
      ct * sSize dim rfactor ^ (n + 1) < 2 ^ 53 →
      Machine.getKeyFromLevelOffsetLoop dim rfactor (multLoop rfactor dim 1) n ct off tot =
        getKeyFromLevelOffsetLoop dim rfactor (multLoop rfactor dim 1) n ct off tot := by
  intro n
  induction n with
  | zero => intro ct off tot _ _ _; rfl
  | succ n ih =>
    intro ct off tot hoff htot hb
    have hS := sSize_pos dim hr
    have hSn : 0 < sSize dim rfactor ^ (n + 1) := pow_pos hS _
    have e : ct * sSize dim rfactor ^ (n + 1 + 1) =
        ct * sSize dim rfactor * sSize dim rfactor ^ (n + 1) := by ring
    have e' : ct * sSize dim rfactor ^ (n + 1 + 1) =
        ct * sSize dim rfactor * sSize dim rfactor * sSize dim rfactor ^ n := by ring
    have hpn : 0 < sSize dim rfactor ^ n := pow_pos hS _
    have h1 : ct * sSize dim rfactor * sSize dim rfactor ≤
        ct * sSize dim rfactor * sSize dim rfactor * sSize dim rfactor ^ n :=
      Nat.le_mul_of_pos_right _ hpn
    have h2 : ct * sSize dim rfactor ≤ ct * sSize dim rfactor * sSize dim rfactor :=
      Nat.le_mul_of_pos_right _ hS
    have hdt0 : 0 ≤ IntPoint.dot (multLoop rfactor dim 1)
        (IntPoint.mod (IntPoint.div off rfactor) rfactor) :=
      dot_multLoop_nonneg rfactor dim _ (fun x hx => (IntPoint.mod_range hr _ x hx).1)
    have hdt1 := dot_mod_lt_sSize dim hr (IntPoint.div off rfactor)
    have hacc : tot + ct * sSize dim rfactor *
          (IntPoint.dot (multLoop rfactor dim 1)
            (IntPoint.mod (IntPoint.div off rfactor) rfactor)).toNat <
        ct * sSize dim rfactor * sSize dim rfactor := by
      have h3 : ct * sSize dim rfactor *
          ((IntPoint.dot (multLoop rfactor dim 1)
            (IntPoint.mod (IntPoint.div off rfactor) rfactor)).toNat + 1) ≤
          ct * sSize dim rfactor * sSize dim rfactor := Nat.mul_le_mul_left _ hdt1
      rw [Nat.mul_add, Nat.mul_one] at h3
      omega
    unfold Machine.getKeyFromLevelOffsetLoop getKeyFromLevelOffsetLoop
    rw [machine_sSize_eq (by omega), machine_div_eq hr2 off hoff, machine_mod_eq hr (by omega),
      machine_dot_eq hr h31 _ (IntPoint.mod_range hr _), wrap_of_lt (by omega),
      machine_accumulate_eq hdt0 (by omega)]
    apply ih
    · exact div_int_range rfactor off hoff
    · exact hacc
    · omega

theorem digitKey_lt (dim : Nat) {rfactor : Nat} (hr : 0 < rfactor) :
    ∀ (n : Nat) (off : IntPoint), digitKey dim rfactor n off < sSize dim rfactor ^ n := by
  intro n
  induction n with
  | zero => intro off; simp [digitKey]
  | succ n ih =>
    intro off
    have h1 := dot_mod_lt_sSize dim hr off
    have h2 := ih (IntPoint.div off rfactor)
    rw [digitKey_succ, Nat.pow_succ]
    have h3 : sSize dim rfactor * (digitKey dim rfactor n (IntPoint.div off rfactor) + 1) ≤
        sSize dim rfactor * sSize dim rfactor ^ n := Nat.mul_le_mul_left _ h2
    rw [Nat.mul_add, Nat.mul_one] at h3
    rw [Nat.mul_comm (sSize dim rfactor ^ n)]
    omega

theorem sSize_pow_lt_getLevelStartingIndex (dim rfactor l : Nat) :
    sSize dim rfactor ^ l < getLevelStartingIndex dim rfactor (l + 1) + 1 := by
  show _ < sSize dim rfactor ^ l + getLevelStartingIndex dim rfactor l + 1
  omega

theorem getKeyFromLevelOffset_lt (dim : Nat) {rfactor : Nat} (hr : 0 < rfactor) {l : Nat}
    (hl : 0 < l) (off : IntPoint) :
    getKeyFromLevelOffset dim rfactor l off < getLevelStartingIndex dim rfactor (l + 1) := by
  rw [getKeyFromLevelOffset_eq, decr_pos hl]
  have e : l - 1 + 1 = l := by omega
  rw [e]
  have := digitKey_lt dim hr l off
  show _ < sSize dim rfactor ^ l + getLevelStartingIndex dim rfactor l
  omega

theorem machine_getKeyFromLevelOffset_eq {dim rfactor l : Nat} (hl : 0 < l)
    (hK : KeyRange dim rfactor l) (off : IntPoint)
    (hoff : ∀ a ∈ off, -2 ^ 31 ≤ a ∧ a < 2 ^ 31) :
    Machine.getKeyFromLevelOffset dim rfactor l off = getKeyFromLevelOffset dim rfactor l off := by
  obtain ⟨hr, hr2, h31, hl31, h53⟩ := hK
  have hS := sSize_pos dim hr
  have hlt := getKeyFromLevelOffset_lt dim hr hl off
  have hSl : getLevelStartingIndex dim rfactor l < 2 ^ 53 := by
    have : getLevelStartingIndex dim rfactor (l + 1) =
        sSize dim rfactor ^ l + getLevelStartingIndex dim rfactor l := rfl
    omega
  have hpl := sSize_pow_lt_getLevelStartingIndex dim rfactor l
  have hdt0 : 0 ≤ IntPoint.dot (multLoop rfactor dim 1) (IntPoint.mod off rfactor) :=
    dot_multLoop_nonneg rfactor dim _ (fun x hx => (IntPoint.mod_range hr _ x hx).1)
  have hdt1 := dot_mod_lt_sSize dim hr off
  have hS31 : sSize dim rfactor < 2 ^ 31 := by rw [sSize_eq_pow]; exact h31
  have hd : decr l + 1 = l := by rw [decr_pos hl]; omega
  unfold Machine.getKeyFromLevelOffset
  rw [machine_getLevelStartingIndex_eq (by omega) l hSl, machine_multLoop_eq hr dim 1 (by omega),
    machine_mod_eq hr (by omega), machine_dot_eq hr h31 _ (IntPoint.mod_range hr _),
    machine_accumulate_eq hdt0 (by omega),
    machine_getKeyFromLevelOffsetLoop_eq hr hr2 h31 _ _ _ _ hoff (by omega)
      (by rw [hd]; omega)]
  exact wrap_of_lt (by unfold getKeyFromLevelOffset at hlt; omega)

/-! ## Ranges, neighbors and boxes in exact arithmetic -/

/-- In exact arithmetic: each level occupies a contiguous key range. With `S = getLevelStartingIndex`
(`S(0) = 0`, `S(l+1) = S(l) + (r^d)^l`) and `E(l) = S(l) + (r^d)^l - 1`, a key `k` has
`getLevel(k) = l` if and only if `S(l) ≤ k ≤ E(l)`. -/
theorem getLevel_eq_iff_range (dim rfactor : Nat) (hr : 0 < rfactor) (k l : Nat) :
    (getLevelStartingIndex dim rfactor 0 = 0 ∧
      ∀ n, getLevelStartingIndex dim rfactor (n + 1) =
        getLevelStartingIndex dim rfactor n + (rfactor ^ dim) ^ n) ∧
    (getLevel dim rfactor k = l ↔
      getLevelStartingIndex dim rfactor l ≤ k ∧
        k ≤ getLevelStartingIndex dim rfactor l + (rfactor ^ dim) ^ l - 1) := by
  refine ⟨⟨rfl, fun n => ?_⟩, ?_⟩
  · show sSize dim rfactor ^ n + getLevelStartingIndex dim rfactor n = _
    rw [sSize_eq_pow, Nat.add_comm]
  · have hS := sSize_pos dim hr
    rw [← sSize_eq_pow dim rfactor]
    induction l generalizing k with
    | zero =>
      rw [getLevel_eq_zero_iff]
      simp [getLevelStartingIndex]
    | succ l ih =>
      have hpow : 0 < sSize dim rfactor ^ (l + 1) := pow_pos hS _
      rcases Nat.eq_zero_or_pos k with hk | hk
      · subst hk
        rw [getLevel_zero, getLevelStartingIndex_succ]
        omega
      · rw [getLevel_pos dim rfactor hk, Nat.add_right_cancel_iff]
        refine (ih ((k - 1) / sSize dim rfactor)).trans ?_
        rw [getLevelStartingIndex_succ]
        have hpl : 0 < sSize dim rfactor ^ l := pow_pos hS _
        have h1 : getLevelStartingIndex dim rfactor l ≤ (k - 1) / sSize dim rfactor ↔
            getLevelStartingIndex dim rfactor l * sSize dim rfactor ≤ k - 1 :=
          Nat.le_div_iff_mul_le hS
        have h2 : (k - 1) / sSize dim rfactor <
              getLevelStartingIndex dim rfactor l + sSize dim rfactor ^ l ↔
            k - 1 < (getLevelStartingIndex dim rfactor l + sSize dim rfactor ^ l) *
              sSize dim rfactor := Nat.div_lt_iff_lt_mul hS
        have h3 : (getLevelStartingIndex dim rfactor l + sSize dim rfactor ^ l) *
              sSize dim rfactor =
            getLevelStartingIndex dim rfactor l * sSize dim rfactor +
              sSize dim rfactor ^ (l + 1) := by
          rw [Nat.add_mul, Nat.pow_succ]
        rw [h3] at h2
        omega

/-- In exact arithmetic: for every key `k` with level `l` and level offset `o`, the codec's
`isBoundary(k)` is true if and only if some axis `a < d` has `o[a] = 0` or
`o[a] = r^l - 1`; equivalently, if and only if on some axis the offset perturbed by `-1`
(the one `getNeighborKeyMin` rebuilds the key from) or by `+1` (the one of
`getNeighborKeyMax`) has a coordinate outside `[0, r^l)`. In particular the root is a
boundary key. -/
theorem isBoundary_iff_perturbed (dim rfactor : Nat) (hd : 0 < dim) (hr : 0 < rfactor) (k : Nat) :
    (isBoundary dim rfactor k = true ↔
      ∃ a, a < dim ∧
        ((getOffsetWithinLevel dim rfactor k).getD a 0 = 0 ∨
          (getOffsetWithinLevel dim rfactor k).getD a 0 =
            (rfactor : Int) ^ getLevel dim rfactor k - 1)) ∧
    (isBoundary dim rfactor k = true ↔
      ∃ a, a < dim ∧
        ((¬ ∀ x ∈ IntPoint.addAt (getLevelOffset dim rfactor k) a (-1),
            0 ≤ x ∧ x < (rfactor : Int) ^ getLevel dim rfactor k) ∨
          ¬ ∀ x ∈ IntPoint.addAt (getOffsetWithinLevel dim rfactor k) a 1,
            0 ≤ x ∧ x < (rfactor : Int) ^ getLevel dim rfactor k)) ∧
    isBoundary dim rfactor 0 = true := by
  have hlen := getOffsetWithinLevel_length dim rfactor k
  have hrange := getOffsetWithinLevel_range dim hr k
  refine ⟨isBoundary_iff dim hr k, ?_, ?_⟩
  · rw [isBoundary_iff dim hr k]
    apply exists_congr
    intro a
    apply and_congr_right
    intro ha
    have ha2 : a < (getOffsetWithinLevel dim rfactor k).length := by omega
    have h0 := hrange _ (getD_mem_of_lt ha2)
    have e : getLevelOffset dim rfactor k = getOffsetWithinLevel dim rfactor k := rfl
    rw [e, IntPoint.forall_mem_addAt_iff _ _ a (-1) ha2 hrange,
      IntPoint.forall_mem_addAt_iff _ _ a 1 ha2 hrange]
    omega
  · rw [isBoundary_iff dim hr 0]
    refine ⟨0, hd, Or.inl ?_⟩
    obtain ⟨n, rfl⟩ : ∃ n, dim = n + 1 := ⟨dim - 1, by omega⟩
    rfl

/-- In exact arithmetic: neighbor symmetry. For every key `k` with level `l` and every axis `a < d` such
that `getOffsetWithinLevel(k)[a] + 1 < r^l`, the key `k' = getNeighborKeyMax(k, a)`
satisfies `getNeighborKeyMin(k', a) = k`. -/
theorem neighbor_symmetry (dim rfactor : Nat) (hr : 0 < rfactor) (k a : Nat)
    (ha : a < dim)
    (hmax : (getOffsetWithinLevel dim rfactor k).getD a 0 + 1 <
      (rfactor : Int) ^ getLevel dim rfactor k) :
    getNeighborKeyMin dim rfactor (getNeighborKeyMax dim rfactor k a) a = k := by
  have hlen := getOffsetWithinLevel_length dim rfactor k
  have hrange := getOffsetWithinLevel_range dim hr k
  have ha2 : a < (getOffsetWithinLevel dim rfactor k).length := by omega
  have hnn := (hrange _ (getD_mem_of_lt ha2)).1
  have hrange2 : ∀ x ∈ IntPoint.addAt (getOffsetWithinLevel dim rfactor k) a 1,
      0 ≤ x ∧ x < (rfactor : Int) ^ getLevel dim rfactor k :=
    (IntPoint.forall_mem_addAt_iff _ _ a 1 ha2 hrange).mpr ⟨by omega, hmax⟩
  have hlen2 : (IntPoint.addAt (getOffsetWithinLevel dim rfactor k) a 1).length = dim := by
    rw [IntPoint.length_addAt, hlen]
  unfold getNeighborKeyMin getNeighborKeyMax getLevelOffset
  rw [← getOffsetWithinLevel,
    getLevel_getKeyFromLevelOffset dim hr _ _ hlen2 hrange2,
    getOffsetWithinLevel_getKeyFromLevelOffset dim hr _ _ hlen2 hrange2,
    IntPoint.addAt_addAt_neg]
  exact getKeyFromLevelOffset_getLevel dim hr k

/-- In exact arithmetic: for every key `k` other than the root (`k > 0`, that is
`getLevel(k) ≥ 1`; cells on the domain edge included), every key in
`getEqualSizedNeighborKeys(k)` has the same level as `k`. -/
theorem neighbors_same_level (dim rfactor : Nat) (hr : 0 < rfactor) (k : Nat)
    (hk : 0 < k) :
    ∀ n ∈ getEqualSizedNeighborKeys dim rfactor k,
      getLevel dim rfactor n = getLevel dim rfactor k := by
  intro n hn
  rcases getLevel_of_mem_spawnNeighbors dim hr _ [] k hk n hn with h | h
  · simp at h
  · exact h

/-- In exact arithmetic: for every key `k` with level `l` and level offset `o`, over exact rationals,
`getBox(k)` has `lo[i] = o[i] / r^l` and `hi[i] = lo[i] + r^(-l)` on each of the `d` axes,
and therefore `0 ≤ lo[i] < hi[i] ≤ 1`: the box lies inside the unit cube. -/
theorem getBox_unit_cube (dim rfactor : Nat) (hr : 0 < rfactor) (k : Nat) :
    (getBox dim rfactor k).lo =
      (getOffsetWithinLevel dim rfactor k).map
        (fun (x : Int) => (x : ℚ) / (rfactor : ℚ) ^ getLevel dim rfactor k) ∧
    (getBox dim rfactor k).hi =
      (getBox dim rfactor k).lo.map
        (fun y => y + ((rfactor : ℚ) ^ getLevel dim rfactor k)⁻¹) ∧
    (getBox dim rfactor k).lo.length = dim ∧ (getBox dim rfactor k).hi.length = dim ∧
    ∀ i, i < dim →
      0 ≤ (getBox dim rfactor k).lo.getD i 0 ∧
      (getBox dim rfactor k).lo.getD i 0 < (getBox dim rfactor k).hi.getD i 0 ∧
      (getBox dim rfactor k).hi.getD i 0 ≤ 1 := by
  have hlo := getBox_lo dim rfactor k
  have hhi := getBox_hi dim rfactor k
  have hlen := getOffsetWithinLevel_length dim rfactor k
  have hlolen : (getBox dim rfactor k).lo.length = dim := by
    rw [hlo, List.length_map, hlen]
  have hhilen : (getBox dim rfactor k).hi.length = dim := by
    rw [hhi, List.length_map, hlolen]
  refine ⟨hlo, hhi, hlolen, hhilen, ?_⟩
  intro i hi
  have hi1 : i < (getOffsetWithinLevel dim rfactor k).length := by omega
  have hrange := getOffsetWithinLevel_range dim hr k _ (getD_mem_of_lt hi1)
  rw [List.getD_eq_getElem _ _ hi1] at hrange
  have hpos : (0 : ℚ) < (rfactor : ℚ) ^ getLevel dim rfactor k :=
    pow_pos (by exact_mod_cast hr) _
  have e1 : (getBox dim rfactor k).lo.getD i 0 =
      ((getOffsetWithinLevel dim rfactor k)[i] : ℚ) / (rfactor : ℚ) ^ getLevel dim rfactor k := by
    rw [List.getD_eq_getElem _ _ (by omega)]
    simp only [hlo, List.getElem_map]
  have e2 : (getBox dim rfactor k).hi.getD i 0 =
      ((getOffsetWithinLevel dim rfactor k)[i] : ℚ) / (rfactor : ℚ) ^ getLevel dim rfactor k +
        ((rfactor : ℚ) ^ getLevel dim rfactor k)⁻¹ := by
    rw [List.getD_eq_getElem _ _ (by omega)]
    simp only [hhi, hlo, List.getElem_map]
  have h0 : (0 : ℚ) ≤ ((getOffsetWithinLevel dim rfactor k)[i] : ℚ) := by
    exact_mod_cast hrange.1
  have h1 : ((getOffsetWithinLevel dim rfactor k)[i] : ℚ) + 1 ≤
      (rfactor : ℚ) ^ getLevel dim rfactor k := by
    have : (getOffsetWithinLevel dim rfactor k)[i] + 1 ≤
        (rfactor : Int) ^ getLevel dim rfactor k := by omega
    exact_mod_cast this
  rw [e1, e2]
  refine ⟨div_nonneg h0 hpos.le, ?_, ?_⟩
  · have := inv_pos.mpr hpos
    linarith
  · have e3 : ((getOffsetWithinLevel dim rfactor k)[i] : ℚ) /
          (rfactor : ℚ) ^ getLevel dim rfactor k +
        ((rfactor : ℚ) ^ getLevel dim rfactor k)⁻¹ =
        (((getOffsetWithinLevel dim rfactor k)[i] : ℚ) + 1) /
          (rfactor : ℚ) ^ getLevel dim rfactor k := by
      field_simp
    rw [e3, div_le_one hpos]
    exact h1

/-- In exact arithmetic: for every key `k` at level `l` whose offset `o` has every coordinate in
`[1, r^l - 2]`, `getEqualSizedNeighborKeys(k)` is a list of exactly `3^d` pairwise distinct
keys, all at level `l`, whose level offsets are exactly the points `o + delta` with
`delta` in `{-1, 0, 1}^d`; for `d = 2`, `r = 2` and the key 8 (level 2, offset `(1,1)`) the
offsets are the nine points `(0,0), ..., (2,2)`. -/
theorem equal_sized_neighbors_interior (dim rfactor : Nat) (hd : 0 < dim)
    (hr : 0 < rfactor) (k : Nat)
    (hint : ∀ x ∈ getOffsetWithinLevel dim rfactor k,
      1 ≤ x ∧ x ≤ (rfactor : Int) ^ getLevel dim rfactor k - 2) :
    (getEqualSizedNeighborKeys dim rfactor k).length = 3 ^ dim ∧
    (getEqualSizedNeighborKeys dim rfactor k).Nodup ∧
    (∀ n ∈ getEqualSizedNeighborKeys dim rfactor k,
      getLevel dim rfactor n = getLevel dim rfactor k) ∧
    (∀ p : IntPoint,
      p ∈ (getEqualSizedNeighborKeys dim rfactor k).map (getOffsetWithinLevel dim rfactor) ↔
        p.length = dim ∧
        ∀ i, i < dim →
          p.getD i 0 = (getOffsetWithinLevel dim rfactor k).getD i 0 - 1 ∨
          p.getD i 0 = (getOffsetWithinLevel dim rfactor k).getD i 0 ∨
          p.getD i 0 = (getOffsetWithinLevel dim rfactor k).getD i 0 + 1) ∧
    (getLevel 2 2 8 = 2 ∧ getOffsetWithinLevel 2 2 8 = [1, 1] ∧
      ((getEqualSizedNeighborKeys 2 2 8).map (getOffsetWithinLevel 2 2)).Perm
        [[0, 0], [0, 1], [0, 2], [1, 0], [1, 1], [1, 2], [2, 0], [2, 1], [2, 2]]) := by
  have hlen := getOffsetWithinLevel_length dim rfactor k
  have hdl : dim - 1 < (getOffsetWithinLevel dim rfactor k).length := by omega
  have hcoord : ∀ i, i ≤ dim - 1 →
      1 ≤ (getOffsetWithinLevel dim rfactor k).getD i 0 ∧
        (getOffsetWithinLevel dim rfactor k).getD i 0 + 1 <
          (rfactor : Int) ^ getLevel dim rfactor k := by
    intro i hi
    have := hint _ (getD_mem_of_lt (by omega : i < (getOffsetWithinLevel dim rfactor k).length))
    omega
  have heq : getEqualSizedNeighborKeys dim rfactor k =
      (spawnOffsets (dim - 1) (getOffsetWithinLevel dim rfactor k)).map
        (getKeyFromLevelOffset dim rfactor (getLevel dim rfactor k)) := by
    unfold getEqualSizedNeighborKeys
    rw [decr_pos hd]
    exact spawnNeighbors_eq_map dim hr (dim - 1) k (by omega) hcoord
  have hmem : ∀ p ∈ spawnOffsets (dim - 1) (getOffsetWithinLevel dim rfactor k),
      p.length = dim ∧ ∀ x ∈ p, 0 ≤ x ∧ x < (rfactor : Int) ^ getLevel dim rfactor k := by
    intro p hp
    obtain ⟨hl, h1, _⟩ := (mem_spawnOffsets _ _ hdl p).mp hp
    refine ⟨by omega, fun x hx => ?_⟩
    obtain ⟨a, ha, hax⟩ := (exists_mem_iff_getD (fun y => y = x) p).mp ⟨x, hx, rfl⟩
    have hc := hcoord a (by omega)
    have := h1 a (by omega)
    omega
  have hround : ∀ p ∈ spawnOffsets (dim - 1) (getOffsetWithinLevel dim rfactor k),
      getOffsetWithinLevel dim rfactor
        (getKeyFromLevelOffset dim rfactor (getLevel dim rfactor k) p) = p :=
    fun p hp => getOffsetWithinLevel_getKeyFromLevelOffset dim hr _ p (hmem p hp).1 (hmem p hp).2
  refine ⟨?_, ?_, ?_, ?_, by decide, by decide, by decide⟩
  · rw [heq, List.length_map, length_spawnOffsets]
    congr 1
    omega
  · rw [heq]
    refine List.Nodup.map_on (fun p hp q hq h => ?_) (nodup_spawnOffsets _ _ hdl)
    rw [← hround p hp, ← hround q hq, h]
  · rw [heq]
    intro n hn
    obtain ⟨p, hp, rfl⟩ := List.mem_map.mp hn
    exact getLevel_getKeyFromLevelOffset dim hr _ p (hmem p hp).1 (hmem p hp).2
  · intro p
    have hmap : (getEqualSizedNeighborKeys dim rfactor k).map (getOffsetWithinLevel dim rfactor) =
        spawnOffsets (dim - 1) (getOffsetWithinLevel dim rfactor k) := by
      rw [heq, List.map_map]
      conv_rhs => rw [← List.map_id (spawnOffsets (dim - 1) (getOffsetWithinLevel dim rfactor k))]
      exact List.map_congr_left (fun q hq => hround q hq)
    rw [hmap, mem_spawnOffsets _ _ hdl p, hlen]
    constructor
    · rintro ⟨hl, h1, _⟩
      exact ⟨hl, fun i hi => h1 i (by omega)⟩
    · rintro ⟨hl, h1⟩
      refine ⟨hl, fun i hi => h1 i (by omega), fun i hi => ?_⟩
      rw [List.getD_eq_default _ _ (by omega), List.getD_eq_default _ _ (by omega)]

/-- In exact arithmetic: for every key `k` and sibling index `s < sSize`, the level offset of the child
`getChildKey(k, s)` is, coordinate by coordinate, `r` times the level offset of `k` plus
the offset of the child within its parent, a value in `[0, r)`; and the box of the child
lies inside the box of `k`. -/
theorem offset_composes (dim : Nat) {rfactor : Nat} (hr : 0 < rfactor) (k s : Nat)
    (hs : s < sSize dim rfactor) :
    getOffsetWithinLevel dim rfactor (getChildKey dim rfactor k s) =
      IntPoint.add (IntPoint.smul (getOffsetWithinLevel dim rfactor k) rfactor)
        (getOffsetWithinParent dim rfactor (getChildKey dim rfactor k s)) ∧
    ∀ i, i < dim →
      (getOffsetWithinLevel dim rfactor (getChildKey dim rfactor k s)).getD i 0 =
        (rfactor : Int) * (getOffsetWithinLevel dim rfactor k).getD i 0 +
          (getOffsetWithinParent dim rfactor (getChildKey dim rfactor k s)).getD i 0 ∧
      0 ≤ (getOffsetWithinParent dim rfactor (getChildKey dim rfactor k s)).getD i 0 ∧
      (getOffsetWithinParent dim rfactor (getChildKey dim rfactor k s)).getD i 0 <
        (rfactor : Int) ∧
      (getBox dim rfactor k).lo.getD i 0 ≤
        (getBox dim rfactor (getChildKey dim rfactor k s)).lo.getD i 0 ∧
      (getBox dim rfactor (getChildKey dim rfactor k s)).hi.getD i 0 ≤
        (getBox dim rfactor k).hi.getD i 0 := by
  have hoff := getOffsetWithinLevel_getChildKey dim rfactor k s hs
  have hlen : (getOffsetWithinParent dim rfactor (getChildKey dim rfactor k s)).length =
      (IntPoint.smul (getOffsetWithinLevel dim rfactor k) rfactor).length := by
    rw [getOffsetWithinParent_length, IntPoint.length_smul, getOffsetWithinLevel_length]
  constructor
  · rw [hoff]
    apply IntPoint.ext_getD
    · rw [IntPoint.length_add, IntPoint.length_add, hlen, Nat.min_self]
    · intro i
      rw [IntPoint.getD_add _ _ i hlen, IntPoint.getD_add _ _ i hlen.symm, Int.add_comm]
  · intro i hi
    have hcoord : (getOffsetWithinLevel dim rfactor (getChildKey dim rfactor k s)).getD i 0 =
        (rfactor : Int) * (getOffsetWithinLevel dim rfactor k).getD i 0 +
          (getOffsetWithinParent dim rfactor (getChildKey dim rfactor k s)).getD i 0 := by
      rw [hoff, IntPoint.getD_add _ _ i hlen, IntPoint.getD_smul, Int.add_comm]
    have hw := getOffsetWithinParent_range dim hr (getChildKey dim rfactor k s) _
      (getD_mem_of_lt (a := i) (by rw [getOffsetWithinParent_length]; exact hi))
    refine ⟨hcoord, hw.1, hw.2, ?_⟩
    obtain ⟨hlo, hhi⟩ := getBox_getD dim rfactor k i hi
    obtain ⟨hloc, hhic⟩ := getBox_getD dim rfactor (getChildKey dim rfactor k s) i hi
    rw [hlo, hhi, hloc, hhic, getLevel_getChildKey dim rfactor k s hs, hcoord]
    have hrq : (0 : ℚ) < (rfactor : ℚ) := by exact_mod_cast hr
    have hR : (0 : ℚ) < (rfactor : ℚ) ^ getLevel dim rfactor k := pow_pos hrq _
    have hw0 : (0 : ℚ) ≤
        ((getOffsetWithinParent dim rfactor (getChildKey dim rfactor k s)).getD i 0 : ℚ) := by
      exact_mod_cast hw.1
    have hw1 : ((getOffsetWithinParent dim rfactor (getChildKey dim rfactor k s)).getD i 0 : ℚ)
        + 1 ≤ (rfactor : ℚ) := by
      have : (getOffsetWithinParent dim rfactor (getChildKey dim rfactor k s)).getD i 0 + 1 ≤
          (rfactor : Int) := by omega
      exact_mod_cast this
    push_cast
    rw [pow_succ]
    constructor
    · rw [div_le_div_iff₀ hR (mul_pos hR hrq)]
      nlinarith [mul_nonneg hw0 hR.le]
    · have e1 : ((rfactor : ℚ) ^ getLevel dim rfactor k * (rfactor : ℚ))⁻¹ =
          1 / ((rfactor : ℚ) ^ getLevel dim rfactor k * (rfactor : ℚ)) := by
        rw [one_div]
      have e2 : ((rfactor : ℚ) ^ getLevel dim rfactor k)⁻¹ =
          1 / (rfactor : ℚ) ^ getLevel dim rfactor k := by rw [one_div]
      rw [e1, e2, ← add_div, ← add_div, div_le_div_iff₀ (mul_pos hR hrq) hR]
      nlinarith [mul_nonneg (sub_nonneg.mpr hw1) hR.le]

/-- In exact arithmetic: for every level `l ≥ 1` and every offset `o` with non-negative coordinates,
`getKeyFromLevelOffset(l, o)` is `getKeyFromLevelOffset(l, o mod r^l)`, the modulus taken
coordinate by coordinate; hence for a key `k` of level `l ≥ 1` whose level offset on the
axis `a < d` is `r^l - 1`, `getNeighborKeyMax(k, a)` is the key of level `l` whose level
offset is the one of `k` with the coordinate `a` set to `0`. -/
theorem periodic_wrap (dim : Nat) {rfactor : Nat} (hr : 0 < rfactor) (l : Nat)
    (hl : 1 ≤ l) (o : IntPoint) (ho : ∀ x ∈ o, 0 ≤ x) :
    getKeyFromLevelOffset dim rfactor l o =
      getKeyFromLevelOffset dim rfactor l (o.map (fun x => x % (rfactor : Int) ^ l)) ∧
    ∀ k a, getLevel dim rfactor k = l → a < dim →
      (getOffsetWithinLevel dim rfactor k).getD a 0 = (rfactor : Int) ^ l - 1 →
      getNeighborKeyMax dim rfactor k a =
        getKeyFromLevelOffset dim rfactor l ((getOffsetWithinLevel dim rfactor k).set a 0) ∧
      getLevel dim rfactor (getNeighborKeyMax dim rfactor k a) = l ∧
      getOffsetWithinLevel dim rfactor (getNeighborKeyMax dim rfactor k a) =
        (getOffsetWithinLevel dim rfactor k).set a 0 := by
  have hwrap : ∀ o2 : IntPoint, (∀ x ∈ o2, 0 ≤ x) →
      getKeyFromLevelOffset dim rfactor l o2 =
        getKeyFromLevelOffset dim rfactor l (o2.map (fun x => x % (rfactor : Int) ^ l)) := by
    intro o2 ho2
    have hd : decr l + 1 = l := by rw [decr_pos (by omega)]; omega
    rw [getKeyFromLevelOffset_eq, getKeyFromLevelOffset_eq, hd, digitKey_emod dim hr l o2 ho2]
  refine ⟨hwrap o ho, ?_⟩
  intro k a hk ha hlast
  have hlen := getOffsetWithinLevel_length dim rfactor k
  have hrange := getOffsetWithinLevel_range dim hr k
  rw [hk] at hrange
  have ha2 : a < (getOffsetWithinLevel dim rfactor k).length := by rw [hlen]; exact ha
  have hnn : ∀ x ∈ IntPoint.addAt (getOffsetWithinLevel dim rfactor k) a 1, 0 ≤ x := by
    rw [IntPoint.forall_mem_addAt_iff (fun x => 0 ≤ x) _ a 1 ha2
      (fun x hx => (hrange x hx).1)]
    have := (hrange _ (getD_mem_of_lt ha2)).1
    omega
  have hkey : getNeighborKeyMax dim rfactor k a =
      getKeyFromLevelOffset dim rfactor l ((getOffsetWithinLevel dim rfactor k).set a 0) := by
    unfold getNeighborKeyMax
    rw [hk, hwrap _ hnn, addAt_one_emod _ _ a hrange ha2 hlast]
  have hpow : (0 : Int) < (rfactor : Int) ^ l := pow_pos (by exact_mod_cast hr) _
  have hset : ∀ x ∈ (getOffsetWithinLevel dim rfactor k).set a 0,
      0 ≤ x ∧ x < (rfactor : Int) ^ l := by
    intro x hx
    rcases List.mem_or_eq_of_mem_set hx with h | h
    · exact hrange x h
    · rw [h]; exact ⟨Int.le_refl 0, hpow⟩
  have hlen2 : ((getOffsetWithinLevel dim rfactor k).set a 0).length = dim := by
    rw [List.length_set, hlen]
  refine ⟨hkey, ?_, ?_⟩
  · rw [hkey]; exact getLevel_getKeyFromLevelOffset dim hr l _ hlen2 hset
  · rw [hkey]; exact getOffsetWithinLevel_getKeyFromLevelOffset dim hr l _ hlen2 hset

/-! ## Machine arithmetic: the root level and the neighbors -/

theorem machine_div_zero (dim : Nat) (m : Int) :
    Machine.div (IntPoint.zero dim) m = IntPoint.zero dim := by
  unfold Machine.div IntPoint.zero
  rw [List.map_replicate, Int.zero_tdiv]
  rfl

theorem machine_mod_zero (dim m : Nat) :
    Machine.mod (IntPoint.zero dim) m = IntPoint.zero dim := by
  unfold Machine.mod IntPoint.zero
  rw [List.map_replicate]
  have : toSizeT 0 % m = 0 := by
    show 0 % m = 0
    exact Nat.zero_mod m
  rw [this]
  rfl

theorem machine_dot_zero : ∀ (p : IntPoint) (n : Nat), Machine.dot p (IntPoint.zero n) = 0 := by
  intro p
  induction p with
  | nil => intro n; rfl
  | cons a p ih =>
    intro n
    cases n with
    | zero => rfl
    | succ n =>
      have h := ih n
      unfold Machine.dot at h ⊢
      show List.foldl (fun dt x => Machine.toDouble (dt + x))
        0 (Machine.toInt (a * 0) ::
          List.zipWith (fun a b => Machine.toInt (a * b)) p (IntPoint.zero n)) = 0
      rw [List.foldl_cons, Int.mul_zero]
      exact h

theorem machine_getKeyFromLevelOffsetLoop_zero (dim rfactor : Nat) (mult : IntPoint) :
    ∀ (n ct tot : Nat), tot < 2 ^ 53 →
      Machine.getKeyFromLevelOffsetLoop dim rfactor mult n ct (IntPoint.zero dim) tot = tot := by
  intro n
  induction n with
  | zero => intro ct tot _; rfl
  | succ n ih =>
    intro ct tot h
    unfold Machine.getKeyFromLevelOffsetLoop
    rw [machine_div_zero, machine_mod_zero, machine_dot_zero,
      machine_accumulate_eq (le_refl 0) (by simpa using h)]
    simpa using ih _ tot h

theorem machine_getKeyFromLevelOffset_zero_of_div_zero (dim rfactor : Nat) (o : IntPoint)
    (h : Machine.div o (Machine.toInt (rfactor : Int)) = IntPoint.zero dim)
    (ht : Machine.accumulate 0 1
      (Machine.dot (Machine.multLoop rfactor dim 1) (Machine.mod o rfactor)) < 2 ^ 53) :
    Machine.getKeyFromLevelOffset dim rfactor 0 o =
      Machine.accumulate 0 1
        (Machine.dot (Machine.multLoop rfactor dim 1) (Machine.mod o rfactor)) := by
  unfold Machine.getKeyFromLevelOffset
  generalize decr 0 = n
  cases n with
  | zero =>
    simp only [Machine.getKeyFromLevelOffsetLoop, Machine.getLevelStartingIndex, Nat.zero_add]
    exact wrap_of_lt (by omega)
  | succ n =>
    unfold Machine.getKeyFromLevelOffsetLoop
    rw [h, machine_mod_zero, machine_dot_zero, machine_accumulate_eq (le_refl 0) (by simpa using ht),
      machine_getKeyFromLevelOffsetLoop_zero _ _ _ _ _ _ (by simpa using ht)]
    show Machine.wrap (0 + _) = _
    simp only [Int.toNat_zero, Nat.mul_zero, Nat.add_zero, Nat.zero_add]
    exact wrap_of_lt (by omega)

theorem machine_getKeyFromLevelOffset_zero_zero (dim rfactor : Nat) :
    Machine.getKeyFromLevelOffset dim rfactor 0 (IntPoint.zero dim) = 0 := by
  have e : Machine.accumulate 0 1
      (Machine.dot (Machine.multLoop rfactor dim 1)
        (Machine.mod (IntPoint.zero dim) rfactor)) = 0 := by
    rw [machine_mod_zero, machine_dot_zero]
    rfl
  rw [machine_getKeyFromLevelOffset_zero_of_div_zero dim rfactor _ (machine_div_zero dim _)
    (by rw [e]; decide), e]

theorem keyRange_offsetRange {dim rfactor l : Nat} (h : KeyRange dim rfactor l) :
    OffsetRange dim rfactor l := by
  obtain ⟨hr, _, h31, hl, _⟩ := h
  exact ⟨hr, by omega, hl⟩

theorem keyRange_mono {dim rfactor l m : Nat} (h : KeyRange dim rfactor l) (hm : m ≤ l) :
    KeyRange dim rfactor m := by
  obtain ⟨hr, hr2, h31, hl, h53⟩ := h
  refine ⟨hr, hr2, h31, ?_, ?_⟩
  · exact Nat.lt_of_le_of_lt (Nat.pow_le_pow_right hr hm) hl
  · exact Nat.lt_of_le_of_lt (getLevelStartingIndex_mono dim rfactor _ _ (by omega)) h53

theorem machine_getKeyFromLevelOffset_eq_of_range {dim rfactor l : Nat}
    (hK : KeyRange dim rfactor l) (o : IntPoint) (hlen : o.length = dim)
    (ho : ∀ x ∈ o, 0 ≤ x ∧ x < (rfactor : Int) ^ l) :
    Machine.getKeyFromLevelOffset dim rfactor l o = getKeyFromLevelOffset dim rfactor l o := by
  rcases Nat.eq_zero_or_pos l with hl | hl
  · subst hl
    have hz : o = IntPoint.zero dim :=
      IntPoint.eq_zero_of_range_one hlen (fun x hx => by simpa using ho x hx)
    rw [hz, machine_getKeyFromLevelOffset_zero_zero, getKeyFromLevelOffset_zero_zero]
  · apply machine_getKeyFromLevelOffset_eq hl hK
    intro a ha
    have h1 := ho a ha
    have h2 : ((rfactor : Int)) ^ l < 2 ^ 31 := by exact_mod_cast hK.2.2.2.1
    omega

theorem mem_addAt : ∀ (o : IntPoint) (a : Nat) (v y : Int),
    y ∈ IntPoint.addAt o a v → y ∈ o ∨ ∃ x ∈ o, y = x + v := by
  intro o
  induction o with
  | nil => intro a v y hy; exact absurd hy (List.not_mem_nil _)
  | cons b o ih =>
    intro a v y hy
    cases a with
    | zero =>
      have hy2 : y ∈ (b + v) :: o := hy
      rcases List.mem_cons.mp hy2 with rfl | h
      · exact Or.inr ⟨b, List.mem_cons_self _ _, rfl⟩
      · exact Or.inl (List.mem_cons_of_mem _ h)
    | succ a =>
      have hy2 : y ∈ b :: IntPoint.addAt o a v := hy
      rcases List.mem_cons.mp hy2 with rfl | h
      · exact Or.inl (List.mem_cons_self _ _)
      · rcases ih a v y h with h1 | ⟨x, hx, rfl⟩
        · exact Or.inl (List.mem_cons_of_mem _ h1)
        · exact Or.inr ⟨x, List.mem_cons_of_mem _ hx, rfl⟩

theorem machine_addAt_eq : ∀ (o : IntPoint) (a : Nat) (v : Int),
    (∀ x ∈ o, -2 ^ 31 ≤ x + v ∧ x + v < 2 ^ 31) →
      Machine.addAt o a v = IntPoint.addAt o a v := by
  intro o
  induction o with
  | nil => intro a v _; rfl
  | cons b o ih =>
    intro a v h
    cases a with
    | zero =>
      have hb := h b (List.mem_cons_self _ _)
      show Machine.toInt (b + v) :: o = (b + v) :: o
      rw [toInt_of_range hb.1 hb.2]
    | succ a =>
      show b :: Machine.addAt o a v = b :: IntPoint.addAt o a v
      rw [ih a v (fun x hx => h x (List.mem_cons_of_mem _ hx))]

theorem machine_neighbor_eq {dim rfactor k : Nat} (hk : 0 < k)
    (hK : KeyRange dim rfactor (getLevel dim rfactor k)) (a : Nat) (v : Int)
    (hv : -1 ≤ v ∧ v ≤ 1) :
    Machine.getKeyFromLevelOffset dim rfactor (Machine.getLevel dim rfactor k)
        (Machine.addAt (Machine.getOffsetWithinLevel dim rfactor k) a v) =
      getKeyFromLevelOffset dim rfactor (getLevel dim rfactor k)
        (IntPoint.addAt (getOffsetWithinLevel dim rfactor k) a v) := by
  have hO := keyRange_offsetRange hK
  have hrange := getOffsetWithinLevel_range dim hK.1 k
  have h31 : ((rfactor : Int)) ^ getLevel dim rfactor k < 2 ^ 31 := by
    exact_mod_cast hK.2.2.2.1
  rw [machine_getLevel_eq hO.2.1, machine_getOffsetWithinLevel_eq hO,
    machine_addAt_eq _ _ _ (fun x hx => by have := hrange x hx; omega)]
  apply machine_getKeyFromLevelOffset_eq (getLevel_pos_of_pos dim rfactor hk) hK
  intro y hy
  rcases mem_addAt _ _ _ _ hy with h | ⟨x, hx, rfl⟩
  · have := hrange y h
    omega
  · have := hrange x hx
    omega

theorem machine_getNeighborKeyMax_eq {dim rfactor k : Nat} (hk : 0 < k)
    (hK : KeyRange dim rfactor (getLevel dim rfactor k)) (a : Nat) :
    Machine.getNeighborKeyMax dim rfactor k a = getNeighborKeyMax dim rfactor k a :=
  machine_neighbor_eq hk hK a 1 (by omega)

theorem machine_getNeighborKeyMin_eq {dim rfactor k : Nat} (hk : 0 < k)
    (hK : KeyRange dim rfactor (getLevel dim rfactor k)) (a : Nat) :
    Machine.getNeighborKeyMin dim rfactor k a = getNeighborKeyMin dim rfactor k a :=
  machine_neighbor_eq hk hK a (-1) (by omega)

theorem machine_spawnNeighbors_eq {dim rfactor : Nat} :
    ∀ (d : Nat) (v : List Nat) (k : Nat), 0 < k →
      KeyRange dim rfactor (getLevel dim rfactor k) →
      Machine.spawnNeighbors dim rfactor d v k = spawnNeighbors dim rfactor d v k := by
  intro d
  induction d with
  | zero =>
    intro v k hk hK
    unfold Machine.spawnNeighbors spawnNeighbors
    rw [machine_getNeighborKeyMin_eq hk hK, machine_getNeighborKeyMax_eq hk hK]
  | succ d ih =>
    intro v k hk hK
    have hr := hK.1
    have hl1 := getLevel_getNeighborKeyMin dim hr hk (d + 1)
    have hl2 := getLevel_getNeighborKeyMax dim hr hk (d + 1)
    have hp := getLevel_pos_of_pos dim rfactor hk
    have hk1 : 0 < getNeighborKeyMin dim rfactor k (d + 1) :=
      pos_of_getLevel_pos dim rfactor (by rw [hl1]; exact hp)
    have hk2 : 0 < getNeighborKeyMax dim rfactor k (d + 1) :=
      pos_of_getLevel_pos dim rfactor (by rw [hl2]; exact hp)
    unfold Machine.spawnNeighbors spawnNeighbors
    rw [machine_getNeighborKeyMin_eq hk hK, machine_getNeighborKeyMax_eq hk hK,
      ih _ _ hk1 (by rw [hl1]; exact hK), ih _ _ hk2 (by rw [hl2]; exact hK), ih _ _ hk hK]

theorem machine_getEqualSizedNeighborKeys_eq {dim rfactor k : Nat} (hk : 0 < k)
    (hK : KeyRange dim rfactor (getLevel dim rfactor k)) :
    Machine.getEqualSizedNeighborKeys dim rfactor k = getEqualSizedNeighborKeys dim rfactor k :=
  machine_spawnNeighbors_eq _ _ k hk hK

/-! ## Machine arithmetic: the neighbors of the root and the periodic wrap -/

theorem tdiv_unit_eq_zero {a : Int} {r : Nat} (hr : 2 ≤ r) (h0 : -1 ≤ a) (h1 : a ≤ 1) :
    Int.tdiv a r = 0 := by
  have hrI : (0 : Int) ≤ (r : Int) := Int.ofNat_nonneg r
  have h2 : (1 : Int) / (r : Int) = 0 := Int.ediv_eq_zero_of_lt (by omega) (by omega)
  rcases (by omega : a = -1 ∨ a = 0 ∨ a = 1) with rfl | rfl | rfl
  · have e : Int.tdiv (-1) r = -Int.tdiv 1 r := Int.neg_tdiv 1 r
    rw [e, Int.tdiv_eq_ediv (by omega) hrI, h2]
    rfl
  · exact Int.zero_tdiv _
  · rw [Int.tdiv_eq_ediv (by omega) hrI, h2]

theorem div_unit_eq_zero {dim r : Nat} (hr : 2 ≤ r) (o : IntPoint) (hlen : o.length = dim)
    (ho : ∀ a ∈ o, -1 ≤ a ∧ a ≤ 1) : IntPoint.div o r = IntPoint.zero dim := by
  unfold IntPoint.div IntPoint.zero
  rw [← hlen]
  apply List.eq_replicate_iff.mpr
  refine ⟨List.length_map _ _, ?_⟩
  intro y hy
  obtain ⟨a, ha, rfl⟩ := List.mem_map.mp hy
  exact tdiv_unit_eq_zero hr (ho a ha).1 (ho a ha).2

theorem machine_mod_one (o : IntPoint) : Machine.mod o 1 = IntPoint.zero o.length := by
  unfold Machine.mod IntPoint.zero
  apply List.eq_replicate_iff.mpr
  refine ⟨List.length_map _ _, ?_⟩
  intro y hy
  obtain ⟨a, _, rfl⟩ := List.mem_map.mp hy
  rw [Nat.mod_one]
  rfl

theorem machine_getKeyFromLevelOffsetLoop_one (dim : Nat) (mult : IntPoint) :
    ∀ (n ct : Nat) (off : IntPoint) (tot : Nat), tot < 2 ^ 53 →
      Machine.getKeyFromLevelOffsetLoop dim 1 mult n ct off tot = tot := by
  intro n
  induction n with
  | zero => intro ct off tot _; rfl
  | succ n ih =>
    intro ct off tot h
    unfold Machine.getKeyFromLevelOffsetLoop
    rw [machine_mod_one, machine_dot_zero, machine_accumulate_eq (le_refl 0) (by simpa using h)]
    simpa using ih _ _ tot h

theorem machine_getKeyFromLevelOffset_root {dim rfactor : Nat} (hK : KeyRange dim rfactor 0)
    (o : IntPoint) (hlen : o.length = dim) (ho : ∀ a ∈ o, -1 ≤ a ∧ a ≤ 1) :
    Machine.getKeyFromLevelOffset dim rfactor 0 o = getKeyFromLevelOffset dim rfactor 0 o := by
  obtain ⟨hr, hr2, h31, _, _⟩ := hK
  rcases (by omega : rfactor = 1 ∨ 2 ≤ rfactor) with h1 | h2
  · subst h1
    have e1 : getKeyFromLevelOffset dim 1 0 o = 0 := by
      rw [getKeyFromLevelOffset_eq]
      have := digitKey_lt dim (by decide : 0 < 1) (decr 0 + 1) o
      rw [sSize_eq_pow, Nat.one_pow, Nat.one_pow] at this
      have e0 : getLevelStartingIndex dim 1 0 = 0 := rfl
      omega
    rw [e1]
    unfold Machine.getKeyFromLevelOffset
    rw [machine_mod_one, machine_dot_zero,
      machine_getKeyFromLevelOffsetLoop_one dim _ _ _ _ _
        (by rw [machine_accumulate_eq (le_refl 0) (by decide)]; decide),
      machine_accumulate_eq (le_refl 0) (by decide)]
    rfl
  · have hdiv := div_unit_eq_zero h2 o hlen ho
    have hdt0 : 0 ≤ IntPoint.dot (multLoop rfactor dim 1) (IntPoint.mod o rfactor) :=
      dot_multLoop_nonneg rfactor dim _ (fun x hx => (IntPoint.mod_range hr _ x hx).1)
    have hdt1 := dot_mod_lt_sSize dim hr o
    have hS31 : sSize dim rfactor < 2 ^ 31 := by rw [sSize_eq_pow]; exact h31
    have hacc : Machine.accumulate 0 1
        (Machine.dot (Machine.multLoop rfactor dim 1) (Machine.mod o rfactor)) =
        (IntPoint.dot (multLoop rfactor dim 1) (IntPoint.mod o rfactor)).toNat := by
      rw [machine_multLoop_eq hr dim 1 (by omega), machine_mod_eq hr (by omega),
        machine_dot_eq hr h31 _ (IntPoint.mod_range hr _),
        machine_accumulate_eq hdt0 (by omega)]
      omega
    rw [machine_getKeyFromLevelOffset_zero_of_div_zero dim rfactor o
        (by rw [machine_div_eq hr2 o (fun a ha => by have := ho a ha; omega)]; exact hdiv)
        (by rw [hacc]; omega),
      hacc, getKeyFromLevelOffset_zero_of_div_zero dim rfactor o hdiv]

theorem machine_neighbor_eq_all {dim rfactor k : Nat}
    (hK : KeyRange dim rfactor (getLevel dim rfactor k)) (a : Nat) (v : Int)
    (hv : -1 ≤ v ∧ v ≤ 1) :
    Machine.getKeyFromLevelOffset dim rfactor (Machine.getLevel dim rfactor k)
        (Machine.addAt (Machine.getOffsetWithinLevel dim rfactor k) a v) =
      getKeyFromLevelOffset dim rfactor (getLevel dim rfactor k)
        (IntPoint.addAt (getOffsetWithinLevel dim rfactor k) a v) := by
  rcases Nat.eq_zero_or_pos k with hk | hk
  · subst hk
    have hO := keyRange_offsetRange hK
    rw [machine_getLevel_eq hO.2.1, machine_getOffsetWithinLevel_eq hO,
      machine_addAt_eq _ _ _ (fun x hx => by
        have : x = 0 := List.eq_of_mem_replicate hx
        omega)]
    rw [getLevel_zero] at hK ⊢
    apply machine_getKeyFromLevelOffset_root hK
    · rw [IntPoint.length_addAt]
      exact getOffsetWithinLevel_length dim rfactor 0
    · intro y hy
      rcases mem_addAt _ _ _ _ hy with h | ⟨x, hx, rfl⟩
      · have : y = 0 := List.eq_of_mem_replicate h
        omega
      · have : x = 0 := List.eq_of_mem_replicate hx
        omega
  · exact machine_neighbor_eq hk hK a v hv

theorem mod_map_emod {rfactor : Nat} (hr : 0 < rfactor) (n : Nat) (o : IntPoint)
    (ho : ∀ x ∈ o, 0 ≤ x) :
    IntPoint.mod (o.map (fun x => x % (rfactor : Int) ^ (n + 1))) rfactor =
      IntPoint.mod o rfactor := by
  have hr0 : (rfactor : Int) ≠ 0 := by exact_mod_cast hr.ne'
  unfold IntPoint.mod
  rw [List.map_map]
  apply List.map_congr_left
  intro x hx
  simp only [Function.comp]
  rw [toSizeT_mod_cast (Int.emod_nonneg _ (pow_ne_zero _ hr0)), toSizeT_mod_cast (ho x hx)]
  exact Int.emod_emod_of_dvd x (dvd_pow_self _ (Nat.succ_ne_zero n))

theorem div_map_emod (rfactor n : Nat) (o : IntPoint) (ho : ∀ x ∈ o, 0 ≤ x) :
    IntPoint.div (o.map (fun x => x % (rfactor : Int) ^ (n + 1))) rfactor =
      (IntPoint.div o rfactor).map (fun x => x % (rfactor : Int) ^ n) := by
  unfold IntPoint.div
  rw [List.map_map, List.map_map]
  apply List.map_congr_left
  intro x hx
  simp only [Function.comp]
  exact tdiv_emod_pow x (ho x hx) rfactor n

theorem map_emod_int_range {rfactor : Nat} (hr : 0 < rfactor) (n : Nat) (o : IntPoint)
    (ho : ∀ x ∈ o, 0 ≤ x ∧ x < 2 ^ 31) :
    ∀ y ∈ o.map (fun x => x % (rfactor : Int) ^ n), 0 ≤ y ∧ y < 2 ^ 31 := by
  intro y hy
  obtain ⟨x, hx, rfl⟩ := List.mem_map.mp hy
  have hp : (0 : Int) < (rfactor : Int) ^ n := pow_pos (by exact_mod_cast hr) _
  have h1 := Int.emod_nonneg x hp.ne'
  have h := ho x hx
  have h2 : x % (rfactor : Int) ^ n ≤ x := by
    obtain ⟨m, rfl⟩ := Int.eq_ofNat_of_zero_le h.1
    have e1 : ((m : Int) % (rfactor : Int) ^ n) = ((m % rfactor ^ n : Nat) : Int) := by
      push_cast; rfl
    rw [e1]
    exact_mod_cast Nat.mod_le m (rfactor ^ n)
  constructor <;> omega

theorem div_nonneg_int_range (rfactor : Nat) (o : IntPoint)
    (ho : ∀ x ∈ o, 0 ≤ x ∧ x < 2 ^ 31) :
    ∀ y ∈ IntPoint.div o rfactor, 0 ≤ y ∧ y < 2 ^ 31 := by
  intro y hy
  obtain ⟨a, ha, rfl⟩ := List.mem_map.mp hy
  have h := ho a ha
  rw [Int.tdiv_eq_ediv h.1 (Int.ofNat_nonneg rfactor)]
  have h2 : a / (rfactor : Int) ≤ a := Int.ediv_le_self _ h.1
  have h3 : 0 ≤ a / (rfactor : Int) := Int.ediv_nonneg h.1 (Int.ofNat_nonneg rfactor)
  constructor <;> omega

theorem machine_getKeyFromLevelOffsetLoop_emod {dim rfactor : Nat} (hr : 0 < rfactor)
    (hr2 : rfactor < 2 ^ 31) (mult : IntPoint) :
    ∀ (n ct : Nat) (o : IntPoint) (tot : Nat), (∀ x ∈ o, 0 ≤ x ∧ x < 2 ^ 31) →
      Machine.getKeyFromLevelOffsetLoop dim rfactor mult n ct
          (o.map (fun x => x % (rfactor : Int) ^ (n + 1))) tot =
        Machine.getKeyFromLevelOffsetLoop dim rfactor mult n ct o tot := by
  intro n
  induction n with
  | zero => intro ct o tot _; rfl
  | succ n ih =>
    intro ct o tot ho
    have hnn : ∀ x ∈ o, 0 ≤ x := fun x hx => (ho x hx).1
    have ho2 := map_emod_int_range hr (n + 1 + 1) o ho
    have hd := div_nonneg_int_range rfactor o ho
    unfold Machine.getKeyFromLevelOffsetLoop
    rw [machine_div_eq hr2 _ (fun a ha => by have := ho2 a ha; omega),
      machine_div_eq hr2 o (fun a ha => by have := ho a ha; omega),
      div_map_emod rfactor (n + 1) o hnn, machine_mod_eq hr (by omega),
      machine_mod_eq hr (by omega),
      mod_map_emod hr n _ (fun x hx => (hd x hx).1)]
    exact ih _ _ _ hd

theorem machine_getKeyFromLevelOffset_emod {dim rfactor : Nat} (hr : 0 < rfactor)
    (hr2 : rfactor < 2 ^ 31) {l : Nat} (hl : 1 ≤ l) (o : IntPoint)
    (ho : ∀ x ∈ o, 0 ≤ x ∧ x < 2 ^ 31) :
    Machine.getKeyFromLevelOffset dim rfactor l o =
      Machine.getKeyFromLevelOffset dim rfactor l (o.map (fun x => x % (rfactor : Int) ^ l)) := by
  obtain ⟨n, rfl⟩ : ∃ n, l = n + 1 := ⟨l - 1, by omega⟩
  have hd : decr (n + 1) = n := by rw [decr_pos (by omega)]; rfl
  unfold Machine.getKeyFromLevelOffset
  rw [hd, machine_mod_eq hr (by omega), machine_mod_eq hr (by omega),
    mod_map_emod hr n o (fun x hx => (ho x hx).1),
    machine_getKeyFromLevelOffsetLoop_emod hr hr2 _ n 1 o _ ho]

theorem machine_getNeighborKeyMax_mem_spawnNeighbors (dim rfactor : Nat) :
    ∀ (d : Nat) (v : List Nat) (k : Nat),
      Machine.getNeighborKeyMax dim rfactor k 0 ∈ Machine.spawnNeighbors dim rfactor d v k := by
  have happ : ∀ (d : Nat) (v : List Nat) (k : Nat),
      ∀ x ∈ v, x ∈ Machine.spawnNeighbors dim rfactor d v k := by
    intro d
    induction d with
    | zero =>
      intro v k x hx
      unfold Machine.spawnNeighbors
      exact List.mem_append_left _ hx
    | succ d ih =>
      intro v k x hx
      unfold Machine.spawnNeighbors
      exact ih _ _ x (ih _ _ x (ih _ _ x hx))
  intro d
  induction d with
  | zero =>
    intro v k
    unfold Machine.spawnNeighbors
    simp
  | succ d ih =>
    intro v k
    unfold Machine.spawnNeighbors
    exact ih _ k

/-! ## Machine arithmetic: the tables of level keys and the calls of `buildTree` -/

theorem machine_NumCellsOnLevel_eq (dim rfactor : Nat) :
    ∀ (l : Nat), (rfactor ^ dim) ^ l < 2 ^ 64 →
      Machine.NumCellsOnLevel dim rfactor l = (rfactor ^ dim) ^ l := by
  intro l h
  cases l with
  | zero => rfl
  | succ l =>
    have e : (rfactor ^ dim) ^ (l + 1) = (rfactor ^ (l + 1)) ^ dim := by
      rw [← pow_mul, ← pow_mul, Nat.mul_comm]
    rw [e] at h ⊢
    show Machine.Power (Machine.Power rfactor (l + 1)) dim = _
    rcases Nat.eq_zero_or_pos dim with hd | hd
    · subst hd
      rfl
    · have h1 : rfactor ^ (l + 1) < 2 ^ 64 := by
        rcases Nat.eq_zero_or_pos (rfactor ^ (l + 1)) with h0 | h0
        · omega
        · have : rfactor ^ (l + 1) ≤ (rfactor ^ (l + 1)) ^ dim :=
            Nat.le_self_pow (by omega) _
          omega
      rw [machine_Power_eq rfactor (l + 1) h1, machine_Power_eq _ dim h]

theorem machine_LevelStartingKey_eq (dim rfactor : Nat) :
    ∀ (l : Nat), getLevelStartingIndex dim rfactor l < 2 ^ 64 →
      Machine.LevelStartingKey dim rfactor l = getLevelStartingIndex dim rfactor l := by
  intro l
  induction l with
  | zero => intro _; rfl
  | succ l ih =>
    intro h
    have hS : getLevelStartingIndex dim rfactor (l + 1) =
        sSize dim rfactor ^ l + getLevelStartingIndex dim rfactor l := rfl
    rw [hS, sSize_eq_pow] at h
    show Machine.wrap (Machine.NumCellsOnLevel dim rfactor l +
      Machine.LevelStartingKey dim rfactor l) = _
    rw [machine_NumCellsOnLevel_eq dim rfactor l (by omega), ih (by omega), hS, sSize_eq_pow]
    exact wrap_of_lt h

theorem machine_buildTreeCalls_levels {dim rfactor : Nat} (hr : 0 < rfactor)
    (h64 : rfactor ^ dim < 2 ^ 64) (lvlmin lvlstop : Nat) (ro : Nat → Bool)
    (hS : getLevelStartingIndex dim rfactor (lvlstop + 1) ≤ 2 ^ 64) :
    ∀ (fuel : Nat) (calls : List (Nat × Nat)) (key lvl : Nat) (r : List (Nat × Nat)),
      lvl = getLevel dim rfactor key → lvl ≤ lvlstop →
      (∀ kl ∈ calls, kl.2 = getLevel dim rfactor kl.1) →
      Machine.buildTreeCalls dim rfactor lvlmin lvlstop ro fuel calls key lvl = some r →
      ∀ kl ∈ r, kl.2 = getLevel dim rfactor kl.1 := by
  intro fuel
  induction fuel with
  | zero => intro calls key lvl r _ _ _ h; simp [Machine.buildTreeCalls] at h
  | succ fuel ih =>
    intro calls key lvl r hlvl hle hst h
    unfold Machine.buildTreeCalls at h
    have hnew : ∀ kl ∈ calls ++ [(key, lvl)], kl.2 = getLevel dim rfactor kl.1 := by
      intro kl hkl
      rcases List.mem_append.mp hkl with h1 | h1
      · exact hst kl h1
      · simp only [List.mem_singleton] at h1
        rw [h1]
        exact hlvl
    by_cases h1 : lvl = lvlstop
    · rw [if_pos h1] at h
      simp only [Option.some.injEq] at h
      rw [← h]
      exact hnew
    · rw [if_neg h1] at h
      by_cases h2 : (ro key && decide (lvl ≥ lvlmin)) = true
      · rw [if_pos h2] at h
        simp only [Option.some.injEq] at h
        rw [← h]
        exact hnew
      · rw [if_neg h2, machine_sSize_eq h64] at h
        refine foldlM_option_inv _
          (fun acc : List (Nat × Nat) => ∀ kl ∈ acc, kl.2 = getLevel dim rfactor kl.1)
          _ _ r ?_ hnew h
        intro acc x acc2 hx hacc hcall
        have hxs : x < sSize dim rfactor := List.mem_range.mp hx
        have hkey := (getLevel_le_iff dim hr lvl key).mp (by omega)
        have hS1 := getLevelStartingIndex_succ dim rfactor (lvl + 1)
        have hmono := getLevelStartingIndex_mono dim rfactor (lvl + 1 + 1) (lvlstop + 1)
          (by omega)
        have hk1 : key + 1 ≤ getLevelStartingIndex dim rfactor (lvl + 1) := by omega
        have hk2 : (key + 1) * sSize dim rfactor ≤
            getLevelStartingIndex dim rfactor (lvl + 1) * sSize dim rfactor :=
          Nat.mul_le_mul_right _ hk1
        have hfit : key * rfactor ^ dim + 1 + x < 2 ^ 64 := by
          rw [← sSize_eq_pow]
          rw [Nat.add_mul, Nat.one_mul] at hk2
          omega
        rw [machine_getChildKey_eq h64 key x hfit] at hcall
        refine ih acc _ _ acc2 ?_ (by omega) hacc hcall
        rw [getLevel_getChildKey dim rfactor key x hxs, hlvl]

/-! ## Machine arithmetic: round trips and the keys next to the root -/

theorem keyRange_h64 {dim rfactor l : Nat} (h : KeyRange dim rfactor l) :
    rfactor ^ dim < 2 ^ 64 := Nat.lt_trans h.2.2.1 (by decide)

theorem keyRange_one {dim rfactor : Nat} (h : KeyRange dim rfactor 0) :
    KeyRange dim rfactor 1 := by
  obtain ⟨hr, hr2, h31, _, _⟩ := h
  refine ⟨hr, hr2, h31, by rw [Nat.pow_one]; exact hr2, ?_⟩
  have e : getLevelStartingIndex dim rfactor (1 + 1) = rfactor ^ dim + 1 := by
    rw [getLevelStartingIndex_succ, getLevelStartingIndex_succ, sSize_eq_pow]
    simp [getLevelStartingIndex]
  rw [e]
  omega

theorem machine_key_round_trip {dim rfactor k : Nat}
    (hK : KeyRange dim rfactor (getLevel dim rfactor k)) :
    Machine.getKeyFromLevelOffset dim rfactor (Machine.getLevel dim rfactor k)
      (Machine.getOffsetWithinLevel dim rfactor k) = k := by
  rw [machine_getLevel_eq (keyRange_h64 hK),
    machine_getOffsetWithinLevel_eq (keyRange_offsetRange hK),
    machine_getKeyFromLevelOffset_eq_of_range hK _ (getOffsetWithinLevel_length dim rfactor k)
      (getOffsetWithinLevel_range dim hK.1 k)]
  exact getKeyFromLevelOffset_getLevel dim hK.1 k

theorem getLevel_root_neighbor_le {dim rfactor : Nat} (hr : 0 < rfactor) (o : IntPoint)
    (hlen : o.length = dim) (ho : ∀ a ∈ o, -1 ≤ a ∧ a ≤ 1) :
    getLevel dim rfactor (getKeyFromLevelOffset dim rfactor 0 o) ≤ 1 := by
  rcases (by omega : rfactor = 1 ∨ 2 ≤ rfactor) with h1 | h2
  · subst h1
    have e1 : getKeyFromLevelOffset dim 1 0 o = 0 := by
      rw [getKeyFromLevelOffset_eq]
      have := digitKey_lt dim (by decide : 0 < 1) (decr 0 + 1) o
      rw [sSize_eq_pow, Nat.one_pow, Nat.one_pow] at this
      have e0 : getLevelStartingIndex dim 1 0 = 0 := rfl
      omega
    rw [e1, getLevel_zero]
    exact Nat.zero_le 1
  · rw [getLevel_le_iff dim hr 1,
      getKeyFromLevelOffset_zero_of_div_zero dim rfactor o (div_unit_eq_zero h2 o hlen ho)]
    have h := dot_mod_lt_sSize dim hr o
    have e : getLevelStartingIndex dim rfactor (1 + 1) = sSize dim rfactor + 1 := by
      rw [getLevelStartingIndex_succ, getLevelStartingIndex_succ]
      simp [getLevelStartingIndex]
    rw [e]
    omega

theorem mem_addAt_zero_unit (dim a : Nat) (v : Int) (hv : -1 ≤ v ∧ v ≤ 1) :
    ∀ y ∈ IntPoint.addAt (IntPoint.zero dim) a v, -1 ≤ y ∧ y ≤ 1 := by
  intro y hy
  rcases mem_addAt _ _ _ _ hy with h | ⟨x, hx, rfl⟩
  · have : y = 0 := List.eq_of_mem_replicate h
    omega
  · have : x = 0 := List.eq_of_mem_replicate hx
    omega

/-- The level of a neighbor key: the level of the key, or at most 1 for the root. -/
theorem keyRange_neighbor {dim rfactor k : Nat}
    (hK : KeyRange dim rfactor (getLevel dim rfactor k)) (a : Nat) (v : Int)
    (hv : -1 ≤ v ∧ v ≤ 1) :
    KeyRange dim rfactor (getLevel dim rfactor
      (getKeyFromLevelOffset dim rfactor (getLevel dim rfactor k)
        (IntPoint.addAt (getOffsetWithinLevel dim rfactor k) a v))) ∧
    (0 < k → getLevel dim rfactor
      (getKeyFromLevelOffset dim rfactor (getLevel dim rfactor k)
        (IntPoint.addAt (getOffsetWithinLevel dim rfactor k) a v)) = getLevel dim rfactor k) := by
  rcases Nat.eq_zero_or_pos k with hk | hk
  · subst hk
    refine ⟨?_, fun h => absurd h (Nat.lt_irrefl 0)⟩
    rw [getLevel_zero] at hK ⊢
    apply keyRange_mono (keyRange_one hK)
    apply getLevel_root_neighbor_le hK.1
    · rw [IntPoint.length_addAt]
      exact getOffsetWithinLevel_length dim rfactor 0
    · exact mem_addAt_zero_unit dim a v hv
  · have h := getLevel_getKeyFromLevelOffset_of_pos dim hK.1
      (getLevel_pos_of_pos dim rfactor hk)
      (IntPoint.addAt (getOffsetWithinLevel dim rfactor k) a v)
    rw [h]
    exact ⟨hK, fun _ => rfl⟩

/-! ## `interpolateTo` on a tree with an orphan leaf -/

/-- C1 (as stated, refuted): at `d = 1`, `r = 2` the sibling index `0` is below
`sSize = 2`; the child key of `k = 2^63` is `2^64 + 1`, which the key type `std::size_t`
holds as `1`, and the parent key of `1` is `0`, not `k`. -/
theorem C1_child_key_wraps_counterexample :
    0 < Machine.sSize 1 2 ∧ Machine.getChildKey 1 2 (2 ^ 63) 0 = 1 ∧
    Machine.getParentKey 1 2 (Machine.getChildKey 1 2 (2 ^ 63) 0) = 0 ∧
    Machine.getParentKey 1 2 (Machine.getChildKey 1 2 (2 ^ 63) 0) ≠ 2 ^ 63 := by
  refine ⟨by decide, by decide, by decide, by decide⟩

/-- C1 (amended): for every key `k` and every sibling index `s < sSize` such that the
child key `k*sSize + 1 + s` is within the key type (below `2^64`),
`getParentKey(getChildKey(k, s)) = k`. -/
theorem C1_getParentKey_getChildKey (dim rfactor k s : Nat)
    (hs : s < Machine.sSize dim rfactor)
    (hfit : k * Machine.sSize dim rfactor + 1 + s < 2 ^ 64) :
    Machine.getParentKey dim rfactor (Machine.getChildKey dim rfactor k s) = k := by
  unfold Machine.getParentKey Machine.getChildKey
  rw [wrap_of_lt hfit]
  have e : decr (k * Machine.sSize dim rfactor + 1 + s) =
      s + k * Machine.sSize dim rfactor := by
    rw [decr_pos (by omega)]
    omega
  rw [e, Nat.add_mul_div_right _ _ (by omega), Nat.div_eq_of_lt hs, Nat.zero_add]

/-- C1 (amended) at `d = 2`, `r = 2`, `k = 7`, `s = 3`. -/
theorem C1_getParentKey_getChildKey_witness :
    3 < Machine.sSize 2 2 ∧ 7 * Machine.sSize 2 2 + 1 + 3 < 2 ^ 64 ∧
    Machine.getParentKey 2 2 (Machine.getChildKey 2 2 7 3) = 7 :=
  ⟨by decide, by decide, C1_getParentKey_getChildKey 2 2 7 3 (by decide) (by decide)⟩

/-- C2 (as stated, refuted): at `d = 1`, `r = 3` the sibling index `1` is below
`sSize = 3`; the child key of `k = (2^64 - 1)/3` is `2^64 + 1`, which the key type holds as
`1`, and the sibling index of `1` is `0`, not `1`. -/
theorem C2_child_key_wraps_counterexample :
    1 < Machine.sSize 1 3 ∧ Machine.getChildKey 1 3 ((2 ^ 64 - 1) / 3) 1 = 1 ∧
    Machine.getSiblingIndex 1 3 (Machine.getChildKey 1 3 ((2 ^ 64 - 1) / 3) 1) = 0 := by
  refine ⟨by decide, by decide, by decide⟩

/-- C2 (amended): for every key `k` and every sibling index `s < sSize` such that the
child key `k*sSize + 1 + s` is within the key type (below `2^64`),
`getSiblingIndex(getChildKey(k, s)) = s`. -/
theorem C2_getSiblingIndex_getChildKey (dim rfactor k s : Nat)
    (hs : s < Machine.sSize dim rfactor)
    (hfit : k * Machine.sSize dim rfactor + 1 + s < 2 ^ 64) :
    Machine.getSiblingIndex dim rfactor (Machine.getChildKey dim rfactor k s) = s := by
  unfold Machine.getSiblingIndex Machine.getChildKey
  rw [wrap_of_lt hfit]
  have e : decr (k * Machine.sSize dim rfactor + 1 + s) =
      s + k * Machine.sSize dim rfactor := by
    rw [decr_pos (by omega)]
    omega
  rw [e, Nat.add_mul_mod_self_right, Nat.mod_eq_of_lt hs]

/-- C2 (amended) at `d = 2`, `r = 2`, `k = 7`, `s = 3`. -/
theorem C2_getSiblingIndex_getChildKey_witness :
    3 < Machine.sSize 2 2 ∧ 7 * Machine.sSize 2 2 + 1 + 3 < 2 ^ 64 ∧
    Machine.getSiblingIndex 2 2 (Machine.getChildKey 2 2 7 3) = 3 :=
  ⟨by decide, by decide, C2_getSiblingIndex_getChildKey 2 2 7 3 (by decide) (by decide)⟩

set_option maxRecDepth 100000 in
/-- C6 (as stated, refuted): at `d = 2`, `r = 4` the sum
`pow(16, 14) + getLevelStartingIndex(14) = 2^56 + 4803839602528529` is not a `double`; it is
rounded to `76861433640456464`, so `S(15) ≠ S(14) + (r^d)^14`. The key `76861433640456464`
then satisfies `S(15) ≤ k ≤ E(15)` and has the level 14. -/
theorem C6_level_start_rounded_counterexample :
    Machine.getLevelStartingIndex 2 4 14 + (4 ^ 2) ^ 14 = 76861433640456465 ∧
    Machine.getLevelStartingIndex 2 4 15 = 76861433640456464 ∧
    (Machine.getLevelStartingIndex 2 4 15 ≤ 76861433640456464 ∧
      76861433640456464 ≤ Machine.getLevelStartingIndex 2 4 15 + (4 ^ 2) ^ 15 - 1) ∧
    Machine.getLevel 2 4 76861433640456464 = 14 := by
  refine ⟨by decide, by decide, by decide, by decide⟩

/-- C6 (amended): on the levels `l` whose keys are below `2^53`
(`1 + r^d + ... + (r^d)^l < 2^53`, with `r^d` within `std::size_t`), each level occupies a
contiguous key range: `S(0) = 0`, `S(n+1) = S(n) + (r^d)^n` for `n ≤ l`, and a key `k`
has `getLevel(k) = l` if and only if `S(l) ≤ k ≤ E(l) = S(l) + (r^d)^l - 1`. -/
theorem C6_getLevel_eq_iff_range (dim rfactor : Nat) (hr : 0 < rfactor)
    (h64 : rfactor ^ dim < 2 ^ 64) (l : Nat)
    (h53 : getLevelStartingIndex dim rfactor (l + 1) < 2 ^ 53) (k : Nat) :
    (Machine.getLevelStartingIndex dim rfactor 0 = 0 ∧
      ∀ n, n ≤ l → Machine.getLevelStartingIndex dim rfactor (n + 1) =
        Machine.getLevelStartingIndex dim rfactor n + (rfactor ^ dim) ^ n) ∧
    (Machine.getLevel dim rfactor k = l ↔
      Machine.getLevelStartingIndex dim rfactor l ≤ k ∧
        k ≤ Machine.getLevelStartingIndex dim rfactor l + (rfactor ^ dim) ^ l - 1) := by
  have hmono : ∀ n, n ≤ l + 1 → getLevelStartingIndex dim rfactor n < 2 ^ 53 := fun n hn =>
    Nat.lt_of_le_of_lt (getLevelStartingIndex_mono dim rfactor n (l + 1) hn) h53
  refine ⟨⟨rfl, fun n hn => ?_⟩, ?_⟩
  · rw [machine_getLevelStartingIndex_eq h64 (n + 1) (hmono _ (by omega)),
      machine_getLevelStartingIndex_eq h64 n (hmono _ (by omega))]
    exact ((getLevel_eq_iff_range dim rfactor hr k l).1).2 n
  · rw [machine_getLevel_eq h64, machine_getLevelStartingIndex_eq h64 l (hmono _ (by omega))]
    exact (getLevel_eq_iff_range dim rfactor hr k l).2

/-- C6 (amended) at `d = 2`, `r = 2`: key 9 has level 2 and lies in `[5, 20]`. -/
theorem C6_getLevel_eq_iff_range_witness :
    0 < 2 ∧ 2 ^ 2 < 2 ^ 64 ∧ getLevelStartingIndex 2 2 (2 + 1) < 2 ^ 53 ∧
    Machine.getLevelStartingIndex 2 2 2 = 5 ∧
    (Machine.getLevel 2 2 9 = 2 ↔
      Machine.getLevelStartingIndex 2 2 2 ≤ 9 ∧
        9 ≤ Machine.getLevelStartingIndex 2 2 2 + (2 ^ 2) ^ 2 - 1) :=
  ⟨by decide, by decide, by decide, by decide,
    (C6_getLevel_eq_iff_range 2 2 (by decide) (by decide) 2 (by decide) 9).2⟩

set_option maxRecDepth 100000 in
/-- C3 (as stated, refuted): at `d = 2`, `r = 4`, `l = 15` (within the default
`L_max = 16`) and the in-range offset `o = (0, 0)`, `getKeyFromLevelOffset(l, o)` returns
`76861433640456464`, the rounded starting key of the level, whose level offset is
`(4^14 - 1, 4^14 - 1)`, not `o`. -/
theorem C3_round_trip_rounded_counterexample :
    (∀ x ∈ ([0, 0] : IntPoint), 0 ≤ x ∧ x < ((4 : Nat) : Int) ^ 15) ∧
    Machine.getKeyFromLevelOffset 2 4 15 [0, 0] = 76861433640456464 ∧
    Machine.getOffsetWithinLevel 2 4 (Machine.getKeyFromLevelOffset 2 4 15 [0, 0]) =
      [268435455, 268435455] ∧
    Machine.getOffsetWithinLevel 2 4 (Machine.getKeyFromLevelOffset 2 4 15 [0, 0]) ≠ [0, 0] := by
  refine ⟨by decide, by decide, by decide, by decide⟩

/-- C3 (amended): for every level `l` on which the keys are computed without rounding
(`KeyRange`: `r`, `r^d` and `r^l` within `int`, the keys of the levels up to `l` below
`2^53`) and every offset `o` whose `d` coordinates all lie in `[0, r^l)`,
`getOffsetWithinLevel(getKeyFromLevelOffset(l, o)) = o`. -/
theorem C3_getOffsetWithinLevel_getKeyFromLevelOffset (dim rfactor l : Nat)
    (hK : KeyRange dim rfactor l) (o : IntPoint) (hlen : o.length = dim)
    (ho : ∀ x ∈ o, 0 ≤ x ∧ x < (rfactor : Int) ^ l) :
    Machine.getOffsetWithinLevel dim rfactor (Machine.getKeyFromLevelOffset dim rfactor l o) =
      o := by
  have hlev := getLevel_getKeyFromLevelOffset dim hK.1 l o hlen ho
  rw [machine_getKeyFromLevelOffset_eq_of_range hK o hlen ho,
    machine_getOffsetWithinLevel_eq (by rw [hlev]; exact keyRange_offsetRange hK)]
  exact getOffsetWithinLevel_getKeyFromLevelOffset dim hK.1 l o hlen ho

/-- C3 (amended) at `d = 2`, `r = 2`, `l = 2`, `o = (3, 2)`. -/
theorem C3_getOffsetWithinLevel_getKeyFromLevelOffset_witness :
    KeyRange 2 2 2 ∧ (∀ x ∈ ([3, 2] : IntPoint), 0 ≤ x ∧ x < ((2 : Nat) : Int) ^ 2) ∧
      Machine.getOffsetWithinLevel 2 2 (Machine.getKeyFromLevelOffset 2 2 2 [3, 2]) = [3, 2] :=
  ⟨⟨by decide, by decide, by decide, by decide, by decide⟩, by decide,
    C3_getOffsetWithinLevel_getKeyFromLevelOffset 2 2 2
      ⟨by decide, by decide, by decide, by decide, by decide⟩ [3, 2] rfl (by decide)⟩

set_option maxRecDepth 100000 in
/-- C4 (as stated, refuted): at `d = 2`, `r = 4`, `l = 15` (within the default
`L_max = 16`) and the in-range offset `o = (0, 0)`, the key `76861433640456464` returned by
`getKeyFromLevelOffset(l, o)` has the level 14. -/
theorem C4_level_rounded_counterexample :
    (∀ x ∈ ([0, 0] : IntPoint), 0 ≤ x ∧ x < ((4 : Nat) : Int) ^ 15) ∧
    Machine.getKeyFromLevelOffset 2 4 15 [0, 0] = 76861433640456464 ∧
    Machine.getLevel 2 4 (Machine.getKeyFromLevelOffset 2 4 15 [0, 0]) = 14 := by
  refine ⟨by decide, by decide, by decide⟩

/-- C4 (amended): for every level `l` on which the keys are computed without rounding
(`KeyRange`), including `l = 0`, and every offset `o` whose `d` coordinates all lie in
`[0, r^l)`, `getLevel(getKeyFromLevelOffset(l, o)) = l`. -/
theorem C4_getLevel_getKeyFromLevelOffset (dim rfactor l : Nat)
    (hK : KeyRange dim rfactor l) (o : IntPoint) (hlen : o.length = dim)
    (ho : ∀ x ∈ o, 0 ≤ x ∧ x < (rfactor : Int) ^ l) :
    Machine.getLevel dim rfactor (Machine.getKeyFromLevelOffset dim rfactor l o) = l := by
  rw [machine_getKeyFromLevelOffset_eq_of_range hK o hlen ho,
    machine_getLevel_eq (keyRange_offsetRange hK).2.1]
  exact getLevel_getKeyFromLevelOffset dim hK.1 l o hlen ho

/-- C4 (amended) at `d = 2`, `r = 2`: at the root level `l = 0` with `o = (0, 0)`, where
the loop of `getKeyFromLevelOffset` runs `2^64 - 1` times, and at `l = 2` with
`o = (3, 2)`. -/
theorem C4_getLevel_getKeyFromLevelOffset_witness :
    (KeyRange 2 2 0 ∧ (∀ x ∈ ([0, 0] : IntPoint), 0 ≤ x ∧ x < ((2 : Nat) : Int) ^ 0) ∧
      Machine.getLevel 2 2 (Machine.getKeyFromLevelOffset 2 2 0 [0, 0]) = 0) ∧
    (KeyRange 2 2 2 ∧ (∀ x ∈ ([3, 2] : IntPoint), 0 ≤ x ∧ x < ((2 : Nat) : Int) ^ 2) ∧
      Machine.getLevel 2 2 (Machine.getKeyFromLevelOffset 2 2 2 [3, 2]) = 2) :=
  ⟨⟨⟨by decide, by decide, by decide, by decide, by decide⟩, by decide,
      C4_getLevel_getKeyFromLevelOffset 2 2 0
        ⟨by decide, by decide, by decide, by decide, by decide⟩ [0, 0] rfl (by decide)⟩,
    ⟨⟨by decide, by decide, by decide, by decide, by decide⟩, by decide,
      C4_getLevel_getKeyFromLevelOffset 2 2 2
        ⟨by decide, by decide, by decide, by decide, by decide⟩ [3, 2] rfl (by decide)⟩⟩

set_option maxRecDepth 100000 in
/-- C5 (as stated, refuted): at `d = 2`, `r = 4` the key `k = 76861433640456465` has the
level 15 and the level offset `(0, 0)`, and `getKeyFromLevelOffset(15, (0, 0))` returns
`76861433640456464`, not `k`. -/
theorem C5_inverse_rounded_counterexample :
    Machine.getLevel 2 4 76861433640456465 = 15 ∧
    Machine.getOffsetWithinLevel 2 4 76861433640456465 = [0, 0] ∧
    Machine.getKeyFromLevelOffset 2 4 (Machine.getLevel 2 4 76861433640456465)
      (Machine.getOffsetWithinLevel 2 4 76861433640456465) = 76861433640456464 := by
  refine ⟨by decide, by decide, by decide⟩

/-- C5 (amended): for every key `k` of a level on which the keys are computed without
rounding (`KeyRange` at `getLevel(k)`),
`getKeyFromLevelOffset(getLevel(k), getOffsetWithinLevel(k)) = k`. -/
theorem C5_getKeyFromLevelOffset_inverts (dim rfactor k : Nat)
    (hK : KeyRange dim rfactor (Machine.getLevel dim rfactor k)) :
    Machine.getKeyFromLevelOffset dim rfactor (Machine.getLevel dim rfactor k)
      (Machine.getOffsetWithinLevel dim rfactor k) = k := by
  have h64 : rfactor ^ dim < 2 ^ 64 := Nat.lt_trans hK.2.2.1 (by decide)
  rw [machine_getLevel_eq h64] at hK ⊢
  rw [machine_getOffsetWithinLevel_eq (keyRange_offsetRange hK),
    machine_getKeyFromLevelOffset_eq_of_range hK _ (getOffsetWithinLevel_length dim rfactor k)
      (getOffsetWithinLevel_range dim hK.1 k)]
  exact getKeyFromLevelOffset_getLevel dim hK.1 k

/-- C5 (amended) at `d = 2`, `r = 3`, `k = 57`. -/
theorem C5_getKeyFromLevelOffset_inverts_witness :
    KeyRange 2 3 (Machine.getLevel 2 3 57) ∧
    Machine.getKeyFromLevelOffset 2 3 (Machine.getLevel 2 3 57)
      (Machine.getOffsetWithinLevel 2 3 57) = 57 :=
  ⟨⟨by decide, by decide, by decide, by decide, by decide⟩,
    C5_getKeyFromLevelOffset_inverts 2 3 57
      ⟨by decide, by decide, by decide, by decide, by decide⟩⟩

set_option maxRecDepth 100000 in
/-- C8 (as stated, refuted): at `d = 1`, `r = 2` the key `k = 6442450943` has the level
32, and its last coordinate sum `2^31` does not fit the `int` coordinate of an
`IntPoint`: `getOffsetWithinLevel(k)` is `(-2^31)`, outside `[0, r^32)`. -/
theorem C8_offset_int_wraps_counterexample :
    Machine.getLevel 1 2 6442450943 = 32 ∧
    Machine.getOffsetWithinLevel 1 2 6442450943 = [-2147483648] ∧
    ¬ ∀ x ∈ Machine.getOffsetWithinLevel 1 2 6442450943,
      0 ≤ x ∧ x < ((2 : Nat) : Int) ^ Machine.getLevel 1 2 6442450943 := by
  refine ⟨by decide, by decide, by decide⟩

/-- C8 (amended): for every key `k` whose level `l = getLevel(k)` has offsets within
`int` (`OffsetRange`: `r^l < 2^31`, `r^d` within `std::size_t`), `getOffsetWithinLevel(k)`
has `d` coordinates and every one of them lies in `[0, r^l)`. -/
theorem C8_getOffsetWithinLevel_range (dim rfactor k : Nat)
    (hO : OffsetRange dim rfactor (Machine.getLevel dim rfactor k)) :
    (Machine.getOffsetWithinLevel dim rfactor k).length = dim ∧
    ∀ x ∈ Machine.getOffsetWithinLevel dim rfactor k,
      0 ≤ x ∧ x < (rfactor : Int) ^ Machine.getLevel dim rfactor k := by
  rw [machine_getLevel_eq hO.2.1] at hO ⊢
  rw [machine_getOffsetWithinLevel_eq hO]
  exact ⟨getOffsetWithinLevel_length dim rfactor k, getOffsetWithinLevel_range dim hO.1 k⟩

/-- C8 (amended) at `d = 2`, `r = 3`, `k = 57`. -/
theorem C8_getOffsetWithinLevel_range_witness :
    OffsetRange 2 3 (Machine.getLevel 2 3 57) ∧
    (Machine.getOffsetWithinLevel 2 3 57).length = 2 ∧
    ∀ x ∈ Machine.getOffsetWithinLevel 2 3 57,
      0 ≤ x ∧ x < ((3 : Nat) : Int) ^ Machine.getLevel 2 3 57 :=
  ⟨⟨by decide, by decide, by decide⟩,
    C8_getOffsetWithinLevel_range 2 3 57 ⟨by decide, by decide, by decide⟩⟩

set_option maxRecDepth 100000 in
/-- C9 (as stated, refuted): at `d = 1`, `r = 2` the key `k = 2^33 - 2` is the last cell of
the level 32 (its offset over the integers is `r^32 - 1`). The program computes the `int`
offset `(-1)`, which is neither `0` nor `imax = 2^32 - 1`, and `isBoundary(k)` is false,
although the offset perturbed by `-1` is outside `[0, r^32)`. -/
theorem C9_boundary_int_wraps_counterexample :
    Machine.getLevel 1 2 (2 ^ 33 - 2) = 32 ∧
    getOffsetWithinLevel 1 2 (2 ^ 33 - 2) = [2 ^ 32 - 1] ∧
    Machine.getLevelOffset 1 2 (2 ^ 33 - 2) = [-1] ∧
    Machine.isBoundary 1 2 (2 ^ 33 - 2) = false ∧
    ¬ ∀ x ∈ Machine.addAt (Machine.getLevelOffset 1 2 (2 ^ 33 - 2)) 0 (-1),
      0 ≤ x ∧ x < ((2 : Nat) : Int) ^ Machine.getLevel 1 2 (2 ^ 33 - 2) := by
  refine ⟨by decide, by decide, by decide, by decide, by decide⟩

/-- C9 (amended): for every key `k` whose level `l` has offsets within `int`
(`OffsetRange`), with level offset `o`, the codec's `isBoundary(k)` is true if and only if
some axis `a < d` has `o[a] = 0` or `o[a] = r^l - 1`; equivalently, if and only if on some
axis the offset perturbed by `-1` (the one `getNeighborKeyMin` rebuilds the key from) or by
`+1` (the one of `getNeighborKeyMax`) has a coordinate outside `[0, r^l)`. In particular
the root is a boundary key. -/
theorem C9_isBoundary_iff (dim rfactor : Nat) (hd : 0 < dim) (k : Nat)
    (hO : OffsetRange dim rfactor (Machine.getLevel dim rfactor k)) :
    (Machine.isBoundary dim rfactor k = true ↔
      ∃ a, a < dim ∧
        ((Machine.getOffsetWithinLevel dim rfactor k).getD a 0 = 0 ∨
          (Machine.getOffsetWithinLevel dim rfactor k).getD a 0 =
            (rfactor : Int) ^ Machine.getLevel dim rfactor k - 1)) ∧
    (Machine.isBoundary dim rfactor k = true ↔
      ∃ a, a < dim ∧
        ((¬ ∀ x ∈ Machine.addAt (Machine.getLevelOffset dim rfactor k) a (-1),
            0 ≤ x ∧ x < (rfactor : Int) ^ Machine.getLevel dim rfactor k) ∨
          ¬ ∀ x ∈ Machine.addAt (Machine.getOffsetWithinLevel dim rfactor k) a 1,
            0 ≤ x ∧ x < (rfactor : Int) ^ Machine.getLevel dim rfactor k)) ∧
    Machine.isBoundary dim rfactor 0 = true := by
  have h64 := hO.2.1
  rw [machine_getLevel_eq h64] at hO ⊢
  have hrange := getOffsetWithinLevel_range dim hO.1 k
  have h31 : ((rfactor : Int)) ^ getLevel dim rfactor k < 2 ^ 31 := by exact_mod_cast hO.2.2
  have hO0 : OffsetRange dim rfactor (getLevel dim rfactor 0) :=
    ⟨hO.1, h64, by rw [getLevel_zero, Nat.pow_zero]; decide⟩
  have e1 : ∀ a, Machine.addAt (getOffsetWithinLevel dim rfactor k) a (-1) =
      IntPoint.addAt (getOffsetWithinLevel dim rfactor k) a (-1) := fun a =>
    machine_addAt_eq _ _ _ (fun x hx => by have := hrange x hx; omega)
  have e2 : ∀ a, Machine.addAt (getOffsetWithinLevel dim rfactor k) a 1 =
      IntPoint.addAt (getOffsetWithinLevel dim rfactor k) a 1 := fun a =>
    machine_addAt_eq _ _ _ (fun x hx => by have := hrange x hx; omega)
  have e3 : getLevelOffset dim rfactor k = getOffsetWithinLevel dim rfactor k := rfl
  rw [machine_isBoundary_eq hO, machine_getOffsetWithinLevel_eq hO, machine_getLevelOffset_eq hO,
    machine_isBoundary_eq hO0, e3]
  simp only [e1, e2]
  exact isBoundary_iff_perturbed dim rfactor hd hO.1 k

/-- C9 (amended) at `d = 2`, `r = 2`, `k = 8` (level 2, offset `(1, 1)`, not a boundary
key). -/
theorem C9_isBoundary_iff_witness :
    OffsetRange 2 2 (Machine.getLevel 2 2 8) ∧ Machine.isBoundary 2 2 8 = false ∧
    (Machine.isBoundary 2 2 8 = true ↔
      ∃ a, a < 2 ∧
        ((Machine.getOffsetWithinLevel 2 2 8).getD a 0 = 0 ∨
          (Machine.getOffsetWithinLevel 2 2 8).getD a 0 =
            ((2 : Nat) : Int) ^ Machine.getLevel 2 2 8 - 1)) ∧
    Machine.isBoundary 2 2 0 = true :=
  ⟨⟨by decide, by decide, by decide⟩, by decide,
    (C9_isBoundary_iff 2 2 (by decide) 8 ⟨by decide, by decide, by decide⟩).1,
    (C9_isBoundary_iff 2 2 (by decide) 8 ⟨by decide, by decide, by decide⟩).2.2⟩

set_option maxRecDepth 100000 in
/-- C10 (as stated, refuted): at `d = 2`, `r = 4` the key `k = 76861433640456465` has the
level 15 and the offset `(0, 0)`, so the max-side neighbor on the axis 0 is in range; the
rounded starting key of the level makes `getNeighborKeyMax(k, 0)` return `k` itself, and
`getNeighborKeyMin(k, 0)` is `76861433640456467`, not `k`. -/
theorem C10_symmetry_rounded_counterexample :
    (Machine.getOffsetWithinLevel 2 4 76861433640456465).getD 0 0 + 1 <
      ((4 : Nat) : Int) ^ Machine.getLevel 2 4 76861433640456465 ∧
    Machine.getNeighborKeyMax 2 4 76861433640456465 0 = 76861433640456465 ∧
    Machine.getNeighborKeyMin 2 4 (Machine.getNeighborKeyMax 2 4 76861433640456465 0) 0 =
      76861433640456467 := by
  refine ⟨by decide, by decide, by decide⟩

/-- C10 (amended): neighbor symmetry on the levels on which the keys are computed without
rounding. For every key `k` with `KeyRange` at its level `l` and every axis `a < d` such
that `getOffsetWithinLevel(k)[a] + 1 < r^l`, the key `k' = getNeighborKeyMax(k, a)`
satisfies `getNeighborKeyMin(k', a) = k`. -/
theorem C10_neighbor_symmetry (dim rfactor k a : Nat)
    (hK : KeyRange dim rfactor (Machine.getLevel dim rfactor k)) (ha : a < dim)
    (hmax : (Machine.getOffsetWithinLevel dim rfactor k).getD a 0 + 1 <
      (rfactor : Int) ^ Machine.getLevel dim rfactor k) :
    Machine.getNeighborKeyMin dim rfactor (Machine.getNeighborKeyMax dim rfactor k a) a = k := by
  have h64 := keyRange_h64 hK
  rw [machine_getLevel_eq h64] at hK hmax
  rw [machine_getOffsetWithinLevel_eq (keyRange_offsetRange hK)] at hmax
  have hmaxeq : Machine.getNeighborKeyMax dim rfactor k a = getNeighborKeyMax dim rfactor k a :=
    machine_neighbor_eq_all hK a 1 (by omega)
  have hlev := (neighbor_of_offset dim hK.1 k a 1 ha
    (by
      have := (getOffsetWithinLevel_range dim hK.1 k _
        (getD_mem_of_lt (by rw [getOffsetWithinLevel_length]; exact ha))).1
      omega) hmax).1
  have hK2 : KeyRange dim rfactor (getLevel dim rfactor (getNeighborKeyMax dim rfactor k a)) := by
    show KeyRange dim rfactor (getLevel dim rfactor
      (getKeyFromLevelOffset dim rfactor (getLevel dim rfactor k)
        (IntPoint.addAt (getOffsetWithinLevel dim rfactor k) a 1)))
    rw [hlev]
    exact hK
  have hmineq : Machine.getNeighborKeyMin dim rfactor (getNeighborKeyMax dim rfactor k a) a =
      getNeighborKeyMin dim rfactor (getNeighborKeyMax dim rfactor k a) a :=
    machine_neighbor_eq_all hK2 a (-1) (by omega)
  rw [hmaxeq, hmineq]
  exact neighbor_symmetry dim rfactor hK.1 k a ha hmax

/-- C10 (amended) at `d = 2`, `r = 2`, `k = 8` (level 2, offset `(1, 1)`), axis `0`. -/
theorem C10_neighbor_symmetry_witness :
    KeyRange 2 2 (Machine.getLevel 2 2 8) ∧
    (Machine.getOffsetWithinLevel 2 2 8).getD 0 0 + 1 <
      ((2 : Nat) : Int) ^ Machine.getLevel 2 2 8 ∧
    Machine.getNeighborKeyMin 2 2 (Machine.getNeighborKeyMax 2 2 8 0) 0 = 8 :=
  ⟨⟨by decide, by decide, by decide, by decide, by decide⟩, by decide,
    C10_neighbor_symmetry 2 2 8 0 ⟨by decide, by decide, by decide, by decide, by decide⟩
      (by decide) (by decide)⟩

/-- C11 (as stated, refuted): at `d = 2`, `r = 2` the key 2 (level 1, offset `(1,0)`) has
the offset `r^l - 1` on axis 0, and `getNeighborKeyMax(2, 0)` is the key of the in-range
cell `(0,0)` of level 1; the key 1 (level 1, offset `(0,0)`) has the offset 0 on axis 0, and
`getNeighborKeyMin(1, 0)` is the key of the in-range cell `(1,0)` of level 1. -/
theorem C11_neighbor_outside_domain_counterexample :
    ((Machine.getOffsetWithinLevel 2 2 2).getD 0 0 = (2 : Int) ^ Machine.getLevel 2 2 2 - 1 ∧
      ¬ ∀ (l : Nat) (o : IntPoint), o.length = 2 → (∀ x ∈ o, 0 ≤ x ∧ x < (2 : Int) ^ l) →
          Machine.getNeighborKeyMax 2 2 2 0 ≠ Machine.getKeyFromLevelOffset 2 2 l o) ∧
    ((Machine.getLevelOffset 2 2 1).getD 0 0 = 0 ∧
      ¬ ∀ (l : Nat) (o : IntPoint), o.length = 2 → (∀ x ∈ o, 0 ≤ x ∧ x < (2 : Int) ^ l) →
          Machine.getNeighborKeyMin 2 2 1 0 ≠ Machine.getKeyFromLevelOffset 2 2 l o) := by
  refine ⟨⟨by decide, fun h => ?_⟩, ⟨by decide, fun h => ?_⟩⟩
  · exact h 1 [0, 0] rfl (by decide) (by decide)
  · exact h 1 [1, 0] rfl (by decide) (by decide)

/-- C11 (amended): on the levels on which the keys are computed without rounding
(`KeyRange` at the level of `k`), whatever the perturbed offset, the key `n` returned by
`getNeighborKeyMax(k, a)` or `getNeighborKeyMin(k, a)` is the key of a cell of the domain:
its level offset has `d` coordinates in `[0, r^l')` for `l' = getLevel(n)` and
`n = getKeyFromLevelOffset(l', o')`; for a key `k` other than the root, `n` lies at the
level of `k`. -/
theorem C11_neighbor_key_is_cell_key (dim rfactor k a n : Nat)
    (hK : KeyRange dim rfactor (Machine.getLevel dim rfactor k))
    (hn : n = Machine.getNeighborKeyMax dim rfactor k a ∨
      n = Machine.getNeighborKeyMin dim rfactor k a) :
    (Machine.getOffsetWithinLevel dim rfactor n).length = dim ∧
    (∀ x ∈ Machine.getOffsetWithinLevel dim rfactor n,
      0 ≤ x ∧ x < (rfactor : Int) ^ Machine.getLevel dim rfactor n) ∧
    n = Machine.getKeyFromLevelOffset dim rfactor (Machine.getLevel dim rfactor n)
      (Machine.getOffsetWithinLevel dim rfactor n) ∧
    (0 < k → Machine.getLevel dim rfactor n = Machine.getLevel dim rfactor k) := by
  have h64 := keyRange_h64 hK
  rw [machine_getLevel_eq h64] at hK
  have hmain : ∀ v : Int, -1 ≤ v ∧ v ≤ 1 →
      n = Machine.getKeyFromLevelOffset dim rfactor (Machine.getLevel dim rfactor k)
        (Machine.addAt (Machine.getOffsetWithinLevel dim rfactor k) a v) →
      (Machine.getOffsetWithinLevel dim rfactor n).length = dim ∧
      (∀ x ∈ Machine.getOffsetWithinLevel dim rfactor n,
        0 ≤ x ∧ x < (rfactor : Int) ^ Machine.getLevel dim rfactor n) ∧
      n = Machine.getKeyFromLevelOffset dim rfactor (Machine.getLevel dim rfactor n)
        (Machine.getOffsetWithinLevel dim rfactor n) ∧
      (0 < k → Machine.getLevel dim rfactor n = Machine.getLevel dim rfactor k) := by
    intro v hv hnv
    rw [machine_neighbor_eq_all hK a v hv] at hnv
    obtain ⟨hKn, hlev⟩ := keyRange_neighbor hK a v hv
    rw [← hnv] at hKn hlev
    refine ⟨?_, ?_, (machine_key_round_trip hKn).symm, ?_⟩
    · rw [machine_getOffsetWithinLevel_eq (keyRange_offsetRange hKn)]
      exact getOffsetWithinLevel_length dim rfactor n
    · rw [machine_getOffsetWithinLevel_eq (keyRange_offsetRange hKn), machine_getLevel_eq h64]
      exact getOffsetWithinLevel_range dim hK.1 n
    · intro hk
      rw [machine_getLevel_eq h64, machine_getLevel_eq h64]
      exact hlev hk
  rcases hn with h | h
  · exact hmain 1 (by omega) h
  · exact hmain (-1) (by omega) h

/-- C11 (amended) at `d = 2`, `r = 2`, `k = 2`, axis 0, on the max side. -/
theorem C11_neighbor_key_is_cell_key_witness :
    KeyRange 2 2 (Machine.getLevel 2 2 2) ∧ Machine.getNeighborKeyMax 2 2 2 0 = 1 ∧
    (Machine.getOffsetWithinLevel 2 2 1).length = 2 ∧
    (∀ x ∈ Machine.getOffsetWithinLevel 2 2 1,
      0 ≤ x ∧ x < ((2 : Nat) : Int) ^ Machine.getLevel 2 2 1) ∧
    1 = Machine.getKeyFromLevelOffset 2 2 (Machine.getLevel 2 2 1)
      (Machine.getOffsetWithinLevel 2 2 1) ∧
    (0 < 2 → Machine.getLevel 2 2 1 = Machine.getLevel 2 2 2) :=
  ⟨⟨by decide, by decide, by decide, by decide, by decide⟩, by decide,
    C11_neighbor_key_is_cell_key 2 2 2 0 1
      ⟨by decide, by decide, by decide, by decide, by decide⟩ (Or.inl (by decide))⟩

set_option maxRecDepth 100000 in
/-- C13 (as stated, refuted): at `d = 2`, `r = 2` the list `getEqualSizedNeighborKeys(0)` of
the root contains `getNeighborKeyMax(0, 0) = 1`, a key of level 1. -/
theorem C13_root_neighbors_counterexample :
    ¬ ∀ n ∈ Machine.getEqualSizedNeighborKeys 2 2 0,
      Machine.getLevel 2 2 n = Machine.getLevel 2 2 0 := by
  intro h
  have hmem : Machine.getNeighborKeyMax 2 2 0 0 ∈ Machine.getEqualSizedNeighborKeys 2 2 0 :=
    machine_getNeighborKeyMax_mem_spawnNeighbors 2 2 _ [] 0
  have hK : KeyRange 2 2 (getLevel 2 2 0) :=
    ⟨by decide, by decide, by decide, by decide, by decide⟩
  have hval : Machine.getNeighborKeyMax 2 2 0 0 = 1 := by
    have e : Machine.getNeighborKeyMax 2 2 0 0 = getNeighborKeyMax 2 2 0 0 :=
      machine_neighbor_eq_all hK 0 1 (by omega)
    rw [e]
    show getKeyFromLevelOffset 2 2 0 [1, 0] = 1
    rw [getKeyFromLevelOffset_zero_of_div_zero 2 2 [1, 0] (by decide)]
    decide
  have h1 := h _ hmem
  rw [hval] at h1
  exact absurd h1 (by decide)

/-- C13 (amended): for every key `k` other than the root (`k > 0`, that is
`getLevel(k) ≥ 1`; cells on the domain edge included) of a level on which the keys are
computed without rounding (`KeyRange`), every key in `getEqualSizedNeighborKeys(k)` has the
same level as `k`. -/
theorem C13_neighbors_same_level (dim rfactor k : Nat) (hk : 0 < k)
    (hK : KeyRange dim rfactor (Machine.getLevel dim rfactor k)) :
    ∀ n ∈ Machine.getEqualSizedNeighborKeys dim rfactor k,
      Machine.getLevel dim rfactor n = Machine.getLevel dim rfactor k := by
  have h64 := keyRange_h64 hK
  rw [machine_getLevel_eq h64] at hK
  rw [machine_getEqualSizedNeighborKeys_eq hk hK]
  intro n hn
  rw [machine_getLevel_eq h64, machine_getLevel_eq h64]
  exact neighbors_same_level dim rfactor hK.1 k hk n hn

/-- C13 (amended) at `d = 2`, `r = 2`, `k = 5`, the corner cell `(0,0)` of level 2. -/
theorem C13_neighbors_same_level_witness :
    0 < 5 ∧ KeyRange 2 2 (Machine.getLevel 2 2 5) ∧
    Machine.getEqualSizedNeighborKeys 2 2 5 = [8, 8, 7, 8, 8, 7, 6, 6, 5] ∧
    (Machine.getEqualSizedNeighborKeys 2 2 5).all
      (fun n => decide (Machine.getLevel 2 2 n = Machine.getLevel 2 2 5)) = true :=
  ⟨by decide, ⟨by decide, by decide, by decide, by decide, by decide⟩, by decide,
    List.all_eq_true.mpr (fun n hn =>
      decide_eq_true (C13_neighbors_same_level 2 2 5 (by decide)
        ⟨by decide, by decide, by decide, by decide, by decide⟩ n hn))⟩

set_option maxRecDepth 100000 in
/-- C14 (as stated, refuted): at `d = 1`, `r = 2` the key `k = 6442450943` has the level
32 and the `int` level offset `(-2^31)`, so the corner `lo` of `getBox(k)` is `(-1/2)`,
outside the unit cube. -/
theorem C14_box_int_wraps_counterexample :
    Machine.getLevel 1 2 6442450943 = 32 ∧
    Machine.getOffsetWithinLevel 1 2 6442450943 = [-2147483648] ∧
    (Machine.getBox 1 2 6442450943).lo = [-1 / 2] ∧
    (Machine.getBox 1 2 6442450943).lo.getD 0 0 < 0 := by
  have hl : Machine.getLevel 1 2 6442450943 = 32 := by decide
  have ho : Machine.getOffsetWithinLevel 1 2 6442450943 = [-2147483648] := by decide
  have hlo : (Machine.getBox 1 2 6442450943).lo = [-1 / 2] := by
    show Point.mulInt (List.replicate 1 (1 / ((2 : Nat) : ℚ) ^ Machine.getLevel 1 2 6442450943))
      (Machine.getOffsetWithinLevel 1 2 6442450943) = [-1 / 2]
    rw [hl, ho]
    simp only [Point.mulInt, List.replicate, List.zipWith]
    norm_num
  refine ⟨hl, ho, hlo, ?_⟩
  rw [hlo]
  norm_num

/-- C14 (amended): for every key `k` whose level `l` has offsets within `int`
(`OffsetRange`), with level offset `o`, over exact rationals, `getBox(k)` has
`lo[i] = o[i] / r^l` and `hi[i] = lo[i] + r^(-l)` on each of the `d` axes, and therefore
`0 ≤ lo[i] < hi[i] ≤ 1`: the box lies inside the unit cube. -/
theorem C14_getBox_unit_cube (dim rfactor k : Nat)
    (hO : OffsetRange dim rfactor (Machine.getLevel dim rfactor k)) :
    (Machine.getBox dim rfactor k).lo =
      (Machine.getOffsetWithinLevel dim rfactor k).map
        (fun (x : Int) => (x : ℚ) / (rfactor : ℚ) ^ Machine.getLevel dim rfactor k) ∧
    (Machine.getBox dim rfactor k).hi =
      (Machine.getBox dim rfactor k).lo.map
        (fun y => y + ((rfactor : ℚ) ^ Machine.getLevel dim rfactor k)⁻¹) ∧
    (Machine.getBox dim rfactor k).lo.length = dim ∧
    (Machine.getBox dim rfactor k).hi.length = dim ∧
    ∀ i, i < dim →
      0 ≤ (Machine.getBox dim rfactor k).lo.getD i 0 ∧
      (Machine.getBox dim rfactor k).lo.getD i 0 < (Machine.getBox dim rfactor k).hi.getD i 0 ∧
      (Machine.getBox dim rfactor k).hi.getD i 0 ≤ 1 := by
  rw [machine_getLevel_eq hO.2.1] at hO ⊢
  rw [machine_getBox_eq hO, machine_getOffsetWithinLevel_eq hO]
  exact getBox_unit_cube dim rfactor hO.1 k

/-- C14 (amended) at `d = 2`, `r = 2`, `k = 8`: the box `[1/4, 1/2]^2`. -/
theorem C14_getBox_unit_cube_witness :
    OffsetRange 2 2 (Machine.getLevel 2 2 8) ∧
    (Machine.getBox 2 2 8).lo.length = 2 ∧ (Machine.getBox 2 2 8).hi.length = 2 ∧
    ∀ i, i < 2 →
      0 ≤ (Machine.getBox 2 2 8).lo.getD i 0 ∧
      (Machine.getBox 2 2 8).lo.getD i 0 < (Machine.getBox 2 2 8).hi.getD i 0 ∧
      (Machine.getBox 2 2 8).hi.getD i 0 ≤ 1 :=
  ⟨⟨by decide, by decide, by decide⟩,
    (C14_getBox_unit_cube 2 2 8 ⟨by decide, by decide, by decide⟩).2.2⟩

set_option maxRecDepth 100000 in
/-- C12 (as stated, refuted): at `d = 2`, `r = 4` the key `k = 76861433640456470` has the
level 15 and the offset `(1, 1)`, an interior cell; the rounded starting key of the level
shifts every key that `getKeyFromLevelOffset` returns, and `getEqualSizedNeighborKeys(k)`
lists `76861433640456465`, `76861433640456473` and `k` twice each: its 9 keys are not
pairwise distinct. -/
theorem C12_interior_rounded_counterexample :
    Machine.getLevel 2 4 76861433640456470 = 15 ∧
    Machine.getOffsetWithinLevel 2 4 76861433640456470 = [1, 1] ∧
    (∀ x ∈ Machine.getOffsetWithinLevel 2 4 76861433640456470,
      1 ≤ x ∧ x ≤ ((4 : Nat) : Int) ^ Machine.getLevel 2 4 76861433640456470 - 2) ∧
    Machine.getEqualSizedNeighborKeys 2 4 76861433640456470 =
      [76861433640456467, 76861433640456465, 76861433640456465,
        76861433640456475, 76861433640456473, 76861433640456473,
        76861433640456468, 76861433640456470, 76861433640456470] ∧
    ¬ (Machine.getEqualSizedNeighborKeys 2 4 76861433640456470).Nodup := by
  refine ⟨by decide, by decide, by decide, by decide, by decide⟩

/-- C12 (amended): for every key `k` at a level `l` on which the keys are computed without
rounding (`KeyRange`) whose offset `o` has every coordinate in `[1, r^l - 2]`,
`getEqualSizedNeighborKeys(k)` is a list of exactly `3^d` pairwise distinct keys, all at
level `l`, whose level offsets are exactly the points `o + delta` with `delta` in
`{-1, 0, 1}^d`; for `d = 2`, `r = 2` and the key 8 (level 2, offset `(1,1)`) the offsets
are the nine points `(0,0), ..., (2,2)`. -/
theorem C12_equal_sized_neighbors_interior (dim rfactor : Nat) (hd : 0 < dim) (k : Nat)
    (hK : KeyRange dim rfactor (Machine.getLevel dim rfactor k))
    (hint : ∀ x ∈ Machine.getOffsetWithinLevel dim rfactor k,
      1 ≤ x ∧ x ≤ (rfactor : Int) ^ Machine.getLevel dim rfactor k - 2) :
    (Machine.getEqualSizedNeighborKeys dim rfactor k).length = 3 ^ dim ∧
    (Machine.getEqualSizedNeighborKeys dim rfactor k).Nodup ∧
    (∀ n ∈ Machine.getEqualSizedNeighborKeys dim rfactor k,
      Machine.getLevel dim rfactor n = Machine.getLevel dim rfactor k) ∧
    (∀ p : IntPoint,
      p ∈ (Machine.getEqualSizedNeighborKeys dim rfactor k).map
          (Machine.getOffsetWithinLevel dim rfactor) ↔
        p.length = dim ∧
        ∀ i, i < dim →
          p.getD i 0 = (Machine.getOffsetWithinLevel dim rfactor k).getD i 0 - 1 ∨
          p.getD i 0 = (Machine.getOffsetWithinLevel dim rfactor k).getD i 0 ∨
          p.getD i 0 = (Machine.getOffsetWithinLevel dim rfactor k).getD i 0 + 1) ∧
    (Machine.getLevel 2 2 8 = 2 ∧ Machine.getOffsetWithinLevel 2 2 8 = [1, 1] ∧
      ((Machine.getEqualSizedNeighborKeys 2 2 8).map (Machine.getOffsetWithinLevel 2 2)).Perm
        [[0, 0], [0, 1], [0, 2], [1, 0], [1, 1], [1, 2], [2, 0], [2, 1], [2, 2]]) := by
  have h64 := keyRange_h64 hK
  rw [machine_getLevel_eq h64] at hK hint ⊢
  have hO := keyRange_offsetRange hK
  rw [machine_getOffsetWithinLevel_eq hO] at hint ⊢
  have hk : 0 < k := by
    rcases Nat.eq_zero_or_pos k with h0 | h0
    · subst h0
      obtain ⟨m, rfl⟩ : ∃ m, dim = m + 1 := ⟨dim - 1, by omega⟩
      have := hint 0 (List.mem_cons_self _ _)
      omega
    · exact h0
  obtain ⟨c1, c2, c3, c4, _⟩ := equal_sized_neighbors_interior dim rfactor hd hK.1 k hint
  rw [machine_getEqualSizedNeighborKeys_eq hk hK]
  have hmap : (getEqualSizedNeighborKeys dim rfactor k).map
      (Machine.getOffsetWithinLevel dim rfactor) =
      (getEqualSizedNeighborKeys dim rfactor k).map (getOffsetWithinLevel dim rfactor) := by
    apply List.map_congr_left
    intro n hn
    exact machine_getOffsetWithinLevel_eq (by rw [c3 n hn]; exact hO)
  rw [hmap]
  refine ⟨c1, c2, fun n hn => ?_, c4, by decide, by decide, by decide⟩
  rw [machine_getLevel_eq h64]
  exact c3 n hn

/-- C12 (amended) at `d = 2`, `r = 2`, `k = 8`. -/
theorem C12_equal_sized_neighbors_interior_witness :
    KeyRange 2 2 (Machine.getLevel 2 2 8) ∧
    (∀ x ∈ Machine.getOffsetWithinLevel 2 2 8,
      1 ≤ x ∧ x ≤ ((2 : Nat) : Int) ^ Machine.getLevel 2 2 8 - 2) ∧
    Machine.getEqualSizedNeighborKeys 2 2 8 = [5, 9, 6, 13, 17, 14, 7, 11, 8] ∧
    (Machine.getEqualSizedNeighborKeys 2 2 8).length = 3 ^ 2 ∧
    (Machine.getEqualSizedNeighborKeys 2 2 8).Nodup :=
  ⟨⟨by decide, by decide, by decide, by decide, by decide⟩, by decide, by decide,
    (C12_equal_sized_neighbors_interior 2 2 (by decide) 8
      ⟨by decide, by decide, by decide, by decide, by decide⟩ (by decide)).1,
    (C12_equal_sized_neighbors_interior 2 2 (by decide) 8
      ⟨by decide, by decide, by decide, by decide, by decide⟩ (by decide)).2.1⟩

/-! ## Properties of construction and refinement -/

/-- C15 (evaluated): the uniform build `d = 2`, `r = 2`, `lvlmin = 0`, `L = 2` from the
empty tree with an oracle that is never uniform stores exactly the keys `0..20`
(21 nodes) whatever the prototype map; the leaf flag of a stored node is the one of the
node returned by the prototype map, because `n = pm.getValue(key)` overwrites
`n.isLeaf() = true`. With prototype nodes flagged `true` the leaves are the 16 keys of
level 2; with prototype nodes flagged `false` the tree has no leaf. -/
theorem C15_uniform_build_leaf_flag :
    ((buildTree 2 2 0 2 (fun _ => (⟨0, true⟩ : DefaultNode Int)) (fun _ => false) 3 [] 0 0).map
      (fun t => ((LevelContainer.entries t).map (fun e => e.2.1),
        ((LevelContainer.entries t).filter (fun e => e.2.2.mIsLeaf)).map
          (fun e => getLevel 2 2 e.2.1))) =
      some (List.range 21, List.replicate 16 2)) ∧
    ((buildTree 2 2 0 2 (fun _ => (⟨0, false⟩ : DefaultNode Int)) (fun _ => false) 3 [] 0 0).map
      (fun t => ((LevelContainer.entries t).map (fun e => e.2.1),
        ((LevelContainer.entries t).filter (fun e => e.2.2.mIsLeaf)).map
          (fun e => getLevel 2 2 e.2.1))) =
      some (List.range 21, [])) := by
  constructor <;> decide

/-- C17 (evaluated): `buildTree(0, 0, ...)` from the root on the empty tree of `d = 2`,
`r = 2`, with a prototype map whose nodes carry `mIsLeaf = false`, leaves the root stored
with `is_leaf = false` and none of its children: the structural invariant fails in a tree
reached by one `buildTree` call. -/
theorem C17_structural_invariant_broken :
    ∃ t : Orthtree Int,
      buildTree 2 2 0 0 (fun _ => (⟨0, false⟩ : DefaultNode Int)) (fun _ => false) 1 [] 0 0 =
        some t ∧
      Orthtree.get? 2 2 t 0 = some ⟨0, false⟩ ∧
      Orthtree.get? 2 2 t (getChildKey 2 2 0 0) = none ∧
      ¬ StructuralInvariant 2 2 t := by
  refine ⟨[(0, [(0, ⟨0, false⟩)])], by decide, by decide, by decide, fun h => ?_⟩
  have h1 := (h 0 ⟨0, false⟩ (by decide)).1 rfl 0 (by decide)
  exact absurd h1 (by decide)

/-- C19: for every tree and every key `k` whose node is internal (`is_leaf = false`),
`refineCell(k)` returns the tree unchanged and raises no error. -/
theorem C19_refineCell_internal {V : Type} (dim rfactor : Nat) (t : Orthtree V) (k : Nat)
    (n : DefaultNode V) (hn : Orthtree.get? dim rfactor t k = some n)
    (hint : n.mIsLeaf = false) :
    refineCell dim rfactor t k = some t := by
  unfold refineCell
  rw [hn]
  simp [hint]

/-- C19 at `d = 2`, `r = 2`: the internal root of the tree holding the root and its four
children. -/
theorem C19_refineCell_internal_witness :
    refineCell 2 2
        ([(0, [(0, ⟨7, false⟩)]), (1, [(1, ⟨7, true⟩), (2, ⟨7, true⟩), (3, ⟨5, true⟩),
          (4, ⟨7, true⟩)])] : Orthtree Int) 0 =
      some [(0, [(0, ⟨7, false⟩)]), (1, [(1, ⟨7, true⟩), (2, ⟨7, true⟩), (3, ⟨5, true⟩),
          (4, ⟨7, true⟩)])] :=
  C19_refineCell_internal 2 2 _ 0 ⟨7, false⟩ (by decide) rfl

/-- C20 (as stated, refuted): `buildTree` called on the empty tree of `d = 2`, `r = 2` from
the key 3 at its level 1, with `lvlstop = 1`, stores the leaf 3 at level 1 and no level 0.
On this tree `begin()` adds an empty level 0 and designates the end of its empty map, which
the constructor of `leaf_iterator` dereferences: the leaf cursor has no defined result, and
does not yield the stored leaf 3. -/
theorem C20_leaf_cursor_without_root_counterexample :
    buildTree 2 2 0 1 (fun _ => (⟨0, true⟩ : DefaultNode Nat)) (fun _ => false) 1 [] 3 1 =
      some [(1, [(3, ⟨0, true⟩)])] ∧
    (LevelContainer.begin ([(1, [(3, ⟨0, true⟩)])] : Orthtree Nat)).1 =
      [(0, []), (1, [(3, ⟨0, true⟩)])] ∧
    (LevelContainer.begin ([(1, [(3, ⟨0, true⟩)])] : Orthtree Nat)).2.it = [] ∧
    leafCursor ([(1, [(3, ⟨0, true⟩)])] : Orthtree Nat) = none ∧
    leafCursor ([(1, [(3, ⟨0, true⟩)])] : Orthtree Nat) ≠ some [(3, ⟨0, true⟩)] := by
  refine ⟨rfl, rfl, rfl, rfl, ?_⟩
  intro h
  have h2 : leafCursor ([(1, [(3, ⟨0, true⟩)])] : Orthtree Nat) = none := rfl
  rw [h2] at h
  exact absurd h (by simp)

/-- C20 (amended): for every tree whose level 0 is populated (`mKeyMaps` is ordered by
level, so level 0 is its first entry), the leaf cursor `leaf_begin() .. leaf_end()` yields
exactly the stored entries with `is_leaf = true`, each once and in the order of the
iteration over all nodes, and no entry with `is_leaf = false`, also when the first stored
node is internal; on the empty tree it yields nothing. -/
theorem C20_leaf_cursor {V : Type} (m0 : KeyMap (DefaultNode V)) (rest : Orthtree V)
    (hm0 : m0 ≠ []) :
    leafCursor ((0, m0) :: rest) =
      some ((((0, m0) :: rest : Orthtree V).flatMap (fun lm => lm.2)).filter
        (fun kn => kn.2.mIsLeaf)) ∧
    leafCursor ([] : Orthtree V) = some [] :=
  ⟨leafCursor_of_root m0 rest hm0, rfl⟩

/-- C20 (amended) on a tree of `d = 2`, `r = 2` whose root and key 3 are internal. -/
theorem C20_leaf_cursor_witness :
    leafCursor ([(0, [(0, ⟨7, false⟩)]),
        (1, [(1, ⟨7, true⟩), (2, ⟨7, true⟩), (3, ⟨5, false⟩), (4, ⟨7, true⟩)]),
        (2, [(13, ⟨1, true⟩), (14, ⟨1, true⟩), (15, ⟨1, true⟩), (16, ⟨1, true⟩)])] :
        Orthtree Int) =
      some [(1, ⟨7, true⟩), (2, ⟨7, true⟩), (4, ⟨7, true⟩), (13, ⟨1, true⟩), (14, ⟨1, true⟩),
        (15, ⟨1, true⟩), (16, ⟨1, true⟩)] :=
  (C20_leaf_cursor [(0, ⟨7, false⟩)]
    [(1, [(1, ⟨7, true⟩), (2, ⟨7, true⟩), (3, ⟨5, false⟩), (4, ⟨7, true⟩)]),
      (2, [(13, ⟨1, true⟩), (14, ⟨1, true⟩), (15, ⟨1, true⟩), (16, ⟨1, true⟩)])]
    (by simp)).1

/-! ## Properties of the level container -/

/-- C28: for every container state, key `k`, level `l` and node `n`, after
`insert(k, l, n)` the call `find(k, l)` returns an iterator of level `l` that designates the
entry `(k, n)`, the call `find(k)` returns an iterator that designates an entry for `k`,
neither is the `end()` of the container, and the entry of every other (level, key) is the
one of the state before. -/
theorem C28_insert_find {M : Type} (c : LevelContainer M) (k l : Nat) (n : M) :
    (∃ i, LevelContainer.findLvl (LevelContainer.insert c k l n) k l = some i ∧
        i.itLvl = l ∧ i.it.head? = some (k, n) ∧
        ∀ e, LevelContainer.end_ (LevelContainer.insert c k l n) = some e → i.eq e = false) ∧
    (∃ j, LevelContainer.find (LevelContainer.insert c k l n) k = some j ∧
        j.it.head?.map (fun kn => kn.1) = some k ∧
        ∀ e, LevelContainer.end_ (LevelContainer.insert c k l n) = some e → j.eq e = false) ∧
    (∀ l2 k2, ¬ (l2 = l ∧ k2 = k) →
        LevelContainer.lookup (LevelContainer.insert c k l n) l2 k2 =
          LevelContainer.lookup c l2 k2) := by
  have hlev : LevelContainer.level? (LevelContainer.insert c k l n) l =
      some (KeyMap.assign ((LevelContainer.level? c l).getD []) k n) := by
    unfold LevelContainer.insert
    rw [LevelContainer.level?_atLevel, if_pos rfl]
  have hfind : KeyMap.find? (KeyMap.assign ((LevelContainer.level? c l).getD []) k n) k =
      some n := by
    rw [KeyMap.find?_assign, if_pos rfl]
  obtain ⟨es, hes⟩ := KeyMap.findIt_of_find?_some k n _ hfind
  refine ⟨⟨{ lit := LevelContainer.findLevel (LevelContainer.insert c k l n) l, itLvl := l,
             it := (k, n) :: es }, ?_, rfl, rfl, ?_⟩, ?_, ?_⟩
  · unfold LevelContainer.findLvl
    rw [hlev]
    simp only [Option.getD_some, hes]
  · intro e he
    exact LevelContainer.iterator.eq_false_of_it _ e (by simp) (LevelContainer.end_it _ e he)
  · obtain ⟨j, hj1, hj2⟩ := LevelContainer.findFrom_exists (LevelContainer.insert c k l n) k
      (LevelContainer.insert c k l n)
      ⟨_, LevelContainer.mem_of_level? l _ _ hlev, by rw [hfind]; simp⟩
    refine ⟨j, hj1, hj2, fun e he => ?_⟩
    refine LevelContainer.iterator.eq_false_of_it j e (fun h0 => ?_) (LevelContainer.end_it _ e he)
    rw [h0] at hj2
    simp at hj2
  · intro l2 k2 hne
    rw [LevelContainer.lookup_insert, if_neg hne]

/-- C29: in every container state (the levels of `mKeyMaps` in ascending order) and for
every key `k`: when some level holds `k`, `find(k)` returns an iterator, other than
`end()`, that designates the entry `(k, n)` of the lowest level `l` that holds `k`; when no
level holds `k`, `find(k)` returns `end()`. -/
theorem C29_find_first_hit {M : Type} (c : LevelContainer M)
    (hc : LevelContainer.Ascending c) (k : Nat) :
    ((∃ l n, LevelContainer.lookup c l k = some n) →
      ∃ l n i, LevelContainer.lookup c l k = some n ∧
        (∀ l2, l2 < l → LevelContainer.lookup c l2 k = none) ∧
        LevelContainer.find c k = some i ∧ i.lit = LevelContainer.findLevel c l ∧
        i.itLvl = l ∧ i.it.head? = some (k, n) ∧
        ∀ e, LevelContainer.end_ c = some e → i.eq e = false) ∧
    ((∀ l, LevelContainer.lookup c l k = none) →
      LevelContainer.find c k = LevelContainer.end_ c) := by
  constructor
  · rintro ⟨l0, n0, h0⟩
    have hex : ∃ lm ∈ c, KeyMap.find? lm.2 k ≠ none := by
      unfold LevelContainer.lookup at h0
      cases hlev : LevelContainer.level? c l0 with
      | none => rw [hlev] at h0; simp at h0
      | some m =>
        rw [hlev] at h0
        have h1 : KeyMap.find? m k = some n0 := h0
        exact ⟨(l0, m), LevelContainer.mem_of_level? l0 m c hlev, by
          show KeyMap.find? m k ≠ none
          rw [h1]; simp⟩
    obtain ⟨l, m, n, es, hmem, hfind, hlow, hres⟩ := LevelContainer.findFrom_some c k c hc hex
    have hlev := LevelContainer.level?_of_mem l m c hc hmem
    refine ⟨l, n, _, ?_, ?_, hres, rfl, rfl, rfl, ?_⟩
    · unfold LevelContainer.lookup
      rw [hlev]
      exact hfind
    · intro l2 hl2
      unfold LevelContainer.lookup
      cases hlev2 : LevelContainer.level? c l2 with
      | none => rfl
      | some m2 =>
        exact hlow (l2, m2) (LevelContainer.mem_of_level? l2 m2 c hlev2) hl2
    · intro e he
      exact LevelContainer.iterator.eq_false_of_it _ e (by simp) (LevelContainer.end_it _ e he)
  · intro hnone
    refine LevelContainer.findFrom_none c k c (fun lm hlm => ?_)
    have hlev := LevelContainer.level?_of_mem lm.1 lm.2 c hc hlm
    have h := hnone lm.1
    unfold LevelContainer.lookup at h
    rw [hlev] at h
    exact h

/-- C29 on a container that holds the key 7 at the levels 1 and 2 and not at level 0:
`find(7)` designates the entry of level 1. -/
theorem C29_find_first_hit_witness :
    LevelContainer.Ascending ([(0, [(0, 10)]), (1, [(3, 11), (7, 12)]), (2, [(7, 13)])] :
      LevelContainer Nat) ∧
    (LevelContainer.find ([(0, [(0, 10)]), (1, [(3, 11), (7, 12)]), (2, [(7, 13)])] :
      LevelContainer Nat) 7).map (fun i => (i.itLvl, i.it.head?)) = some (1, some (7, 12)) ∧
    (((∃ l n, LevelContainer.lookup ([(0, [(0, 10)]), (1, [(3, 11), (7, 12)]), (2, [(7, 13)])] :
        LevelContainer Nat) l 7 = some n) →
      ∃ l n i, LevelContainer.lookup ([(0, [(0, 10)]), (1, [(3, 11), (7, 12)]), (2, [(7, 13)])] :
          LevelContainer Nat) l 7 = some n ∧
        (∀ l2, l2 < l → LevelContainer.lookup ([(0, [(0, 10)]), (1, [(3, 11), (7, 12)]),
          (2, [(7, 13)])] : LevelContainer Nat) l2 7 = none) ∧
        LevelContainer.find ([(0, [(0, 10)]), (1, [(3, 11), (7, 12)]), (2, [(7, 13)])] :
          LevelContainer Nat) 7 = some i ∧
        i.lit = LevelContainer.findLevel ([(0, [(0, 10)]), (1, [(3, 11), (7, 12)]),
          (2, [(7, 13)])] : LevelContainer Nat) l ∧
        i.itLvl = l ∧ i.it.head? = some (7, n) ∧
        ∀ e, LevelContainer.end_ ([(0, [(0, 10)]), (1, [(3, 11), (7, 12)]), (2, [(7, 13)])] :
          LevelContainer Nat) = some e → i.eq e = false) ∧
    ((∀ l, LevelContainer.lookup ([(0, [(0, 10)]), (1, [(3, 11), (7, 12)]), (2, [(7, 13)])] :
        LevelContainer Nat) l 7 = none) →
      LevelContainer.find ([(0, [(0, 10)]), (1, [(3, 11), (7, 12)]), (2, [(7, 13)])] :
        LevelContainer Nat) 7 =
      LevelContainer.end_ ([(0, [(0, 10)]), (1, [(3, 11), (7, 12)]), (2, [(7, 13)])] :
        LevelContainer Nat))) :=
  ⟨by unfold LevelContainer.Ascending; decide, by decide,
    C29_find_first_hit _ (by unfold LevelContainer.Ascending; decide) 7⟩

/-- C30 (as stated, refuted): the two calls `insert(5, 0, n)` and `insert(5, 1, n)` on the
empty container leave the key 5 stored at level 0 and at level 1. -/
theorem C30_key_at_two_levels_counterexample :
    LevelContainer.lookup (LevelContainer.run
      [ContainerOp.insert 5 0 (7 : Nat), ContainerOp.insert 5 1 7]) 0 5 = some 7 ∧
    LevelContainer.lookup (LevelContainer.run
      [ContainerOp.insert 5 0 (7 : Nat), ContainerOp.insert 5 1 7]) 1 5 = some 7 ∧
    ¬ ∀ (ops : List (ContainerOp Nat)) (k l1 l2 : Nat),
      (LevelContainer.lookup (LevelContainer.run ops) l1 k).isSome = true →
      (LevelContainer.lookup (LevelContainer.run ops) l2 k).isSome = true → l1 = l2 := by
  refine ⟨by decide, by decide, fun h => ?_⟩
  have h1 := h [ContainerOp.insert 5 0 (7 : Nat), ContainerOp.insert 5 1 7] 5 0 1
    (by decide) (by decide)
  exact absurd h1 (by decide)

/-- C30 (amended): the container does not keep a key from being stored at two levels; when
every insertion of a key `k` is made at the level `getLevel(k)` of the key, as the tree
operations make it, then in every state reached from the empty container by `insert` and
`erase` calls every stored key is stored at the level of the key, hence at no more than one
level. -/
theorem C30_unique_level_when_inserted_at_own_level {M : Type} (dim rfactor : Nat)
    (ops : List (ContainerOp M))
    (hops : ∀ op ∈ ops, ∀ k l, op.stores = some (k, l) → l = getLevel dim rfactor k) :
    (∀ l k, (LevelContainer.lookup (LevelContainer.run ops) l k).isSome = true →
      l = getLevel dim rfactor k) ∧
    (∀ k l1 l2, (LevelContainer.lookup (LevelContainer.run ops) l1 k).isSome = true →
      (LevelContainer.lookup (LevelContainer.run ops) l2 k).isSome = true → l1 = l2) := by
  have key : ∀ (ops : List (ContainerOp M)) (c : LevelContainer M),
      (∀ op ∈ ops, ∀ k l, op.stores = some (k, l) → l = getLevel dim rfactor k) →
      (∀ l k, (LevelContainer.lookup c l k).isSome = true → l = getLevel dim rfactor k) →
      ∀ l k, (LevelContainer.lookup (ops.foldl LevelContainer.apply c) l k).isSome = true →
        l = getLevel dim rfactor k := by
    intro ops
    induction ops with
    | nil => intro c _ hc; exact hc
    | cons op ops ih =>
      intro c hops hc
      rw [List.foldl_cons]
      refine ih _ (fun op2 h2 => hops op2 (List.mem_cons_of_mem _ h2)) ?_
      intro l k hl
      have hop := hops op (List.mem_cons_self _ _)
      cases op with
      | insert key lvl val =>
        simp only [LevelContainer.apply] at hl
        rw [LevelContainer.lookup_insert] at hl
        by_cases hm : l = lvl ∧ k = key
        · obtain ⟨rfl, rfl⟩ := hm
          exact hop k l rfl
        · rw [if_neg hm] at hl
          exact hc l k hl
      | insertPair key val lvl =>
        simp only [LevelContainer.apply] at hl
        rw [LevelContainer.lookup_insertPair] at hl
        by_cases hm : l = lvl ∧ k = key
        · obtain ⟨rfl, rfl⟩ := hm
          exact hop k l rfl
        · rw [if_neg hm] at hl
          exact hc l k hl
      | erase key lvl =>
        simp only [LevelContainer.apply] at hl
        exact hc l k (LevelContainer.lookup_erase_isSome c key lvl l k hl)
  have h := key ops [] hops (fun l k hl => by simp [LevelContainer.lookup, LevelContainer.level?] at hl)
  exact ⟨h, fun k l1 l2 h1 h2 => (h l1 k h1).trans (h l2 k h2).symm⟩

/-- C30 (amended) on the calls `insert(5, 2, n)`, `insert(1, 1, n)`, `erase(5, 2)`,
`insert(5, 2, n)` at `d = 2`, `r = 2`, where the key 5 has level 2 and the key 1 level 1. -/
theorem C30_unique_level_when_inserted_at_own_level_witness :
    (∀ op ∈ [ContainerOp.insert 5 2 (7 : Nat), ContainerOp.insertPair 1 7 1,
        ContainerOp.erase 5 2, ContainerOp.insert 5 2 8],
      ∀ k l, op.stores = some (k, l) → l = getLevel 2 2 k) ∧
    LevelContainer.lookup (LevelContainer.run [ContainerOp.insert 5 2 (7 : Nat),
        ContainerOp.insertPair 1 7 1, ContainerOp.erase 5 2, ContainerOp.insert 5 2 8]) 2 5 =
      some 8 ∧
    ((∀ l k, (LevelContainer.lookup (LevelContainer.run [ContainerOp.insert 5 2 (7 : Nat),
        ContainerOp.insertPair 1 7 1, ContainerOp.erase 5 2, ContainerOp.insert 5 2 8])
          l k).isSome = true → l = getLevel 2 2 k) ∧
    (∀ k l1 l2, (LevelContainer.lookup (LevelContainer.run [ContainerOp.insert 5 2 (7 : Nat),
        ContainerOp.insertPair 1 7 1, ContainerOp.erase 5 2, ContainerOp.insert 5 2 8])
          l1 k).isSome = true →
      (LevelContainer.lookup (LevelContainer.run [ContainerOp.insert 5 2 (7 : Nat),
        ContainerOp.insertPair 1 7 1, ContainerOp.erase 5 2, ContainerOp.insert 5 2 8])
          l2 k).isSome = true → l1 = l2)) := by
  have hops : ∀ op ∈ [ContainerOp.insert 5 2 (7 : Nat), ContainerOp.insertPair 1 7 1,
      ContainerOp.erase 5 2, ContainerOp.insert 5 2 8],
      ∀ k l, op.stores = some (k, l) → l = getLevel 2 2 k := by
    intro op hop k l hs
    simp only [List.mem_cons, List.mem_singleton, List.not_mem_nil, or_false] at hop
    rcases hop with rfl | rfl | rfl | rfl
    · simp only [ContainerOp.stores, Option.some.injEq, Prod.mk.injEq] at hs
      obtain ⟨rfl, rfl⟩ := hs
      decide
    · simp only [ContainerOp.stores, Option.some.injEq, Prod.mk.injEq] at hs
      obtain ⟨rfl, rfl⟩ := hs
      decide
    · simp [ContainerOp.stores] at hs
    · simp only [ContainerOp.stores, Option.some.injEq, Prod.mk.injEq] at hs
      obtain ⟨rfl, rfl⟩ := hs
      decide
  exact ⟨hops, by decide, C30_unique_level_when_inserted_at_own_level 2 2 _ hops⟩

/-! ## Properties of the boundary classification and of the cursors -/

/-- C21: for every tree (with at least one level in `mKeyMaps`, so that `end()` is
defined) and every key `k`, `Orthtree::isBoundary(k)` returns, and its result is true if and
only if the codec's `isBoundary(k)` holds or, for some axis `a < d`,
`getNeighborKeyMin(k, a)` or `getNeighborKeyMax(k, a)` is held by no level of the
container. -/
theorem C21_isBoundary_iff {V : Type} (dim rfactor : Nat) (t : Orthtree V) (ht : t ≠ [])
    (k : Nat) :
    ∃ b, Orthtree.isBoundary dim rfactor t k none = some b ∧
      (b = true ↔ (csg.isBoundary dim rfactor k = true ∨
        ∃ a, a < dim ∧
          ((∀ lm ∈ t, KeyMap.find? lm.2 (getNeighborKeyMin dim rfactor k a) = none) ∨
            (∀ lm ∈ t, KeyMap.find? lm.2 (getNeighborKeyMax dim rfactor k a) = none)))) :=
  Orthtree.isBoundary_spec dim rfactor t ht k

/-- C21 at `d = 1`, `r = 3` on the tree that holds the root and the level-1 keys 1 and 2
but not the key 3: the key 2 (offset 1 of 3, not a boundary key of the codec) is classified
as boundary, its neighbor 3 being absent. -/
theorem C21_isBoundary_iff_witness :
    ([(0, [(0, ⟨0, false⟩)]), (1, [(1, ⟨0, true⟩), (2, ⟨0, true⟩)])] : Orthtree Nat) ≠ [] ∧
    csg.isBoundary 1 3 2 = false ∧
    Orthtree.isBoundary 1 3
      ([(0, [(0, ⟨0, false⟩)]), (1, [(1, ⟨0, true⟩), (2, ⟨0, true⟩)])] : Orthtree Nat) 2 none =
      some true ∧
    ∃ b, Orthtree.isBoundary 1 3
        ([(0, [(0, ⟨0, false⟩)]), (1, [(1, ⟨0, true⟩), (2, ⟨0, true⟩)])] : Orthtree Nat) 2 none =
        some b ∧
      (b = true ↔ (csg.isBoundary 1 3 2 = true ∨
        ∃ a, a < 1 ∧
          ((∀ lm ∈ ([(0, [(0, ⟨0, false⟩)]), (1, [(1, ⟨0, true⟩), (2, ⟨0, true⟩)])] :
              Orthtree Nat), KeyMap.find? lm.2 (getNeighborKeyMin 1 3 2 a) = none) ∨
            (∀ lm ∈ ([(0, [(0, ⟨0, false⟩)]), (1, [(1, ⟨0, true⟩), (2, ⟨0, true⟩)])] :
              Orthtree Nat), KeyMap.find? lm.2 (getNeighborKeyMax 1 3 2 a) = none)))) :=
  ⟨by simp, by decide, by decide, C21_isBoundary_iff 1 3 _ (by simp) 2⟩

/-- C22: over the same tree and the same argument pack, the boundary cursor and the
interior cursor split the entries `xs` visited by the all-nodes iteration: `isBoundary`
returns on every key, the boundary cursor yields exactly the entries of `xs` on which it
returns true, the interior cursor exactly those on which it returns false, each in the order
of the iteration. The pack is either empty, on a tree whose level 0 is populated (`xs` are
all the entries of the tree), or a level `lvl`, populated and followed by no level or by the
populated level `lvl + 1` (`xs` are the entries of level `lvl`). -/
theorem C22_boundary_interior_complement {V : Type} (dim rfactor : Nat) (t : Orthtree V)
    (args : Option Nat) (xs : List (Nat × DefaultNode V))
    (h : (args = none ∧ ∃ m0 rest, t = (0, m0) :: rest ∧ m0 ≠ [] ∧
            xs = t.flatMap (fun lm => lm.2)) ∨
         (∃ lvl rest, args = some lvl ∧ LevelContainer.Ascending t ∧
            LevelContainer.findLevel t lvl = (lvl, xs) :: rest ∧ xs ≠ [] ∧
            (rest = [] ∨ ∃ m1 rest1, rest = (lvl + 1, m1) :: rest1 ∧ m1 ≠ []))) :
    allCursor t args = some xs ∧
    (∀ k, ∃ b, Orthtree.isBoundary dim rfactor t k args = some b) ∧
    boundaryCursor dim rfactor t args =
      some (xs.filter (fun kn => Orthtree.isBoundary dim rfactor t kn.1 args == some true)) ∧
    interiorCursor dim rfactor t args =
      some (xs.filter (fun kn => Orthtree.isBoundary dim rfactor t kn.1 args == some false)) := by
  have main : (LevelContainer.beginArgs t args).1 = t ∧
      (∃ e, LevelContainer.endArgs t args = some e ∧
        LevelContainer.iterator.Reaches e (LevelContainer.beginArgs t args).2 xs) ∧
      xs.length ≤ (LevelContainer.entries t).length ∧
      (∀ k, ∃ b, Orthtree.isBoundary dim rfactor t k args = some b) := by
    rcases h with ⟨rfl, m0, rest, rfl, hm0, rfl⟩ | ⟨lvl, rest, rfl, hc, hfind, hxs, hrest⟩
    · obtain ⟨h1, h2⟩ := cursor_facts_root m0 rest hm0
      refine ⟨h1, h2, by rw [length_entries], fun k => ?_⟩
      obtain ⟨b, hb, _⟩ := Orthtree.isBoundary_spec dim rfactor ((0, m0) :: rest) (by simp) k
      exact ⟨b, hb⟩
    · obtain ⟨h1, hlev, e, he, hr⟩ := cursor_facts_level t hc lvl xs rest hfind hxs hrest
      refine ⟨h1, ⟨e, he, hr⟩, ?_, fun k => ?_⟩
      · exact length_le_entries_of_mem lvl xs t (LevelContainer.mem_of_level? lvl xs t hlev)
      · exact Orthtree.isBoundary_isSome dim rfactor t (some lvl) ⟨e, he⟩
          (fun n => findLvl_isSome t lvl xs hlev ⟨e, he⟩ n) k
  obtain ⟨hb, ⟨e, he, hr⟩, hlen, hsome⟩ := main
  refine ⟨allCursor_spec t args e xs hb he hr hlen, hsome, ?_, ?_⟩
  · exact filterCursor_spec (fun t2 => boundaryTest dim rfactor t2 args)
      (fun k => Orthtree.isBoundary dim rfactor t k args == some true) t args e xs hb he hr hlen
      (fun x _ => by
        obtain ⟨b, hb2⟩ := hsome x.1
        show Orthtree.isBoundary dim rfactor t x.1 args =
          some (Orthtree.isBoundary dim rfactor t x.1 args == some true)
        rw [hb2]
        cases b <;> rfl)
  · exact filterCursor_spec (fun t2 => interiorTest dim rfactor t2 args)
      (fun k => Orthtree.isBoundary dim rfactor t k args == some false) t args e xs hb he hr hlen
      (fun x _ => by
        obtain ⟨b, hb2⟩ := hsome x.1
        show (Orthtree.isBoundary dim rfactor t x.1 args).map (fun b => !b) =
          some (Orthtree.isBoundary dim rfactor t x.1 args == some false)
        rw [hb2]
        cases b <;> rfl)

/-- C22 on the whole-tree iteration of the tree of `d = 1`, `r = 3` that holds the root, the
level-1 keys 1, 2, 3 and the children 10, 11, 12 of the key 3: the boundary cursor yields
the keys 0, 1, 3, 10, 12 and the interior cursor the keys 2 and 11. -/
theorem C22_boundary_interior_complement_witness :
    (boundaryCursor 1 3 ([(0, [(0, ⟨0, false⟩)]),
        (1, [(1, ⟨0, true⟩), (2, ⟨0, true⟩), (3, ⟨0, false⟩)]),
        (2, [(10, ⟨0, true⟩), (11, ⟨0, true⟩), (12, ⟨0, true⟩)])] : Orthtree Nat) none).map
      (fun l => l.map (fun kn => kn.1)) = some [0, 1, 3, 10, 12] ∧
    (interiorCursor 1 3 ([(0, [(0, ⟨0, false⟩)]),
        (1, [(1, ⟨0, true⟩), (2, ⟨0, true⟩), (3, ⟨0, false⟩)]),
        (2, [(10, ⟨0, true⟩), (11, ⟨0, true⟩), (12, ⟨0, true⟩)])] : Orthtree Nat) none).map
      (fun l => l.map (fun kn => kn.1)) = some [2, 11] ∧
    (allCursor ([(0, [(0, ⟨0, false⟩)]),
        (1, [(1, ⟨0, true⟩), (2, ⟨0, true⟩), (3, ⟨0, false⟩)]),
        (2, [(10, ⟨0, true⟩), (11, ⟨0, true⟩), (12, ⟨0, true⟩)])] : Orthtree Nat) none =
      some (([(0, [(0, ⟨0, false⟩)]),
        (1, [(1, ⟨0, true⟩), (2, ⟨0, true⟩), (3, ⟨0, false⟩)]),
        (2, [(10, ⟨0, true⟩), (11, ⟨0, true⟩), (12, ⟨0, true⟩)])] : Orthtree Nat).flatMap
          (fun lm => lm.2)) ∧
    (∀ k, ∃ b, Orthtree.isBoundary 1 3 ([(0, [(0, ⟨0, false⟩)]),
        (1, [(1, ⟨0, true⟩), (2, ⟨0, true⟩), (3, ⟨0, false⟩)]),
        (2, [(10, ⟨0, true⟩), (11, ⟨0, true⟩), (12, ⟨0, true⟩)])] : Orthtree Nat) k none =
      some b) ∧
    boundaryCursor 1 3 ([(0, [(0, ⟨0, false⟩)]),
        (1, [(1, ⟨0, true⟩), (2, ⟨0, true⟩), (3, ⟨0, false⟩)]),
        (2, [(10, ⟨0, true⟩), (11, ⟨0, true⟩), (12, ⟨0, true⟩)])] : Orthtree Nat) none =
      some ((([(0, [(0, ⟨0, false⟩)]),
        (1, [(1, ⟨0, true⟩), (2, ⟨0, true⟩), (3, ⟨0, false⟩)]),
        (2, [(10, ⟨0, true⟩), (11, ⟨0, true⟩), (12, ⟨0, true⟩)])] : Orthtree Nat).flatMap
          (fun lm => lm.2)).filter (fun kn => Orthtree.isBoundary 1 3
            ([(0, [(0, ⟨0, false⟩)]),
            (1, [(1, ⟨0, true⟩), (2, ⟨0, true⟩), (3, ⟨0, false⟩)]),
            (2, [(10, ⟨0, true⟩), (11, ⟨0, true⟩), (12, ⟨0, true⟩)])] : Orthtree Nat)
            kn.1 none == some true)) ∧
    interiorCursor 1 3 ([(0, [(0, ⟨0, false⟩)]),
        (1, [(1, ⟨0, true⟩), (2, ⟨0, true⟩), (3, ⟨0, false⟩)]),
        (2, [(10, ⟨0, true⟩), (11, ⟨0, true⟩), (12, ⟨0, true⟩)])] : Orthtree Nat) none =
      some ((([(0, [(0, ⟨0, false⟩)]),
        (1, [(1, ⟨0, true⟩), (2, ⟨0, true⟩), (3, ⟨0, false⟩)]),
        (2, [(10, ⟨0, true⟩), (11, ⟨0, true⟩), (12, ⟨0, true⟩)])] : Orthtree Nat).flatMap
          (fun lm => lm.2)).filter (fun kn => Orthtree.isBoundary 1 3
            ([(0, [(0, ⟨0, false⟩)]),
            (1, [(1, ⟨0, true⟩), (2, ⟨0, true⟩), (3, ⟨0, false⟩)]),
            (2, [(10, ⟨0, true⟩), (11, ⟨0, true⟩), (12, ⟨0, true⟩)])] : Orthtree Nat)
            kn.1 none == some false))) :=
  ⟨by decide, by decide,
    C22_boundary_interior_complement 1 3 _ none _
      (Or.inl ⟨rfl, _, _, rfl, by simp, rfl⟩)⟩

set_option maxRecDepth 100000 in
/-- C34 (as stated, refuted): at `d = 2`, `r = 4` and the default cap `lvlmax = 16`, the
entry 15 of `mLvlStartInds`, computed in `std::size_t`, is `76861433640456465`, while
`getLevelStartingIndex(15)`, computed in `double`, is `76861433640456464`; and the template
`NumCellsOnLevel<2,4,16>` is `2^64`, held as `0`, so the entry 16 of `mLvlEndInds` is the
last key of the level 15. -/
theorem C34_tables_differ_counterexample :
    (Machine.mLvlStartInds 2 4 16)[15]? = some 76861433640456465 ∧
    Machine.getLevelStartingIndex 2 4 15 = 76861433640456464 ∧
    Machine.NumCellsOnLevel 2 4 16 = 0 ∧
    (Machine.mLvlEndInds 2 4 16)[16]? = (Machine.mLvlEndInds 2 4 16)[15]? := by
  refine ⟨by decide, by decide, by decide, by decide⟩

/-- C34 (amended): for every level `l` in `0..lvlmax` whose keys are below `2^53`
(`1 + r^d + ... + (r^d)^l < 2^53`, with `r^d` within `std::size_t`), the entry `l` of
`mLvlStartInds` (the template `LevelStartingKey<dim,rfactor,l>`) is
`getLevelStartingIndex(l)`, the entry `l` of `mLvlEndInds` is
`getLevelStartingIndex(l) + (r^d)^l - 1`, which is `getLevelStartingIndex(l+1) - 1`, and
the cell count `NumCellsOnLevel<dim,rfactor,l>` of the template, `(r^l)^d`, is
`(r^d)^l`. -/
theorem C34_level_tables (dim rfactor lvlmax l : Nat) (hl : l ≤ lvlmax)
    (h64 : rfactor ^ dim < 2 ^ 64)
    (h53 : getLevelStartingIndex dim rfactor (l + 1) < 2 ^ 53) :
    (Machine.mLvlStartInds dim rfactor lvlmax)[l]? =
      some (Machine.getLevelStartingIndex dim rfactor l) ∧
    (Machine.mLvlEndInds dim rfactor lvlmax)[l]? =
      some (Machine.getLevelStartingIndex dim rfactor l + (rfactor ^ dim) ^ l - 1) ∧
    Machine.getLevelStartingIndex dim rfactor l + (rfactor ^ dim) ^ l - 1 =
      Machine.getLevelStartingIndex dim rfactor (l + 1) - 1 ∧
    Machine.LevelStartingKey dim rfactor l = Machine.getLevelStartingIndex dim rfactor l ∧
    Machine.NumCellsOnLevel dim rfactor l = (rfactor ^ dim) ^ l ∧
    (rfactor ^ l) ^ dim = (rfactor ^ dim) ^ l := by
  have hlt : l < lvlmax + 1 := by omega
  have hS : getLevelStartingIndex dim rfactor (l + 1) =
      sSize dim rfactor ^ l + getLevelStartingIndex dim rfactor l := rfl
  rw [sSize_eq_pow] at hS
  have hSl : getLevelStartingIndex dim rfactor l < 2 ^ 53 := by omega
  have e1 := machine_getLevelStartingIndex_eq h64 l hSl
  have e2 := machine_getLevelStartingIndex_eq h64 (l + 1) h53
  have e3 := machine_LevelStartingKey_eq dim rfactor l (by omega)
  have e4 := machine_NumCellsOnLevel_eq dim rfactor l (by omega)
  rw [e1, e2]
  refine ⟨?_, ?_, ?_, e3, e4, ?_⟩
  · unfold Machine.mLvlStartInds Machine.createStartingKeys
    rw [List.getElem?_map, List.getElem?_range hlt]
    simp [e3]
  · unfold Machine.mLvlEndInds Machine.createEndingKeys
    rw [List.getElem?_map, List.getElem?_range hlt]
    simp only [Option.map_some', e3, e4, Option.some.injEq]
    unfold Machine.wrap
    have hpos : 0 < getLevelStartingIndex dim rfactor l + (rfactor ^ dim) ^ l := by
      rcases Nat.eq_zero_or_pos l with h0 | h0
      · subst h0
        simp
      · have := getLevelStartingIndex_mono dim rfactor 1 l h0
        have e1 : getLevelStartingIndex dim rfactor 1 = 1 := by simp [getLevelStartingIndex]
        omega
    have e : getLevelStartingIndex dim rfactor l + (rfactor ^ dim) ^ l + (2 ^ 64 - 1) =
        (getLevelStartingIndex dim rfactor l + (rfactor ^ dim) ^ l - 1) + 2 ^ 64 := by omega
    rw [e, Nat.add_mod_right]
    exact Nat.mod_eq_of_lt (by omega)
  · omega
  · rw [← pow_mul, ← pow_mul, Nat.mul_comm]

set_option maxRecDepth 100000 in
/-- C34 (amended) at `d = 2`, `r = 2`, `lvlmax = 16` and the level 3: the tables hold the
first key 21 and the last key 84 of the level. -/
theorem C34_level_tables_witness :
    3 ≤ 16 ∧ 2 ^ 2 < 2 ^ 64 ∧ getLevelStartingIndex 2 2 (3 + 1) < 2 ^ 53 ∧
    Machine.getLevelStartingIndex 2 2 3 = 21 ∧ Machine.getLevelStartingIndex 2 2 4 = 85 ∧
    (Machine.mLvlStartInds 2 2 16)[3]? = some (Machine.getLevelStartingIndex 2 2 3) ∧
    (Machine.mLvlEndInds 2 2 16)[3]? =
      some (Machine.getLevelStartingIndex 2 2 3 + (2 ^ 2) ^ 3 - 1) ∧
    Machine.getLevelStartingIndex 2 2 3 + (2 ^ 2) ^ 3 - 1 =
      Machine.getLevelStartingIndex 2 2 (3 + 1) - 1 :=
  ⟨by decide, by decide, by decide, by decide, by decide,
    (C34_level_tables 2 2 16 3 (by decide) (by decide) (by decide)).1,
    (C34_level_tables 2 2 16 3 (by decide) (by decide) (by decide)).2.1,
    (C34_level_tables 2 2 16 3 (by decide) (by decide) (by decide)).2.2.1⟩

/-- C32 (as stated, refuted): at `d = 2`, `r = 2` the calls `getParentKey(0)` and
`getSiblingIndex(0)` return the key `(2^64 - 1) / 4` and the index `3`. -/
theorem C32_root_parent_returns_counterexample :
    getParentKey 2 2 0 = 4611686018427387903 ∧ getSiblingIndex 2 2 0 = 3 := by
  constructor <;> decide

/-- C32 (amended): `getParentKey` and `getSiblingIndex` have no error path. On the root
key 0 the unsigned `key - 1` wraps to `2^64 - 1`, and they return `(2^64 - 1) / sSize` and
`(2^64 - 1) % sSize`; on every other key they return `(key - 1) / sSize` and
`(key - 1) % sSize`. -/
theorem C32_root_parent_wraps (dim rfactor : Nat) :
    getParentKey dim rfactor 0 = (2 ^ 64 - 1) / sSize dim rfactor ∧
    getSiblingIndex dim rfactor 0 = (2 ^ 64 - 1) % sSize dim rfactor ∧
    ∀ k, 0 < k →
      getParentKey dim rfactor k = (k - 1) / sSize dim rfactor ∧
      getSiblingIndex dim rfactor k = (k - 1) % sSize dim rfactor :=
  ⟨rfl, rfl, fun _ hk => ⟨getParentKey_pos_eq dim rfactor hk, getSiblingIndex_pos_eq dim rfactor hk⟩⟩

set_option maxRecDepth 100000 in
/-- C33 (as stated, refuted): with the level cap `lvlmax = 16` (tables of 17 entries), at
`d = 1`, `r = 2` the calls `getLevelStartingIndex(17)`, `levelSize(17)` and
`getKeyFromLevelOffset(17, (5))` return `131071`, `131072` and `131076`. -/
theorem C33_level_beyond_cap_counterexample :
    (Machine.mLvlStartInds 1 2 16).length = 17 ∧
    Machine.getLevelStartingIndex 1 2 17 = 131071 ∧ Machine.levelSize 2 17 = 131072 ∧
    Machine.getKeyFromLevelOffset 1 2 17 [5] = 131076 := by
  refine ⟨by decide, by decide, by decide, by decide⟩

/-- C33 (amended): `getLevelStartingIndex`, `levelSize` and `getKeyFromLevelOffset` do not
consult the level cap and have no error path: for every level `l` on which the keys are
computed without rounding (`KeyRange`), also above the cap, `levelSize(l) = r^l`,
`getLevelStartingIndex(l+1) = getLevelStartingIndex(l) + (r^d)^l`, and for an offset `o`
with `d` coordinates in `[0, r^l)` the key `getKeyFromLevelOffset(l, o)` has the level `l`
and the level offset `o`. -/
theorem C33_levels_unbounded (dim rfactor l : Nat) (hK : KeyRange dim rfactor l)
    (o : IntPoint) (hlen : o.length = dim)
    (ho : ∀ x ∈ o, 0 ≤ x ∧ x < (rfactor : Int) ^ l) :
    Machine.levelSize rfactor l = rfactor ^ l ∧
    Machine.getLevelStartingIndex dim rfactor (l + 1) =
      Machine.getLevelStartingIndex dim rfactor l + (rfactor ^ dim) ^ l ∧
    Machine.getLevel dim rfactor (Machine.getKeyFromLevelOffset dim rfactor l o) = l ∧
    Machine.getOffsetWithinLevel dim rfactor (Machine.getKeyFromLevelOffset dim rfactor l o) =
      o := by
  have h64 := keyRange_h64 hK
  have hlev := getLevel_getKeyFromLevelOffset dim hK.1 l o hlen ho
  have hS : getLevelStartingIndex dim rfactor (l + 1) =
      sSize dim rfactor ^ l + getLevelStartingIndex dim rfactor l := rfl
  rw [sSize_eq_pow] at hS
  have h53 := hK.2.2.2.2
  have hl31 := hK.2.2.2.1
  refine ⟨?_, ?_, ?_, ?_⟩
  · unfold Machine.levelSize
    rw [machine_pow_eq_pow (by omega), ofDouble_natCast (by omega)]
  · rw [machine_getLevelStartingIndex_eq h64 (l + 1) h53,
      machine_getLevelStartingIndex_eq h64 l (by omega), hS, Nat.add_comm]
  · rw [machine_getKeyFromLevelOffset_eq_of_range hK o hlen ho, machine_getLevel_eq h64]
    exact hlev
  · rw [machine_getKeyFromLevelOffset_eq_of_range hK o hlen ho,
      machine_getOffsetWithinLevel_eq (by rw [hlev]; exact keyRange_offsetRange hK)]
    exact getOffsetWithinLevel_getKeyFromLevelOffset dim hK.1 l o hlen ho

/-- C33 (amended) at `d = 1`, `r = 2` and the level 17, above the cap 16, with the offset
`(5)`. -/
theorem C33_levels_unbounded_witness :
    KeyRange 1 2 17 ∧ ([5] : IntPoint).length = 1 ∧
    (∀ x ∈ ([5] : IntPoint), 0 ≤ x ∧ x < ((2 : Nat) : Int) ^ 17) ∧
    (Machine.levelSize 2 17 = 2 ^ 17 ∧
    Machine.getLevelStartingIndex 1 2 (17 + 1) =
      Machine.getLevelStartingIndex 1 2 17 + (2 ^ 1) ^ 17 ∧
    Machine.getLevel 1 2 (Machine.getKeyFromLevelOffset 1 2 17 [5]) = 17 ∧
    Machine.getOffsetWithinLevel 1 2 (Machine.getKeyFromLevelOffset 1 2 17 [5]) = [5]) :=
  ⟨⟨by decide, by decide, by decide, by decide, by decide⟩, rfl, by decide,
    C33_levels_unbounded 1 2 17 ⟨by decide, by decide, by decide, by decide, by decide⟩
      [5] rfl (by decide)⟩

/-! ## Properties of the ancestor chain -/

set_option maxRecDepth 100000 in
/-- C37 (as stated, refuted): at `d = 1`, `r = 2` the key `k = 3221225471` has the level 31
and the offset `(2^30)`; its child of sibling index 0 is `6442450943`, whose offset within
the parent is `(0)` and whose `int` level offset is `(-2^31)`, not `2 * 2^30 + 0`; the
corner `lo` of the box of the child, `-1/2`, is below the corner `1/2` of the box of `k`. -/
theorem C37_offset_int_wraps_counterexample :
    0 < Machine.sSize 1 2 ∧ Machine.getChildKey 1 2 3221225471 0 = 6442450943 ∧
    Machine.getOffsetWithinLevel 1 2 3221225471 = [1073741824] ∧
    Machine.getOffsetWithinParent 1 2 (Machine.getChildKey 1 2 3221225471 0) = [0] ∧
    Machine.getOffsetWithinLevel 1 2 (Machine.getChildKey 1 2 3221225471 0) = [-2147483648] ∧
    Machine.getOffsetWithinLevel 1 2 (Machine.getChildKey 1 2 3221225471 0) ≠
      IntPoint.add (IntPoint.smul (Machine.getOffsetWithinLevel 1 2 3221225471) 2)
        (Machine.getOffsetWithinParent 1 2 (Machine.getChildKey 1 2 3221225471 0)) ∧
    (Machine.getBox 1 2 (Machine.getChildKey 1 2 3221225471 0)).lo.getD 0 0 <
      (Machine.getBox 1 2 3221225471).lo.getD 0 0 := by
  have hc : Machine.getChildKey 1 2 3221225471 0 = 6442450943 := by decide
  have hl1 : Machine.getLevel 1 2 6442450943 = 32 := by decide
  have ho1 : Machine.getOffsetWithinLevel 1 2 6442450943 = [-2147483648] := by decide
  have hl0 : Machine.getLevel 1 2 3221225471 = 31 := by decide
  have ho0 : Machine.getOffsetWithinLevel 1 2 3221225471 = [1073741824] := by decide
  refine ⟨by decide, hc, ho0, by decide, by decide, by decide, ?_⟩
  rw [hc]
  show (Point.mulInt (List.replicate 1 (1 / ((2 : Nat) : ℚ) ^ Machine.getLevel 1 2 6442450943))
      (Machine.getOffsetWithinLevel 1 2 6442450943)).getD 0 0 <
    (Point.mulInt (List.replicate 1 (1 / ((2 : Nat) : ℚ) ^ Machine.getLevel 1 2 3221225471))
      (Machine.getOffsetWithinLevel 1 2 3221225471)).getD 0 0
  rw [hl1, ho1, hl0, ho0]
  simp only [Point.mulInt, List.replicate, List.zipWith, List.getD_cons_zero]
  norm_num

/-- C37 (amended): for every key `k` and sibling index `s < sSize` such that the child key
is within the key type and the level of the child has offsets within `int`
(`OffsetRange` at `getLevel(k) + 1`), the level offset of the child `getChildKey(k, s)` is,
coordinate by coordinate, `r` times the level offset of `k` plus the offset of the child
within its parent, a value in `[0, r)`; and the box of the child lies inside the box of
`k`. -/
theorem C37_offset_composes (dim rfactor k s : Nat) (hs : s < Machine.sSize dim rfactor)
    (hfit : k * Machine.sSize dim rfactor + 1 + s < 2 ^ 64)
    (hO : OffsetRange dim rfactor (Machine.getLevel dim rfactor k + 1)) :
    Machine.getOffsetWithinLevel dim rfactor (Machine.getChildKey dim rfactor k s) =
      IntPoint.add (IntPoint.smul (Machine.getOffsetWithinLevel dim rfactor k) rfactor)
        (Machine.getOffsetWithinParent dim rfactor (Machine.getChildKey dim rfactor k s)) ∧
    ∀ i, i < dim →
      (Machine.getOffsetWithinLevel dim rfactor (Machine.getChildKey dim rfactor k s)).getD i 0 =
        (rfactor : Int) * (Machine.getOffsetWithinLevel dim rfactor k).getD i 0 +
          (Machine.getOffsetWithinParent dim rfactor
            (Machine.getChildKey dim rfactor k s)).getD i 0 ∧
      0 ≤ (Machine.getOffsetWithinParent dim rfactor
        (Machine.getChildKey dim rfactor k s)).getD i 0 ∧
      (Machine.getOffsetWithinParent dim rfactor
        (Machine.getChildKey dim rfactor k s)).getD i 0 < (rfactor : Int) ∧
      (Machine.getBox dim rfactor k).lo.getD i 0 ≤
        (Machine.getBox dim rfactor (Machine.getChildKey dim rfactor k s)).lo.getD i 0 ∧
      (Machine.getBox dim rfactor (Machine.getChildKey dim rfactor k s)).hi.getD i 0 ≤
        (Machine.getBox dim rfactor k).hi.getD i 0 := by
  obtain ⟨hr, h64, h31⟩ := hO
  rw [machine_getLevel_eq h64] at h31
  rw [machine_sSize_eq h64] at hs hfit
  have hfit2 : k * rfactor ^ dim + 1 + s < 2 ^ 64 := by rw [← sSize_eq_pow]; exact hfit
  have hlev := getLevel_getChildKey dim rfactor k s hs
  have hp : 0 < rfactor ^ getLevel dim rfactor k := pow_pos hr _
  have hr2 : rfactor ≤ 2 ^ 31 := by
    have : rfactor ≤ rfactor ^ (getLevel dim rfactor k + 1) := Nat.le_self_pow (by omega) _
    omega
  have hOc : OffsetRange dim rfactor (getLevel dim rfactor (getChildKey dim rfactor k s)) :=
    ⟨hr, h64, by rw [hlev]; exact h31⟩
  have hOk : OffsetRange dim rfactor (getLevel dim rfactor k) :=
    ⟨hr, h64, Nat.lt_of_le_of_lt (Nat.pow_le_pow_right hr (Nat.le_succ _)) h31⟩
  rw [machine_getChildKey_eq h64 k s hfit2, machine_getOffsetWithinLevel_eq hOc,
    machine_getOffsetWithinLevel_eq hOk, machine_getOffsetWithinParent_eq hr h64 hr2,
    machine_getBox_eq hOc, machine_getBox_eq hOk]
  exact offset_composes dim hr k s hs

/-- C37 (amended) at `d = 2`, `r = 2`, `k = 3` (offset `(0,1)` of level 1) and `s = 1`: the
child 14 has the offset `(1, 2)` of level 2. -/
theorem C37_offset_composes_witness :
    1 < Machine.sSize 2 2 ∧ 3 * Machine.sSize 2 2 + 1 + 1 < 2 ^ 64 ∧
    OffsetRange 2 2 (Machine.getLevel 2 2 3 + 1) ∧ Machine.getChildKey 2 2 3 1 = 14 ∧
    Machine.getOffsetWithinLevel 2 2 3 = [0, 1] ∧ Machine.getOffsetWithinParent 2 2 14 = [1, 0] ∧
    Machine.getOffsetWithinLevel 2 2 14 = [1, 2] ∧
    Machine.getOffsetWithinLevel 2 2 (Machine.getChildKey 2 2 3 1) =
      IntPoint.add (IntPoint.smul (Machine.getOffsetWithinLevel 2 2 3) 2)
        (Machine.getOffsetWithinParent 2 2 (Machine.getChildKey 2 2 3 1)) :=
  ⟨by decide, by decide, ⟨by decide, by decide, by decide⟩, by decide, by decide, by decide,
    by decide,
    (C37_offset_composes 2 2 3 1 (by decide) (by decide)
      ⟨by decide, by decide, by decide⟩).1⟩

/-! ## Properties of the recursion of `buildTree` -/

set_option maxRecDepth 100000 in
/-- C38 (as stated, refuted): at `d = 1`, `r = 2` the key `k = 2^63` has the level 63; its
child key of sibling index 0 is `2^64 + 1`, which the key type holds as `1`, a key of
level 1, not 64. -/
theorem C38_child_key_wraps_counterexample :
    0 < Machine.sSize 1 2 ∧ Machine.getLevel 1 2 (2 ^ 63) = 63 ∧
    Machine.getChildKey 1 2 (2 ^ 63) 0 = 1 ∧
    Machine.getLevel 1 2 (Machine.getChildKey 1 2 (2 ^ 63) 0) = 1 := by
  refine ⟨by decide, by decide, by decide, by decide⟩

/-- C38 (amended): for every key `k` and every sibling index `s < sSize` such that the
child key `k*sSize + 1 + s` is within the key type (below `2^64`),
`getLevel(getChildKey(k, s)) = getLevel(k) + 1`; and when `buildTree` is called on a key
`key` with `lvl = getLevel(key) ≤ lvlstop`, the keys of the levels up to `lvlstop` being
within the key type (`1 + r^d + ... + (r^d)^lvlstop ≤ 2^64`), every call of the recursion
is made with a `lvl` argument equal to `getLevel` of its key argument. -/
theorem C38_child_level_and_calls (dim rfactor k s : Nat) (hr : 0 < rfactor)
    (h64 : rfactor ^ dim < 2 ^ 64) (hs : s < Machine.sSize dim rfactor)
    (hfit : k * Machine.sSize dim rfactor + 1 + s < 2 ^ 64)
    (lvlmin lvlstop : Nat) (ro : Nat → Bool)
    (hS : getLevelStartingIndex dim rfactor (lvlstop + 1) ≤ 2 ^ 64)
    (fuel key : Nat) (hkey : Machine.getLevel dim rfactor key ≤ lvlstop)
    (calls : List (Nat × Nat))
    (hrun : Machine.buildTreeCalls dim rfactor lvlmin lvlstop ro fuel [] key
      (Machine.getLevel dim rfactor key) = some calls) :
    Machine.getLevel dim rfactor (Machine.getChildKey dim rfactor k s) =
      Machine.getLevel dim rfactor k + 1 ∧
    ∀ kl ∈ calls, kl.2 = Machine.getLevel dim rfactor kl.1 := by
  rw [machine_sSize_eq h64] at hs hfit
  have hfit2 : k * rfactor ^ dim + 1 + s < 2 ^ 64 := by rw [← sSize_eq_pow]; exact hfit
  rw [machine_getLevel_eq h64] at hkey hrun
  constructor
  · rw [machine_getChildKey_eq h64 k s hfit2, machine_getLevel_eq h64, machine_getLevel_eq h64]
    exact getLevel_getChildKey dim rfactor k s hs
  · intro kl hkl
    rw [machine_getLevel_eq h64]
    exact machine_buildTreeCalls_levels hr h64 lvlmin lvlstop ro hS fuel [] key _ calls rfl hkey
      (fun kl hkl => absurd hkl (List.not_mem_nil _)) hrun kl hkl

/-- C38 (amended) at `d = 2`, `r = 2`: the child 14 of the key 3 has level 2, and the
build from the key 3 (level 1) to `lvlstop = 2` calls `buildTree` on 3 at level 1 and on
its children 13, 14, 15, 16 at level 2. -/
theorem C38_child_level_and_calls_witness :
    1 < Machine.sSize 2 2 ∧ 3 * Machine.sSize 2 2 + 1 + 1 < 2 ^ 64 ∧
    getLevelStartingIndex 2 2 (2 + 1) ≤ 2 ^ 64 ∧ Machine.getLevel 2 2 3 ≤ 2 ∧
    Machine.buildTreeCalls 2 2 0 2 (fun _ => false) 2 [] 3 (Machine.getLevel 2 2 3) =
      some [(3, 1), (13, 2), (14, 2), (15, 2), (16, 2)] ∧
    Machine.getLevel 2 2 (Machine.getChildKey 2 2 3 1) = Machine.getLevel 2 2 3 + 1 ∧
    ∀ kl ∈ [(3, 1), (13, 2), (14, 2), (15, 2), (16, 2)], kl.2 = Machine.getLevel 2 2 kl.1 :=
  ⟨by decide, by decide, by decide, by decide, by decide,
    (C38_child_level_and_calls 2 2 3 1 (by decide) (by decide) (by decide) (by decide) 0 2
      (fun _ => false) (by decide) 2 3 (by decide)
      [(3, 1), (13, 2), (14, 2), (15, 2), (16, 2)] (by decide)).1,
    (C38_child_level_and_calls 2 2 3 1 (by decide) (by decide) (by decide) (by decide) 0 2
      (fun _ => false) (by decide) 2 3 (by decide)
      [(3, 1), (13, 2), (14, 2), (15, 2), (16, 2)] (by decide)).2⟩

/-- C40: for every refine oracle and prototype map, a call of `buildTree` at a level
`lvl ≤ lvlstop` returns as soon as the recursion is allowed more than `lvlstop - lvl`
nested calls; the calls it makes, each of which performs one insertion, are at most
`1 + r^d + ... + (r^d)^(lvlstop - lvl)`, and each is made at a level from `lvl` to
`lvlstop`, so that `lvlstop - lvl` decreases along the recursion. -/
theorem C40_buildTree_terminates {V : Type} (dim rfactor lvlmin lvlstop : Nat)
    (pm : Nat → DefaultNode V) (ro : Nat → Bool) (t : Orthtree V) (key lvl : Nat)
    (hle : lvl ≤ lvlstop) (fuel : Nat) (hfuel : lvlstop - lvl < fuel) :
    ∃ t2 calls,
      buildTreeCalls dim rfactor lvlmin lvlstop pm ro fuel (t, []) key lvl = some (t2, calls) ∧
      buildTree dim rfactor lvlmin lvlstop pm ro fuel t key lvl = some t2 ∧
      calls.length ≤ (Finset.range (lvlstop - lvl + 1)).sum (fun i => (rfactor ^ dim) ^ i) ∧
      ∀ kl ∈ calls, lvl ≤ kl.2 ∧ kl.2 ≤ lvlstop := by
  obtain ⟨t2, ht2⟩ := buildTree_isSome dim rfactor lvlmin lvlstop pm ro fuel t key lvl hle hfuel
  have hfst := buildTreeCalls_fst dim rfactor lvlmin lvlstop pm ro fuel (t, []) key lvl
  cases hrun : buildTreeCalls dim rfactor lvlmin lvlstop pm ro fuel (t, []) key lvl with
  | none =>
    rw [hrun] at hfst
    rw [ht2] at hfst
    simp at hfst
  | some r =>
    rw [hrun, ht2] at hfst
    simp only [Option.map_some', Option.some.injEq] at hfst
    refine ⟨t2, r.2, ?_, ht2, ?_, ?_⟩
    · rw [← hfst]
    · have h := buildTreeCalls_length dim rfactor lvlmin lvlstop pm ro fuel (t, []) key lvl r
        hle hrun
      rw [← getLevelStartingIndex_eq_sum]
      simpa using h
    · exact buildTreeCalls_range dim rfactor lvlmin lvlstop pm ro lvl fuel (t, []) key lvl r
        (Nat.le_refl _) hle (fun kl hkl => absurd hkl (List.not_mem_nil _)) hrun

/-- C40 at `d = 2`, `r = 2`, `lvlstop = 2` from the root with an oracle that is never
uniform: the build makes `1 + 4 + 16 = 21` calls, the bound. -/
theorem C40_buildTree_terminates_witness :
    0 ≤ 2 ∧ 2 - 0 < 3 ∧
    (buildTreeCalls 2 2 0 2 (fun _ => (⟨0, true⟩ : DefaultNode Nat)) (fun _ => false) 3
      ([], []) 0 0).map (fun r => r.2.length) = some 21 ∧
    (Finset.range (2 - 0 + 1)).sum (fun i => (2 ^ 2) ^ i) = 21 ∧
    ∃ t2 calls,
      buildTreeCalls 2 2 0 2 (fun _ => (⟨0, true⟩ : DefaultNode Nat)) (fun _ => false) 3
        ([], []) 0 0 = some (t2, calls) ∧
      buildTree 2 2 0 2 (fun _ => (⟨0, true⟩ : DefaultNode Nat)) (fun _ => false) 3 [] 0 0 =
        some t2 ∧
      calls.length ≤ (Finset.range (2 - 0 + 1)).sum (fun i => (2 ^ 2) ^ i) ∧
      ∀ kl ∈ calls, 0 ≤ kl.2 ∧ kl.2 ≤ 2 :=
  ⟨by decide, by decide, by decide, by decide,
    C40_buildTree_terminates 2 2 0 2 (fun _ => (⟨0, true⟩ : DefaultNode Nat)) (fun _ => false)
      [] 0 0 (by decide) 3 (by decide)⟩

/-- C36 (evaluated): a call of `buildTree` at `lvl = lvlstop` on the empty tree stores,
for every prototype map, the node `pm.getValue(key)` as it is, leaf flag included,
because `n = pm.getValue(key)` overwrites `n.isLeaf() = true`. At `d = 2`, `r = 2`,
`buildTree(0, 1, ...)` from the root with an oracle that is never uniform and prototype
nodes flagged `false` stores the four nodes of level 1, at which the recursion terminates,
with `is_leaf = false`; with prototype nodes flagged `true` they are stored as leaves. In
both runs the root, below which the recursion goes, is stored with `is_leaf = false`. -/
theorem C36_terminal_node_keeps_prototype_flag {V : Type} (dim rfactor lvlmin lvlstop : Nat)
    (pm : Nat → DefaultNode V) (ro : Nat → Bool) (key fuel : Nat) :
    buildTree dim rfactor lvlmin lvlstop pm ro (fuel + 1) [] key lvlstop =
      some [(getLevel dim rfactor key, [(key, pm key)])] ∧
    buildTree 2 2 0 1 (fun _ => (⟨7, false⟩ : DefaultNode Nat)) (fun _ => false) 2 [] 0 0 =
      some [(0, [(0, ⟨7, false⟩)]),
        (1, [(1, ⟨7, false⟩), (2, ⟨7, false⟩), (3, ⟨7, false⟩), (4, ⟨7, false⟩)])] ∧
    buildTree 2 2 0 1 (fun _ => (⟨7, true⟩ : DefaultNode Nat)) (fun _ => false) 2 [] 0 0 =
      some [(0, [(0, ⟨7, false⟩)]),
        (1, [(1, ⟨7, true⟩), (2, ⟨7, true⟩), (3, ⟨7, true⟩), (4, ⟨7, true⟩)])] := by
  refine ⟨?_, by decide, by decide⟩
  rw [buildTree_succ, if_pos rfl]
  rfl

/-! ## Properties of the wrap of offsets -/

set_option maxRecDepth 100000 in
/-- C39 (as stated, refuted): at `d = 2`, `r = 4` the key `k = 307445734561825860` has the
level 15 and the offset `(4^15 - 1, 0)`, the last of the level on the axis 0;
`getNeighborKeyMax(k, 0)` returns `76861433640456464`, the rounded starting key of the
level, which is a key of level 14 and not the key of the cell `(0, 0)` of level 15. -/
theorem C39_wrap_rounded_counterexample :
    Machine.getLevel 2 4 307445734561825860 = 15 ∧
    Machine.getOffsetWithinLevel 2 4 307445734561825860 = [4 ^ 15 - 1, 0] ∧
    Machine.getNeighborKeyMax 2 4 307445734561825860 0 = 76861433640456464 ∧
    Machine.getLevel 2 4 (Machine.getNeighborKeyMax 2 4 307445734561825860 0) = 14 ∧
    Machine.getOffsetWithinLevel 2 4 (Machine.getNeighborKeyMax 2 4 307445734561825860 0) ≠
      (Machine.getOffsetWithinLevel 2 4 307445734561825860).set 0 0 := by
  refine ⟨by decide, by decide, by decide, by decide, by decide⟩

/-- C39 (amended): for every level `l ≥ 1` and every offset `o` with non-negative `int`
coordinates (`r` within `int`), `getKeyFromLevelOffset(l, o)` is
`getKeyFromLevelOffset(l, o mod r^l)`, the modulus taken coordinate by coordinate; and on
the levels `l ≥ 1` on which the keys are computed without rounding (`KeyRange`), for a key
`k` of level `l` whose level offset on the axis `a < d` is `r^l - 1`,
`getNeighborKeyMax(k, a)` is the key of level `l` whose level offset is the one of `k` with
the coordinate `a` set to `0`. -/
theorem C39_periodic_wrap (dim rfactor : Nat) (hr : 0 < rfactor) (hr2 : rfactor < 2 ^ 31)
    (l : Nat) (hl : 1 ≤ l) (o : IntPoint) (ho : ∀ x ∈ o, 0 ≤ x ∧ x < 2 ^ 31) :
    Machine.getKeyFromLevelOffset dim rfactor l o =
      Machine.getKeyFromLevelOffset dim rfactor l
        (o.map (fun x => x % (rfactor : Int) ^ l)) ∧
    ∀ k a, KeyRange dim rfactor l → Machine.getLevel dim rfactor k = l → a < dim →
      (Machine.getOffsetWithinLevel dim rfactor k).getD a 0 = (rfactor : Int) ^ l - 1 →
      Machine.getNeighborKeyMax dim rfactor k a =
        Machine.getKeyFromLevelOffset dim rfactor l
          ((Machine.getOffsetWithinLevel dim rfactor k).set a 0) ∧
      Machine.getLevel dim rfactor (Machine.getNeighborKeyMax dim rfactor k a) = l ∧
      Machine.getOffsetWithinLevel dim rfactor (Machine.getNeighborKeyMax dim rfactor k a) =
        (Machine.getOffsetWithinLevel dim rfactor k).set a 0 := by
  refine ⟨machine_getKeyFromLevelOffset_emod hr hr2 hl o ho, ?_⟩
  intro k a hK hk ha hlast
  have h64 := keyRange_h64 hK
  rw [machine_getLevel_eq h64] at hk
  have hKk : KeyRange dim rfactor (getLevel dim rfactor k) := by rw [hk]; exact hK
  have hO := keyRange_offsetRange hKk
  rw [machine_getOffsetWithinLevel_eq hO] at hlast ⊢
  obtain ⟨e1, e2, e3⟩ := (periodic_wrap dim hr l hl [] (fun x hx =>
    absurd hx (List.not_mem_nil _))).2 k a hk ha hlast
  have hmaxeq : Machine.getNeighborKeyMax dim rfactor k a = getNeighborKeyMax dim rfactor k a :=
    machine_neighbor_eq_all hKk a 1 (by omega)
  have hrange := getOffsetWithinLevel_range dim hr k
  rw [hk] at hrange
  have hpow : (0 : Int) < (rfactor : Int) ^ l := pow_pos (by exact_mod_cast hr) _
  have hset : ∀ x ∈ (getOffsetWithinLevel dim rfactor k).set a 0,
      0 ≤ x ∧ x < (rfactor : Int) ^ l := by
    intro x hx
    rcases List.mem_or_eq_of_mem_set hx with h | h
    · exact hrange x h
    · rw [h]; exact ⟨Int.le_refl 0, hpow⟩
  have hlen2 : ((getOffsetWithinLevel dim rfactor k).set a 0).length = dim := by
    rw [List.length_set, getOffsetWithinLevel_length]
  have hOn : OffsetRange dim rfactor (getLevel dim rfactor (getNeighborKeyMax dim rfactor k a)) := by
    rw [e2]; exact keyRange_offsetRange hK
  rw [hmaxeq, machine_getKeyFromLevelOffset_eq_of_range hK _ hlen2 hset,
    machine_getLevel_eq h64, machine_getOffsetWithinLevel_eq hOn]
  exact ⟨e1, e2, e3⟩

/-- C39 (amended) at `d = 2`, `r = 2`, level 2: the offset `(5, 2)` gives the key of
`(1, 2)`, and the key 10 (offset `(3, 0)`) has the neighbor 5 on the maximum side of the
axis 0, the key of the offset `(0, 0)`. -/
theorem C39_periodic_wrap_witness :
    0 < 2 ∧ 1 ≤ 2 ∧ (∀ x ∈ ([5, 2] : IntPoint), 0 ≤ x ∧ x < 2 ^ 31) ∧ KeyRange 2 2 2 ∧
    Machine.getKeyFromLevelOffset 2 2 2 [5, 2] = 14 ∧
    Machine.getKeyFromLevelOffset 2 2 2 [1, 2] = 14 ∧
    Machine.getOffsetWithinLevel 2 2 10 = [3, 0] ∧ Machine.getNeighborKeyMax 2 2 10 0 = 5 ∧
    Machine.getOffsetWithinLevel 2 2 5 = [0, 0] ∧
    (Machine.getKeyFromLevelOffset 2 2 2 [5, 2] =
      Machine.getKeyFromLevelOffset 2 2 2
        (([5, 2] : IntPoint).map (fun x => x % ((2 : Nat) : Int) ^ 2)) ∧
    ∀ k a, KeyRange 2 2 2 → Machine.getLevel 2 2 k = 2 → a < 2 →
      (Machine.getOffsetWithinLevel 2 2 k).getD a 0 = ((2 : Nat) : Int) ^ 2 - 1 →
      Machine.getNeighborKeyMax 2 2 k a =
        Machine.getKeyFromLevelOffset 2 2 2 ((Machine.getOffsetWithinLevel 2 2 k).set a 0) ∧
      Machine.getLevel 2 2 (Machine.getNeighborKeyMax 2 2 k a) = 2 ∧
      Machine.getOffsetWithinLevel 2 2 (Machine.getNeighborKeyMax 2 2 k a) =
        (Machine.getOffsetWithinLevel 2 2 k).set a 0) :=
  ⟨by decide, by decide, by decide, ⟨by decide, by decide, by decide, by decide, by decide⟩,
    by decide, by decide, by decide, by decide, by decide,
    C39_periodic_wrap 2 2 (by decide) (by decide) 2 (by decide) [5, 2] (by decide)⟩

/-! ## Properties of the descent of `interpolateTo` and of the level ranges -/

/-- C31 (as stated, refuted): in the container with the populated levels 0, 1 and 2,
the range `begin(1) .. end(1)` visits the two entries of level 1 and stops at the first
entry of level 2, which it does not visit. -/
theorem C31_level_range_counterexample :
    allCursor ([(0, [(0, 10)]), (1, [(1, 11), (2, 12)]), (2, [(5, 13)])] : LevelContainer Nat)
      (some 1) = some [(1, 11), (2, 12)] ∧
    LevelContainer.lookup
      ([(0, [(0, 10)]), (1, [(1, 11), (2, 12)]), (2, [(5, 13)])] : LevelContainer Nat) 2 5 =
      some 13 ∧
    ¬ ∀ (c : LevelContainer Nat) (l : Nat) (ys : List (Nat × Nat)),
      LevelContainer.Ascending c →
      (∃ m, LevelContainer.level? c l = some m ∧ m ≠ []) →
      allCursor c (some l) = some ys →
      ∀ l2 k n, l ≤ l2 → LevelContainer.lookup c l2 k = some n → (k, n) ∈ ys := by
  refine ⟨by decide, by decide, fun h => ?_⟩
  have h1 := h [(0, [(0, 10)]), (1, [(1, 11), (2, 12)]), (2, [(5, 13)])] 1 [(1, 11), (2, 12)]
    (by unfold LevelContainer.Ascending; decide) ⟨[(1, 11), (2, 12)], by decide, by decide⟩
    (by decide) 2 5 13 (by decide) (by decide)
  exact absurd h1 (by decide)

/-- C31 (amended): for a level `lvl` that is populated and is either the last level of the
container or followed by the populated level `lvl + 1`, the range `begin(lvl) .. end(lvl)`
visits the entries of the map of level `lvl`, all of them and no other, in the order of
the map: `end(lvl)` is the position of the first entry of the next level, or `end()` when
there is none. -/
theorem C31_level_range {M : Type} (c : LevelContainer M) (hc : LevelContainer.Ascending c)
    (lvl : Nat) (m : KeyMap M) (rest : List (Nat × KeyMap M))
    (hfind : LevelContainer.findLevel c lvl = (lvl, m) :: rest) (hm : m ≠ [])
    (hrest : rest = [] ∨ ∃ m1 rest1, rest = (lvl + 1, m1) :: rest1 ∧ m1 ≠ []) :
    LevelContainer.level? c lvl = some m ∧
    (LevelContainer.beginLvl c lvl).1 = c ∧
    (rest = [] → LevelContainer.endLvl c lvl = LevelContainer.end_ c) ∧
    (∀ m1 rest1, rest = (lvl + 1, m1) :: rest1 →
      LevelContainer.endLvl c lvl =
        some { lit := LevelContainer.findLevel c (lvl + 1), itLvl := lvl + 1, it := m1 }) ∧
    allCursor c (some lvl) = some m := by
  obtain ⟨h1, hlev, e, he, hr⟩ := cursor_facts_level c hc lvl m rest hfind hm hrest
  have hlen := length_le_entries_of_mem lvl m c (LevelContainer.mem_of_level? lvl m c hlev)
  refine ⟨hlev, h1, ?_, ?_, allCursor_spec c (some lvl) e m h1 he hr hlen⟩
  · intro h0
    unfold LevelContainer.endLvl
    rw [hfind, h0]
  · intro m1 rest1 h2
    obtain ⟨_, _, _, hsub, _⟩ := LevelContainer.findLevel_spec lvl c lvl m rest hfind
    have hmem : (lvl + 1, m1) ∈ c := hsub _ (by rw [h2]; exact List.mem_cons_self _ _)
    have hlev1 := LevelContainer.level?_of_mem (lvl + 1) m1 c hc hmem
    have hat := LevelContainer.atLevel_id c (lvl + 1) m1 hlev1
    unfold LevelContainer.endLvl
    rw [hfind, h2]
    simp only [hat, hlev1, Option.getD_some]

/-- C31 (amended) on the container with the populated levels 0, 1 and 2 and the level 1,
and on its last level 2. -/
theorem C31_level_range_witness :
    LevelContainer.Ascending
      ([(0, [(0, 10)]), (1, [(1, 11), (2, 12)]), (2, [(5, 13)])] : LevelContainer Nat) ∧
    LevelContainer.findLevel
      ([(0, [(0, 10)]), (1, [(1, 11), (2, 12)]), (2, [(5, 13)])] : LevelContainer Nat) 1 =
      (1, [(1, 11), (2, 12)]) :: [(2, [(5, 13)])] ∧
    allCursor ([(0, [(0, 10)]), (1, [(1, 11), (2, 12)]), (2, [(5, 13)])] : LevelContainer Nat)
      (some 2) = some [(5, 13)] ∧
    allCursor ([(0, [(0, 10)]), (1, [(1, 11), (2, 12)]), (2, [(5, 13)])] : LevelContainer Nat)
      (some 1) = some [(1, 11), (2, 12)] :=
  ⟨by unfold LevelContainer.Ascending; decide, by decide, by decide,
    (C31_level_range
      ([(0, [(0, 10)]), (1, [(1, 11), (2, 12)]), (2, [(5, 13)])] : LevelContainer Nat)
      (by unfold LevelContainer.Ascending; decide) 1 [(1, 11), (2, 12)] [(2, [(5, 13)])]
      (by decide) (by decide) (Or.inr ⟨[(5, 13)], [], rfl, by decide⟩)).2.2.2.2⟩

end csg
